import Mathlib

/-!
# A shallow embedding of deltarpm's binary diff generator (delta.c)

The C functions of delta.c are rendered as Lean functions over explicit state.
Byte buffers are lists of bytes, heap arrays are a size together with a cell map,
and every memory access is bounds checked: a run that would leave an allocated
object yields an error instead of a value.
-/

namespace Delta

/-- One unsigned char. -/
abbrev Byte := Fin 256

/-- Reasons why a run delivers no result. -/
inductive Err where
  /-- access outside an allocated object -/
  | oob
  /-- read of a malloc cell that was never written -/
  | uninit
  /-- the step budget of the model is used up (not a behaviour of the C code) -/
  | fuel
  /-- the C code calls exit(1) -/
  | fatal
  /-- signed arithmetic leaves the range of bsint -/
  | overflow
  deriving DecidableEq, Repr

/-- Outcome of a C computation: a value or the reason there is none. -/
abbrev Res (α : Type) := Except Err α

deriving instance DecidableEq for Except

/-- Compile-time configuration: the preprocessor switches of delta.c and the
declarations of the header delta.h (the width of bsuint and bsint, and the mode
constants), which are parameters of the development. -/
structure Build where
  /-- BSDIFF_64BIT: bsuint and bsint are 64 bits wide, otherwise 32 -/
  bits64 : Bool
  /-- BSDIFF_NO_SUF: the suffix method is compiled out -/
  noSuf : Bool
  /-- BSDIFF_NO_HASH: the hash method is compiled out -/
  noHash : Bool
  DELTAMODE_SUF : Int
  DELTAMODE_HASH : Int
  DELTAMODE_NOADDBLK : Int

/-- Number of values of bsuint: arithmetic on bsuint is taken modulo this. -/
def Build.M (B : Build) : Nat := if B.bits64 then 2 ^ 64 else 2 ^ 32

/-- Unsigned subtraction modulo M. -/
def wsub (M a b : Nat) : Nat := (a + (M - b % M)) % M

/-- Unsigned addition modulo M. -/
def wadd (M a b : Nat) : Nat := (a + b) % M

/-- Conversion of a bsint to bsuint. -/
def toU (M : Nat) (x : Int) : Nat := (x % (M : Int)).toNat

/-- Conversion of a bsuint to bsint. -/
def toS (M : Nat) (x : Nat) : Int := if 2 * x < M then (x : Int) else (x : Int) - (M : Int)

/-- A heap array: its number of cells and the content of each cell, none for a
cell of a malloc block that has not been written yet. -/
structure Arr (α : Type) where
  size : Nat
  cell : Nat → Option α

/-- Block returned by malloc: contents indeterminate. -/
def Arr.malloc {α : Type} (n : Nat) : Arr α := ⟨n, fun _ => none⟩

/-- Block returned by calloc or cleared by memset. -/
def Arr.calloc {α : Type} (n : Nat) (z : α) : Arr α := ⟨n, fun _ => some z⟩

/-- Read a[i]. -/
def Arr.rd {α : Type} (a : Arr α) (i : Int) : Res α :=
  if 0 ≤ i ∧ i.toNat < a.size then
    match a.cell i.toNat with
    | some v => .ok v
    | none => .error .uninit
  else .error .oob

/-- Write a[i] = v. -/
def Arr.wr {α : Type} (a : Arr α) (i : Int) (v : α) : Res (Arr α) :=
  if 0 ≤ i ∧ i.toNat < a.size then
    .ok ⟨a.size, fun j => if j = i.toNat then some v else a.cell j⟩
  else .error .oob

/-- Read byte i of a buffer. -/
def rdB (a : List Byte) (i : Nat) : Res Byte :=
  match a[i]? with
  | some b => .ok b
  | none => .error .oob

/-- Loop of matchlen: k bytes are known equal, max more may be compared. -/
def matchlen_go (old : List Byte) (po : Nat) (new : List Byte) (pn : Nat) : Nat → Nat → Res Nat
  | 0, k => .ok k
  | max + 1, k => do
    let a ← rdB old (po + k)
    let b ← rdB new (pn + k)
    if a ≠ b then .ok k else matchlen_go old po new pn max (k + 1)

/-- matchlen(old + po, oldlen, new + pn, newlen). -/
def matchlen (old : List Byte) (po oldlen : Nat) (new : List Byte) (pn newlen : Nat) : Res Nat :=
  matchlen_go old po new pn (if oldlen > newlen then newlen else oldlen) 0

/-- Sign of the first difference among n bytes (unsigned char order). -/
def memcmp_go (a : List Byte) (b : List Byte) : Nat → Nat → Nat → Int
  | 0, _, _ => 0
  | n + 1, pa, pb =>
    let x := a.getD pa 0
    let y := b.getD pb 0
    if x < y then -1 else if y < x then 1 else memcmp_go a b n (pa + 1) (pb + 1)

/-- memcmp(a + pa, b + pb, n); both objects must hold n bytes. -/
def memcmp (a : List Byte) (pa : Nat) (b : List Byte) (pb : Nat) (n : Nat) : Res Int :=
  if pa + n ≤ a.length ∧ pb + n ≤ b.length then .ok (memcmp_go a b n pa pb) else .error .oob

/-! ## hash method -/

abbrev HSIZESHIFT : Nat := 4
abbrev HSIZE : Nat := 16

/-- 256 random numbers generated by a quantum source. -/
def noise : List Nat := [
  0x9be502a4, 0xba7180ea, 0x324e474f, 0x0aab8451, 0x0ced3810, 0x2158a968, 0x6bbd3771, 0x75a02529,
  0x41f05c14, 0xc2264b87, 0x1f67b359, 0xcd2d031d, 0x49dc0c04, 0xa04ae45c, 0x6ade28a7, 0x2d0254ff,
  0xdec60c7c, 0xdef5c084, 0x0f77ffc8, 0x112021f6, 0x5f6d581e, 0xe35ea3df, 0x3216bfb4, 0xd5a3083d,
  0x7e63e9cd, 0xaa9208f6, 0xda3f3978, 0xfe0e2547, 0x09dfb020, 0xd97472c5, 0xbbce2ede, 0x121aebd2,
  0x0e9fdbeb, 0x7b6f5d9c, 0x84938e43, 0x30694f2d, 0x86b7a7f8, 0xefaf5876, 0x263812e6, 0xb6e48ddf,
  0xce8ed980, 0x4df591e1, 0x75257b35, 0x2f88dcff, 0xa461fe44, 0xca613b4d, 0xd9803f73, 0xea056205,
  0xccca7a89, 0x0f2dbb07, 0xc53e359e, 0xe80d0137, 0x2b2d2a5d, 0xcfc1391a, 0x2bb3b6c5, 0xb66aea3c,
  0x00ea419e, 0xce5ada84, 0xae1d6712, 0x12f576ba, 0x117fcbc4, 0xa9d4c775, 0x25b3d616, 0xefda65a8,
  0xaff3ef5b, 0x00627e68, 0x668d1e99, 0x088d0eef, 0xf8fac24d, 0xe77457c7, 0x68d3beb4, 0x921d2acb,
  0x9410eac9, 0xd7f24399, 0xcbdec497, 0x98c99ae1, 0x65802b2c, 0x81e1c3c4, 0xa130bb09, 0x17a87bad,
  0xa70367d6, 0x148658d4, 0x02f33377, 0x8620d8b6, 0xbdac25bd, 0xb0a6de51, 0xd64c4571, 0xa4185ba0,
  0xa342d70f, 0x3f1dc4c1, 0x042dc3ce, 0x0de89f43, 0xa69b1867, 0x3c064e11, 0xad1e2c3e, 0x9660e8cd,
  0xd36b09ca, 0x4888f228, 0x61a9ac3c, 0xd9561118, 0x3532797e, 0x71a35c22, 0xecc1376c, 0xab31e656,
  0x88bd0d35, 0x423b20dd, 0x38e4651c, 0x3c6397a4, 0x4a7b12d9, 0x08b1cf33, 0xd0604137, 0xb035fdb8,
  0x4916da23, 0xa9349493, 0xd83daa9b, 0x145f7d95, 0x868531d6, 0xacb18f17, 0x9cd33b6f, 0x193e42b9,
  0x26dfdc42, 0x5069d8fa, 0x5bee24ee, 0x5475d4c6, 0x315b2c0c, 0xf764ef45, 0x01b6f4eb, 0x60ba3225,
  0x8a16777c, 0x4c05cd28, 0x53e8c1d2, 0xc8a76ce5, 0x8045c1e6, 0x61328752, 0x2ebad322, 0x3444f3e2,
  0x91b8af11, 0xb0cee675, 0x55dbff5a, 0xf7061ee0, 0x27d7d639, 0xa4aef8c9, 0x42ff0e4f, 0x62755468,
  0x1c6ca3f3, 0xe4f522d1, 0x2765fcb3, 0xe20c8a95, 0x3a69aea7, 0x56ab2c4f, 0x8551e688, 0xe0bc14c2,
  0x278676bf, 0x893b6102, 0xb4f0ab3b, 0xb55ddda9, 0xa04c521f, 0xc980088e, 0x912aeac1, 0x08519bad,
  0x991302d3, 0x5b91a25b, 0x696d9854, 0x9ad8b4bf, 0x41cb7e21, 0xa65d1e03, 0x85791d29, 0x89478aa7,
  0x4581e337, 0x59bae0b1, 0xe0fc9df3, 0x45d9002c, 0x7837464f, 0xda22de3a, 0x1dc544bd, 0x601d8bad,
  0x668b0abc, 0x7a5ebfb1, 0x3ac0b624, 0x5ee16d7d, 0x9bfac387, 0xbe8ef20c, 0x8d2ae384, 0x819dc7d5,
  0x7c4951e7, 0xe60da716, 0x0c5b0073, 0xb43b3d97, 0xce9974ed, 0x0f691da9, 0x4b616d60, 0x8fa9e819,
  0x3f390333, 0x6f62fad6, 0x5a32b67c, 0x3be6f1c3, 0x05851103, 0xff28828d, 0xaa43a56a, 0x075d7dd5,
  0x248c4b7e, 0x52fde3eb, 0xf72e2eda, 0x5da6f75f, 0x2f5148d9, 0xcae2aeae, 0xfda6f3e5, 0xff60d8ff,
  0x2adc02d2, 0x1dbdbd4c, 0xd410ad7c, 0x8c284aae, 0x392ef8e0, 0x37d48b3a, 0x6792fe9d, 0xad32ddfa,
  0x1545f24e, 0x3a260f73, 0xb724ca36, 0xc510d751, 0x4f8df992, 0x000b8b37, 0x292e9b3d, 0xa32f250f,
  0x8263d144, 0xfcae0516, 0x1eae2183, 0xd4af2027, 0xc64afae3, 0xe7b34fe4, 0xdf864aea, 0x80cc71c5,
  0x0e814df3, 0x66cc5f41, 0x853a497a, 0xa2886213, 0x5e34a2ea, 0x0f53ba47, 0x718c484a, 0xfa0f0b12,
  0x33cc59ff, 0x72b48e07, 0x8b6f57bc, 0x29cf886d, 0x1950955b, 0xcd52910c, 0x4cecef65, 0x05c2cbfe,
  0x49df4f6a, 0x1f4c3f34, 0xfadc1a09, 0xf2d65a24, 0x117f5594, 0xde3a84e6, 0x48db3024, 0xd10ca9b5]

/-- The array access noise[c] for an unsigned char c. -/
def noiseAt (c : Byte) : Nat := noise.getD c.val 0

/-- The update (x << 1) ^ (x & (1 << 31) ? 1 : 0) on a 32 bit unsigned int. -/
def rotl1 (x : Nat) : Nat := ((x <<< 1) % 2 ^ 32) ^^^ (if x &&& (1 <<< 31) ≠ 0 then 1 else 0)

/-- Loop of buzhash: i bytes still to be read from position p. -/
def buzhash_go (buf : List Byte) : Nat → Nat → Nat → Res Nat
  | 0, _, x => .ok x
  | i + 1, p, x => do
    let c ← rdB buf p
    buzhash_go buf i (p + 1) (rotl1 x ^^^ noiseAt c)

/-- buzhash(buf + p). -/
def buzhash (buf : List Byte) (p : Nat) : Res Nat := buzhash_go buf HSIZE p 0x83d31df4

def primes : List Nat := [
  65537, 98317, 147481, 221227, 331841, 497771, 746659, 1120001,
  1680013, 2520031, 3780053, 5670089, 8505137, 12757739, 19136609,
  28704913, 43057369, 64586087, 96879131, 145318741, 217978121,
  326967209, 490450837, 735676303, 1103514463, 1655271719,
  0xffffffff]

structure hash_data where
  hash : Arr Nat
  prime : Nat

/-- The search for (s = 0; s < 26; s++) if (prime < primes[s]) break. -/
def hash_pick (prime : Nat) : Nat → Nat → Nat
  | 0, s => s
  | k + 1, s => if prime < primes.getD s 0 then s else hash_pick prime k (s + 1)

/-- The slot after s, wrapping at the end of the table. -/
def hash_next (prime s : Nat) : Nat := if s = prime - 1 then 0 else s + 1

/-- Body of the build loop of hash_create for the block at offset off. -/
def hash_insert (M : Nat) (buf : List Byte) (prime : Nat) (hash : Arr Nat) (off : Nat) :
    Res (Arr Nat) := do
  let x ← buzhash buf off
  let s := x % prime
  let hs ← hash.rd s
  if hs ≠ 0 then
    let hn ← hash.rd (hash_next prime s)
    if hn ≠ 0 then .ok hash
    else
      let c ← memcmp buf off buf hs HSIZE
      if c = 0 then .ok hash
      else hash.wr (hash_next prime s) (wadd M off 1)
  else hash.wr s (wadd M off 1)

/-- Build loop of hash_create: cnt full blocks remain, the next one at off. -/
def hash_create_go (M : Nat) (buf : List Byte) (prime : Nat) : Nat → Nat → Arr Nat → Res (Arr Nat)
  | 0, _, hash => .ok hash
  | cnt + 1, off, hash => do
    let hash1 ← hash_insert M buf prime hash off
    hash_create_go M buf prime cnt (off + HSIZE) hash1

/-- hash_create(buf, len); the value none is the null pointer. -/
def hash_create (B : Build) (buf : List Byte) (len : Nat) : Res (Option hash_data) :=
  if B.bits64 ∧ len ≥ (0xffffffff / 4) <<< HSIZESHIFT then .ok none
  else do
    let num := ((wadd B.M len (HSIZE - 1)) >>> HSIZESHIFT) % 2 ^ 32
    let prime0 := (num * 4) % 2 ^ 32
    let prime := primes.getD (hash_pick prime0 26 0) 0
    let hash ← hash_create_go B.M buf prime (len / HSIZE) 0 (Arr.calloc prime 0)
    .ok (some ⟨hash, prime⟩)


/-- Local variables of hash_findnext that live across loop iterations. -/
structure HState where
  scan : Nat
  scanstart : Nat
  oldscore : Nat
  oldscorenum : Nat
  oldscorestart : Nat
  pos : Nat
  len : Nat
  lscan : Nat
  lpos : Nat
  llen : Nat
  ssx : Nat

/-- How an iteration of a for (;;) loop ends. -/
inductive Ctl where
  /-- continue with the next iteration -/
  | next
  /-- break out of the loop -/
  | brk
  deriving DecidableEq, Repr

/-- The test (k + lastoffset < oldlen) && (old[k + lastoffset] == new[k]). -/
def score_hit (M : Nat) (old : List Byte) (oldlen : Nat) (new : List Byte) (lastoffset k : Nat) :
    Res Bool :=
  if wadd M k lastoffset < oldlen then do
    let a ← rdB old (wadd M k lastoffset)
    let b ← rdB new k
    .ok (a == b)
  else .ok false

/-- The loop for (; scsc < lim; scsc++) if (hit at scsc) oldscore++, run for cnt rounds;
returns oldscore. -/
def score_count (M : Nat) (old : List Byte) (oldlen : Nat) (new : List Byte) (lastoffset : Nat) :
    Nat → Nat → Nat → Res Nat
  | 0, _, oldscore => .ok oldscore
  | cnt + 1, scsc, oldscore => do
    let hit ← score_hit M old oldlen new lastoffset scsc
    score_count M old oldlen new lastoffset cnt (wadd M scsc 1)
      (if hit then wadd M oldscore 1 else oldscore)

/-- The rolling update of ssx at label scannext, followed by scan++. -/
def hf_roll (M : Nat) (new : List Byte) (st : HState) : Res HState := do
  let cin ← rdB new (wadd M st.scan HSIZE)
  let ssx1 := rotl1 st.ssx ^^^ noiseAt cin
  let cout ← rdB new st.scan
  let oldc := noiseAt cout ^^^ (0x83d31df4 ^^^ 0x07a63be9)
  let ssx2 := ssx1 ^^^ (((oldc <<< (HSIZE % 32)) % 2 ^ 32) ^^^ (oldc >>> (32 - HSIZE % 32)))
  .ok { st with ssx := ssx2, scan := wadd M st.scan 1 }

/-- The loop for (i = scan - scanstart; i && pos && scan && old[pos - 1] == new[scan - 1]; i--). -/
def hf_leftext (M : Nat) (old new : List Byte) : Nat → HState → Res HState
  | 0, st => .ok st
  | i + 1, st =>
    if st.pos ≠ 0 ∧ st.scan ≠ 0 then do
      let a ← rdB old (st.pos - 1)
      let b ← rdB new (st.scan - 1)
      if a = b then
        hf_leftext M old new i
          { st with len := wadd M st.len 1, pos := st.pos - 1, scan := st.scan - 1 }
      else .ok st
    else .ok st

/-- The update of oldscore, oldscorestart and oldscorenum after label gotit. -/
def hf_oldscore (M : Nat) (old : List Byte) (oldlen : Nat) (new : List Byte) (lastoffset : Nat)
    (st : HState) : Res HState :=
  if wadd M st.oldscorestart 1 ≠ st.scan ∨ st.oldscorenum = 0 ∨ wsub M st.oldscorenum 1 > st.len then do
    let sc ← score_count M old oldlen new lastoffset (wadd M st.scan st.len - st.scan) st.scan 0
    .ok { st with oldscore := sc, oldscorestart := st.scan, oldscorenum := st.len }
  else do
    let hit ← score_hit M old oldlen new lastoffset st.oldscorestart
    let sc0 := if hit then wsub M st.oldscore 1 else st.oldscore
    let start1 := wadd M st.oldscorestart 1
    let num1 := wsub M st.oldscorenum 1
    let sc ← score_count M old oldlen new lastoffset (st.len - num1) (wadd M start1 num1) sc0
    .ok { st with oldscore := sc, oldscorestart := start1,
                  oldscorenum := if num1 < st.len then st.len else num1 }

/-- The code from label gotit to the end of the loop body. -/
def hf_gotit (M : Nat) (old : List Byte) (oldlen : Nat) (new : List Byte) (newlen lastoffset : Nat)
    (st0 : HState) : Res (Ctl × HState) :=
  let st := { st0 with scan := st0.lscan, len := st0.llen, pos := st0.lpos }
  if wadd M st.scan lastoffset = st.pos then do
    let scan := wadd M st.scan st.len
    let ssx ← (if wadd M scan HSIZE < newlen then buzhash new scan else .ok st.ssx)
    .ok (.next, { st with scan := scan, scanstart := scan, ssx := ssx, llen := 0 })
  else do
    let st1 ← hf_leftext M old new (wsub M st.scan st.scanstart) st
    let st2 ← hf_oldscore M old oldlen new lastoffset st1
    if wsub M st2.len st2.oldscore ≥ 32 then .ok (.brk, st2)
    else do
      let scan1 := if st2.len > HSIZE * 3 + 32 then wadd M st2.scan (wsub M st2.len (HSIZE * 3 + 32))
                   else st2.scan
      let scan2 := if scan1 ≤ st2.lscan then wadd M st2.lscan 1 else scan1
      let ssx ← (if wadd M scan2 HSIZE < newlen then buzhash new scan2 else .ok st2.ssx)
      .ok (.next, { st2 with scan := scan2, scanstart := scan2, ssx := ssx, llen := 0 })

/-- The code at label scannext. -/
def hf_scannext (M : Nat) (old : List Byte) (oldlen : Nat) (new : List Byte) (newlen lastoffset : Nat)
    (st : HState) : Res (Ctl × HState) :=
  if st.llen ≥ 32 ∧ wsub M st.scan st.lscan ≥ HSIZE then
    hf_gotit M old oldlen new newlen lastoffset st
  else do
    let st1 ← hf_roll M new st
    .ok (.next, st1)

/-- The double check of the block at new + scan + HSIZE * 3; returns pos and len. -/
def hf_double (M : Nat) (hd : hash_data) (old : List Byte) (oldlen : Nat) (new : List Byte)
    (newlen scan pos len : Nat) : Res (Nat × Nat) :=
  if wadd M scan (HSIZE * 4) ≤ newlen then do
    let x ← buzhash new (scan + HSIZE * 3)
    let ssx2 := x % hd.prime
    let p0 ← hd.hash.rd ssx2
    let p1 ←
      (if p0 ≠ 0 then do
        let c ← memcmp new (scan + HSIZE * 3) old (p0 - 1) HSIZE
        if c ≠ 0 then hd.hash.rd (if ssx2 = hd.prime then 0 else ssx2 + 1) else .ok p0
      else .ok p0)
    if p1 > 1 + HSIZE * 3 then
      let pos2 := p1 - 1 - HSIZE * 3
      if pos2 ≠ pos then do
        let len2 ← matchlen old pos2 (wsub M oldlen pos2) new scan (wsub M newlen scan)
        if len2 > len then .ok (pos2, len2) else .ok (pos, len)
      else .ok (pos, len)
    else .ok (pos, len)
  else .ok (pos, len)

/-- The code after a block of old equal to new[scan .. scan + HSIZE) was found at pos. -/
def hf_hit (M : Nat) (hd : hash_data) (old : List Byte) (oldlen : Nat) (new : List Byte)
    (newlen lastoffset : Nat) (st : HState) (pos : Nat) : Res (Ctl × HState) := do
  let l ← matchlen old (pos + HSIZE) (wsub M (wsub M oldlen pos) HSIZE)
            new (st.scan + HSIZE) (wsub M (wsub M newlen st.scan) HSIZE)
  let len := wadd M l HSIZE
  let (pos1, len1) ← hf_double M hd old oldlen new newlen st.scan pos len
  let st1 := { st with pos := pos1, len := len1 }
  let st2 := if len1 > st1.llen then { st1 with llen := len1, lpos := pos1, lscan := st1.scan } else st1
  hf_scannext M old oldlen new newlen lastoffset st2

/-- One iteration of the for (;;) loop of hash_findnext. -/
def hf_body (M : Nat) (hd : hash_data) (old : List Byte) (oldlen : Nat) (new : List Byte)
    (newlen lastoffset : Nat) (st : HState) : Res (Ctl × HState) :=
  if st.scan ≥ wsub M newlen HSIZE then
    if st.llen ≥ 32 then hf_gotit M old oldlen new newlen lastoffset st
    else .ok (.brk, st)
  else do
    let ss := st.ssx % hd.prime
    let p ← hd.hash.rd ss
    if p = 0 then hf_scannext M old oldlen new newlen lastoffset { st with pos := p }
    else do
      let c ← memcmp old (p - 1) new st.scan HSIZE
      if c ≠ 0 then do
        let q ← hd.hash.rd (hash_next hd.prime ss)
        if q = 0 then hf_scannext M old oldlen new newlen lastoffset { st with pos := q }
        else do
          let c2 ← memcmp old (q - 1) new st.scan HSIZE
          if c2 ≠ 0 then hf_scannext M old oldlen new newlen lastoffset { st with pos := q - 1 }
          else hf_hit M hd old oldlen new newlen lastoffset st (q - 1)
      else hf_hit M hd old oldlen new newlen lastoffset st (p - 1)

/-- The for (;;) loop of hash_findnext. -/
def hf_loop (M : Nat) (hd : hash_data) (old : List Byte) (oldlen : Nat) (new : List Byte)
    (newlen lastoffset : Nat) : Nat → HState → Res HState
  | 0, _ => .error .fuel
  | fuel + 1, st => do
    let (c, st1) ← hf_body M hd old oldlen new newlen lastoffset st
    match c with
    | .brk => .ok st1
    | .next => hf_loop M hd old oldlen new newlen lastoffset fuel st1

/-- hash_findnext; returns (scan, pos, len), the last two being *posp and *lenp. -/
def hash_findnext (M : Nat) (fuel : Nat) (hd : hash_data) (old : List Byte) (oldlen : Nat)
    (new : List Byte) (newlen lastoffset scan : Nat) : Res (Nat × Nat × Nat) := do
  let ssx ← (if scan ≤ wsub M newlen HSIZE then buzhash new scan else .ok 0)
  let st0 : HState :=
    { scan := scan, scanstart := scan, oldscore := 0, oldscorenum := 0, oldscorestart := 0,
      pos := 0, len := 0, lscan := 0, lpos := 0, llen := 0, ssx := ssx }
  let st ← hf_loop M hd old oldlen new newlen lastoffset fuel st0
  if st.scan ≥ wsub M newlen HSIZE then .ok (newlen, 0, 0) else .ok (st.scan, st.pos, st.len)


/-! ## suffix list method -/

structure suf_data where
  I : Arr Int
  F : Arr Int

/-- Inner scan of the selection step of suf_split: the loop
for (i = 1; k + i < start + len; i++), cnt rounds left; state is I, x and j. -/
def split_scan (V : Arr Int) (k h : Int) : Nat → Int → Arr Int → Int → Int → Res (Arr Int × Int × Int)
  | 0, _, I, x, j => .ok (I, x, j)
  | cnt + 1, i, I, x, j => do
    let p ← I.rd (k + i)
    let v ← V.rd (p + h)
    let x1 := if v < x then v else x
    let j1 := if v < x then 0 else j
    if v = x1 then do
      let tmp ← I.rd (k + j1)
      let I1 ← I.wr (k + j1) p
      let I2 ← I1.wr (k + i) tmp
      split_scan V k h cnt (i + 1) I2 x1 (j1 + 1)
    else split_scan V k h cnt (i + 1) I x1 j1

/-- The loop for (i = 0; i < cnt; i++) V[I[base + i]] = g. -/
def split_assign (I : Arr Int) (base g : Int) : Nat → Int → Arr Int → Res (Arr Int)
  | 0, _, V => .ok V
  | cnt + 1, i, V => do
    let p ← I.rd (base + i)
    let V1 ← V.wr p g
    split_assign I base g cnt (i + 1) V1

/-- The selection sort of suf_split for len < 16:
the loop for (k = start; k < start + len; k += j). -/
def split_small (h stop : Int) : Nat → Int → Arr Int → Arr Int → Res (Arr Int × Arr Int)
  | 0, k, I, V => if k < stop then .error .fuel else .ok (I, V)
  | fuel + 1, k, I, V =>
    if k < stop then do
      let p ← I.rd k
      let x ← V.rd (p + h)
      let (I1, _, j) ← split_scan V k h (stop - k - 1).toNat 1 I x 1
      let V1 ← split_assign I1 k (k + j - 1) j.toNat 0 V
      let I2 ← (if j = 1 then I1.wr k (-1) else .ok I1)
      split_small h stop fuel (k + j) I2 V1
    else .ok (I, V)

/-- The counting loop of suf_split: for (i = start; i < start + len; i++); returns jj and kk. -/
def split_tally (I V : Arr Int) (h x : Int) : Nat → Int → Int → Int → Res (Int × Int)
  | 0, _, jj, kk => .ok (jj, kk)
  | cnt + 1, i, jj, kk => do
    let p ← I.rd i
    let v ← V.rd (p + h)
    split_tally I V h x cnt (i + 1) (if v < x then jj + 1 else jj) (if v = x then kk + 1 else kk)

/-- First partition loop of suf_split: while (i < jj); state is I, i, j and k. -/
def split_part1 (V : Arr Int) (h x jj kk : Int) : Nat → Arr Int → Int → Int → Int →
    Res (Arr Int × Int × Int)
  | 0, I, i, j, k => if i < jj then .error .fuel else .ok (I, j, k)
  | fuel + 1, I, i, j, k =>
    if i < jj then do
      let p ← I.rd i
      let v ← V.rd (p + h)
      if v < x then split_part1 V h x jj kk fuel I (i + 1) j k
      else if v = x then do
        let q ← I.rd (jj + j)
        let I1 ← I.wr i q
        let I2 ← I1.wr (jj + j) p
        split_part1 V h x jj kk fuel I2 i (j + 1) k
      else do
        let q ← I.rd (kk + k)
        let I1 ← I.wr i q
        let I2 ← I1.wr (kk + k) p
        split_part1 V h x jj kk fuel I2 i j (k + 1)
    else .ok (I, j, k)

/-- Second partition loop of suf_split: while (jj + j < kk); state is I, j and k. -/
def split_part2 (V : Arr Int) (h x jj kk : Int) : Nat → Arr Int → Int → Int → Res (Arr Int)
  | 0, I, j, _ => if jj + j < kk then .error .fuel else .ok I
  | fuel + 1, I, j, k =>
    if jj + j < kk then do
      let p ← I.rd (jj + j)
      let v ← V.rd (p + h)
      if v = x then split_part2 V h x jj kk fuel I (j + 1) k
      else do
        let q ← I.rd (kk + k)
        let I1 ← I.wr (jj + j) q
        let I2 ← I1.wr (kk + k) p
        split_part2 V h x jj kk fuel I2 j (k + 1)
    else .ok I

/-- suf_split(I, V, start, len, h); returns the arrays I and V. -/
def suf_split : Nat → Arr Int → Arr Int → Int → Int → Int → Res (Arr Int × Arr Int)
  | 0, _, _, _, _, _ => .error .fuel
  | fuel + 1, I, V, start, len, h =>
    if len < 16 then split_small h (start + len) fuel start I V
    else do
      let pm ← I.rd (start + len / 2)
      let x ← V.rd (pm + h)
      let (jj0, kk0) ← split_tally I V h x len.toNat start 0 0
      let jj := jj0 + start
      let kk := kk0 + jj
      let (I1, j, k) ← split_part1 V h x jj kk fuel I start 0 0
      let I2 ← split_part2 V h x jj kk fuel I1 j k
      let (I3, V3) ← (if jj > start then suf_split fuel I2 V start (jj - start) h else .ok (I2, V))
      let V4 ← split_assign I3 jj (kk - 1) (kk - jj).toNat 0 V3
      let I4 ← (if jj = kk - 1 then I3.wr jj (-1) else .ok I3)
      if start + len > kk then suf_split fuel I4 V4 kk (start + len - kk) h else .ok (I4, V4)

/-- First loop of suf_bucketsort: for (i = n - 1; i >= 0; i--), cnt = i + 1 rounds left;
state is V and B. -/
def bucket_link : Nat → Arr Int → Arr Int → Res (Arr Int × Arr Int)
  | 0, V, B => .ok (V, B)
  | i + 1, V, B => do
    let c ← V.rd i
    let b ← B.rd c
    let V1 ← V.wr i b
    let B1 ← B.wr c ((i : Int) + 1)
    bucket_link i V1 B1

/-- Inner loop of the second loop of suf_bucketsort: for (d = B[j], g = i; d; i--);
the first argument bounds the number of rounds by i + 2. State is V, I and i. -/
def bucket_chain (g : Int) : Nat → Int → Int → Arr Int → Arr Int → Res (Arr Int × Arr Int × Int)
  | 0, d, i, V, I => if d ≠ 0 then .error .oob else .ok (V, I, i)
  | cnt + 1, d, i, V, I =>
    if d ≠ 0 then do
      let c := d - 1
      let d1 ← V.rd c
      let V1 ← V.wr c g
      let I1 ← I.wr i (if d1 = 0 ∧ g = i then -1 else c)
      bucket_chain g cnt d1 (i - 1) V1 I1
    else .ok (V, I, i)

/-- Second loop of suf_bucketsort: for (j = s - 1, i = n; i; j--), the first argument is j + 1. -/
def bucket_fill (B : Arr Int) : Nat → Int → Arr Int → Arr Int → Res (Arr Int × Arr Int)
  | 0, i, V, I => if i ≠ 0 then .error .oob else .ok (V, I)
  | j + 1, i, V, I =>
    if i ≠ 0 then do
      let d ← B.rd j
      let (V1, I1, i1) ← bucket_chain i (i + 2).toNat d i V I
      bucket_fill B j i1 V1 I1
    else .ok (V, I)

/-- suf_bucketsort(V, I, n, s); returns the arrays V and I. -/
def suf_bucketsort (V I : Arr Int) (n s : Int) : Res (Arr Int × Arr Int) := do
  let (V1, B) ← bucket_link n.toNat V (Arr.calloc s.toNat 0)
  let (V2, I2) ← bucket_fill B s.toNat n V1 I
  let V3 ← V2.wr n 0
  let I3 ← I2.wr 0 (-1)
  .ok (V3, I3)

/-- The increment sd->F[c]++. -/
def F_incr (F : Arr Int) (c : Byte) : Res (Arr Int) := do
  let v ← F.rd c.val
  F.wr c.val (v + 1)

/-- Key loop of suf_create for len >= 0x1000000: for (i = 2; i < len; i++). -/
def suf_keys3 (buf : List Byte) : Nat → Nat → Nat → Arr Int → Arr Int → Res (Nat × Arr Int × Arr Int)
  | 0, _, oldv, F, V => .ok (oldv, F, V)
  | cnt + 1, i, oldv, F, V => do
    let c ← rdB buf i
    let F1 ← F_incr F c
    let oldv1 := ((oldv &&& 0xffff) <<< 8) ||| c.val
    let V1 ← V.wr ((i : Int) - 2) ((oldv1 : Int) + 2)
    suf_keys3 buf cnt (i + 1) oldv1 F1 V1

/-- Key loop of suf_create for len < 0x1000000: for (i = 1; i < len; i++). -/
def suf_keys2 (buf : List Byte) : Nat → Nat → Nat → Arr Int → Arr Int → Res (Nat × Arr Int × Arr Int)
  | 0, _, oldv, F, V => .ok (oldv, F, V)
  | cnt + 1, i, oldv, F, V => do
    let c ← rdB buf i
    let F1 ← F_incr F c
    let oldv1 := ((oldv &&& 0xff) <<< 8) ||| c.val
    let V1 ← V.wr ((i : Int) - 1) ((oldv1 : Int) + 1)
    suf_keys2 buf cnt (i + 1) oldv1 F1 V1

/-- The loop for (i = 256; i > 0; i--) { F[i] = oldv; oldv -= F[i - 1]; } of suf_create. -/
def suf_cumul : Nat → Int → Arr Int → Res (Int × Arr Int)
  | 0, oldv, F => .ok (oldv, F)
  | i + 1, oldv, F => do
    let F1 ← F.wr ((i : Int) + 1) oldv
    let f ← F1.rd i
    suf_cumul i (oldv - f) F1

/-- One sweep of the doubling loop of suf_create: for (i = 0; i < len + 1; );
state is I, V, i and l. -/
def suf_pass (len h : Int) (fuel : Nat) : Nat → Int → Int → Arr Int → Arr Int →
    Res (Arr Int × Arr Int × Int × Int)
  | 0, i, l, I, V => if i < len + 1 then .error .fuel else .ok (I, V, i, l)
  | cnt + 1, i, l, I, V =>
    if i < len + 1 then do
      let e ← I.rd i
      if e < 0 then suf_pass len h fuel cnt (i - e) (l - e) I V
      else do
        let I1 ← (if l ≠ 0 then I.wr (i - l) (-l) else .ok I)
        let g ← V.rd e
        let l1 := g + 1 - i
        let (I2, V2) ← suf_split fuel I1 V i l1 h
        suf_pass len h fuel cnt (i + l1) 0 I2 V2
    else .ok (I, V, i, l)

/-- The doubling loop of suf_create: for (; I[0] != -(len + 1); h += h). -/
def suf_double (M : Nat) (len : Int) (fuel : Nat) : Nat → Int → Arr Int → Arr Int →
    Res (Arr Int × Arr Int)
  | 0, _, _, _ => .error .fuel
  | cnt + 1, h, I, V => do
    let e ← I.rd 0
    if e ≠ -(len + 1) then do
      let (I1, V1, i, l) ← suf_pass len h fuel fuel 0 0 I V
      let I2 ← (if l ≠ 0 then I1.wr (i - l) (-l) else .ok I1)
      if 2 * (h + h) < M then suf_double M len fuel cnt (h + h) I2 V1 else .error .overflow
    else .ok (I, V)

/-- The final loop of suf_create: for (i = 0; i < len + 1; i++) I[V[i]] = i. -/
def suf_invert (V : Arr Int) : Nat → Int → Arr Int → Res (Arr Int)
  | 0, _, I => .ok I
  | cnt + 1, i, I => do
    let v ← V.rd i
    let I1 ← I.wr v i
    suf_invert V cnt (i + 1) I1

/-- suf_create(buf, ulen); the value none is the null pointer. -/
def suf_create (B : Build) (fuel : Nat) (buf : List Byte) (ulen : Nat) : Res (Option suf_data) :=
  let len0 : Int := toS B.M ulen
  if len0 < 0 then .ok none
  else do
    let V0 : Arr Int := Arr.malloc (len0 + 3).toNat
    let I0 : Arr Int := Arr.malloc (len0 + 3).toNat
    let F0 : Arr Int := Arr.calloc 257 0
    let (oldv, len, h, s, F1, V1) ←
      (if len0 ≥ 0x1000000 then do
        let b0 ← rdB buf 0
        let F ← F_incr F0 b0
        let b1 ← rdB buf 1
        let F ← F_incr F b1
        let (oldv, F, V) ← suf_keys3 buf (len0 - 2).toNat 2 ((b0.val <<< 8) ||| b1.val) F V0
        let oldv := (oldv &&& 0xffff) <<< 8
        let V ← V.wr (len0 - 2) ((oldv : Int) + 2)
        let oldv := (oldv &&& 0xffff) <<< 8
        let V ← V.wr (len0 - 1) ((oldv : Int) + 2)
        let len := len0 + 2
        let V ← V.wr (len - 2) 1
        let V ← V.wr (len - 1) 0
        .ok (oldv, len, (3 : Int), (0x1000002 : Int), F, V)
      else do
        let b0 ← rdB buf 0
        let F ← F_incr F0 b0
        let (oldv, F, V) ← suf_keys2 buf (len0 - 1).toNat 1 b0.val F V0
        let oldv := (oldv &&& 0xff) <<< 8
        let V ← V.wr (len0 - 1) ((oldv : Int) + 1)
        let len := len0 + 1
        let V ← V.wr (len - 1) 0
        .ok (oldv, len, (2 : Int), (0x10001 : Int), F, V) : Res (Nat × Int × Int × Int × Arr Int × Arr Int))
    let _ := oldv
    let (oldv2, F2) ← suf_cumul 256 len F1
    let F3 ← F2.wr 0 oldv2
    let (V2, I2) ← suf_bucketsort V1 I0 len s
    let (I3, V3) ← suf_double B.M len fuel fuel h I2 V2
    let I4 ← suf_invert V3 (len + 1).toNat 0 I3
    .ok (some ⟨I4, F3⟩)


/-- The pointer old + i for a bsint i; a negative i leaves the buffer. -/
def ptr (i : Int) : Res Nat := if i < 0 then .error .oob else .ok i.toNat

/-- The loop while (en - st >= 2) of suf_bsearch; returns st and en. -/
def bsearch_go (M : Nat) (I : Arr Int) (old : List Byte) (oldlen : Nat) (new : List Byte)
    (pn newlen : Nat) : Nat → Nat → Nat → Res (Nat × Nat)
  | 0, st, en => if wsub M en st ≥ 2 then .error .fuel else .ok (st, en)
  | cnt + 1, st, en =>
    if wsub M en st ≥ 2 then do
      let x := wadd M st (wsub M en st / 2)
      let ix ← I.rd x
      let po ← ptr ix
      let rest := wsub M oldlen (toU M ix)
      let c ← memcmp old po new pn (if rest < newlen then rest else newlen)
      if c < 0 then bsearch_go M I old oldlen new pn newlen cnt x en
      else bsearch_go M I old oldlen new pn newlen cnt st x
    else .ok (st, en)

/-- suf_bsearch(I, old, oldlen, new + pn, newlen, st, en, posp); returns the length and
the content of *posp, which is pos when nothing is stored. -/
def suf_bsearch (M : Nat) (I : Arr Int) (old : List Byte) (oldlen : Nat) (new : List Byte)
    (pn newlen st en pos : Nat) : Res (Nat × Nat) :=
  if st > en then .ok (0, pos)
  else do
    let (st1, en1) ← bsearch_go M I old oldlen new pn newlen (en - st) st en
    let ist ← I.rd st1
    let pst ← ptr ist
    let x ← matchlen old pst (wsub M oldlen (toU M ist)) new pn newlen
    let ien ← I.rd en1
    let pen ← ptr ien
    let y ← matchlen old pen (wsub M oldlen (toU M ien)) new pn newlen
    .ok (if x > y then x else y, if x > y then toU M ist else toU M ien)

/-- Local variables of suf_findnext; pos is *posp. -/
structure SState where
  scan : Nat
  scsc : Nat
  oldscore : Nat
  len : Nat
  pos : Nat

/-- The loop while (scan < newlen) of suf_findnext. -/
def sf_loop (M : Nat) (sd : suf_data) (old : List Byte) (oldlen : Nat) (new : List Byte)
    (newlen lastoffset : Nat) : Nat → SState → Res SState
  | 0, st => if st.scan < newlen then .error .fuel else .ok st
  | cnt + 1, st =>
    if st.scan < newlen then do
      let c ← rdB new st.scan
      let f0 ← sd.F.rd c.val
      let f1 ← sd.F.rd (c.val + 1)
      let (len, pos) ← suf_bsearch M sd.I old oldlen new st.scan (wsub M newlen st.scan)
                          (toU M (f0 + 1)) (toU M f1) st.pos
      let lim := wadd M st.scan len
      let oldscore ← score_count M old oldlen new lastoffset (lim - st.scsc) st.scsc st.oldscore
      let scsc := if st.scsc < lim then lim else st.scsc
      if len ≠ 0 ∧ len = oldscore then
        sf_loop M sd old oldlen new newlen lastoffset cnt
          { scan := lim, scsc := lim, oldscore := 0, len := len, pos := pos }
      else if len > wadd M oldscore 32 then
        .ok { scan := st.scan, scsc := scsc, oldscore := oldscore, len := len, pos := pos }
      else do
        let hit ← score_hit M old oldlen new lastoffset st.scan
        sf_loop M sd old oldlen new newlen lastoffset cnt
          { scan := wadd M st.scan 1, scsc := scsc,
            oldscore := if hit then wsub M oldscore 1 else oldscore, len := len, pos := pos }
    else .ok st

/-- suf_findnext; returns (scan, pos, len), the last two being *posp and *lenp. -/
def suf_findnext (M : Nat) (sd : suf_data) (old : List Byte) (oldlen : Nat) (new : List Byte)
    (newlen lastoffset scan : Nat) : Res (Nat × Nat × Nat) := do
  let st ← sf_loop M sd old oldlen new newlen lastoffset (newlen - scan)
              { scan := scan, scsc := scan, oldscore := 0, len := 0, pos := 0 }
  .ok (st.scan, st.pos, st.len)

/-! ## the drivers -/

/-- The two index methods a deltamode entry can point to. -/
inductive Method where
  | suf
  | hash
  deriving DecidableEq, Repr

/-- An entry of the table deltamodes: the mode value and the three function pointers,
which always belong to one method. -/
structure deltamode where
  mode : Int
  method : Method

/-- The table deltamodes. -/
def deltamodes (B : Build) : List deltamode :=
  (if B.noSuf then [] else [⟨B.DELTAMODE_SUF, .suf⟩]) ++
  (if B.noHash then [] else [⟨B.DELTAMODE_HASH, .hash⟩])

/-- The search for (i = 0; i < n; i++) { dm = deltamodes + i; if (deltamodes[i].mode == mode) break; }
over the remaining entries, dm being the current value of the variable. -/
def find_mode (mode : Int) : List deltamode → Option deltamode → Option deltamode
  | [], dm => dm
  | e :: rest, _ => if e.mode = mode then some e else find_mode mode rest (some e)

/-- The prologue shared by mkdiff and mkdiff_step_setup: strip DELTAMODE_NOADDBLK, look the
mode up, exit if dm is null. Returns dm and noaddblk. -/
def select_mode (B : Build) (mode : Int) : Res (deltamode × Bool) :=
  let noaddblk : Bool := Int.land mode B.DELTAMODE_NOADDBLK ≠ 0
  let mode1 := if noaddblk then Int.xor mode B.DELTAMODE_NOADDBLK else mode
  match find_mode mode1 (deltamodes B) none with
  | none => .error .fatal
  | some dm => .ok (dm, noaddblk)

/-- The object behind the void pointer data. -/
inductive IndexData where
  | suf (sd : suf_data)
  | hash (hd : hash_data)

/-- The call dm->create(old, oldlen); the value none is the null pointer. -/
def dm_create (B : Build) (fuel : Nat) (dm : deltamode) (old : List Byte) (oldlen : Nat) :
    Res (Option IndexData) :=
  match dm.method with
  | .suf => do
    let r ← suf_create B fuel old oldlen
    .ok (r.map IndexData.suf)
  | .hash => do
    let r ← hash_create B old oldlen
    .ok (r.map IndexData.hash)

/-- The call dm->findnext(data, old, oldlen, new, newlen, lastoffset, scan, &pos, &len);
every installed findnext is handed the data its own create built. -/
def dm_findnext (B : Build) (fuel : Nat) (data : IndexData) (old : List Byte) (oldlen : Nat)
    (new : List Byte) (newlen lastoffset scan : Nat) : Res (Nat × Nat × Nat) :=
  match data with
  | .suf sd => suf_findnext B.M sd old oldlen new newlen lastoffset scan
  | .hash hd => hash_findnext B.M fuel hd old oldlen new newlen lastoffset scan

/-- The bytes addoff hands to blockwrite. -/
def addoff (M : Nat) (off : Int) : Res (List Byte) :=
  if off < 0 ∧ 2 * (-off) ≥ (M : Int) then .error .overflow
  else
    let sign : Nat := if off < 0 then 0x80 else 0
    let a : Nat := (if off < 0 then -off else off).toNat
    .ok ((List.range 7).map (fun i => (Fin.ofNat ((a >>> (8 * i)) &&& 0xff) : Byte)) ++
         [(Fin.ofNat (sign ||| ((a >>> 56) &&& 0xff)) : Byte)])

structure instr where
  copyout : Nat
  copyin : Nat
  copyoutoff : Nat
  copyinoff : Nat
  deriving DecidableEq, Repr

/-- Forward extension without noaddblk: for (i = 0; lastscan + i < scan && lastpos + i < oldlen; );
state is i, s, Sf and lenf, the value is lenf. -/
def ext_fwd (M : Nat) (old : List Byte) (oldlen : Nat) (new : List Byte)
    (lastscan lastpos scan : Nat) : Nat → Nat → Nat → Nat → Nat → Res Nat
  | 0, _, _, _, lenf => .ok lenf
  | cnt + 1, i, s, Sf, lenf =>
    if wadd M lastscan i < scan ∧ wadd M lastpos i < oldlen then do
      let a ← rdB old (wadd M lastpos i)
      let b ← rdB new (wadd M lastscan i)
      if a = b then
        let s1 := wadd M s 1
        let i1 := wadd M i 1
        if s1 ≥ wsub M (wadd M Sf i1) s1 then
          ext_fwd M old oldlen new lastscan lastpos scan cnt i1 s1 (wsub M (2 * s1 % M) i1) i1
        else ext_fwd M old oldlen new lastscan lastpos scan cnt i1 s1 Sf lenf
      else ext_fwd M old oldlen new lastscan lastpos scan cnt (wadd M i 1) s Sf lenf
    else .ok lenf

/-- Forward extension with noaddblk: for (i = 0; lastscan + i < scan && lastpos + i < oldlen; i++)
if (old[lastpos + i] != new[lastscan + i]) break; the value is i. -/
def ext_fwd_exact (M : Nat) (old : List Byte) (oldlen : Nat) (new : List Byte)
    (lastscan lastpos scan : Nat) : Nat → Nat → Res Nat
  | 0, i => .ok i
  | cnt + 1, i =>
    if wadd M lastscan i < scan ∧ wadd M lastpos i < oldlen then do
      let a ← rdB old (wadd M lastpos i)
      let b ← rdB new (wadd M lastscan i)
      if a ≠ b then .ok i
      else ext_fwd_exact M old oldlen new lastscan lastpos scan cnt (wadd M i 1)
    else .ok i

/-- Backward extension: for (i = 1; scan >= lastscan + i && pos >= i; i++);
state is i, s, Sb and lenb, the value is lenb. -/
def ext_bwd (M : Nat) (old new : List Byte) (lastscan scan pos : Nat) :
    Nat → Nat → Nat → Nat → Nat → Res Nat
  | 0, _, _, _, lenb => .ok lenb
  | cnt + 1, i, s, Sb, lenb =>
    if scan ≥ wadd M lastscan i ∧ pos ≥ i then do
      let a ← rdB old (wsub M pos i)
      let b ← rdB new (wsub M scan i)
      if a = b then
        let s1 := wadd M s 1
        if s1 ≥ wsub M (wadd M Sb i) s1 then
          ext_bwd M old new lastscan scan pos cnt (wadd M i 1) s1 (wsub M (2 * s1 % M) i) i
        else ext_bwd M old new lastscan scan pos cnt (wadd M i 1) s1 Sb lenb
      else ext_bwd M old new lastscan scan pos cnt (wadd M i 1) s Sb lenb
    else .ok lenb

/-- The split search of the overlap: for (i = 0; i < overlap; i++);
state is i, s, Sb, Ss and lens, the value is lens. -/
def ext_split (M : Nat) (old new : List Byte) (lastscan lastpos scan pos lenf lenb overlap : Nat) :
    Nat → Nat → Nat → Nat → Nat → Nat → Res Nat
  | 0, _, _, _, _, lens => .ok lens
  | cnt + 1, i, s, Sb, Ss, lens => do
    let a ← rdB new (wadd M (wsub M (wadd M lastscan lenf) overlap) i)
    let b ← rdB old (wadd M (wsub M (wadd M lastpos lenf) overlap) i)
    let s1 := if a = b then wadd M s 1 else s
    let c ← rdB new (wadd M (wsub M scan lenb) i)
    let d ← rdB old (wadd M (wsub M pos lenb) i)
    let Sb1 := if c = d then wadd M Sb 1 else Sb
    if s1 > Sb1 ∧ wsub M s1 Sb1 > Ss then
      ext_split M old new lastscan lastpos scan pos lenf lenb overlap cnt (wadd M i 1) s1 Sb1
        (wsub M s1 Sb1) (wadd M i 1)
    else
      ext_split M old new lastscan lastpos scan pos lenf lenb overlap cnt (wadd M i 1) s1 Sb1 Ss lens

/-- The shaping code common to mkdiff and mkdiff_step, from the computation of lastoffset to
the overlap resolution (the two functions contain the same text). Returns scan, pos, len as
left by findnext and the final lenf and lenb. -/
def shape (B : Build) (fuel : Nat) (data : IndexData) (noaddblk : Bool) (old : List Byte)
    (oldlen : Nat) (new : List Byte) (newlen scan0 lastscan lastpos : Nat) :
    Res (Nat × Nat × Nat × Nat × Nat) := do
  let M := B.M
  let lastoffset := if noaddblk then oldlen else wsub M lastpos lastscan
  let (scan, pos, len) ← dm_findnext B fuel data old oldlen new newlen lastoffset scan0
  let lenf0 ←
    (if ¬ noaddblk then ext_fwd M old oldlen new lastscan lastpos scan (scan - lastscan) 0 0 0 0
     else ext_fwd_exact M old oldlen new lastscan lastpos scan (scan - lastscan) 0)
  let lenb0 ←
    (if ¬ noaddblk ∧ scan < newlen then ext_bwd M old new lastscan scan pos pos 1 0 0 0
     else .ok 0)
  if wadd M lastscan lenf0 > wsub M scan lenb0 then do
    let overlap := wsub M (wadd M lastscan lenf0) (wsub M scan lenb0)
    let lens ← ext_split M old new lastscan lastpos scan pos lenf0 lenb0 overlap overlap 0 0 0 0 0
    .ok (scan, pos, len, wsub M lenf0 (wsub M overlap lens), wsub M lenb0 lens)
  else .ok (scan, pos, len, lenf0, lenb0)

/-- The bytes blockwrite(bz, buf + i, n) takes from the buffer. -/
def readBytes (buf : List Byte) (i n : Nat) : Res (List Byte) :=
  if i + n ≤ buf.length then .ok ((buf.drop i).take n) else .error .oob

/-- The loop while (s > 0) feeding the extra block in pieces of at most 0x40000000 bytes;
returns the bytes written. -/
def write_extra (M : Nat) (new : List Byte) : Nat → Nat → Nat → List Byte → Res (List Byte)
  | 0, _, s, acc => if s > 0 then .error .fuel else .ok acc
  | cnt + 1, i, s, acc =>
    if s > 0 then do
      let len2 := if s > 0x40000000 then 0x40000000 else s
      let bytes ← readBytes new i len2
      write_extra M new cnt (wadd M i len2) (wsub M s len2) (acc ++ bytes)
    else .ok acc

/-- The loop for (i = 0; i < len2; i++) addblk[i] = new[lastscan + i] - old[lastpos + i]. -/
def add_fill (M : Nat) (old new : List Byte) (lastscan lastpos : Nat) : Nat → Nat → List Byte →
    Res (List Byte)
  | 0, _, acc => .ok acc
  | cnt + 1, i, acc => do
    let b ← rdB new (wadd M lastscan i)
    let a ← rdB old (wadd M lastpos i)
    add_fill M old new lastscan lastpos cnt (wadd M i 1) (acc ++ [b - a])

/-- The loop while (lenf > 0) feeding the add block in pieces of at most 4096 bytes;
returns the bytes written. -/
def write_add (M : Nat) (old new : List Byte) : Nat → Nat → Nat → Nat → List Byte → Res (List Byte)
  | 0, _, _, lenf, acc => if lenf > 0 then .error .fuel else .ok acc
  | cnt + 1, lastscan, lastpos, lenf, acc =>
    if lenf > 0 then do
      let len2 := if lenf > 4096 then 4096 else lenf
      let chunk ← add_fill M old new lastscan lastpos len2 0 []
      write_add M old new cnt (wadd M lastscan len2) (wadd M lastpos len2) (wsub M lenf len2)
        (acc ++ chunk)
    else .ok acc

/-- Which results the caller of mkdiff asks for (non-null pointer arguments). -/
structure Req where
  instrp : Bool
  instrblkp : Bool
  addblkp : Bool
  extrablkp : Bool

/-- What mkdiff delivers: the instruction array and the bytes fed to the three block
compressors, before compression. -/
structure Out where
  instrs : List instr
  instrblk : List Byte
  addblk : List Byte
  extrablk : List Byte
  deriving DecidableEq, Repr

/-- The loop while (lastscan < newlen) of mkdiff. -/
def mkdiff_loop (B : Build) (fuel : Nat) (data : IndexData) (noaddblk : Bool) (req : Req)
    (old : List Byte) (oldlen : Nat) (new : List Byte) (newlen : Nat) :
    Nat → Nat → Nat → Nat → Out → Res Out
  | 0, _, lastscan, _, out => if lastscan < newlen then .error .fuel else .ok out
  | cnt + 1, scan0, lastscan, lastpos, out =>
    if lastscan < newlen then do
      let M := B.M
      let (scan, pos, len, lenf, lenb) ←
        shape B fuel data noaddblk old oldlen new newlen scan0 lastscan lastpos
      let copyin := wsub M (wsub M scan lenb) (wadd M lastscan lenf)
      let instrs :=
        if req.instrp then
          out.instrs ++ [{ copyout := lenf, copyin := copyin, copyinoff := wadd M lastscan lenf,
                           copyoutoff := lastpos }]
        else out.instrs
      let instrblk ←
        (if req.instrblkp then do
          let b1 ← addoff M (toS M lenf)
          let b2 ← addoff M (toS M copyin)
          let b3 ← addoff M (toS M (wsub M (wsub M pos lenb) (wadd M lastpos lenf)))
          .ok (out.instrblk ++ b1 ++ b2 ++ b3)
        else .ok out.instrblk)
      let extrablk ←
        (if req.extrablkp then write_extra M new copyin (wadd M lastscan lenf) copyin out.extrablk
         else .ok out.extrablk)
      let addblk ←
        (if ¬ noaddblk ∧ req.addblkp then write_add M old new lenf lastscan lastpos lenf out.addblk
         else .ok out.addblk)
      mkdiff_loop B fuel data noaddblk req old oldlen new newlen cnt
        (wadd M scan len) (wsub M scan lenb) (wsub M pos lenb)
        { instrs := instrs, instrblk := instrblk, addblk := addblk, extrablk := extrablk }
    else .ok out

/-- The part of mkdiff after the mode lookup: build the index, run the loop. -/
def mkdiff_run (B : Build) (fuel : Nat) (dm : deltamode) (noaddblk : Bool) (old new : List Byte)
    (req : Req) : Res Out := do
  let data ← dm_create B fuel dm old old.length
  match data with
  | none => .error .fatal
  | some d =>
    mkdiff_loop B fuel d noaddblk req old old.length new new.length fuel 0 0 0
      { instrs := [], instrblk := [], addblk := [], extrablk := [] }

/-- mkdiff(mode, old, oldlen, new, newlen, ...) with the results selected by req. -/
def mkdiff (B : Build) (fuel : Nat) (mode : Int) (old new : List Byte) (req : Req) : Res Out := do
  let (dm, noaddblk) ← select_mode B mode
  mkdiff_run B fuel dm noaddblk old new req

structure stepdata where
  dm : deltamode
  data : Option IndexData
  noaddblk : Bool

/-- mkdiff_step_setup(mode). -/
def mkdiff_step_setup (B : Build) (mode : Int) : Res stepdata := do
  let (dm, noaddblk) ← select_mode B mode
  .ok { dm := dm, data := none, noaddblk := noaddblk }

/-- mkdiff_step(sdata, old, oldlen, new, newlen, instr, scanp, lastposp, lastscanp);
returns the handle, *instr, *scanp, *lastposp and *lastscanp. -/
def mkdiff_step (B : Build) (fuel : Nat) (sd : stepdata) (old : List Byte) (oldlen : Nat)
    (new : List Byte) (newlen scan0 lastpos lastscan : Nat) :
    Res (stepdata × instr × Nat × Nat × Nat) := do
  let data ←
    (match sd.data with
     | some d => (.ok d : Res IndexData)
     | none => do
       let r ← dm_create B fuel sd.dm old oldlen
       match r with
       | none => .error .fatal
       | some d => .ok d)
  let M := B.M
  let (scan, pos, len, lenf, lenb) ←
    shape B fuel data sd.noaddblk old oldlen new newlen scan0 lastscan lastpos
  let ins : instr :=
    { copyout := lenf, copyin := wsub M (wsub M scan lenb) (wadd M lastscan lenf),
      copyinoff := wadd M lastscan lenf, copyoutoff := lastpos }
  .ok ({ sd with data := some data }, ins, wadd M scan len,
       if scan ≠ newlen then wsub M pos lenb else wadd M lastpos lenf, wsub M scan lenb)


/-! ## definitions used to state the properties -/

/-- A build with 32 bit offsets and both methods installed. The header delta.h is not part
of the source at hand; its mode constants are taken as 0, 1 and 0x100. -/
def B32 : Build :=
  { bits64 := false, noSuf := false, noHash := false,
    DELTAMODE_SUF := 0, DELTAMODE_HASH := 1, DELTAMODE_NOADDBLK := 0x100 }

/-- All four results requested. -/
def Req.all : Req := { instrp := true, instrblkp := true, addblkp := true, extrablkp := true }

/-- Only the instruction array requested. -/
def Req.instrOnly : Req :=
  { instrp := true, instrblkp := false, addblkp := false, extrablkp := false }

/-- The bytes 0, 1, ..., 47. -/
def old48 : List Byte := (List.range 48).map (fun i => (Fin.ofNat i : Byte))

/-- The byte 255 followed by the bytes 0, 1, ..., 47. -/
def new49 : List Byte := (255 : Byte) :: old48

/-- The string hello. -/
def hello : List Byte := [104, 101, 108, 108, 111]

/-- The string abcdefghijklmnop. -/
def abc16 : List Byte :=
  [97, 98, 99, 100, 101, 102, 103, 104, 105, 106, 107, 108, 109, 110, 111, 112]

/-- The string abcdXXXXefghijklmnop. -/
def abcX20 : List Byte :=
  [97, 98, 99, 100, 88, 88, 88, 88, 101, 102, 103, 104, 105, 106, 107, 108, 109, 110, 111, 112]

/-- The instruction and the three uncompressed streams for old = abcdefghijklmnop and
new = abcdXXXXefghijklmnop in hash mode. -/
def out_abc : Out :=
  { instrs := [⟨4, 16, 0, 4⟩],
    instrblk := [4, 0, 0, 0, 0, 0, 0, 0, 16, 0, 0, 0, 0, 0, 0, 0, 4, 0, 0, 0, 0, 0, 0, 128],
    addblk := [0, 0, 0, 0],
    extrablk := [88, 88, 88, 88, 101, 102, 103, 104, 105, 106, 107, 108, 109, 110, 111, 112] }

/-- The instructions and the three uncompressed streams for old = old48 and new = new49 in
hash mode. -/
def out_49 : Out :=
  { instrs := [⟨0, 1, 0, 0⟩, ⟨48, 0, 0, 49⟩],
    instrblk := [0, 0, 0, 0, 0, 0, 0, 0, 1, 0, 0, 0, 0, 0, 0, 0, 0, 0, 0, 0, 0, 0, 0, 0,
      48, 0, 0, 0, 0, 0, 0, 0, 0, 0, 0, 0, 0, 0, 0, 0, 48, 0, 0, 0, 0, 0, 0, 128],
    addblk := List.replicate 48 0,
    extrablk := [255] }

/-- The instructions and the three uncompressed streams for old = old48 and new = new49 in
hash mode with DELTAMODE_NOADDBLK. -/
def out_exact49 : Out :=
  { instrs := [⟨0, 1, 0, 0⟩, ⟨48, 0, 0, 49⟩],
    instrblk := [0, 0, 0, 0, 0, 0, 0, 0, 1, 0, 0, 0, 0, 0, 0, 0, 0, 0, 0, 0, 0, 0, 0, 0,
      48, 0, 0, 0, 0, 0, 0, 0, 0, 0, 0, 0, 0, 0, 0, 0, 48, 0, 0, 0, 0, 0, 0, 128],
    addblk := [],
    extrablk := [255] }

/-- Decoding of the 8 bytes of an offset: 7 little-endian magnitude bytes, then a byte with
the sign in its high bit and the top magnitude bits in its low 7 bits. -/
def decode_off (b : List Byte) : Int :=
  let mag : Nat :=
    ((List.range 7).map (fun i => (b.getD i 0).val * 256 ^ i)).sum +
      ((b.getD 7 0).val % 128) * 256 ^ 7
  if (b.getD 7 0).val ≥ 128 then -(mag : Int) else (mag : Int)

/-- The bytes (old[oldpos + i] + add[i]) mod 256 for the bytes of add, none when old is
left. -/
def add_old (old : List Byte) : Int → List Byte → Option (List Byte)
  | _, [] => some []
  | oldpos, a :: rest =>
    if oldpos < 0 then none
    else
      match old[oldpos.toNat]?, add_old old (oldpos + 1) rest with
      | some o, some r => some ((o + a) :: r)
      | _, _ => none

/-- Replay of n encoded triples: the instruction bytes ib, the add stream and the extra
stream still to be consumed, the current oldpos and the output so far. -/
def replay_go (old : List Byte) : Nat → List Byte → List Byte → List Byte → Int → List Byte →
    Option (List Byte)
  | 0, ib, add, extra, _, out => if ib = [] ∧ add = [] ∧ extra = [] then some out else none
  | n + 1, ib, add, extra, oldpos, out =>
    let x := decode_off (ib.take 8)
    let y := decode_off ((ib.drop 8).take 8)
    let z := decode_off ((ib.drop 16).take 8)
    if ib.length < 24 ∨ x < 0 ∨ y < 0 ∨ (add.length : Int) < x ∨ (extra.length : Int) < y then none
    else
      match add_old old oldpos (add.take x.toNat) with
      | none => none
      | some seg =>
        replay_go old n (ib.drop 24) (add.drop x.toNat) (extra.drop y.toNat) (oldpos + x + z)
          (out ++ seg ++ extra.take y.toNat)

/-- Replay of a patch payload: start with oldpos = 0 and empty output; for each encoded
triple (x, y, z) append old plus add for x bytes, then y bytes of extra, then move oldpos by
x + z. The value is the output when all three streams are consumed exactly. -/
def replay (old ib add extra : List Byte) : Option (List Byte) :=
  replay_go old (ib.length / 24) ib add extra 0 []

/-- The instructions tile the interval from a to b: each diff-copy region
[copyinoff - copyout, copyinoff) starts where the previous literal region
[copyinoff, copyinoff + copyin) ended, the first at a, and the last literal region ends at b. -/
def Covers : Nat → Nat → List instr → Prop
  | a, b, [] => a = b
  | a, b, k :: rest => k.copyinoff = a + k.copyout ∧ Covers (k.copyinoff + k.copyin) b rest

/-- The caller loop of the stepwise interface: while (lastscan < newlen) call mkdiff_step
and collect the instruction it stores. -/
def steps_loop (B : Build) (fuel : Nat) (old new : List Byte) :
    Nat → stepdata → Nat → Nat → Nat → List instr → Res (List instr)
  | 0, _, _, _, lastscan, acc => if lastscan < new.length then .error .fuel else .ok acc
  | cnt + 1, sd, scan, lastpos, lastscan, acc =>
    if lastscan < new.length then do
      let (sd1, ins, scan1, lastpos1, lastscan1) ←
        mkdiff_step B fuel sd old old.length new new.length scan lastpos lastscan
      steps_loop B fuel old new cnt sd1 scan1 lastpos1 lastscan1 (acc ++ [ins])
    else .ok acc

/-- The stepwise driver: mkdiff_step_setup, then mkdiff_step from (scan, lastscan, lastpos)
= (0, 0, 0) while lastscan < newlen. -/
def mkdiff_by_steps (B : Build) (fuel : Nat) (mode : Int) (old new : List Byte) :
    Res (List instr) := do
  let sd ← mkdiff_step_setup B mode
  steps_loop B fuel old new fuel sd 0 0 0 []

/-! ## definitions used in the proofs -/

/-- The number of values of bsuint is 2^32 or 2^64. -/
abbrev IsM (M : Nat) : Prop := M = 4294967296 ∨ M = 18446744073709551616

/-- What the shaping loop relies on from a findnext call that was entered with
scan0 <= newlen and returned (scan, pos, len). -/
def FindOk (oldlen newlen scan0 : Nat) (r : Nat × Nat × Nat) : Prop :=
  scan0 ≤ r.1 ∧ r.1 ≤ newlen ∧ (r.1 < newlen → r.2.1 ≤ oldlen ∧ r.1 + r.2.2 ≤ newlen)

/-- Invariant of the loop of hash_findnext. -/
structure HInv (oldlen newlen scan0 : Nat) (st : HState) : Prop where
  start_ge : scan0 ≤ st.scanstart
  start_le : st.scanstart ≤ st.scan
  scan_le : st.scan ≤ newlen
  best : 0 < st.llen → st.scanstart ≤ st.lscan ∧ st.lscan ≤ st.scan ∧
    st.lscan + st.llen ≤ newlen ∧ st.lscan + 16 < newlen ∧ st.lpos ≤ oldlen

/-- What holds of the state when the loop of hash_findnext is left. -/
def HPost (oldlen newlen scan0 : Nat) (st : HState) : Prop :=
  st.scan + 16 ≥ newlen ∨ (scan0 ≤ st.scan ∧ st.scan + st.len ≤ newlen ∧ st.pos ≤ oldlen)

/-- What an iteration of the loop of hash_findnext establishes. -/
def HStep (oldlen newlen scan0 : Nat) (r : Ctl × HState) : Prop :=
  match r.1 with
  | .next => HInv oldlen newlen scan0 r.2
  | .brk => HPost oldlen newlen scan0 r.2

/-- What the shaping code establishes when entered with lastscan <= scan0 <= newlen and
lastpos <= oldlen and left with (scan, pos, len, lenf, lenb). -/
structure ShapeOk (noaddblk : Bool) (old new : List Byte) (scan0 lastscan lastpos : Nat)
    (r : Nat × Nat × Nat × Nat × Nat) : Prop where
  scan_ge : scan0 ≤ r.1
  scan_le : r.1 ≤ new.length
  found : r.1 < new.length → r.2.1 ≤ old.length ∧ r.1 + r.2.2.1 ≤ new.length
  fit : lastscan + r.2.2.2.1 + r.2.2.2.2 ≤ r.1
  fwd_le : lastpos + r.2.2.2.1 ≤ old.length
  bwd_le : r.2.2.2.2 ≤ r.2.1
  last : ¬ r.1 < new.length → r.2.2.2.2 = 0
  exact : noaddblk = true → r.2.2.2.2 = 0 ∧
    ∀ t, t < r.2.2.2.1 → old[lastpos + t]? = new[lastscan + t]?

/-- Bounds and, under noaddblk, exactness of one emitted instruction. -/
structure InstrOk (noaddblk : Bool) (old new : List Byte) (k : instr) : Prop where
  out_le : k.copyoutoff + k.copyout ≤ old.length
  in_le : k.copyinoff + k.copyin ≤ new.length
  out_in : k.copyout ≤ k.copyinoff
  exact : noaddblk = true →
    ∀ t, t < k.copyout → old[k.copyoutoff + t]? = new[k.copyinoff - k.copyout + t]?

/-- Entry condition of an iteration of the loop of mkdiff. -/
def LoopPre (old new : List Byte) (scan0 lastscan lastpos : Nat) : Prop :=
  lastscan ≤ new.length ∧
  (lastscan < new.length → lastscan ≤ scan0 ∧ scan0 ≤ new.length ∧ lastpos ≤ old.length)

/-- The instruction and the variables mkdiff_step stores, from the result of the shaping
code. -/
def step_result (M : Nat) (sd : stepdata) (data : IndexData) (newlen lastscan lastpos : Nat)
    (r : Nat × Nat × Nat × Nat × Nat) : stepdata × instr × Nat × Nat × Nat :=
  ({ sd with data := some data },
   { copyout := r.2.2.2.1,
     copyin := wsub M (wsub M r.1 r.2.2.2.2) (wadd M lastscan r.2.2.2.1),
     copyinoff := wadd M lastscan r.2.2.2.1, copyoutoff := lastpos },
   wadd M r.1 r.2.2.1,
   if r.1 ≠ newlen then wsub M r.2.1 r.2.2.2.2 else wadd M lastpos r.2.2.2.1,
   wsub M r.1 r.2.2.2.2)

/-! ## definitions used for the suffix sort -/

/-- The number of suffixes of pad, the empty one included, that come before the suffix at p
in lexicographic order (a proper prefix before its extensions). -/
def rank (pad : List Byte) (p : Nat) : Nat :=
  ((Finset.range (pad.length + 1)).filter (fun q => pad.drop q < pad.drop p)).card

/-- Content of cell k of an array, 0 for a cell that was never written. -/
def Arr.get (a : Arr Int) (k : Nat) : Int := (a.cell k).getD 0

/-- The cells a <= t < b of f are permuted in g, all other cells agree. -/
def Shuf (f g : Nat → Int) (a b : Nat) : Prop :=
  ∃ σ : Equiv.Perm Nat, (∀ t, t < a ∨ b ≤ t → σ t = t) ∧ ∀ t, g t = f (σ t)

/-- Invariant of the group numbers V during a sweep with offset h: V[p] is an upper bound
of the rank of suffix p, suffixes with a smaller group number come first, suffixes with the
same group number agree on h bytes, and on 2h bytes when the number is below bound. -/
structure VInv (pad : List Byte) (h : Nat) (bound : Nat) (V : Arr Int) : Prop where
  ge : ∀ p, p ≤ pad.length → (rank pad p : Int) ≤ V.get p
  le : ∀ p, p ≤ pad.length → V.get p ≤ pad.length
  ord : ∀ p q, p ≤ pad.length → q ≤ pad.length → V.get p < V.get q → V.get p < rank pad q
  eqv : ∀ p q, p ≤ pad.length → q ≤ pad.length → V.get p = V.get q →
    (pad.drop p).take h = (pad.drop q).take h
  eqv2 : ∀ p q, p ≤ pad.length → q ≤ pad.length → V.get p = V.get q → V.get p < bound →
    (pad.drop p).take (2 * h) = (pad.drop q).take (2 * h)

/-- Every suffix of rank below a has a group number below a. -/
def Low (pad : List Byte) (V : Arr Int) (a : Nat) : Prop :=
  ∀ q, q ≤ pad.length → rank pad q < a → V.get q < a

/-- Only the suffix of rank k has group number k. -/
def Sorted1 (pad : List Byte) (V : Arr Int) (k : Nat) : Prop :=
  ∀ p, p ≤ pad.length → V.get p = (k : Int) → rank pad p = k

/-- The cells a <= t < b of I hold, without repetition, suffixes of rank a <= r < b that
have h bytes and carry the group number G. -/
structure Grp (pad : List Byte) (h : Nat) (I V : Arr Int) (a b : Nat) (G : Int) : Prop where
  mem : ∀ t, a ≤ t → t < b → 0 ≤ I.get t ∧ (I.get t).toNat + h ≤ pad.length ∧
    a ≤ rank pad (I.get t).toNat ∧ rank pad (I.get t).toNat < b ∧ V.get (I.get t).toNat = G
  inj : ∀ t t', a ≤ t → t < b → a ≤ t' → t' < b → I.get t = I.get t' → t = t'
  low : Low pad V a

/-- The cells a <= t < c of I are made of runs of sorted suffixes, headed by minus their
length, and of unsorted groups of two or more suffixes numbered by their last cell. -/
inductive Blocks (pad : List Byte) (I V : Arr Int) : Nat → Nat → Prop
  | nil (a : Nat) : Blocks pad I V a a
  | neg (a r c : Nat) : 0 < r → I.get a = -(r : Int) →
      (∀ k, a ≤ k → k < a + r → Sorted1 pad V k) → Blocks pad I V (a + r) c → Blocks pad I V a c
  | grp (a b c : Nat) : a + 2 ≤ b → Grp pad 0 I V a b ((b : Int) - 1) → Blocks pad I V b c →
      Blocks pad I V a c

/-- The group numbers V and W differ only for suffixes of rank a <= r < b, whose new number
lies in the same interval. -/
def VChg (pad : List Byte) (V W : Arr Int) (a b : Nat) : Prop :=
  ∀ p, p ≤ pad.length → W.get p ≠ V.get p →
    a ≤ rank pad p ∧ rank pad p < b ∧ (a : Int) ≤ W.get p ∧ W.get p < b

/-- The key of cell t in a sweep with offset h: the group number of the suffix h bytes
after the one in I[t]. -/
def skey (V I : Arr Int) (h t : Nat) : Int := V.get ((I.get t).toNat + h)

/-- What suf_split establishes for the cells a <= t < b when it turns I, V into J, W. -/
structure SplitPost (pad : List Byte) (h : Nat) (I V J W : Arr Int) (a b : Nat) : Prop where
  blocks : Blocks pad J W a b
  frameI : ∀ t, t < a ∨ b ≤ t → J.get t = I.get t
  chg : VChg pad V W a b
  inv : VInv pad h b W
  low : Low pad W b

/-- The chain of suf_bucketsort that starts with the link d runs through the positions of
l: a link is a position plus one, 0 ends the chain, and V[p] holds the link after p. -/
def Linked (V : Arr Int) : Int → List Nat → Prop
  | d, [] => d = 0
  | d, p :: rest => d = (p : Int) + 1 ∧ Linked V (V.get p) rest

/-- The positions i <= p < n with key c, in increasing order. -/
def chainL (key : Nat → Nat) (i n c : Nat) : List Nat :=
  (List.range' i (n - i)).filter (fun p => key p = c)

/-- The number of positions below n with a key of at most c. -/
def hiC (key : Nat → Nat) (n c : Nat) : Nat :=
  ((Finset.range n).filter (fun q => key q ≤ c)).card

/-- The number of positions below n with a key below c. -/
def loC (key : Nat → Nat) (n c : Nat) : Nat :=
  ((Finset.range n).filter (fun q => key q < c)).card

/-- The positions with key c stand in the cells of I below hiC c, in decreasing cell
order; a position that is alone is replaced by -1. -/
def Placed (key : Nat → Nat) (n : Nat) (I : Arr Int) (c : Nat) : Prop :=
  ∀ k p : Nat, (chainL key 0 n c)[k]? = some p →
    I.get (hiC key n c - k) = if (chainL key 0 n c).length = 1 then -1 else (p : Int)

/-- Byte p of a buffer followed by zero bytes. -/
def byteAt (buf : List Byte) (p : Nat) : Nat := (buf.getD p 0).val

/-- The key suf_create stores in V[p] for a buffer below 0x1000000 bytes: the two bytes at p
plus one, and 0 for the padding byte. -/
def key2 (buf : List Byte) (p : Nat) : Nat :=
  if p < buf.length then byteAt buf p * 256 + byteAt buf (p + 1) + 1 else 0

/-- The key suf_create stores in V[p] for a buffer of 0x1000000 bytes or more: the three
bytes at p plus two, 1 for the first padding byte and 0 for the second. -/
def key3 (buf : List Byte) (p : Nat) : Nat :=
  if p < buf.length then byteAt buf p * 65536 + byteAt buf (p + 1) * 256 + byteAt buf (p + 2) + 2
  else if p = buf.length then 1 else 0

/-- The buffer with the padding suf_create sorts it with: one zero byte, two for a buffer of
0x1000000 bytes or more. -/
def padded (B : Build) (buf : List Byte) : List Byte :=
  if toS B.M buf.length ≥ 0x1000000 then buf ++ [0, 0] else buf ++ [0]

/-- The twelve bytes "mississippi" followed by a zero byte. -/
def mississippi : List Byte := [109, 105, 115, 115, 105, 115, 115, 105, 112, 112, 105, 0]

/-- The first n cells of an array. -/
def cells (a : Arr Int) (n : Nat) : List (Option Int) := (List.range n).map a.cell

/-- The index a successful suf_create returned. -/
def sufOf (r : Res (Option suf_data)) : suf_data :=
  match r with
  | .ok (some sd) => sd
  | _ => ⟨Arr.malloc 0, Arr.malloc 0⟩

/-- The first n cells of I and the 257 cells of F of the index suf_create returned. -/
def sufView (n : Nat) (r : Res (Option suf_data)) : Option (List (Option Int) × List (Option Int)) :=
  match r with
  | .ok (some sd) => some (cells sd.I n, cells sd.F 257)
  | _ => none

/-- The number of bytes of the buffer that are below c. -/
def belowCount (buf : List Byte) (c : Nat) : Nat := buf.countP (fun b => decide (b.val < c))

/-- The number of bytes of the buffer that are c. -/
def byteCount (buf : List Byte) (c : Nat) : Nat := buf.countP (fun b => decide (b.val = c))

/-- The number of padding bytes of the build: 1, or 2 for 0x1000000 bytes or more. -/
def pads (B : Build) (buf : List Byte) : Nat := (padded B buf).length - buf.length

/-- The bucket table of a buffer: the number of padding bytes plus the number of bytes
below c. -/
def bucketF (B : Build) (buf : List Byte) (c : Nat) : Int :=
  ((pads B buf + belowCount buf c : Nat) : Int)


/-- The list holds bucket numbers below s in strictly decreasing order. -/
def descBelow : Nat → List Nat → Bool
  | _, [] => true
  | s, j :: js => decide (j < s) && descBelow j js

/-- Every key V[0..n) is one of the listed bucket numbers. -/
def keysIn (V : Arr Int) (n : Nat) (js : List Nat) : Bool :=
  (List.range n).all (fun i => js.any (fun c => decide (V.cell i = some (c : Int))))

/-- The second loop of suf_bucketsort restricted to the listed buckets; bucket_fill_at_eq
shows that it computes bucket_fill when all other buckets are empty. -/
def bucket_fill_at (B : Arr Int) : List Nat → Int → Arr Int → Arr Int → Res (Arr Int × Arr Int)
  | [], i, V, I => if i ≠ 0 then .error .oob else .ok (V, I)
  | j :: js, i, V, I =>
    if i ≠ 0 then do
      let d ← B.rd j
      let (V1, I1, i1) ← bucket_chain i (i + 2).toNat d i V I
      bucket_fill_at B js i1 V1 I1
    else .ok (V, I)

/-- The function suf_bucketsort, visiting only the listed buckets when they hold all keys;
suf_bucketsort_at_eq shows that it computes suf_bucketsort. -/
def suf_bucketsort_at (js : List Nat) (V I : Arr Int) (n s : Int) : Res (Arr Int × Arr Int) :=
  if descBelow s.toNat js = true ∧ keysIn V n.toNat js = true then do
    let (V1, B) ← bucket_link n.toNat V (Arr.calloc s.toNat 0)
    let (V2, I2) ← bucket_fill_at B js n V1 I
    let V3 ← V2.wr n 0
    let I3 ← I2.wr 0 (-1)
    .ok (V3, I3)
  else suf_bucketsort V I n s

/-- The function suf_create with suf_bucketsort_at as its bucket sort; suf_create_at_eq shows
that it computes suf_create. It makes the build of a small buffer cheap to evaluate. -/
def suf_create_at (js : List Nat) (B : Build) (fuel : Nat) (buf : List Byte) (ulen : Nat) :
    Res (Option suf_data) :=
  let len0 : Int := toS B.M ulen
  if len0 < 0 then .ok none
  else do
    let V0 : Arr Int := Arr.malloc (len0 + 3).toNat
    let I0 : Arr Int := Arr.malloc (len0 + 3).toNat
    let F0 : Arr Int := Arr.calloc 257 0
    let (oldv, len, h, s, F1, V1) ←
      (if len0 ≥ 0x1000000 then do
        let b0 ← rdB buf 0
        let F ← F_incr F0 b0
        let b1 ← rdB buf 1
        let F ← F_incr F b1
        let (oldv, F, V) ← suf_keys3 buf (len0 - 2).toNat 2 ((b0.val <<< 8) ||| b1.val) F V0
        let oldv := (oldv &&& 0xffff) <<< 8
        let V ← V.wr (len0 - 2) ((oldv : Int) + 2)
        let oldv := (oldv &&& 0xffff) <<< 8
        let V ← V.wr (len0 - 1) ((oldv : Int) + 2)
        let len := len0 + 2
        let V ← V.wr (len - 2) 1
        let V ← V.wr (len - 1) 0
        .ok (oldv, len, (3 : Int), (0x1000002 : Int), F, V)
      else do
        let b0 ← rdB buf 0
        let F ← F_incr F0 b0
        let (oldv, F, V) ← suf_keys2 buf (len0 - 1).toNat 1 b0.val F V0
        let oldv := (oldv &&& 0xff) <<< 8
        let V ← V.wr (len0 - 1) ((oldv : Int) + 1)
        let len := len0 + 1
        let V ← V.wr (len - 1) 0
        .ok (oldv, len, (2 : Int), (0x10001 : Int), F, V) : Res (Nat × Int × Int × Int × Arr Int × Arr Int))
    let _ := oldv
    let (oldv2, F2) ← suf_cumul 256 len F1
    let F3 ← F2.wr 0 oldv2
    let (V2, I2) ← suf_bucketsort_at js V1 I0 len s
    let (I3, V3) ← suf_double B.M len fuel fuel h I2 V2
    let I4 ← suf_invert V3 (len + 1).toNat 0 I3
    .ok (some ⟨I4, F3⟩)

/-- The buckets of mississippi in decreasing order: the keys of its thirteen positions. -/
def mississippi_keys : List Nat :=
  [29556, 29546, 28785, 28778, 28010, 26996, 26993, 26881, 1, 0]

/-- The index of mississippi built with step budget 16. -/
def sd_mississippi : suf_data := sufOf (suf_create_at mississippi_keys B32 16 mississippi 12)

/-- The one-byte key of position p of a buffer followed by k zero bytes: the byte plus k for
a position of the buffer, and k - 1 down to 0 for the padding positions. -/
def key1 (k : Nat) (buf : List Byte) (p : Nat) : Nat :=
  if p < buf.length then byteAt buf p + k else buf.length + k - 1 - p

/-- The buffer aaa. -/
def aaa : List Byte := [97, 97, 97]

/-- The buckets of aaa in decreasing order. -/
def aaa_keys : List Nat := [24930, 24833, 0]

/-- The index of aaa built with step budget 16. -/
def sd_aaa : suf_data := sufOf (suf_create_at aaa_keys B32 16 aaa 3)

/-- The values of len, *posp, oldscore and scsc when suf_findnext reaches its tests
(len == oldscore, len > oldscore + 32) in a round entered with state st. -/
def sf_probe (M : Nat) (sd : suf_data) (old : List Byte) (oldlen : Nat) (new : List Byte)
    (newlen lastoffset : Nat) (st : SState) : Res (Nat × Nat × Nat × Nat) := do
  let c ← rdB new st.scan
  let f0 ← sd.F.rd c.val
  let f1 ← sd.F.rd (c.val + 1)
  let (len, pos) ← suf_bsearch M sd.I old oldlen new st.scan (wsub M newlen st.scan)
                      (toU M (f0 + 1)) (toU M f1) st.pos
  let lim := wadd M st.scan len
  let oldscore ← score_count M old oldlen new lastoffset (lim - st.scsc) st.scsc st.oldscore
  let scsc := if st.scsc < lim then lim else st.scsc
  .ok (len, pos, oldscore, scsc)

/-- One round of the loop of suf_findnext entered with scan < newlen: the state after the
round, and whether the round left the loop by break. -/
def sf_step (M : Nat) (sd : suf_data) (old : List Byte) (oldlen : Nat) (new : List Byte)
    (newlen lastoffset : Nat) (st : SState) : Res (SState × Bool) := do
  let (len, pos, oldscore, scsc) ← sf_probe M sd old oldlen new newlen lastoffset st
  if len ≠ 0 ∧ len = oldscore then
    .ok ({ scan := wadd M st.scan len, scsc := wadd M st.scan len, oldscore := 0, len := len,
           pos := pos }, false)
  else if len > wadd M oldscore 32 then
    .ok ({ scan := st.scan, scsc := scsc, oldscore := oldscore, len := len, pos := pos }, true)
  else do
    let hit ← score_hit M old oldlen new lastoffset st.scan
    .ok ({ scan := wadd M st.scan 1, scsc := scsc,
           oldscore := if hit then wsub M oldscore 1 else oldscore, len := len, pos := pos },
         false)

/-- The state of suf_findnext at the head of its loop after k full rounds, none when the
loop was left before. -/
def sf_iter (M : Nat) (sd : suf_data) (old : List Byte) (oldlen : Nat) (new : List Byte)
    (newlen lastoffset : Nat) : Nat → SState → Res (Option SState)
  | 0, st => .ok (some st)
  | k + 1, st =>
    if st.scan < newlen then do
      let (st1, brk) ← sf_step M sd old oldlen new newlen lastoffset st
      if brk then .ok none else sf_iter M sd old oldlen new newlen lastoffset k st1
    else .ok none

/-- The state in which suf_findnext enters its loop. -/
def sf_init (scan : Nat) : SState := { scan := scan, scsc := scan, oldscore := 0, len := 0, pos := 0 }

/-- The test (k + lastoffset < oldlen) && (old[k + lastoffset] == new[k]) on buffers that
hold the bytes. -/
def hitAt (M : Nat) (old : List Byte) (oldlen : Nat) (new : List Byte) (lastoffset k : Nat) : Bool :=
  decide (wadd M k lastoffset < oldlen) && (old.getD (wadd M k lastoffset) 0 == new.getD k 0)

/-- The number of positions a <= s < b at which the test of hitAt holds. -/
def hitCount (M : Nat) (old : List Byte) (oldlen : Nat) (new : List Byte) (lastoffset a b : Nat) : Nat :=
  (List.range (b - a)).countP (fun i => hitAt M old oldlen new lastoffset (a + i))

/-- Invariant of the loop of suf_findnext entered at scan0: oldscore counts the hits of the
positions scan <= s < scsc; after a round that found no match scsc is one behind scan, on a
position that is no hit. -/
structure SInv (M : Nat) (old new : List Byte) (lo scan0 : Nat) (st : SState) : Prop where
  ge : scan0 ≤ st.scan
  le : st.scan ≤ new.length
  sle : st.scsc ≤ new.length
  score : (st.scan ≤ st.scsc ∧ st.oldscore = hitCount M old old.length new lo st.scan st.scsc) ∨
    (st.scsc + 1 = st.scan ∧ st.oldscore = 0 ∧ hitAt M old old.length new lo st.scsc = false)

deriving instance DecidableEq for SState

/-- The buffer baaa. -/
def baaa : List Byte := [98, 97, 97, 97]

/-- The buckets of baaa in decreasing order. -/
def baaa_keys : List Nat := [25186, 24930, 24833, 0]

/-- The index of baaa built with step budget 16. -/
def sd_baaa : suf_data := sufOf (suf_create_at baaa_keys B32 16 baaa 4)

/-- The bytes old[pos .. pos + len) lie in old and equal new[scan .. scan + len). -/
def Genuine (old new : List Byte) (scan pos len : Nat) : Prop :=
  ∀ i, i < len → old[pos + i]? = new[scan + i]? ∧ pos + i < old.length

/-- The best candidate of hash_findnext is a genuine match. -/
def HGen (old new : List Byte) (st : HState) : Prop :=
  0 < st.llen → Genuine old new st.lscan st.lpos st.llen

/-- The state in which the loop of hash_findnext is left: at the end of new, or on a genuine
match of 32 bytes or more. -/
def GPost (old new : List Byte) (st : HState) : Prop :=
  st.scan + 16 ≥ new.length ∨ (32 ≤ st.len ∧ Genuine old new st.scan st.pos st.len)

/-- What an iteration of the loop of hash_findnext establishes about the matches. -/
def GStep (old new : List Byte) (r : Ctl × HState) : Prop :=
  match r.1 with
  | .next => HGen old new r.2
  | .brk => GPost old new r.2

/-- The table a successful hash_create returned. -/
def hashOf (r : Res (Option hash_data)) : hash_data :=
  match r with
  | .ok (some hd) => hd
  | _ => ⟨Arr.malloc 0, 0⟩

/-- Whether hash_create returned a table. -/
def hashOk (r : Res (Option hash_data)) : Bool :=
  match r with
  | .ok (some _) => true
  | _ => false

/-- The hash table of the bytes 0..47. -/
def hd_old48 : hash_data := hashOf (hash_create B32 old48 48)

/-- The 16 bytes 0123456789abcdef, twice. -/
def digits32 : List Byte :=
  [48, 49, 50, 51, 52, 53, 54, 55, 56, 57, 97, 98, 99, 100, 101, 102,
   48, 49, 50, 51, 52, 53, 54, 55, 56, 57, 97, 98, 99, 100, 101, 102]

/-- The hash table of digits32. -/
def hd_digits32 : hash_data := hashOf (hash_create B32 digits32 32)

/-- A slot of the table of hash_create is well formed: it is empty, or it holds v = off + 1 for
the offset off of a full block of buf, a multiple of 16, and the slot is the home slot of the
block or the one after it. -/
def slotOk (buf : List Byte) (prime i v : Nat) : Prop :=
  v = 0 ∨ (1 ≤ v ∧ (v - 1) % 16 = 0 ∧ v - 1 + 16 ≤ buf.length ∧
    ∃ x, buzhash buf (v - 1) = .ok x ∧ (i = x % prime ∨ i = (x % prime + 1) % prime))

/-- The state in which hash_findnext enters its loop. -/
def hf_init (ssx scan : Nat) : HState :=
  { scan := scan, scanstart := scan, oldscore := 0, oldscorenum := 0, oldscorestart := 0,
    pos := 0, len := 0, lscan := 0, lpos := 0, llen := 0, ssx := ssx }

/-- The state of hash_findnext at the head of its loop after k full rounds, none when the
loop was left before. -/
def hf_iter (M : Nat) (hd : hash_data) (old : List Byte) (oldlen : Nat) (new : List Byte)
    (newlen lastoffset : Nat) : Nat → HState → Res (Option HState)
  | 0, st => .ok (some st)
  | k + 1, st => do
    let (c, st1) ← hf_body M hd old oldlen new newlen lastoffset st
    match c with
    | .brk => .ok none
    | .next => hf_iter M hd old oldlen new newlen lastoffset k st1

/-- The variable ssx holds the hash of the block at scan whenever a full block and one more
byte are left. -/
def HRoll (new : List Byte) (st : HState) : Prop :=
  st.scan + 16 < new.length → buzhash new st.scan = .ok st.ssx

/-! ## definitions used for the last group of properties -/

/-- The blocks 0123456789abcdef and lastslotblk-bltn; the second has hash 1953002599, which
is 65536 modulo 65537. -/
def lastslot_old : List Byte :=
  [48, 49, 50, 51, 52, 53, 54, 55, 56, 57, 97, 98, 99, 100, 101, 102,
   108, 97, 115, 116, 115, 108, 111, 116, 98, 108, 107, 45, 98, 108, 116, 110]

/-- The block 0123456789abcdef, 32 dots and the block lastslotblk-enls; the last block has
hash 3247554960, which is 65536 modulo 65537. -/
def lastslot_new : List Byte :=
  [48, 49, 50, 51, 52, 53, 54, 55, 56, 57, 97, 98, 99, 100, 101, 102] ++
  List.replicate 32 46 ++
  [108, 97, 115, 116, 115, 108, 111, 116, 98, 108, 107, 45, 101, 110, 108, 115]

/-- The hash table of lastslot_old. -/
def hd_lastslot : hash_data := hashOf (hash_create B32 lastslot_old 32)

/-- The value mkdiff gives the variable overlap when lastscan + lenf > scan - lenb. -/
def overlapOf (lastscan scan lenf lenb : Nat) : Nat := lastscan + lenf - (scan - lenb)

/-- The 64 bytes 1 1 2 1 1 1, 4 5 6 7, 1 1 3 1 1 1 and 100 .. 147. -/
def overlap_old : List Byte :=
  [1, 1, 2, 1, 1, 1, 4, 5, 6, 7, 1, 1, 3, 1, 1, 1] ++
  (List.range 48).map (fun i => (Fin.ofNat (100 + i) : Byte))

/-- The 54 bytes 1 1 2 1 1 1 and 100 .. 147. -/
def overlap_new : List Byte :=
  [1, 1, 2, 1, 1, 1] ++ (List.range 48).map (fun i => (Fin.ofNat (100 + i) : Byte))

/-- The hash table of overlap_old. -/
def hd_overlap : hash_data := hashOf (hash_create B32 overlap_old 64)

/-- The loop of ext_fwd, returning Sf together with lenf. -/
def ext_fwd_full (M : Nat) (old : List Byte) (oldlen : Nat) (new : List Byte)
    (lastscan lastpos scan : Nat) : Nat → Nat → Nat → Nat → Nat → Res (Nat × Nat)
  | 0, _, _, Sf, lenf => .ok (lenf, Sf)
  | cnt + 1, i, s, Sf, lenf =>
    if wadd M lastscan i < scan ∧ wadd M lastpos i < oldlen then do
      let a ← rdB old (wadd M lastpos i)
      let b ← rdB new (wadd M lastscan i)
      if a = b then
        let s1 := wadd M s 1
        let i1 := wadd M i 1
        if s1 ≥ wsub M (wadd M Sf i1) s1 then
          ext_fwd_full M old oldlen new lastscan lastpos scan cnt i1 s1 (wsub M (2 * s1 % M) i1) i1
        else ext_fwd_full M old oldlen new lastscan lastpos scan cnt i1 s1 Sf lenf
      else ext_fwd_full M old oldlen new lastscan lastpos scan cnt (wadd M i 1) s Sf lenf
    else .ok (lenf, Sf)

/-- The number m(i) of positions j < i with old[lastpos + j] = new[lastscan + j]. -/
def fwdMatches (old new : List Byte) (lastpos lastscan i : Nat) : Nat :=
  (List.range i).countP (fun j => decide (old[lastpos + j]? = new[lastscan + j]?))

/-- The bsdiff score 2 * m(i) - i of the prefix of length i. -/
def fwdScore (old new : List Byte) (lastpos lastscan i : Nat) : Int :=
  2 * (fwdMatches old new lastpos lastscan i : Int) - (i : Int)

/-- The bytes of new that the literal regions of the instructions cover, in order. -/
def extra_of (new : List Byte) : List instr → List Byte
  | [] => []
  | k :: rest => (new.drop k.copyinoff).take k.copyin ++ extra_of new rest

/-- Reconstruction from plain copies: for each instruction append copyout bytes of old from
copyoutoff, then copyin bytes of the extra stream; the value is the output when the extra
stream is consumed exactly. -/
def copy_replay (old : List Byte) : List instr → List Byte → List Byte → Option (List Byte)
  | [], extra, out => if extra = [] then some out else none
  | k :: rest, extra, out =>
    if k.copyoutoff + k.copyout ≤ old.length ∧ k.copyin ≤ extra.length then
      copy_replay old rest (extra.drop k.copyin)
        (out ++ (old.drop k.copyoutoff).take k.copyout ++ extra.take k.copyin)
    else none

/-- The instruction and the three uncompressed streams for old = abcdefghijklmnop and
new = abcdXXXXefghijklmnop in hash mode with DELTAMODE_NOADDBLK. -/
def out_abc_exact : Out := { out_abc with addblk := [] }

/-- The variables of mkdiff that live across iterations of its loop, with the results
collected so far. -/
structure LState where
  scan : Nat
  lastscan : Nat
  lastpos : Nat
  out : Out

/-- The body of the loop while (lastscan < newlen) of mkdiff: the state after one iteration
entered in state st. -/
def mkdiff_body (B : Build) (fuel : Nat) (data : IndexData) (noaddblk : Bool) (req : Req)
    (old : List Byte) (oldlen : Nat) (new : List Byte) (newlen : Nat) (st : LState) :
    Res LState := do
  let M := B.M
  let (scan, pos, len, lenf, lenb) ←
    shape B fuel data noaddblk old oldlen new newlen st.scan st.lastscan st.lastpos
  let copyin := wsub M (wsub M scan lenb) (wadd M st.lastscan lenf)
  let instrs :=
    if req.instrp then
      st.out.instrs ++ [{ copyout := lenf, copyin := copyin, copyinoff := wadd M st.lastscan lenf,
                          copyoutoff := st.lastpos }]
    else st.out.instrs
  let instrblk ←
    (if req.instrblkp then do
      let b1 ← addoff M (toS M lenf)
      let b2 ← addoff M (toS M copyin)
      let b3 ← addoff M (toS M (wsub M (wsub M pos lenb) (wadd M st.lastpos lenf)))
      .ok (st.out.instrblk ++ b1 ++ b2 ++ b3)
    else .ok st.out.instrblk)
  let extrablk ←
    (if req.extrablkp then write_extra M new copyin (wadd M st.lastscan lenf) copyin st.out.extrablk
     else .ok st.out.extrablk)
  let addblk ←
    (if ¬ noaddblk ∧ req.addblkp then
      write_add M old new lenf st.lastscan st.lastpos lenf st.out.addblk
     else .ok st.out.addblk)
  .ok { scan := wadd M scan len, lastscan := wsub M scan lenb, lastpos := wsub M pos lenb,
        out := { instrs := instrs, instrblk := instrblk, addblk := addblk, extrablk := extrablk } }

/-- The state of mkdiff at the head of its loop after k full iterations, none when the loop
was left before. -/
def mkdiff_rounds (B : Build) (fuel : Nat) (data : IndexData) (noaddblk : Bool) (req : Req)
    (old : List Byte) (oldlen : Nat) (new : List Byte) (newlen : Nat) :
    Nat → LState → Res (Option LState)
  | 0, st => .ok (some st)
  | k + 1, st =>
    if st.lastscan < newlen then do
      let st1 ← mkdiff_body B fuel data noaddblk req old oldlen new newlen st
      mkdiff_rounds B fuel data noaddblk req old oldlen new newlen k st1
    else .ok none

/-- The state in which mkdiff enters its loop. -/
def mkdiff_init : LState :=
  { scan := 0, lastscan := 0, lastpos := 0,
    out := { instrs := [], instrblk := [], addblk := [], extrablk := [] } }

/-- Invariant of the loop of mkdiff after k iterations: the entry condition of an iteration
holds, and while the loop goes on scan is at least 32 * k. -/
def LInv (old new : List Byte) (k : Nat) (st : LState) : Prop :=
  LoopPre old new st.scan st.lastscan st.lastpos ∧ (st.lastscan < new.length → 32 * k ≤ st.scan)

/-- The run did not stop because the step budget of the model was used up: it returned, or it
stopped for a reason the C code has too. -/
def NoFuel {α : Type} (x : Res α) : Prop := x ≠ .error .fuel

/-- The match candidate of hash_findnext is at most one block behind scan. -/
def HNear (st : HState) : Prop := st.llen ≥ 32 → st.scan ≤ st.lscan + 16

/-- The measure that every iteration of the loop of hash_findnext decreases. -/
def hf_measure (newlen : Nat) (st : HState) : Nat :=
  16 * (newlen - st.scanstart) + (newlen - st.scan)

/-! # Properties -/

/-! ## results -/

theorem bind_ok {α β : Type} {x : Res α} {f : α → Res β} {b : β} :
    (x >>= f) = .ok b ↔ ∃ a, x = .ok a ∧ f a = .ok b := by
  cases x with
  | error e => simp [bind, Except.bind]
  | ok a => simp [bind, Except.bind]

theorem rdB_ok {a : List Byte} {i : Nat} {b : Byte} (h : rdB a i = .ok b) :
    i < a.length ∧ a[i]? = some b := by
  unfold rdB at h
  cases hx : a[i]? with
  | none => simp [hx] at h
  | some v =>
    simp [hx] at h
    subst h
    exact ⟨(List.getElem?_eq_some_iff.mp hx).1, rfl⟩

theorem rdB_of_lt {a : List Byte} {i : Nat} (h : i < a.length) : rdB a i = .ok a[i] := by
  unfold rdB
  simp [List.getElem?_eq_getElem h]


theorem Build.M_cases (B : Build) : B.M = 4294967296 ∨ B.M = 18446744073709551616 := by
  unfold Build.M
  cases B.bits64 <;> simp

theorem wadd_eq {M a b : Nat} (h : a + b < M) : wadd M a b = a + b :=
  Nat.mod_eq_of_lt h

theorem wsub_eq {M a b : Nat} (hb : b ≤ a) (ha : a < M) : wsub M a b = a - b := by
  unfold wsub
  have h1 : b % M = b := Nat.mod_eq_of_lt (by omega)
  have h2 : a + (M - b) = (a - b) + M := by omega
  rw [h1, h2, Nat.add_mod_right]
  exact Nat.mod_eq_of_lt (by omega)

theorem IsM.big {M : Nat} (hM : IsM M) : 4294967296 ≤ M := by
  rcases hM with rfl | rfl <;> omega

/-! ## matchlen -/

theorem matchlen_go_ok (old : List Byte) (po : Nat) (new : List Byte) (pn : Nat) :
    ∀ (max k r : Nat), matchlen_go old po new pn max k = .ok r →
      k ≤ r ∧ r ≤ k + max ∧ (0 < max → po + k < old.length ∧ pn + k < new.length) ∧
      (∀ t, k ≤ t → t < r → old[po + t]? = new[pn + t]? ∧ po + t < old.length) := by
  intro max
  induction max with
  | zero =>
    intro k r h
    simp [matchlen_go] at h
    subst h
    refine ⟨le_refl _, le_refl _, fun h => absurd h (by decide), ?_⟩
    intro t h1 h2
    omega
  | succ n ih =>
    intro k r h
    simp only [matchlen_go, bind_ok] at h
    obtain ⟨a, ha, b, hb, h⟩ := h
    have ha' := rdB_ok ha
    have hb' := rdB_ok hb
    by_cases hab : a ≠ b
    · simp [hab] at h
      subst h
      refine ⟨le_refl _, by omega, fun _ => ⟨ha'.1, hb'.1⟩, ?_⟩
      intro t h1 h2
      omega
    · simp only [hab, if_false] at h
      have hab' : a = b := by simpa using hab
      obtain ⟨h1, h2, _, h4⟩ := ih (k + 1) r h
      refine ⟨by omega, by omega, fun _ => ⟨ha'.1, hb'.1⟩, ?_⟩
      intro t ht1 ht2
      by_cases htk : t = k
      · subst htk
        rw [ha'.2, hb'.2, hab']
        exact ⟨rfl, ha'.1⟩
      · exact h4 t (by omega) ht2

theorem matchlen_ok {old : List Byte} {po ol : Nat} {new : List Byte} {pn nl r : Nat}
    (h : matchlen old po ol new pn nl = .ok r) :
    r ≤ ol ∧ r ≤ nl ∧ (0 < ol → 0 < nl → po < old.length ∧ pn < new.length) ∧
    (∀ t, t < r → old[po + t]? = new[pn + t]? ∧ po + t < old.length) := by
  unfold matchlen at h
  obtain ⟨_, h2, h3, h4⟩ := matchlen_go_ok old po new pn _ 0 r h
  refine ⟨?_, ?_, ?_, fun t ht => h4 t (Nat.zero_le _) ht⟩
  · split at h2 <;> omega
  · split at h2 <;> omega
  · intro h1 h5
    have := h3 (by split <;> omega)
    simpa using this

/-! ## the suffix search keeps its positions inside the buffers -/

theorem toU_lt {M : Nat} (hM : IsM M) (x : Int) : toU M x < M := by
  unfold toU
  rcases hM with rfl | rfl <;> omega

theorem suf_bsearch_ok {M : Nat} (hM : IsM M) {I : Arr Int} {old new : List Byte}
    {pn nl st en pos len pos1 : Nat} (hol : 2 * old.length < M) (hnl : 0 < nl) (hpos : pos ≤ old.length)
    (h : suf_bsearch M I old old.length new pn nl st en pos = .ok (len, pos1)) :
    len ≤ nl ∧ pos1 ≤ old.length := by
  unfold suf_bsearch at h
  by_cases hse : st > en
  · simp [hse] at h
    omega
  · simp only [hse, if_false, bind_ok] at h
    obtain ⟨⟨st1, en1⟩, _, ist, _, pst, hpst, x, hx, ien, _, pen, hpen, y, hy, h⟩ := h
    simp only [Except.ok.injEq, Prod.mk.injEq] at h
    obtain ⟨hlen, hp⟩ := h
    have hx' := matchlen_ok hx
    have hy' := matchlen_ok hy
    have key : ∀ (i : Int) (p r : Nat), ptr i = .ok p →
        matchlen old p (wsub M old.length (toU M i)) new pn nl = .ok r →
        toU M i ≤ old.length := by
      intro i p r hp hm
      have hm' := matchlen_ok hm
      unfold ptr at hp
      by_cases hi : i < 0
      · simp [hi] at hp
      · simp [hi] at hp
        subst hp
        have hu := toU_lt hM i
        by_cases hw : wsub M old.length (toU M i) = 0
        · unfold wsub at hw
          rcases hM with rfl | rfl <;> omega
        · have := (hm'.2.2.1 (by omega) hnl).1
          unfold toU
          rcases hM with rfl | rfl <;> omega
    have k1 := key ist pst x hpst hx
    have k2 := key ien pen y hpen hy
    constructor
    · rw [← hlen]; split <;> omega
    · rw [← hp]; split <;> assumption

theorem sf_loop_ok {M : Nat} (hM : IsM M) (sd : suf_data) {old new : List Byte} (lo : Nat)
    (hol : 2 * old.length < M) (hnl : 2 * new.length < M) :
    ∀ (cnt : Nat) (st st1 : SState), st.scan ≤ new.length → st.pos ≤ old.length →
      sf_loop M sd old old.length new new.length lo cnt st = .ok st1 →
      st.scan ≤ st1.scan ∧ st1.scan ≤ new.length ∧ st1.pos ≤ old.length ∧
      (st1.scan < new.length → st1.scan + st1.len ≤ new.length) := by
  intro cnt
  induction cnt with
  | zero =>
    intro st st1 hs hp h
    unfold sf_loop at h
    by_cases hlt : st.scan < new.length
    · simp [hlt] at h
    · simp [hlt] at h
      subst h
      exact ⟨le_refl _, hs, hp, fun h => absurd h hlt⟩
  | succ n ih =>
    intro st st1 hs hp h
    unfold sf_loop at h
    by_cases hlt : st.scan < new.length
    · simp only [hlt, if_true, bind_ok] at h
      obtain ⟨c, _, f0, _, f1, _, ⟨len, pos⟩, hb, oldscore, _, h⟩ := h
      have hws : wsub M new.length st.scan = new.length - st.scan :=
        wsub_eq (by omega) (by omega)
      have hnl0 : 0 < wsub M new.length st.scan := by
        rw [hws]; omega
      have hb' := suf_bsearch_ok hM hol hnl0 hp hb
      have hlen : st.scan + len ≤ new.length := by
        have := hb'.1
        rw [hws] at this
        omega
      have hlim : wadd M st.scan len = st.scan + len := by
        exact wadd_eq (by omega)
      simp only [hlim] at h
      by_cases h1 : len ≠ 0 ∧ len = oldscore
      · rw [if_pos h1] at h
        have := ih _ st1 (by simpa using hlen) (by simpa using hb'.2) h
        simp only at this
        omega
      · rw [if_neg h1] at h
        by_cases h2 : len > wadd M oldscore 32
        · rw [if_pos h2] at h
          simp only [Except.ok.injEq] at h
          subst h
          exact ⟨le_refl _, hs, hb'.2, fun _ => hlen⟩
        · rw [if_neg h2] at h
          simp only [bind_ok] at h
          obtain ⟨hit, _, h⟩ := h
          have h1' : wadd M st.scan 1 = st.scan + 1 := by
            exact wadd_eq (by omega)
          have := ih _ st1 (by simp only [h1']; omega) (by simpa using hb'.2) h
          simp only [h1'] at this
          omega
    · simp [hlt] at h
      subst h
      exact ⟨le_refl _, hs, hp, fun h => absurd h hlt⟩


theorem suf_findnext_ok {M : Nat} (hM : IsM M) (sd : suf_data) {old new : List Byte}
    (lo scan0 : Nat) (r : Nat × Nat × Nat)
    (hol : 2 * old.length < M) (hnl : 2 * new.length < M) (hs : scan0 ≤ new.length)
    (h : suf_findnext M sd old old.length new new.length lo scan0 = .ok r) :
    FindOk old.length new.length scan0 r := by
  unfold suf_findnext at h
  simp only [bind_ok] at h
  obtain ⟨st, hst, h⟩ := h
  simp only [Except.ok.injEq] at h
  subst h
  have := sf_loop_ok hM sd lo hol hnl _ _ st (by simpa using hs) (by simp) hst
  simp only at this
  exact ⟨this.1, this.2.1, fun hlt => ⟨this.2.2.1, this.2.2.2 hlt⟩⟩

theorem buzhash_go_ok (buf : List Byte) :
    ∀ (i p x r : Nat), buzhash_go buf i p x = .ok r → 0 < i → p + i ≤ buf.length := by
  intro i
  induction i with
  | zero => intro p x r _ h; omega
  | succ n ih =>
    intro p x r h _
    simp only [buzhash_go, bind_ok] at h
    obtain ⟨c, hc, h⟩ := h
    have h1 := ih _ _ _ h
    have := (rdB_ok hc).1
    by_cases hn : 0 < n
    · have := h1 hn
      omega
    · omega

theorem buzhash_ok {buf : List Byte} {p r : Nat} (h : buzhash buf p = .ok r) :
    p + 16 ≤ buf.length :=
  buzhash_go_ok buf _ _ _ _ h (by decide)

theorem memcmp_ok {a b : List Byte} {pa pb n : Nat} {c : Int} (h : memcmp a pa b pb n = .ok c) :
    pa + n ≤ a.length ∧ pb + n ≤ b.length := by
  unfold memcmp at h
  by_cases hc : pa + n ≤ a.length ∧ pb + n ≤ b.length
  · exact hc
  · simp [hc] at h


theorem hf_leftext_ok {M : Nat} (hM : IsM M) (old new : List Byte) (newlen : Nat)
    (hnl : 2 * newlen < M) :
    ∀ (i : Nat) (st st1 : HState), st.scan + st.len ≤ newlen →
      hf_leftext M old new i st = .ok st1 →
      st1.scan ≤ st.scan ∧ st.scan ≤ st1.scan + i ∧ st1.pos ≤ st.pos ∧
      st1.scan + st1.len = st.scan + st.len ∧ st1.lscan = st.lscan ∧
      st1.scanstart = st.scanstart := by
  intro i
  induction i with
  | zero =>
    intro st st1 _ h
    simp [hf_leftext] at h
    subst h
    simp
  | succ n ih =>
    intro st st1 hsl h
    unfold hf_leftext at h
    by_cases hc : st.pos ≠ 0 ∧ st.scan ≠ 0
    · rw [if_pos hc] at h
      simp only [bind_ok] at h
      obtain ⟨a, _, b, _, h⟩ := h
      by_cases hab : a = b
      · rw [if_pos hab] at h
        have hw : wadd M st.len 1 = st.len + 1 := by
          exact wadd_eq (by omega)
        have := ih _ st1 (by simp only [hw]; omega) h
        simp only [hw] at this
        omega
      · rw [if_neg hab] at h
        simp only [Except.ok.injEq] at h
        subst h
        simp
    · rw [if_neg hc] at h
      simp only [Except.ok.injEq] at h
      subst h
      simp

theorem hf_oldscore_ok {M : Nat} {old : List Byte} {oldlen : Nat} {new : List Byte} {lo : Nat}
    {st st1 : HState} (h : hf_oldscore M old oldlen new lo st = .ok st1) :
    st1.scan = st.scan ∧ st1.pos = st.pos ∧ st1.len = st.len ∧ st1.lscan = st.lscan ∧
    st1.scanstart = st.scanstart := by
  unfold hf_oldscore at h
  split at h
  · simp only [bind_ok] at h
    obtain ⟨sc, _, h⟩ := h
    simp only [Except.ok.injEq] at h
    subst h
    simp
  · simp only [bind_ok] at h
    obtain ⟨hit, _, sc, _, h⟩ := h
    simp only [Except.ok.injEq] at h
    subst h
    simp

theorem hf_gotit_ok {M : Nat} (hM : IsM M) {old new : List Byte} (lo scan0 : Nat)
    (hnl : 2 * new.length < M) {st : HState} {r : Ctl × HState}
    (hinv : HInv old.length new.length scan0 st) (hll : st.llen ≥ 32)
    (h : hf_gotit M old old.length new new.length lo st = .ok r) :
    HStep old.length new.length scan0 r := by
  obtain ⟨b1, b2, b3, b4, b5⟩ := hinv.best (by omega)
  have i1 := hinv.start_ge
  unfold hf_gotit at h
  simp only at h
  split at h
  · simp only [bind_ok] at h
    obtain ⟨ssx, _, h⟩ := h
    simp only [Except.ok.injEq] at h
    subst h
    have hw : wadd M st.lscan st.llen = st.lscan + st.llen := by
      exact wadd_eq (by omega)
    simp only [HStep, hw]
    exact ⟨by simp; omega, by simp, by simpa using b3, by simp⟩
  · simp only [bind_ok] at h
    obtain ⟨st1, h1, st2, h2, h⟩ := h
    have hw : wsub M st.lscan st.scanstart = st.lscan - st.scanstart := by
      exact wsub_eq (by omega) (by omega)
    rw [hw] at h1
    have l1 := hf_leftext_ok hM old new new.length hnl _ _ st1 (by simpa using b3) h1
    simp only at l1
    have l2 := hf_oldscore_ok h2
    split at h
    · simp only [Except.ok.injEq] at h
      subst h
      simp only [HStep, HPost]
      right
      omega
    · simp only [bind_ok] at h
      obtain ⟨ssx, _, h⟩ := h
      simp only [Except.ok.injEq] at h
      subst h
      simp only [HStep]
      have e1 : wadd M st2.lscan 1 = st2.lscan + 1 := by
        exact wadd_eq (by omega)
      have e2 : st2.len > 16 * 3 + 32 →
          wadd M st2.scan (wsub M st2.len (16 * 3 + 32)) = st2.scan + (st2.len - 80) := by
        intro hgt
        rw [wsub_eq (by omega) (by omega), wadd_eq (by omega)]
      refine ⟨?_, by simp, ?_, by simp⟩
      · simp only [HSIZE]
        split
        · split
          · rw [e1]; omega
          · rename_i hgt _
            rw [e2 hgt]; omega
        · split
          · rw [e1]; omega
          · omega
      · simp only [HSIZE]
        split
        · split
          · rw [e1]; omega
          · rename_i hgt _
            rw [e2 hgt]; omega
        · split
          · rw [e1]; omega
          · omega

theorem hf_scannext_ok {M : Nat} (hM : IsM M) {old new : List Byte} (lo scan0 : Nat)
    (hnl : 2 * new.length < M) {st : HState} {r : Ctl × HState}
    (hinv : HInv old.length new.length scan0 st) (hsc : st.scan + 16 < new.length)
    (h : hf_scannext M old old.length new new.length lo st = .ok r) :
    HStep old.length new.length scan0 r := by
  unfold hf_scannext at h
  split at h
  · rename_i hc
    exact hf_gotit_ok hM lo scan0 hnl hinv hc.1 h
  · simp only [bind_ok] at h
    obtain ⟨st1, h1, h⟩ := h
    simp only [Except.ok.injEq] at h
    subst h
    unfold hf_roll at h1
    simp only [bind_ok] at h1
    obtain ⟨cin, _, cout, _, h1⟩ := h1
    simp only [Except.ok.injEq] at h1
    subst h1
    have e1 : wadd M st.scan 1 = st.scan + 1 := by
      exact wadd_eq (by omega)
    simp only [HStep, e1]
    refine ⟨hinv.start_ge, ?_, ?_, ?_⟩
    · have := hinv.start_le
      simp only; omega
    · simp only; omega
    · intro hl
      have := hinv.best hl
      simp only at this ⊢
      omega

theorem hf_double_ok {M : Nat} (hM : IsM M) {hd : hash_data} {old new : List Byte}
    {scan pos len pos1 len1 : Nat} (hol : 2 * old.length < M) (hnl : 2 * new.length < M)
    (hsc : scan + 16 < new.length) (hpos : pos ≤ old.length) (hlen : scan + len ≤ new.length)
    (hl16 : 16 ≤ len)
    (h : hf_double M hd old old.length new new.length scan pos len = .ok (pos1, len1)) :
    pos1 ≤ old.length ∧ scan + len1 ≤ new.length ∧ 16 ≤ len1 := by
  unfold hf_double at h
  split at h
  · simp only [bind_ok] at h
    obtain ⟨x, _, p0, _, p1, _, h⟩ := h
    split at h
    · split at h
      · simp only [bind_ok] at h
        obtain ⟨len2, h2, h⟩ := h
        have m := matchlen_ok h2
        split at h
        · simp only [Except.ok.injEq, Prod.mk.injEq] at h
          obtain ⟨rfl, rfl⟩ := h
          rename_i hgt
          have hw : wsub M new.length scan = new.length - scan := by
            exact wsub_eq (by omega) (by omega)
          have := (m.2.2.1 (by omega) (by omega)).1
          rw [hw] at m
          omega
        · simp only [Except.ok.injEq, Prod.mk.injEq] at h
          obtain ⟨rfl, rfl⟩ := h
          exact ⟨hpos, hlen, hl16⟩
      · simp only [Except.ok.injEq, Prod.mk.injEq] at h
        obtain ⟨rfl, rfl⟩ := h
        exact ⟨hpos, hlen, hl16⟩
    · simp only [Except.ok.injEq, Prod.mk.injEq] at h
      obtain ⟨rfl, rfl⟩ := h
      exact ⟨hpos, hlen, hl16⟩
  · simp only [Except.ok.injEq, Prod.mk.injEq] at h
    obtain ⟨rfl, rfl⟩ := h
    exact ⟨hpos, hlen, hl16⟩

theorem hf_hit_ok {M : Nat} (hM : IsM M) {hd : hash_data} {old new : List Byte} (lo scan0 : Nat)
    (hol : 2 * old.length < M) (hnl : 2 * new.length < M) {st : HState} {pos : Nat}
    {r : Ctl × HState}
    (hinv : HInv old.length new.length scan0 st) (hsc : st.scan + 16 < new.length)
    (hpos : pos + 16 ≤ old.length)
    (h : hf_hit M hd old old.length new new.length lo st pos = .ok r) :
    HStep old.length new.length scan0 r := by
  unfold hf_hit at h
  simp only [bind_ok] at h
  obtain ⟨l, hl, ⟨pos1, len1⟩, hd1, h⟩ := h
  have m := matchlen_ok hl
  have hw : wsub M (wsub M new.length st.scan) HSIZE = new.length - st.scan - 16 := by
    rw [wsub_eq (a := new.length) (by omega) (by omega)]
    exact wsub_eq (by simp only [HSIZE]; omega) (by omega)
  rw [hw] at m
  have hw2 : wadd M l HSIZE = l + 16 := by
    exact wadd_eq (by simp only [HSIZE]; omega)
  rw [hw2] at hd1
  have d := hf_double_ok hM hol hnl hsc (by omega) (by omega) (by omega) hd1
  simp only at h
  refine hf_scannext_ok hM lo scan0 hnl ?_ ?_ h
  · split
    · rename_i hgt
      refine ⟨hinv.start_ge, hinv.start_le, hinv.scan_le, ?_⟩
      intro _
      have := hinv.start_le
      simp only
      omega
    · refine ⟨hinv.start_ge, hinv.start_le, hinv.scan_le, ?_⟩
      intro hl0
      exact hinv.best hl0
  · split <;> exact hsc

theorem HInv.set_pos {oldlen newlen scan0 : Nat} {st : HState}
    (hinv : HInv oldlen newlen scan0 st) (p : Nat) :
    HInv oldlen newlen scan0 { st with pos := p } :=
  ⟨hinv.start_ge, hinv.start_le, hinv.scan_le, hinv.best⟩

theorem hf_body_ok {M : Nat} (hM : IsM M) {hd : hash_data} {old new : List Byte} (lo scan0 : Nat)
    (hol : 2 * old.length < M) (hnl : 2 * new.length < M) (h16 : 16 ≤ new.length)
    {st : HState} {r : Ctl × HState}
    (hinv : HInv old.length new.length scan0 st)
    (h : hf_body M hd old old.length new new.length lo st = .ok r) :
    HStep old.length new.length scan0 r := by
  have hw : wsub M new.length HSIZE = new.length - 16 := by
    exact wsub_eq (by simp only [HSIZE]; omega) (by omega)
  unfold hf_body at h
  rw [hw] at h
  split at h
  · split at h
    · rename_i hll
      exact hf_gotit_ok hM lo scan0 hnl hinv hll h
    · simp only [Except.ok.injEq] at h
      subst h
      simp only [HStep, HPost]
      left
      omega
  · rename_i hsc
    have hsc' : st.scan + 16 < new.length := by omega
    simp only [bind_ok] at h
    obtain ⟨p, _, h⟩ := h
    split at h
    · exact hf_scannext_ok hM lo scan0 hnl (hinv.set_pos p) hsc' h
    · simp only [bind_ok] at h
      obtain ⟨c, hc, h⟩ := h
      split at h
      · simp only [bind_ok] at h
        obtain ⟨q, _, h⟩ := h
        split at h
        · exact hf_scannext_ok hM lo scan0 hnl (hinv.set_pos q) hsc' h
        · simp only [bind_ok] at h
          obtain ⟨c2, hc2, h⟩ := h
          split at h
          · exact hf_scannext_ok hM lo scan0 hnl (hinv.set_pos (q - 1)) hsc' h
          · exact hf_hit_ok hM lo scan0 hol hnl hinv hsc' (memcmp_ok hc2).1 h
      · exact hf_hit_ok hM lo scan0 hol hnl hinv hsc' (memcmp_ok hc).1 h

theorem hf_loop_ok {M : Nat} (hM : IsM M) {hd : hash_data} {old new : List Byte} (lo scan0 : Nat)
    (hol : 2 * old.length < M) (hnl : 2 * new.length < M) (h16 : 16 ≤ new.length) :
    ∀ (fuel : Nat) (st st1 : HState), HInv old.length new.length scan0 st →
      hf_loop M hd old old.length new new.length lo fuel st = .ok st1 →
      HPost old.length new.length scan0 st1 := by
  intro fuel
  induction fuel with
  | zero => intro st st1 _ h; simp [hf_loop] at h
  | succ n ih =>
    intro st st1 hinv h
    simp only [hf_loop, bind_ok] at h
    obtain ⟨⟨c, st2⟩, hb, h⟩ := h
    have hs := hf_body_ok hM lo scan0 hol hnl h16 hinv hb
    cases c with
    | brk =>
      simp only [Except.ok.injEq] at h
      subst h
      exact hs
    | next => exact ih _ _ hs h

theorem hash_findnext_ok {M : Nat} (hM : IsM M) {hd : hash_data} {old new : List Byte}
    (fuel lo scan0 : Nat) (r : Nat × Nat × Nat)
    (hol : 2 * old.length < M) (hnl : 2 * new.length < M) (hs : scan0 ≤ new.length)
    (h : hash_findnext M fuel hd old old.length new new.length lo scan0 = .ok r) :
    FindOk old.length new.length scan0 r := by
  unfold hash_findnext at h
  simp only [bind_ok] at h
  obtain ⟨ssx, hssx, st, hst, h⟩ := h
  have h16 : 16 ≤ new.length := by
    by_contra hlt
    have hw : scan0 ≤ wsub M new.length HSIZE := by
      have hb := hM.big
      unfold wsub
      rw [Nat.mod_eq_of_lt (by simp only [HSIZE]; omega : HSIZE < M),
        Nat.mod_eq_of_lt (by simp only [HSIZE]; omega)]
      simp only [HSIZE]
      omega
    rw [if_pos hw] at hssx
    have := buzhash_ok hssx
    omega
  have hw : wsub M new.length HSIZE = new.length - 16 := by
    exact wsub_eq (by simp only [HSIZE]; omega) (by omega)
  rw [hw] at h
  have hp := hf_loop_ok hM lo scan0 hol hnl h16 fuel _ st
    ⟨le_refl _, le_refl _, hs, fun h => absurd h (by simp)⟩ hst
  split at h
  · simp only [Except.ok.injEq] at h
    subst h
    exact ⟨hs, le_refl _, fun h => absurd h (lt_irrefl _)⟩
  · simp only [Except.ok.injEq] at h
    subst h
    rcases hp with hp | hp
    · omega
    · exact ⟨hp.1, by simp only; omega, fun _ => ⟨hp.2.2, hp.2.1⟩⟩

theorem dm_findnext_ok (B : Build) (fuel : Nat) (data : IndexData) {old new : List Byte}
    (lo scan0 : Nat) (r : Nat × Nat × Nat)
    (hol : 2 * old.length < B.M) (hnl : 2 * new.length < B.M) (hs : scan0 ≤ new.length)
    (h : dm_findnext B fuel data old old.length new new.length lo scan0 = .ok r) :
    FindOk old.length new.length scan0 r := by
  cases data with
  | suf sd => exact suf_findnext_ok B.M_cases sd lo scan0 r hol hnl hs h
  | hash hd => exact hash_findnext_ok B.M_cases fuel lo scan0 r hol hnl hs h

theorem ext_fwd_ok {M : Nat} (hM : IsM M) {old new : List Byte} {oldlen lastscan lastpos scan : Nat}
    (hsc : 2 * scan < M) (hol : 2 * oldlen < M) (hls : lastscan ≤ scan) (hlp : lastpos ≤ oldlen) :
    ∀ (cnt i s Sf lenf r : Nat), lenf ≤ i → i + cnt ≤ scan - lastscan → lastpos + lenf ≤ oldlen →
      ext_fwd M old oldlen new lastscan lastpos scan cnt i s Sf lenf = .ok r →
      r ≤ scan - lastscan ∧ lastpos + r ≤ oldlen := by
  intro cnt
  induction cnt with
  | zero =>
    intro i s Sf lenf r h1 h2 h3 h
    simp only [ext_fwd, Except.ok.injEq] at h
    subst h
    omega
  | succ n ih =>
    intro i s Sf lenf r h1 h2 h3 h
    unfold ext_fwd at h
    have e1 : wadd M lastscan i = lastscan + i := by
      exact wadd_eq (by omega)
    have e2 : wadd M lastpos i = lastpos + i := by
      exact wadd_eq (by omega)
    have e3 : wadd M i 1 = i + 1 := by
      exact wadd_eq (by omega)
    simp only [e1, e2, e3] at h
    split at h
    · rename_i hg
      simp only [bind_ok] at h
      obtain ⟨a, _, b, _, h⟩ := h
      split at h
      · split at h
        · exact ih _ _ _ _ r (le_refl _) (by omega) (by omega) h
        · exact ih _ _ _ _ r (by omega) (by omega) h3 h
      · exact ih _ _ _ _ r (by omega) (by omega) h3 h
    · simp only [Except.ok.injEq] at h
      subst h
      omega

theorem ext_fwd_exact_ok {M : Nat} (hM : IsM M) {old new : List Byte}
    {oldlen lastscan lastpos scan : Nat}
    (hsc : 2 * scan < M) (hol : 2 * oldlen < M) (hls : lastscan ≤ scan) (hlp : lastpos ≤ oldlen) :
    ∀ (cnt i r : Nat), i + cnt ≤ scan - lastscan → lastpos + i ≤ oldlen →
      (∀ t, t < i → old[lastpos + t]? = new[lastscan + t]?) →
      ext_fwd_exact M old oldlen new lastscan lastpos scan cnt i = .ok r →
      r ≤ scan - lastscan ∧ lastpos + r ≤ oldlen ∧
      (∀ t, t < r → old[lastpos + t]? = new[lastscan + t]?) := by
  intro cnt
  induction cnt with
  | zero =>
    intro i r h2 h3 h4 h
    simp only [ext_fwd_exact, Except.ok.injEq] at h
    subst h
    exact ⟨by omega, h3, h4⟩
  | succ n ih =>
    intro i r h2 h3 h4 h
    unfold ext_fwd_exact at h
    have e1 : wadd M lastscan i = lastscan + i := by
      exact wadd_eq (by omega)
    have e2 : wadd M lastpos i = lastpos + i := by
      exact wadd_eq (by omega)
    have e3 : wadd M i 1 = i + 1 := by
      exact wadd_eq (by omega)
    simp only [e1, e2, e3] at h
    split at h
    · rename_i hg
      simp only [bind_ok] at h
      obtain ⟨a, ha, b, hb, h⟩ := h
      split at h
      · simp only [Except.ok.injEq] at h
        subst h
        exact ⟨by omega, h3, h4⟩
      · rename_i hab
        have hab' : a = b := by simpa using hab
        refine ih _ r (by omega) (by omega) ?_ h
        intro t ht
        by_cases hti : t = i
        · subst hti
          rw [(rdB_ok ha).2, (rdB_ok hb).2, hab']
        · exact h4 t (by omega)
    · simp only [Except.ok.injEq] at h
      subst h
      exact ⟨by omega, h3, h4⟩

theorem ext_bwd_ok {M : Nat} (hM : IsM M) {old new : List Byte} {lastscan scan pos : Nat}
    (hsc : 2 * scan < M) (hpm : 2 * pos < M) (hls : lastscan ≤ scan) :
    ∀ (cnt i s Sb lenb r : Nat), i + cnt ≤ pos + 1 → lenb ≤ scan - lastscan → lenb ≤ pos →
      ext_bwd M old new lastscan scan pos cnt i s Sb lenb = .ok r →
      r ≤ scan - lastscan ∧ r ≤ pos := by
  intro cnt
  induction cnt with
  | zero =>
    intro i s Sb lenb r h1 h2 h3 h
    simp only [ext_bwd, Except.ok.injEq] at h
    subst h
    omega
  | succ n ih =>
    intro i s Sb lenb r h1 h2 h3 h
    unfold ext_bwd at h
    have e1 : wadd M lastscan i = lastscan + i := by
      exact wadd_eq (by omega)
    have e3 : wadd M i 1 = i + 1 := by
      exact wadd_eq (by omega)
    simp only [e1, e3] at h
    split at h
    · rename_i hg
      simp only [bind_ok] at h
      obtain ⟨a, _, b, _, h⟩ := h
      split at h
      · split at h
        · exact ih _ _ _ _ r (by omega) (by omega) (by omega) h
        · exact ih _ _ _ _ r (by omega) h2 h3 h
      · exact ih _ _ _ _ r (by omega) h2 h3 h
    · simp only [Except.ok.injEq] at h
      subst h
      omega

theorem ext_split_ok {M : Nat} (hM : IsM M) {old new : List Byte}
    {lastscan lastpos scan pos lenf lenb overlap : Nat} (hov : 2 * overlap < M) :
    ∀ (cnt i s Sb Ss lens r : Nat), i + cnt ≤ overlap → lens ≤ i →
      ext_split M old new lastscan lastpos scan pos lenf lenb overlap cnt i s Sb Ss lens = .ok r →
      r ≤ overlap := by
  intro cnt
  induction cnt with
  | zero =>
    intro i s Sb Ss lens r h1 h2 h
    simp only [ext_split, Except.ok.injEq] at h
    subst h
    omega
  | succ n ih =>
    intro i s Sb Ss lens r h1 h2 h
    unfold ext_split at h
    have e3 : wadd M i 1 = i + 1 := by
      exact wadd_eq (by omega)
    simp only [bind_ok, e3] at h
    obtain ⟨a, _, b, _, c, _, d, _, h⟩ := h
    generalize (if a = b then wadd M s 1 else s) = s1 at h
    generalize (if c = d then wadd M Sb 1 else Sb) = Sb1 at h
    split at h
    · exact ih _ _ _ _ _ r (by omega) (le_refl _) h
    · exact ih _ _ _ _ _ r (by omega) (by omega) h


theorem shape_ok (B : Build) (fuel : Nat) (data : IndexData) (noaddblk : Bool)
    {old new : List Byte} {scan0 lastscan lastpos : Nat} {r : Nat × Nat × Nat × Nat × Nat}
    (hol : 2 * old.length < B.M) (hnl : 2 * new.length < B.M)
    (h0 : scan0 ≤ new.length) (hls : lastscan ≤ scan0) (hlp : lastpos ≤ old.length)
    (h : shape B fuel data noaddblk old old.length new new.length scan0 lastscan lastpos = .ok r) :
    ShapeOk noaddblk old new scan0 lastscan lastpos r := by
  have hM := B.M_cases
  unfold shape at h
  simp only [bind_ok] at h
  obtain ⟨⟨scan, pos, len⟩, hf, lenf0, hlf, lenb0, hlb, h⟩ := h
  simp only at hlf hlb h
  have fo := dm_findnext_ok B fuel data _ scan0 _ hol hnl h0 hf
  obtain ⟨f1, f2, f3⟩ := fo
  simp only at f1 f2 f3
  have hlf' : lenf0 ≤ scan - lastscan ∧ lastpos + lenf0 ≤ old.length ∧
      (noaddblk = true → ∀ t, t < lenf0 → old[lastpos + t]? = new[lastscan + t]?) := by
    cases hnb : noaddblk with
    | false =>
      simp only [hnb, Bool.false_eq_true, not_false_eq_true, if_true] at hlf
      have := ext_fwd_ok hM (by omega) hol (by omega) hlp _ _ _ _ _ lenf0 (le_refl _)
        (by omega) (by omega) hlf
      exact ⟨this.1, this.2, fun h => absurd h (by simp)⟩
    | true =>
      simp only [hnb, not_true_eq_false, if_false] at hlf
      have := ext_fwd_exact_ok hM (by omega) hol (by omega) hlp _ _ lenf0
        (by omega) (by omega) (fun t ht => absurd ht (by omega)) hlf
      exact ⟨this.1, this.2.1, fun _ => this.2.2⟩
  have hlb' : lenb0 ≤ scan - lastscan ∧ lenb0 ≤ pos ∧ (¬ scan < new.length → lenb0 = 0) ∧
      (noaddblk = true → lenb0 = 0) := by
    by_cases hc : ¬ (noaddblk = true) ∧ scan < new.length
    · rw [if_pos hc] at hlb
      have hp := (f3 hc.2).1
      have := ext_bwd_ok hM (by omega) (by omega) (by omega) _ _ _ _ _ lenb0
        (by omega) (by omega) (by omega) hlb
      exact ⟨this.1, this.2, fun h => absurd hc.2 h, fun h => absurd h hc.1⟩
    · rw [if_neg hc] at hlb
      simp only [Except.ok.injEq] at hlb
      subst hlb
      refine ⟨by omega, by omega, fun _ => rfl, fun _ => rfl⟩
  have e1 : wadd B.M lastscan lenf0 = lastscan + lenf0 := by
    exact wadd_eq (by omega)
  have e2 : wsub B.M scan lenb0 = scan - lenb0 := by
    exact wsub_eq (by omega) (by omega)
  rw [e1, e2] at h
  split at h
  · rename_i hov
    simp only [bind_ok] at h
    obtain ⟨lens, hl, h⟩ := h
    simp only [Except.ok.injEq] at h
    subst h
    have e3 : wsub B.M (lastscan + lenf0) (scan - lenb0) = lastscan + lenf0 - (scan - lenb0) := by
      exact wsub_eq (by omega) (by omega)
    rw [e3] at hl ⊢
    have hl' := ext_split_ok hM (by omega) _ _ _ _ _ _ lens (by omega) (le_refl _) hl
    have e4 : wsub B.M (lastscan + lenf0 - (scan - lenb0)) lens =
        lastscan + lenf0 - (scan - lenb0) - lens := by
      exact wsub_eq (by omega) (by omega)
    have e5 : wsub B.M lenf0 (lastscan + lenf0 - (scan - lenb0) - lens) =
        lenf0 - (lastscan + lenf0 - (scan - lenb0) - lens) := by
      exact wsub_eq (by omega) (by omega)
    have e6 : wsub B.M lenb0 lens = lenb0 - lens := by
      exact wsub_eq (by omega) (by omega)
    rw [e4, e5, e6]
    refine ⟨f1, f2, f3, ?_, ?_, ?_, ?_, ?_⟩
    · simp only; omega
    · simp only; omega
    · simp only; omega
    · intro hn
      have := hlb'.2.2.1 hn
      simp only; omega
    · intro hn
      have := hlb'.2.2.2 hn
      simp only
      refine ⟨by omega, ?_⟩
      intro t ht
      exact hlf'.2.2 hn t (by omega)
  · simp only [Except.ok.injEq] at h
    subst h
    refine ⟨f1, f2, f3, ?_, hlf'.2.1, hlb'.2.1, hlb'.2.2.1, ?_⟩
    · simp only; omega
    · intro hn
      exact ⟨hlb'.2.2.2 hn, hlf'.2.2 hn⟩

theorem LoopPre.next (B : Build) {noaddblk : Bool} {old new : List Byte}
    {scan0 lastscan lastpos : Nat} {r : Nat × Nat × Nat × Nat × Nat}
    (hol : 2 * old.length < B.M) (hnl : 2 * new.length < B.M)
    (hs : ShapeOk noaddblk old new scan0 lastscan lastpos r) :
    LoopPre old new (wadd B.M r.1 r.2.2.1) (wsub B.M r.1 r.2.2.2.2) (wsub B.M r.2.1 r.2.2.2.2) ∧
    wsub B.M r.1 r.2.2.2.2 = r.1 - r.2.2.2.2 := by
  obtain ⟨s1, s2, s3, s4, s5, s6, s7, s8⟩ := hs
  have e1 : wsub B.M r.1 r.2.2.2.2 = r.1 - r.2.2.2.2 := wsub_eq (by omega) (by omega)
  refine ⟨⟨by rw [e1]; omega, ?_⟩, e1⟩
  rw [e1]
  intro hlt
  have hsc : r.1 < new.length := by
    by_contra hc
    have := s7 hc
    omega
  have f := s3 hsc
  rw [wadd_eq (by omega), wsub_eq s6 (by omega)]
  omega

theorem mkdiff_loop_instrs (B : Build) (fuel : Nat) (data : IndexData) (noaddblk : Bool)
    (req : Req) {old new : List Byte}
    (hol : 2 * old.length < B.M) (hnl : 2 * new.length < B.M) (hreq : req.instrp = true) :
    ∀ (cnt scan0 lastscan lastpos : Nat) (out out1 : Out),
      LoopPre old new scan0 lastscan lastpos →
      mkdiff_loop B fuel data noaddblk req old old.length new new.length cnt scan0 lastscan lastpos
        out = .ok out1 →
      ∃ l, out1.instrs = out.instrs ++ l ∧ Covers lastscan new.length l ∧
        ∀ k ∈ l, InstrOk noaddblk old new k := by
  intro cnt
  induction cnt with
  | zero =>
    intro scan0 lastscan lastpos out out1 hpre h
    unfold mkdiff_loop at h
    split at h
    · simp at h
    · simp only [Except.ok.injEq] at h
      subst h
      refine ⟨[], by simp, ?_, by simp⟩
      unfold Covers
      have := hpre.1
      omega
  | succ n ih =>
    intro scan0 lastscan lastpos out out1 hpre h
    unfold mkdiff_loop at h
    split at h
    · rename_i hlt
      obtain ⟨p1, p2, p3⟩ := hpre.2 hlt
      simp only [bind_ok] at h
      obtain ⟨⟨scan, pos, len, lenf, lenb⟩, hsh, ib, _, eb, _, ab, _, h⟩ := h
      have so := shape_ok B fuel data noaddblk hol hnl p2 p1 p3 hsh
      obtain ⟨hnext, e1⟩ := LoopPre.next B hol hnl so
      simp only at h hnext e1
      obtain ⟨l, hl, hc, hk⟩ := ih _ _ _ _ out1 hnext h
      obtain ⟨s1, s2, s3, s4, s5, s6, s7, s8⟩ := so
      simp only at s1 s2 s3 s4 s5 s6 s7 s8
      have e2 : wadd B.M lastscan lenf = lastscan + lenf := wadd_eq (by omega)
      have e3 : wsub B.M (scan - lenb) (lastscan + lenf) =
          scan - lenb - (lastscan + lenf) := wsub_eq (by omega) (by omega)
      simp only [hreq, if_true, e2, e1, e3] at hl
      refine ⟨⟨lenf, scan - lenb - (lastscan + lenf), lastpos, lastscan + lenf⟩ :: l,
        by rw [hl]; simp, ?_, ?_⟩
      · unfold Covers
        refine ⟨rfl, ?_⟩
        simp only
        rw [e1] at hc
        have : lastscan + lenf + (scan - lenb - (lastscan + lenf)) = scan - lenb := by omega
        rw [this]
        exact hc
      · intro k hk1
        rcases List.mem_cons.mp hk1 with rfl | hk2
        · refine ⟨by simp only; omega, by simp only; omega, by simp only; omega, ?_⟩
          intro hn t ht
          simp only at ht ⊢
          have := (s8 hn).2 t ht
          rw [this]
          congr 1
          omega
        · exact hk k hk2
    · simp only [Except.ok.injEq] at h
      subst h
      refine ⟨[], by simp, ?_, by simp⟩
      unfold Covers
      have := hpre.1
      omega

theorem select_mode_ok {B : Build} {mode : Int} {dm : deltamode} {nb : Bool}
    (h : select_mode B mode = .ok (dm, nb)) :
    nb = decide (Int.land mode B.DELTAMODE_NOADDBLK ≠ 0) := by
  unfold select_mode at h
  simp only at h
  split at h
  · simp at h
  · simp only [Except.ok.injEq, Prod.mk.injEq] at h
    exact h.2.symm

/-- The run of mkdiff splits into the mode lookup, the index build and the loop. -/
theorem mkdiff_ok {B : Build} {fuel : Nat} {mode : Int} {old new : List Byte} {req : Req}
    {out : Out} (h : mkdiff B fuel mode old new req = .ok out) :
    ∃ dm data, select_mode B mode = .ok (dm, decide (Int.land mode B.DELTAMODE_NOADDBLK ≠ 0)) ∧
      dm_create B fuel dm old old.length = .ok (some data) ∧
      mkdiff_loop B fuel data (decide (Int.land mode B.DELTAMODE_NOADDBLK ≠ 0)) req old old.length
        new new.length fuel 0 0 0 { instrs := [], instrblk := [], addblk := [], extrablk := [] }
        = .ok out := by
  unfold mkdiff at h
  simp only [bind_ok] at h
  obtain ⟨⟨dm, nb⟩, hs, h⟩ := h
  have hnb := select_mode_ok hs
  subst hnb
  unfold mkdiff_run at h
  simp only [bind_ok] at h
  obtain ⟨data, hd, h⟩ := h
  cases data with
  | none => simp at h
  | some d => exact ⟨dm, d, hs, hd, h⟩

theorem LoopPre.init (old new : List Byte) : LoopPre old new 0 0 0 :=
  ⟨Nat.zero_le _, fun _ => ⟨le_refl _, Nat.zero_le _, Nat.zero_le _⟩⟩

theorem mkdiff_instrs {B : Build} {fuel : Nat} {mode : Int} {old new : List Byte} {req : Req}
    {out : Out} (hol : 2 * old.length < B.M) (hnl : 2 * new.length < B.M)
    (hreq : req.instrp = true) (h : mkdiff B fuel mode old new req = .ok out) :
    Covers 0 new.length out.instrs ∧
    ∀ k ∈ out.instrs, InstrOk (decide (Int.land mode B.DELTAMODE_NOADDBLK ≠ 0)) old new k := by
  obtain ⟨dm, data, _, _, hl⟩ := mkdiff_ok h
  obtain ⟨l, h1, h2, h3⟩ := mkdiff_loop_instrs B fuel data _ req hol hnl hreq _ _ _ _ _ out
    (LoopPre.init old new) hl
  simp only [List.nil_append] at h1
  rw [h1]
  exact ⟨h2, h3⟩

theorem Covers.sum : ∀ (l : List instr) (a b : Nat), Covers a b l →
    a + (l.map (fun k => k.copyout + k.copyin)).sum = b := by
  intro l
  induction l with
  | nil => intro a b h; simpa [Covers] using h
  | cons k rest ih =>
    intro a b h
    obtain ⟨h1, h2⟩ := h
    have := ih _ _ h2
    simp only [List.map_cons, List.sum_cons]
    omega

theorem Covers.chain : ∀ (l1 : List instr) (a b : Nat) (k1 k2 : instr) (l2 : List instr),
    Covers a b (l1 ++ k1 :: k2 :: l2) →
    k2.copyinoff = k1.copyinoff + k1.copyin + k2.copyout := by
  intro l1
  induction l1 with
  | nil =>
    intro a b k1 k2 l2 h
    obtain ⟨_, h2, _⟩ := h
    exact h2
  | cons k rest ih =>
    intro a b k1 k2 l2 h
    exact ih _ _ k1 k2 l2 h.2

/-- C2: when mkdiff completes, its instructions cover new in order without gaps: the first
diff-copy region starts at 0, each next one starts where the previous literal region ends,
the last literal region ends at newlen, and the copyout + copyin values add up to newlen. -/
theorem mkdiff_covers_new (B : Build) (fuel : Nat) (mode : Int) (old new : List Byte) (req : Req)
    (out : Out) (hol : 2 * old.length < B.M) (hnl : 2 * new.length < B.M)
    (hreq : req.instrp = true) (h : mkdiff B fuel mode old new req = .ok out) :
    Covers 0 new.length out.instrs ∧
    (out.instrs.map (fun k => k.copyout + k.copyin)).sum = new.length := by
  have hc := (mkdiff_instrs hol hnl hreq h).1
  refine ⟨hc, ?_⟩
  have := Covers.sum _ _ _ hc
  omega

theorem mkdiff_covers_new_witness :
    mkdiff B32 40 B32.DELTAMODE_HASH abc16 abcX20 Req.all = .ok out_abc ∧
    Covers 0 20 out_abc.instrs ∧
    (out_abc.instrs.map (fun k => k.copyout + k.copyin)).sum = 20 := by
  have h : mkdiff B32 40 B32.DELTAMODE_HASH abc16 abcX20 Req.all = .ok out_abc := by decide!
  exact ⟨h, mkdiff_covers_new B32 40 B32.DELTAMODE_HASH abc16 abcX20 Req.all out_abc
    (by decide) (by decide) rfl h⟩

/-- C3 (as amended): for consecutive instructions k, k+1 emitted by mkdiff,
copyinoff(k+1) = copyinoff(k) + copyin(k) + copyout(k+1). -/
theorem mkdiff_consecutive (B : Build) (fuel : Nat) (mode : Int) (old new : List Byte) (req : Req)
    (out : Out) (hol : 2 * old.length < B.M) (hnl : 2 * new.length < B.M)
    (hreq : req.instrp = true) (h : mkdiff B fuel mode old new req = .ok out)
    (l1 : List instr) (k1 k2 : instr) (l2 : List instr) (hk : out.instrs = l1 ++ k1 :: k2 :: l2) :
    k2.copyinoff = k1.copyinoff + k1.copyin + k2.copyout := by
  have hc := (mkdiff_instrs hol hnl hreq h).1
  rw [hk] at hc
  exact Covers.chain _ _ _ _ _ _ hc

theorem mkdiff_consecutive_witness :
    mkdiff B32 40 B32.DELTAMODE_HASH old48 new49 Req.all = .ok out_49 ∧
    out_49.instrs = [] ++ ⟨0, 1, 0, 0⟩ :: ⟨48, 0, 0, 49⟩ :: [] ∧
    (⟨48, 0, 0, 49⟩ : instr).copyinoff =
      (⟨0, 1, 0, 0⟩ : instr).copyinoff + (⟨0, 1, 0, 0⟩ : instr).copyin +
        (⟨48, 0, 0, 49⟩ : instr).copyout := by
  have h : mkdiff B32 40 B32.DELTAMODE_HASH old48 new49 Req.all = .ok out_49 := by decide!
  exact ⟨h, rfl, mkdiff_consecutive B32 40 B32.DELTAMODE_HASH old48 new49 Req.all out_49
    (by decide) (by decide) rfl h [] ⟨0, 1, 0, 0⟩ ⟨48, 0, 0, 49⟩ [] rfl⟩

/-- C4 (as amended): every instruction emitted by mkdiff satisfies
copyoutoff + copyout <= oldlen, copyinoff + copyin <= newlen and copyout <= copyinoff. -/
theorem mkdiff_bounds (B : Build) (fuel : Nat) (mode : Int) (old new : List Byte) (req : Req)
    (out : Out) (hol : 2 * old.length < B.M) (hnl : 2 * new.length < B.M)
    (hreq : req.instrp = true) (h : mkdiff B fuel mode old new req = .ok out)
    (k : instr) (hk : k ∈ out.instrs) :
    k.copyoutoff + k.copyout ≤ old.length ∧ k.copyinoff + k.copyin ≤ new.length ∧
    k.copyout ≤ k.copyinoff := by
  have := (mkdiff_instrs hol hnl hreq h).2 k hk
  exact ⟨this.out_le, this.in_le, this.out_in⟩

theorem mkdiff_bounds_witness :
    mkdiff B32 40 B32.DELTAMODE_HASH old48 new49 Req.all = .ok out_49 ∧
    (⟨48, 0, 0, 49⟩ : instr) ∈ out_49.instrs ∧
    (⟨48, 0, 0, 49⟩ : instr).copyoutoff + (⟨48, 0, 0, 49⟩ : instr).copyout ≤ old48.length ∧
    (⟨48, 0, 0, 49⟩ : instr).copyinoff + (⟨48, 0, 0, 49⟩ : instr).copyin ≤ new49.length ∧
    (⟨48, 0, 0, 49⟩ : instr).copyout ≤ (⟨48, 0, 0, 49⟩ : instr).copyinoff := by
  have h : mkdiff B32 40 B32.DELTAMODE_HASH old48 new49 Req.all = .ok out_49 := by decide!
  exact ⟨h, by decide, mkdiff_bounds B32 40 B32.DELTAMODE_HASH old48 new49 Req.all out_49
    (by decide) (by decide) rfl h ⟨48, 0, 0, 49⟩ (by decide)⟩

theorem mkdiff_loop_done (B : Build) (fuel : Nat) (data : IndexData) (nb : Bool) (req : Req)
    (old new : List Byte) (cnt scan0 lastscan lastpos : Nat) (out : Out)
    (h : ¬ lastscan < new.length) :
    mkdiff_loop B fuel data nb req old old.length new new.length cnt scan0 lastscan lastpos out
      = .ok out := by
  cases cnt <;> simp [mkdiff_loop, h]

theorem steps_loop_done (B : Build) (fuel : Nat) (old new : List Byte) (cnt : Nat) (sd : stepdata)
    (scan0 lastpos lastscan : Nat) (acc : List instr) (h : ¬ lastscan < new.length) :
    steps_loop B fuel old new cnt sd scan0 lastpos lastscan acc = .ok acc := by
  cases cnt <;> simp [steps_loop, h]


theorem mkdiff_step_eq (B : Build) (fuel : Nat) (sd : stepdata) (data : IndexData)
    (old new : List Byte) (scan0 lastpos lastscan : Nat)
    (hd : dm_create B fuel sd.dm old old.length = .ok (some data))
    (hsd : sd.data = none ∨ sd.data = some data) :
    mkdiff_step B fuel sd old old.length new new.length scan0 lastpos lastscan =
      (shape B fuel data sd.noaddblk old old.length new new.length scan0 lastscan lastpos).map
        (step_result B.M sd data new.length lastscan lastpos) := by
  unfold mkdiff_step
  cases hs : shape B fuel data sd.noaddblk old old.length new new.length scan0 lastscan lastpos with
  | error e =>
    rcases hsd with h | h <;> simp [h, hd, hs, bind, Except.bind, Except.map]
  | ok r =>
    obtain ⟨scan, pos, len, lenf, lenb⟩ := r
    rcases hsd with h | h <;> simp [h, hd, hs, bind, Except.bind, Except.map, step_result]

theorem steps_of_loop (B : Build) (fuel : Nat) (data : IndexData) (nb : Bool) (req : Req)
    (dm : deltamode) {old new : List Byte}
    (hol : 2 * old.length < B.M) (hnl : 2 * new.length < B.M) (hreq : req.instrp = true)
    (hd : dm_create B fuel dm old old.length = .ok (some data)) :
    ∀ (cnt scan0 lastscan lastpos : Nat) (out out1 : Out) (sd : stepdata) (acc : List instr),
      LoopPre old new scan0 lastscan lastpos → sd.dm = dm → sd.noaddblk = nb →
      (sd.data = none ∨ sd.data = some data) →
      mkdiff_loop B fuel data nb req old old.length new new.length cnt scan0 lastscan lastpos out
        = .ok out1 →
      ∃ l, out1.instrs = out.instrs ++ l ∧
        steps_loop B fuel old new cnt sd scan0 lastpos lastscan acc = .ok (acc ++ l) := by
  intro cnt
  induction cnt with
  | zero =>
    intro scan0 lastscan lastpos out out1 sd acc hpre _ _ _ h
    unfold mkdiff_loop at h
    split at h
    · simp at h
    · rename_i hlt
      simp only [Except.ok.injEq] at h
      subst h
      exact ⟨[], by simp, by simp [steps_loop, hlt]⟩
  | succ n ih =>
    intro scan0 lastscan lastpos out out1 sd acc hpre hdm hnb hsd h
    unfold mkdiff_loop at h
    split at h
    · rename_i hlt
      obtain ⟨p1, p2, p3⟩ := hpre.2 hlt
      simp only [bind_ok] at h
      obtain ⟨⟨scan, pos, len, lenf, lenb⟩, hsh, ib, _, eb, _, ab, _, h⟩ := h
      have so := shape_ok B fuel data nb hol hnl p2 p1 p3 hsh
      obtain ⟨hnext, e1⟩ := LoopPre.next B hol hnl so
      simp only at h hnext e1
      have hstep := mkdiff_step_eq B fuel sd data old new scan0 lastpos lastscan (hdm ▸ hd) hsd
      rw [hnb, hsh] at hstep
      unfold steps_loop
      rw [if_pos hlt, hstep]
      simp only [Except.map, step_result, hreq, if_true, bind, Except.bind] at h ⊢
      by_cases hterm : scan = new.length
      · have hlb : lenb = 0 := so.last (by simp only; omega)
        have hdone : ¬ wsub B.M scan lenb < new.length := by rw [e1, hlb]; omega
        rw [mkdiff_loop_done _ _ _ _ _ _ _ _ _ _ _ _ hdone] at h
        rw [steps_loop_done _ _ _ _ _ _ _ _ _ _ hdone]
        simp only [Except.ok.injEq] at h
        subst h
        exact ⟨_, rfl, rfl⟩
      · simp only [hterm, ne_eq, not_false_eq_true, if_true]
        obtain ⟨l, hl, hs⟩ := ih _ _ _ _ out1 { sd with data := some data }
          (acc ++ [⟨lenf, wsub B.M (wsub B.M scan lenb) (wadd B.M lastscan lenf), lastpos,
            wadd B.M lastscan lenf⟩]) hnext hdm hnb (Or.inr rfl) h
        refine ⟨⟨lenf, wsub B.M (wsub B.M scan lenb) (wadd B.M lastscan lenf), lastpos,
            wadd B.M lastscan lenf⟩ :: l, by rw [hl]; simp, ?_⟩
        rw [hs]
        simp
    · rename_i hlt
      simp only [Except.ok.injEq] at h
      subst h
      exact ⟨[], by simp, by simp [steps_loop, hlt]⟩

theorem loop_of_steps (B : Build) (fuel : Nat) (data : IndexData) (nb : Bool)
    (dm : deltamode) {old new : List Byte}
    (hol : 2 * old.length < B.M) (hnl : 2 * new.length < B.M)
    (hd : dm_create B fuel dm old old.length = .ok (some data)) :
    ∀ (cnt scan0 lastscan lastpos : Nat) (out : Out) (sd : stepdata) (acc res : List instr),
      LoopPre old new scan0 lastscan lastpos → sd.dm = dm → sd.noaddblk = nb →
      (sd.data = none ∨ sd.data = some data) →
      steps_loop B fuel old new cnt sd scan0 lastpos lastscan acc = .ok res →
      ∃ out1 l, mkdiff_loop B fuel data nb Req.instrOnly old old.length new new.length cnt scan0
          lastscan lastpos out = .ok out1 ∧ res = acc ++ l ∧ out1.instrs = out.instrs ++ l := by
  intro cnt
  induction cnt with
  | zero =>
    intro scan0 lastscan lastpos out sd acc res hpre _ _ _ h
    unfold steps_loop at h
    split at h
    · simp at h
    · rename_i hlt
      simp only [Except.ok.injEq] at h
      subst h
      exact ⟨out, [], by simp [mkdiff_loop, hlt], by simp, by simp⟩
  | succ n ih =>
    intro scan0 lastscan lastpos out sd acc res hpre hdm hnb hsd h
    unfold steps_loop at h
    split at h
    · rename_i hlt
      obtain ⟨p1, p2, p3⟩ := hpre.2 hlt
      have hstep := mkdiff_step_eq B fuel sd data old new scan0 lastpos lastscan (hdm ▸ hd) hsd
      rw [hstep, hnb] at h
      cases hsh : shape B fuel data nb old old.length new new.length scan0 lastscan lastpos with
      | error e => rw [hsh] at h; simp [Except.map, bind, Except.bind] at h
      | ok r =>
        obtain ⟨scan, pos, len, lenf, lenb⟩ := r
        have so := shape_ok B fuel data nb hol hnl p2 p1 p3 hsh
        obtain ⟨hnext, e1⟩ := LoopPre.next B hol hnl so
        simp only at hnext e1
        rw [hsh] at h
        unfold mkdiff_loop
        rw [if_pos hlt, hsh]
        simp only [Except.map, step_result, Req.instrOnly, if_true, bind, Except.bind,
          Bool.false_eq_true, if_false, and_false] at h ⊢
        by_cases hterm : scan = new.length
        · have hlb : lenb = 0 := so.last (by simp only; omega)
          have hdone : ¬ wsub B.M scan lenb < new.length := by rw [e1, hlb]; omega
          rw [mkdiff_loop_done _ _ _ _ _ _ _ _ _ _ _ _ hdone]
          rw [steps_loop_done _ _ _ _ _ _ _ _ _ _ hdone] at h
          simp only [Except.ok.injEq] at h
          subst h
          exact ⟨_, _, rfl, rfl, rfl⟩
        · simp only [hterm, ne_eq, not_false_eq_true, if_true] at h
          obtain ⟨out1, l, h1, h2, h3⟩ := ih _ _ _
            { instrs := out.instrs ++ [⟨lenf, wsub B.M (wsub B.M scan lenb) (wadd B.M lastscan lenf),
                lastpos, wadd B.M lastscan lenf⟩],
              instrblk := out.instrblk, addblk := out.addblk, extrablk := out.extrablk }
            { sd with data := some data } _ res hnext hdm hnb (Or.inr rfl) h
          refine ⟨out1, ⟨lenf, wsub B.M (wsub B.M scan lenb) (wadd B.M lastscan lenf),
                lastpos, wadd B.M lastscan lenf⟩ :: l, h1, ?_, ?_⟩
          · rw [h2]; simp
          · rw [h3]; simp
    · rename_i hlt
      simp only [Except.ok.injEq] at h
      subst h
      exact ⟨out, [], by simp [mkdiff_loop, hlt], by simp, by simp⟩

theorem mkdiff_by_steps_of_mkdiff {B : Build} {fuel : Nat} {mode : Int} {old new : List Byte}
    {req : Req} {out : Out} (hol : 2 * old.length < B.M) (hnl : 2 * new.length < B.M)
    (hreq : req.instrp = true) (h : mkdiff B fuel mode old new req = .ok out) :
    mkdiff_by_steps B fuel mode old new = .ok out.instrs := by
  obtain ⟨dm, data, hs, hd, hl⟩ := mkdiff_ok h
  obtain ⟨l, h1, h2⟩ := steps_of_loop B fuel data _ req dm hol hnl hreq hd _ _ _ _ _ out
    { dm := dm, data := none, noaddblk := decide (Int.land mode B.DELTAMODE_NOADDBLK ≠ 0) } []
    (LoopPre.init old new) rfl rfl (Or.inl rfl) hl
  unfold mkdiff_by_steps mkdiff_step_setup
  rw [hs]
  simp only [List.nil_append] at h1 h2
  rw [h1]
  exact h2

theorem mkdiff_step_create {B : Build} {fuel : Nat} {sd : stepdata} {old : List Byte}
    {oldlen : Nat} {new : List Byte} {newlen scan0 lastpos lastscan : Nat}
    {x : stepdata × instr × Nat × Nat × Nat} (hsd : sd.data = none)
    (h : mkdiff_step B fuel sd old oldlen new newlen scan0 lastpos lastscan = .ok x) :
    ∃ data, dm_create B fuel sd.dm old oldlen = .ok (some data) := by
  unfold mkdiff_step at h
  rw [hsd] at h
  simp only [bind_ok] at h
  obtain ⟨data, ⟨r, hr, hm⟩, _⟩ := h
  cases r with
  | none => simp at hm
  | some d => exact ⟨d, hr⟩

theorem mkdiff_of_mkdiff_by_steps {B : Build} {fuel : Nat} {mode : Int} {old new : List Byte}
    {l : List instr} (hol : 2 * old.length < B.M) (hnl : 2 * new.length < B.M) (hne : new ≠ [])
    (h : mkdiff_by_steps B fuel mode old new = .ok l) :
    ∃ out, mkdiff B fuel mode old new Req.instrOnly = .ok out ∧ out.instrs = l := by
  unfold mkdiff_by_steps mkdiff_step_setup at h
  simp only [bind_ok] at h
  obtain ⟨sd, ⟨⟨dm, nb⟩, hs, hsd⟩, h⟩ := h
  simp only [Except.ok.injEq] at hsd
  subst hsd
  have hpos : 0 < new.length := List.length_pos.mpr hne
  have hd : ∃ data, dm_create B fuel dm old old.length = .ok (some data) := by
    cases fuel with
    | zero => simp [steps_loop, hpos] at h
    | succ n =>
      unfold steps_loop at h
      rw [if_pos hpos] at h
      simp only [bind_ok] at h
      obtain ⟨x, hx, _⟩ := h
      exact mkdiff_step_create rfl hx
  obtain ⟨data, hd⟩ := hd
  obtain ⟨out1, l1, h1, h2, h3⟩ := loop_of_steps B fuel data nb dm hol hnl hd _ _ _ _
    { instrs := [], instrblk := [], addblk := [], extrablk := [] }
    { dm := dm, data := none, noaddblk := nb } [] l (LoopPre.init old new) rfl rfl (Or.inl rfl) h
  refine ⟨out1, ?_, ?_⟩
  · unfold mkdiff mkdiff_run
    rw [hs]
    simp only [bind, Except.bind, hd]
    exact h1
  · simp only [List.nil_append] at h2 h3
    rw [h2, h3]

/-- C8: the stepwise driver (mkdiff_step_setup, then mkdiff_step from (0, 0, 0) while
lastscan < newlen) and mkdiff produce the same instructions: whenever mkdiff returns an
instruction array the stepwise driver returns the same list, and whenever the stepwise
driver returns a list for a non-empty new, mkdiff returns it as well. -/
theorem stepwise_agrees_with_oneshot (B : Build) (fuel : Nat) (mode : Int) (old new : List Byte)
    (hol : 2 * old.length < B.M) (hnl : 2 * new.length < B.M) :
    (∀ (req : Req) (out : Out), req.instrp = true → mkdiff B fuel mode old new req = .ok out →
      mkdiff_by_steps B fuel mode old new = .ok out.instrs) ∧
    (∀ l : List instr, new ≠ [] → mkdiff_by_steps B fuel mode old new = .ok l →
      ∃ out, mkdiff B fuel mode old new Req.instrOnly = .ok out ∧ out.instrs = l) :=
  ⟨fun _ _ hreq h => mkdiff_by_steps_of_mkdiff hol hnl hreq h,
   fun _ hne h => mkdiff_of_mkdiff_by_steps hol hnl hne h⟩

theorem stepwise_agrees_with_oneshot_witness :
    mkdiff B32 40 B32.DELTAMODE_HASH old48 new49 Req.all = .ok out_49 ∧
    mkdiff_by_steps B32 40 B32.DELTAMODE_HASH old48 new49 =
      .ok [⟨0, 1, 0, 0⟩, ⟨48, 0, 0, 49⟩] := by
  have h : mkdiff B32 40 B32.DELTAMODE_HASH old48 new49 Req.all = .ok out_49 := by decide!
  exact ⟨h, (stepwise_agrees_with_oneshot B32 40 B32.DELTAMODE_HASH old48 new49
    (by decide) (by decide)).1 Req.all out_49 rfl h⟩

theorem mkdiff_loop_addblk (B : Build) (fuel : Nat) (data : IndexData) (req : Req)
    (old : List Byte) (oldlen : Nat) (new : List Byte) (newlen : Nat) :
    ∀ (cnt scan0 lastscan lastpos : Nat) (out out1 : Out),
      mkdiff_loop B fuel data true req old oldlen new newlen cnt scan0 lastscan lastpos out
        = .ok out1 → out1.addblk = out.addblk := by
  intro cnt
  induction cnt with
  | zero =>
    intro scan0 lastscan lastpos out out1 h
    unfold mkdiff_loop at h
    split at h
    · simp at h
    · simp only [Except.ok.injEq] at h
      rw [h]
  | succ n ih =>
    intro scan0 lastscan lastpos out out1 h
    unfold mkdiff_loop at h
    split at h
    · simp only [bind_ok] at h
      obtain ⟨r, _, ib, _, eb, _, ab, hab, h⟩ := h
      have := ih _ _ _ _ _ h
      simp only [not_true_eq_false, false_and, if_false, Except.ok.injEq] at hab
      rw [this, hab]
    · simp only [Except.ok.injEq] at h
      rw [h]

/-- C6 (as amended): with DELTAMODE_NOADDBLK set, every instruction emitted by mkdiff and by
the stepwise driver describes an exact copy, the bytes old[copyoutoff + t] and
new[copyinoff - copyout + t] being equal for all t < copyout (copyout itself need not be 0),
and mkdiff writes no add block. -/
theorem noaddblk_copies_are_exact (B : Build) (fuel : Nat) (mode : Int) (old new : List Byte)
    (hol : 2 * old.length < B.M) (hnl : 2 * new.length < B.M)
    (hmode : Int.land mode B.DELTAMODE_NOADDBLK ≠ 0) :
    (∀ (req : Req) (out : Out), req.instrp = true → mkdiff B fuel mode old new req = .ok out →
      out.addblk = [] ∧
      ∀ k ∈ out.instrs, ∀ t, t < k.copyout →
        old[k.copyoutoff + t]? = new[k.copyinoff - k.copyout + t]?) ∧
    (∀ l : List instr, mkdiff_by_steps B fuel mode old new = .ok l →
      ∀ k ∈ l, ∀ t, t < k.copyout →
        old[k.copyoutoff + t]? = new[k.copyinoff - k.copyout + t]?) := by
  have hdec : decide (Int.land mode B.DELTAMODE_NOADDBLK ≠ 0) = true := by simpa using hmode
  constructor
  · intro req out hreq h
    constructor
    · obtain ⟨dm, data, _, _, hl⟩ := mkdiff_ok h
      rw [hdec] at hl
      exact mkdiff_loop_addblk B fuel data req old _ new _ _ _ _ _ _ _ hl
    · intro k hk t ht
      exact ((mkdiff_instrs hol hnl hreq h).2 k hk).exact hdec t ht
  · intro l h k hk t ht
    by_cases hne : new = []
    · subst hne
      unfold mkdiff_by_steps at h
      simp only [bind_ok] at h
      obtain ⟨sd, _, h⟩ := h
      rw [steps_loop_done _ _ _ _ _ _ _ _ _ _ (by simp)] at h
      simp only [Except.ok.injEq] at h
      subst h
      simp at hk
    · obtain ⟨out, ho, hi⟩ := mkdiff_of_mkdiff_by_steps hol hnl hne h
      subst hi
      exact ((mkdiff_instrs hol hnl rfl ho).2 k hk).exact hdec t ht

theorem noaddblk_copies_are_exact_witness :
    Int.land (B32.DELTAMODE_HASH + B32.DELTAMODE_NOADDBLK) B32.DELTAMODE_NOADDBLK ≠ 0 ∧
    mkdiff B32 40 (B32.DELTAMODE_HASH + B32.DELTAMODE_NOADDBLK) old48 new49 Req.all =
      .ok out_exact49 ∧
    out_exact49.addblk = [] ∧
    ∀ k ∈ out_exact49.instrs, ∀ t, t < k.copyout →
      old48[k.copyoutoff + t]? = new49[k.copyinoff - k.copyout + t]? := by
  have h : mkdiff B32 40 (B32.DELTAMODE_HASH + B32.DELTAMODE_NOADDBLK) old48 new49 Req.all =
      .ok out_exact49 := by decide!
  exact ⟨by decide, h, (noaddblk_copies_are_exact B32 40
    (B32.DELTAMODE_HASH + B32.DELTAMODE_NOADDBLK) old48 new49 (by decide) (by decide)
    (by decide)).1 Req.all out_exact49 rfl h⟩

theorem and_255 (x : Nat) : x &&& 255 = x % 256 :=
  Nat.and_pow_two_sub_one_eq_mod x 8

theorem or_128 (t : Nat) (ht : t < 128) : 128 ||| t = 128 + t := by
  have := Nat.mul_add_lt_is_or (i := 7) (b := t) (by simpa using ht) 1
  simpa using this.symm

theorem addoff_bytes {M : Nat} {off : Int} {b : List Byte} (h : addoff M off = .ok b) :
    b = (List.range 7).map (fun i => (Fin.ofNat ((off.natAbs >>> (8 * i)) &&& 0xff) : Byte)) ++
         [(Fin.ofNat ((if off < 0 then 0x80 else 0) ||| ((off.natAbs >>> 56) &&& 0xff)) : Byte)] := by
  unfold addoff at h
  split at h
  · simp at h
  · simp only [Except.ok.injEq] at h
    rw [← h]
    have : (if off < 0 then -off else off).toNat = off.natAbs := by
      split <;> omega
    rw [this]

theorem addoff_length {M : Nat} {off : Int} {b : List Byte} (h : addoff M off = .ok b) :
    b.length = 8 := by
  rw [addoff_bytes h]
  simp

theorem decode_addoff {M : Nat} {off : Int} {b : List Byte} (h : addoff M off = .ok b)
    (hb : off.natAbs < 2 ^ 63) : decode_off b = off := by
  rw [addoff_bytes h]
  generalize ha : off.natAbs = a at hb ⊢
  have h7 : (a >>> 56) &&& 0xff < 128 := by
    rw [and_255, Nat.shiftRight_eq_div_pow]
    omega
  unfold decode_off
  simp only [List.range, List.range.loop, List.map_cons, List.map_nil, List.cons_append,
    List.nil_append, List.getD_cons_zero, List.getD_cons_succ, List.sum_cons, List.sum_nil,
    Fin.ofNat, and_255, Nat.shiftRight_eq_div_pow]
  rw [and_255, Nat.shiftRight_eq_div_pow] at h7
  obtain ⟨t, ht⟩ : ∃ t, t = a / 2 ^ 56 % 256 := ⟨_, rfl⟩
  rw [← ht] at h7 ⊢
  have hoff : (off.natAbs : Int) = if off < 0 then -off else off := by split <;> omega
  by_cases hneg : off < 0
  · simp only [hneg, if_true] at hoff ⊢
    rw [or_128 t h7]
    norm_num at ht ⊢
    rw [if_pos (by omega)]
    omega
  · simp only [hneg, if_false, Nat.zero_or] at hoff ⊢
    norm_num at ht ⊢
    rw [if_neg (by omega)]
    omega

theorem readBytes_ok {buf : List Byte} {i n : Nat} {bs : List Byte}
    (h : readBytes buf i n = .ok bs) : i + n ≤ buf.length ∧ bs = (buf.drop i).take n := by
  unfold readBytes at h
  split at h
  · rename_i hc
    simp only [Except.ok.injEq] at h
    exact ⟨hc, h.symm⟩
  · simp at h

theorem take_drop_split (l : List Byte) (i a b : Nat) :
    (l.drop i).take (a + b) = (l.drop i).take a ++ (l.drop (i + a)).take b := by
  rw [List.take_add, List.drop_drop]

theorem write_extra_ok {M : Nat} (new : List Byte) :
    ∀ (cnt i s : Nat) (acc r : List Byte), i + s < M →
      write_extra M new cnt i s acc = .ok r → r = acc ++ (new.drop i).take s := by
  intro cnt
  induction cnt with
  | zero =>
    intro i s acc r _ h
    unfold write_extra at h
    split at h
    · simp at h
    · simp only [Except.ok.injEq] at h
      have : s = 0 := by omega
      subst this
      simp [h]
  | succ n ih =>
    intro i s acc r hb h
    unfold write_extra at h
    split at h
    · simp only [bind_ok] at h
      obtain ⟨bytes, hbytes, h⟩ := h
      obtain ⟨_, hbs⟩ := readBytes_ok hbytes
      generalize hl : (if s > 1073741824 then 1073741824 else s) = len2 at h hbs
      have hle : len2 ≤ s := by rw [← hl]; split <;> omega
      rw [wadd_eq (by omega), wsub_eq hle (by omega)] at h
      have := ih _ _ _ _ (by omega) h
      rw [this, hbs, List.append_assoc]
      congr 1
      have e : s = len2 + (s - len2) := by omega
      conv => rhs; rw [e]
      exact (take_drop_split new i len2 (s - len2)).symm
    · simp only [Except.ok.injEq] at h
      have : s = 0 := by omega
      subst this
      simp [h]

theorem add_old_append (old : List Byte) : ∀ (c1 : List Byte) (p : Int) (c2 s1 s2 : List Byte),
    add_old old p c1 = some s1 → add_old old (p + c1.length) c2 = some s2 →
    add_old old p (c1 ++ c2) = some (s1 ++ s2) := by
  intro c1
  induction c1 with
  | nil =>
    intro p c2 s1 s2 h1 h2
    simp only [add_old, Option.some.injEq] at h1
    subst h1
    simpa using h2
  | cons a rest ih =>
    intro p c2 s1 s2 h1 h2
    simp only [List.cons_append, add_old] at h1 ⊢
    split at h1
    · simp at h1
    · rename_i hp
      rw [if_neg hp]
      cases ho : old[p.toNat]? with
      | none => simp [ho] at h1
      | some o =>
        cases hr : add_old old (p + 1) rest with
        | none => simp [ho, hr] at h1
        | some r =>
          simp only [ho, hr, Option.some.injEq] at h1
          subst h1
          have h2' : add_old old (p + 1 + (rest.length : Int)) c2 = some s2 := by
            have : p + 1 + (rest.length : Int) = p + ((a :: rest).length : Int) := by
              simp only [List.length_cons]; push_cast; ring
            rw [this]; exact h2
          have hih := ih (p + 1) c2 r s2 hr h2'
          simp only [List.append_eq, ho, hih, List.cons_append]

theorem add_fill_ok {M : Nat} (old new : List Byte) (lastscan lastpos : Nat) :
    ∀ (cnt i : Nat) (acc r : List Byte), lastscan + i + cnt < M → lastpos + i + cnt < M →
      i + cnt < M →
      add_fill M old new lastscan lastpos cnt i acc = .ok r →
      ∃ c, r = acc ++ c ∧ c.length = cnt ∧
        add_old old ((lastpos + i : Nat) : Int) c = some ((new.drop (lastscan + i)).take cnt) := by
  intro cnt
  induction cnt with
  | zero =>
    intro i acc r _ _ _ h
    simp only [add_fill, Except.ok.injEq] at h
    exact ⟨[], by simp [h], rfl, by simp [add_old]⟩
  | succ n ih =>
    intro i acc r h1 h2 h3 h
    unfold add_fill at h
    simp only [bind_ok] at h
    obtain ⟨b, hb, a, ha, h⟩ := h
    rw [wadd_eq (by omega)] at hb ha h
    obtain ⟨c, hc1, hc2, hc3⟩ := ih _ _ _ (by omega) (by omega) (by omega) h
    have hb' := rdB_ok hb
    have ha' := rdB_ok ha
    refine ⟨(b - a) :: c, by rw [hc1]; simp, by simp [hc2], ?_⟩
    simp only [add_old]
    rw [if_neg (by omega)]
    have e1 : ((lastpos + i : Nat) : Int).toNat = lastpos + i := by omega
    have e2 : ((lastpos + i : Nat) : Int) + 1 = ((lastpos + (i + 1) : Nat) : Int) := by
      push_cast; ring
    rw [e1, ha'.2, e2, hc3]
    simp only [Option.some.injEq]
    have e3 : lastscan + (i + 1) = lastscan + i + 1 := by omega
    rw [e3]
    have : (new.drop (lastscan + i)).take (n + 1) =
        b :: (new.drop (lastscan + i + 1)).take n := by
      rw [List.drop_eq_getElem_cons hb'.1]
      have : new[lastscan + i] = b := by
        have := hb'.2
        rw [List.getElem?_eq_getElem hb'.1] at this
        exact Option.some.inj this
      rw [this]
      simp
    rw [this]
    congr 1
    exact add_sub_cancel a b

theorem write_add_ok {M : Nat} (old new : List Byte) :
    ∀ (cnt lastscan lastpos lenf : Nat) (acc r : List Byte), lastscan + lenf < M →
      lastpos + lenf < M → 4096 < M →
      write_add M old new cnt lastscan lastpos lenf acc = .ok r →
      ∃ c, r = acc ++ c ∧ c.length = lenf ∧
        add_old old (lastpos : Int) c = some ((new.drop lastscan).take lenf) := by
  intro cnt
  induction cnt with
  | zero =>
    intro lastscan lastpos lenf acc r _ _ _ h
    unfold write_add at h
    split at h
    · simp at h
    · simp only [Except.ok.injEq] at h
      have : lenf = 0 := by omega
      subst this
      exact ⟨[], by simp [h], rfl, by simp [add_old]⟩
  | succ n ih =>
    intro lastscan lastpos lenf acc r h1 h2 h3 h
    unfold write_add at h
    split at h
    · simp only [bind_ok] at h
      obtain ⟨chunk, hchunk, h⟩ := h
      generalize hl : (if lenf > 4096 then 4096 else lenf) = len2 at h hchunk
      have hle : len2 ≤ lenf := by rw [← hl]; split <;> omega
      obtain ⟨c1, hc1, hc2, hc3⟩ := add_fill_ok old new lastscan lastpos _ _ _ _
        (by omega) (by omega) (by omega) hchunk
      simp only [List.nil_append, Nat.add_zero] at hc1 hc3
      rw [hc1] at h
      rw [wadd_eq (by omega), wadd_eq (by omega), wsub_eq hle (by omega)] at h
      obtain ⟨c2, hd1, hd2, hd3⟩ := ih _ _ _ _ _ (by omega) (by omega) h3 h
      refine ⟨c1 ++ c2, by rw [hd1]; simp, by simp [hc2, hd2]; omega, ?_⟩
      have hd3' : add_old old ((lastpos : Int) + (c1.length : Int)) c2 =
          some ((new.drop (lastscan + len2)).take (lenf - len2)) := by
        rw [hc2]
        have : (lastpos : Int) + (len2 : Int) = ((lastpos + len2 : Nat) : Int) := by push_cast; ring
        rw [this]; exact hd3
      rw [add_old_append old c1 _ c2 _ _ hc3 hd3']
      have e : lenf = len2 + (lenf - len2) := by omega
      conv => rhs; rw [e]
      rw [take_drop_split]
    · simp only [Except.ok.injEq] at h
      have : lenf = 0 := by omega
      subst this
      exact ⟨[], by simp [h], rfl, by simp [add_old]⟩

theorem toS_small {M x : Nat} (h : 2 * x < M) : toS M x = (x : Int) := by
  unfold toS
  rw [if_pos h]

theorem toS_wsub {M u v : Nat} (hu : 2 * u < M) (hv : 2 * v < M) :
    toS M (wsub M u v) = (u : Int) - (v : Int) := by
  by_cases hle : v ≤ u
  · rw [wsub_eq hle (by omega), toS_small (by omega)]
    omega
  · have hw : wsub M u v = u + M - v := by
      unfold wsub
      rw [Nat.mod_eq_of_lt (by omega : v < M)]
      have : u + (M - v) = u + M - v := by omega
      rw [this]
      exact Nat.mod_eq_of_lt (by omega)
    rw [hw]
    unfold toS
    rw [if_neg (by omega)]
    omega

theorem replay_step (old : List Byte) (n : Nat) (b1 b2 b3 dib c dadd e dext : List Byte)
    (oldpos : Int) (acc : List Byte) (x y : Nat) (z : Int) (seg : List Byte)
    (l1 : b1.length = 8) (l2 : b2.length = 8) (l3 : b3.length = 8)
    (d1 : decode_off b1 = (x : Int)) (d2 : decode_off b2 = (y : Int)) (d3 : decode_off b3 = z)
    (hc : c.length = x) (he : e.length = y) (hseg : add_old old oldpos c = some seg) :
    replay_go old (n + 1) (b1 ++ b2 ++ b3 ++ dib) (c ++ dadd) (e ++ dext) oldpos acc =
      replay_go old n dib dadd dext (oldpos + x + z) (acc ++ seg ++ e) := by
  have tk : ∀ (u v : List Byte) (k : Nat), u.length = k → (u ++ v).take k = u := by
    intro u v k hk; subst hk; exact List.take_left _ _
  have dr : ∀ (u v : List Byte) (k : Nat), u.length = k → (u ++ v).drop k = v := by
    intro u v k hk; subst hk; exact List.drop_left _ _
  have t1 : (b1 ++ b2 ++ b3 ++ dib).take 8 = b1 := by
    rw [List.append_assoc, List.append_assoc]
    exact tk _ _ _ l1
  have t2 : ((b1 ++ b2 ++ b3 ++ dib).drop 8).take 8 = b2 := by
    rw [List.append_assoc, List.append_assoc, dr _ _ _ l1]
    exact tk _ _ _ l2
  have t3 : ((b1 ++ b2 ++ b3 ++ dib).drop 16).take 8 = b3 := by
    rw [List.append_assoc, dr (b1 ++ b2) _ 16 (by simp [l1, l2])]
    exact tk _ _ _ l3
  have t4 : (b1 ++ b2 ++ b3 ++ dib).drop 24 = dib :=
    dr (b1 ++ b2 ++ b3) _ 24 (by simp [l1, l2, l3])
  have t5 : (c ++ dadd).take x = c := by
    rw [← hc, List.take_left]
  have t6 : (c ++ dadd).drop x = dadd := by
    rw [← hc, List.drop_left]
  have t7 : (e ++ dext).take y = e := by
    rw [← he, List.take_left]
  have t8 : (e ++ dext).drop y = dext := by
    rw [← he, List.drop_left]
  have hcond : ¬ ((b1 ++ b2 ++ b3 ++ dib).length < 24 ∨ (x : Int) < 0 ∨ (y : Int) < 0 ∨
      ((c ++ dadd).length : Int) < (x : Int) ∨ ((e ++ dext).length : Int) < (y : Int)) := by
    simp only [List.length_append, l1, l2, l3, hc, he]
    push_cast
    omega
  rw [replay_go]
  simp only [t1, t2, t3, t4, d1, d2, d3, Int.toNat_ofNat, t5, t6, t7, t8, hseg]
  rw [if_neg hcond]

theorem drop_split (l : List Byte) (i a b : Nat) :
    (l.drop i).take a ++ (l.drop (i + a)).take b ++ l.drop (i + a + b) = l.drop i := by
  rw [← take_drop_split]
  have h : l.drop (i + a + b) = (l.drop i).drop (a + b) := by
    rw [List.drop_drop]; congr 1; omega
  rw [h, List.take_append_drop]

theorem mkdiff_loop_replay (B : Build) (fuel : Nat) (data : IndexData) (req : Req)
    {old new : List Byte} (hol : 2 * old.length < B.M) (hnl : 2 * new.length < B.M)
    (r1 : req.instrblkp = true) (r2 : req.addblkp = true) (r3 : req.extrablkp = true) :
    ∀ (cnt scan0 lastscan lastpos : Nat) (out out1 : Out),
      LoopPre old new scan0 lastscan lastpos →
      mkdiff_loop B fuel data false req old old.length new new.length cnt scan0 lastscan lastpos
        out = .ok out1 →
      ∃ (n : Nat) (dib dadd dext : List Byte),
        out1.instrblk = out.instrblk ++ dib ∧ out1.addblk = out.addblk ++ dadd ∧
        out1.extrablk = out.extrablk ++ dext ∧ dib.length = 24 * n ∧
        ∀ acc, replay_go old n dib dadd dext (lastpos : Int) acc =
          some (acc ++ new.drop lastscan) := by
  have hM := B.M_cases
  have hMbig := IsM.big hM
  have hMle : B.M ≤ 2 ^ 64 := by rcases hM with h | h <;> rw [h] <;> norm_num
  intro cnt
  induction cnt with
  | zero =>
    intro scan0 lastscan lastpos out out1 hpre h
    unfold mkdiff_loop at h
    split at h
    · simp at h
    · rename_i hlt
      simp only [Except.ok.injEq] at h
      subst h
      refine ⟨0, [], [], [], by simp, by simp, by simp, rfl, ?_⟩
      intro acc
      simp [replay_go, List.drop_eq_nil_of_le (Nat.le_of_not_lt hlt)]
  | succ m ih =>
    intro scan0 lastscan lastpos out out1 hpre h
    unfold mkdiff_loop at h
    split at h
    · rename_i hlt
      obtain ⟨p1, p2, p3⟩ := hpre.2 hlt
      simp only [bind_ok] at h
      obtain ⟨⟨scan, pos, len, lenf, lenb⟩, hsh, ib, hib, eb, heb, ab, hab, h⟩ := h
      have so := shape_ok B fuel data false hol hnl p2 p1 p3 hsh
      obtain ⟨hnext, e1⟩ := LoopPre.next B hol hnl so
      obtain ⟨s1, s2, s3, s4, s5, s6, s7, s8⟩ := so
      simp only at h hnext e1 s1 s2 s3 s4 s5 s6 s7 s8 hib heb hab
      have e2 : wadd B.M lastscan lenf = lastscan + lenf := wadd_eq (by omega)
      have e3 : wsub B.M (scan - lenb) (lastscan + lenf) =
          scan - lenb - (lastscan + lenf) := wsub_eq (by omega) (by omega)
      have e4 : wadd B.M lastpos lenf = lastpos + lenf := wadd_eq (by omega)
      rw [e1] at hnext
      simp only [e1, e2, e3, e4, r1, r2, r3, if_true, Bool.false_eq_true, not_false_eq_true,
        and_self, bind_ok] at h hib heb hab
      obtain ⟨b1, hb1, b2, hb2, b3, hb3, hib⟩ := hib
      simp only [Except.ok.injEq] at hib
      rw [toS_small (by omega)] at hb1 hb2
      have l1 := addoff_length hb1
      have l2 := addoff_length hb2
      have l3 := addoff_length hb3
      have d1 := decode_addoff hb1 (by simp only [Int.natAbs_ofNat]; omega)
      have d2 := decode_addoff hb2 (by simp only [Int.natAbs_ofNat]; omega)
      have hext := write_extra_ok new _ _ _ _ _ (by omega) heb
      obtain ⟨c, hc1, hc2, hc3⟩ := write_add_ok old new _ _ _ _ _ _ (by omega) (by omega)
        (by omega) hab
      have hel : ((new.drop (lastscan + lenf)).take (scan - lenb - (lastscan + lenf))).length =
          scan - lenb - (lastscan + lenf) := by
        rw [List.length_take, List.length_drop]
        omega
      have hfin : ∀ acc : List Byte,
          acc ++ (new.drop lastscan).take lenf ++
            (new.drop (lastscan + lenf)).take (scan - lenb - (lastscan + lenf)) ++
            new.drop (scan - lenb) = acc ++ new.drop lastscan := by
        intro acc
        have := drop_split new lastscan lenf (scan - lenb - (lastscan + lenf))
        have e : lastscan + lenf + (scan - lenb - (lastscan + lenf)) = scan - lenb := by omega
        rw [e] at this
        simp only [List.append_assoc]
        congr 1
        simpa only [List.append_assoc] using this
      by_cases hterm : scan - lenb < new.length
      · obtain ⟨n, dib, dadd, dext, i1, i2, i3, i4, i5⟩ := ih _ _ _ _ _ hnext h
        simp only at i1 i2 i3
        have hsc : scan < new.length := by omega
        have f := s3 hsc
        have hz : toS B.M (wsub B.M (wsub B.M pos lenb) (lastpos + lenf)) =
            ((pos - lenb : Nat) : Int) - ((lastpos + lenf : Nat) : Int) := by
          rw [wsub_eq s6 (by omega)]
          exact toS_wsub (by omega) (by omega)
        have d3 := decode_addoff hb3 (by rw [hz]; omega)
        refine ⟨n + 1, b1 ++ b2 ++ b3 ++ dib, c ++ dadd,
          (new.drop (lastscan + lenf)).take (scan - lenb - (lastscan + lenf)) ++ dext,
          ?_, ?_, ?_, ?_, ?_⟩
        · rw [i1, ← hib]; simp
        · rw [i2, hc1]; simp
        · rw [i3, hext]; simp
        · simp only [List.length_append, l1, l2, l3, i4]; omega
        · intro acc
          rw [replay_step old n b1 b2 b3 dib c dadd _ dext lastpos acc lenf
            (scan - lenb - (lastscan + lenf)) _ _ l1 l2 l3 d1 d2 d3 hc2 hel hc3]
          have hop : (lastpos : Int) + (lenf : Int) +
              toS B.M (wsub B.M (wsub B.M pos lenb) (lastpos + lenf)) =
              ((wsub B.M pos lenb : Nat) : Int) := by
            rw [hz, wsub_eq s6 (by omega)]
            push_cast
            ring
          rw [hop, i5]
          rw [hfin]
      · rw [mkdiff_loop_done _ _ _ _ _ _ _ _ _ _ _ _ hterm] at h
        simp only [Except.ok.injEq] at h
        subst h
        refine ⟨1, b1 ++ b2 ++ b3 ++ [], c ++ [],
          (new.drop (lastscan + lenf)).take (scan - lenb - (lastscan + lenf)) ++ [],
          ?_, ?_, ?_, ?_, ?_⟩
        · simp only; rw [← hib]; simp
        · simp only; rw [hc1]; simp
        · simp only; rw [hext]; simp
        · simp only [List.length_append, l1, l2, l3, List.length_nil]
        · intro acc
          rw [replay_step old 0 b1 b2 b3 [] c [] _ [] lastpos acc lenf
            (scan - lenb - (lastscan + lenf)) _ _ l1 l2 l3 d1 d2 rfl hc2 hel hc3]
          simp only [replay_go, and_self, if_true, Option.some.injEq]
          have := hfin acc
          rw [List.drop_eq_nil_of_le (by omega : new.length ≤ scan - lenb), List.append_nil] at this
          exact this
    · rename_i hlt
      simp only [Except.ok.injEq] at h
      subst h
      refine ⟨0, [], [], [], by simp, by simp, by simp, rfl, ?_⟩
      intro acc
      simp [replay_go, List.drop_eq_nil_of_le (Nat.le_of_not_lt hlt)]

/-- C1 (as amended): for old and new with 2 * oldlen and 2 * newlen below the number of bsuint
values (so that every length and offset handed to addoff is the same number as a bsint), when
mkdiff completes without DELTAMODE_NOADDBLK and with the three blocks requested, replaying
the bytes written to the instruction, add and extra sinks reconstructs new, and the streams
are consumed exactly. -/
theorem mkdiff_round_trip (B : Build) (fuel : Nat) (mode : Int) (old new : List Byte) (req : Req)
    (out : Out) (hol : 2 * old.length < B.M) (hnl : 2 * new.length < B.M)
    (hmode : Int.land mode B.DELTAMODE_NOADDBLK = 0)
    (r1 : req.instrblkp = true) (r2 : req.addblkp = true) (r3 : req.extrablkp = true)
    (h : mkdiff B fuel mode old new req = .ok out) :
    replay old out.instrblk out.addblk out.extrablk = some new := by
  obtain ⟨dm, data, _, _, hl⟩ := mkdiff_ok h
  have hdec : decide (Int.land mode B.DELTAMODE_NOADDBLK ≠ 0) = false := by simp [hmode]
  rw [hdec] at hl
  obtain ⟨n, dib, dadd, dext, i1, i2, i3, i4, i5⟩ :=
    mkdiff_loop_replay B fuel data req hol hnl r1 r2 r3 _ _ _ _ _ out (LoopPre.init old new) hl
  simp only [List.nil_append] at i1 i2 i3
  unfold replay
  rw [i1, i2, i3, i4]
  have : 24 * n / 24 = n := by omega
  rw [this]
  have := i5 []
  simpa using this

theorem mkdiff_round_trip_witness :
    mkdiff B32 40 B32.DELTAMODE_HASH abc16 abcX20 Req.all = .ok out_abc ∧
    replay abc16 out_abc.instrblk out_abc.addblk out_abc.extrablk = some abcX20 := by
  have h : mkdiff B32 40 B32.DELTAMODE_HASH abc16 abcX20 Req.all = .ok out_abc := by decide!
  exact ⟨h, mkdiff_round_trip B32 40 B32.DELTAMODE_HASH abc16 abcX20 Req.all out_abc
    (by decide) (by decide) (by decide) rfl rfl rfl h⟩

/-! ## diffing a buffer against itself -/

/-- C3 (counterexample): hash mode, old = bytes 0..47, new = byte 255 followed by old.
mkdiff emits the instructions {0, 1, 0, 0} and {48, 0, 0, 49} (copyout, copyin, copyoutoff,
copyinoff); the second copyinoff is 49, not 0 + 0 + 1. -/
theorem nonoverlap_as_stated_fails :
    (mkdiff B32 40 B32.DELTAMODE_HASH old48 new49 Req.instrOnly).map (fun o => o.instrs) =
      .ok [⟨0, 1, 0, 0⟩, ⟨48, 0, 0, 49⟩] ∧
    (⟨48, 0, 0, 49⟩ : instr).copyinoff ≠
      (⟨0, 1, 0, 0⟩ : instr).copyinoff + (⟨0, 1, 0, 0⟩ : instr).copyout +
        (⟨0, 1, 0, 0⟩ : instr).copyin := by
  refine ⟨?_, by decide⟩
  decide!

/-- C4 (counterexample): hash mode, old = new = bytes 0..47. The one instruction is
{48, 0, 0, 48}, so copyinoff + copyout + copyin = 96 exceeds newlen = 48. -/
theorem bounds_as_stated_fail :
    (mkdiff B32 40 B32.DELTAMODE_HASH old48 old48 Req.instrOnly).map (fun o => o.instrs) =
      .ok [⟨48, 0, 0, 48⟩] ∧
    ¬ ((⟨48, 0, 0, 48⟩ : instr).copyinoff + (⟨48, 0, 0, 48⟩ : instr).copyout +
        (⟨48, 0, 0, 48⟩ : instr).copyin ≤ old48.length) := by
  refine ⟨?_, by decide⟩
  decide!

/-- C6 (counterexample): hash mode with DELTAMODE_NOADDBLK, old = new = bytes 0..47. Both
mkdiff and the stepwise driver emit {0, 0, 0, 0} and then {48, 0, 0, 48}, whose copyout is
48. -/
theorem noaddblk_copyout_nonzero :
    Int.land (B32.DELTAMODE_HASH + B32.DELTAMODE_NOADDBLK) B32.DELTAMODE_NOADDBLK ≠ 0 ∧
    (mkdiff B32 40 (B32.DELTAMODE_HASH + B32.DELTAMODE_NOADDBLK) old48 old48 Req.instrOnly).map
      (fun o => o.instrs) = .ok [⟨0, 0, 0, 0⟩, ⟨48, 0, 0, 48⟩] ∧
    mkdiff_by_steps B32 40 (B32.DELTAMODE_HASH + B32.DELTAMODE_NOADDBLK) old48 old48 =
      .ok [⟨0, 0, 0, 0⟩, ⟨48, 0, 0, 48⟩] ∧
    (⟨48, 0, 0, 48⟩ : instr).copyout ≠ 0 := by
  refine ⟨by decide, ?_, ?_, by decide⟩ <;> decide!

/-- C7 (failing input): old empty, new = hello. In suffix mode suf_create reads buf[0] of the
empty buffer; in hash mode hash_findnext hashes new[0 .. 16) although new has 5 bytes. In
both modes the run leaves its buffers instead of emitting {0, 5, 0, 0}. -/
theorem empty_old_out_of_bounds (fuel : Nat) (req : Req) :
    mkdiff B32 fuel B32.DELTAMODE_SUF [] hello req = .error .oob ∧
    mkdiff B32 (fuel + 1) B32.DELTAMODE_HASH [] hello req = .error .oob := by
  constructor <;> rfl



/-! ## mode lookup -/

theorem find_mode_unknown (mode : Int) :
    ∀ (l : List deltamode) (dm : Option deltamode), (∀ e ∈ l, e.mode ≠ mode) →
      find_mode mode l dm = (match l.getLast? with | none => dm | some e => some e) := by
  intro l
  induction l with
  | nil => intro dm _; rfl
  | cons a rest ih =>
    intro dm h
    have ha : a.mode ≠ mode := h a (List.mem_cons_self _ _)
    have hr : ∀ e ∈ rest, e.mode ≠ mode := fun e he => h e (List.mem_cons_of_mem _ he)
    simp only [find_mode, ha, if_false]
    rw [ih (some a) hr]
    cases rest with
    | nil => rfl
    | cons b rest2 =>
      simp only [List.getLast?_cons_cons]
      cases hl : (b :: rest2).getLast? with
      | none => simp at hl
      | some e => rfl

/-- C9 (as amended): a mode value that, after clearing DELTAMODE_NOADDBLK, equals none of the
installed modes is not rejected. mkdiff_step_setup and mkdiff continue with the last entry of
deltamodes; the fatal error is raised only when the table is empty. -/
theorem unknown_mode_selects_last (B : Build) (fuel : Nat) (mode : Int) (old new : List Byte)
    (req : Req)
    (h : ∀ e ∈ deltamodes B, e.mode ≠
      (if Int.land mode B.DELTAMODE_NOADDBLK ≠ 0 then Int.xor mode B.DELTAMODE_NOADDBLK else mode)) :
    mkdiff_step_setup B mode =
      (match (deltamodes B).getLast? with
       | none => .error .fatal
       | some e => .ok { dm := e, data := none,
                         noaddblk := decide (Int.land mode B.DELTAMODE_NOADDBLK ≠ 0) }) ∧
    mkdiff B fuel mode old new req =
      (match (deltamodes B).getLast? with
       | none => .error .fatal
       | some e => mkdiff_run B fuel e (decide (Int.land mode B.DELTAMODE_NOADDBLK ≠ 0)) old new req) := by
  have hs : select_mode B mode =
      (match (deltamodes B).getLast? with
       | none => .error .fatal
       | some e => .ok (e, decide (Int.land mode B.DELTAMODE_NOADDBLK ≠ 0))) := by
    unfold select_mode
    have hm : (if decide (Int.land mode B.DELTAMODE_NOADDBLK ≠ 0) = true
          then Int.xor mode B.DELTAMODE_NOADDBLK else mode) =
        (if Int.land mode B.DELTAMODE_NOADDBLK ≠ 0 then Int.xor mode B.DELTAMODE_NOADDBLK
          else mode) := by
      by_cases hb : Int.land mode B.DELTAMODE_NOADDBLK ≠ 0 <;> simp [hb]
    simp only [hm]
    rw [find_mode_unknown _ _ _ h]
    cases (deltamodes B).getLast? <;> rfl
  constructor
  · unfold mkdiff_step_setup
    rw [hs]
    cases (deltamodes B).getLast? <;> rfl
  · unfold mkdiff
    rw [hs]
    cases (deltamodes B).getLast? <;> rfl

theorem unknown_mode_selects_last_witness :
    (∀ e ∈ deltamodes B32, e.mode ≠
      (if Int.land 7 B32.DELTAMODE_NOADDBLK ≠ 0 then Int.xor 7 B32.DELTAMODE_NOADDBLK else 7)) ∧
    (mkdiff_step_setup B32 7 =
      (match (deltamodes B32).getLast? with
       | none => .error .fatal
       | some e => .ok { dm := e, data := none,
                         noaddblk := decide (Int.land 7 B32.DELTAMODE_NOADDBLK ≠ 0) }) ∧
    mkdiff B32 40 7 old48 new49 Req.all =
      (match (deltamodes B32).getLast? with
       | none => .error .fatal
       | some e => mkdiff_run B32 40 e (decide (Int.land 7 B32.DELTAMODE_NOADDBLK ≠ 0)) old48 new49
                     Req.all)) :=
  ⟨by decide, unknown_mode_selects_last B32 40 7 old48 new49 Req.all (by decide)⟩

/-- C9 (counterexample): in the build B32 the mode value 7 equals neither DELTAMODE_SUF nor
DELTAMODE_HASH and has the DELTAMODE_NOADDBLK bit clear, yet mkdiff_step_setup returns a
handle for the hash method and mkdiff delivers a diff instead of a fatal error. -/
theorem unknown_mode_not_fatal :
    (∀ e ∈ deltamodes B32, e.mode ≠ 7) ∧ Int.land 7 B32.DELTAMODE_NOADDBLK = 0 ∧
    (∃ sd, mkdiff_step_setup B32 7 = .ok sd ∧ sd.dm.method = Method.hash) ∧
    (mkdiff B32 40 7 old48 new49 Req.instrOnly).map (fun o => o.instrs) =
      .ok [⟨0, 1, 0, 0⟩, ⟨48, 0, 0, 49⟩] := by
  refine ⟨by decide, by decide, ⟨_, rfl, rfl⟩, ?_⟩
  decide!

/-! ## order of the suffixes of a buffer -/

theorem llt_iff (a b : List Byte) : a < b ↔ List.Lex (fun x y => x < y) a b :=
  Iff.rfl

theorem llt_append (a x y : List Byte) : a ++ x < a ++ y ↔ x < y := by
  rw [llt_iff, llt_iff]
  induction a with
  | nil => simp
  | cons c a ih =>
    rw [List.cons_append, List.cons_append, List.Lex.cons_iff]
    exact ih

theorem llt_of_take (h : Nat) : ∀ (x y : List Byte), x.take h < y.take h → x < y := by
  induction h with
  | zero =>
    intro x y hlt
    simp only [List.take_zero] at hlt
    exact absurd hlt (lt_irrefl _)
  | succ h ih =>
    intro x y hlt
    cases x with
    | nil =>
      cases y with
      | nil => exact absurd hlt (lt_irrefl _)
      | cons b y => exact List.nil_lt_cons b y
    | cons a x =>
      cases y with
      | nil =>
        rw [llt_iff] at hlt
        simp only [List.take_succ_cons, List.take_nil] at hlt
        cases hlt
      | cons b y =>
        rw [llt_iff] at hlt ⊢
        simp only [List.take_succ_cons] at hlt
        cases hlt with
        | cons hl =>
          exact List.Lex.cons ((llt_iff _ _).1 (ih _ _ ((llt_iff _ _).2 hl)))
        | rel hab => exact List.Lex.rel hab

theorem llt_of_take_eq (h : Nat) (x y : List Byte) (he : x.take h = y.take h)
    (hlt : x.drop h < y.drop h) : x < y := by
  rw [← List.take_append_drop h x, ← List.take_append_drop h y, he]
  exact (llt_append _ _ _).2 hlt

theorem take_double (h : Nat) (x y : List Byte) (h1 : x.take h = y.take h)
    (h2 : (x.drop h).take h = (y.drop h).take h) : x.take (2 * h) = y.take (2 * h) := by
  rw [two_mul, List.take_add, List.take_add, h1, h2]

theorem take_mono {h k : Nat} (hk : k ≤ h) (x y : List Byte) (he : x.take h = y.take h) :
    x.take k = y.take k := by
  have := congrArg (List.take k) he
  rwa [List.take_take, List.take_take, Nat.min_eq_left hk] at this

/-- Two different suffixes that agree on their first h bytes both have h bytes. -/
theorem take_eq_bound (pad : List Byte) (h p q : Nat) (hp : p ≤ pad.length) (hq : q ≤ pad.length)
    (hne : p ≠ q) (he : (pad.drop p).take h = (pad.drop q).take h) :
    p + h ≤ pad.length ∧ q + h ≤ pad.length := by
  have := congrArg List.length he
  simp only [List.length_take, List.length_drop] at this
  omega

theorem drop_inj (pad : List Byte) (p q : Nat) (hp : p ≤ pad.length) (hq : q ≤ pad.length)
    (he : pad.drop p = pad.drop q) : p = q := by
  have := congrArg List.length he
  simp only [List.length_drop] at this
  omega

/-! ## rank of a suffix -/

theorem rank_lt (pad : List Byte) {p q : Nat} (hp : p ≤ pad.length)
    (h : pad.drop p < pad.drop q) : rank pad p < rank pad q := by
  unfold rank
  apply Finset.card_lt_card
  constructor
  · intro x hx
    simp only [Finset.mem_filter, Finset.mem_range] at hx ⊢
    exact ⟨hx.1, lt_trans hx.2 h⟩
  · intro hsub
    have : p ∈ (Finset.range (pad.length + 1)).filter (fun x => pad.drop x < pad.drop p) :=
      hsub (by simp only [Finset.mem_filter, Finset.mem_range]; exact ⟨by omega, h⟩)
    simp only [Finset.mem_filter] at this
    exact lt_irrefl _ this.2

theorem lt_of_rank (pad : List Byte) {p q : Nat} (hp : p ≤ pad.length) (hq : q ≤ pad.length)
    (h : rank pad p < rank pad q) : pad.drop p < pad.drop q := by
  rcases lt_trichotomy (pad.drop p) (pad.drop q) with h1 | h1 | h1
  · exact h1
  · have := drop_inj pad p q hp hq h1
    subst this
    exact absurd h (lt_irrefl _)
  · have := rank_lt pad hq h1
    omega

theorem rank_inj (pad : List Byte) {p q : Nat} (hp : p ≤ pad.length) (hq : q ≤ pad.length)
    (h : rank pad p = rank pad q) : p = q := by
  rcases lt_trichotomy (pad.drop p) (pad.drop q) with h1 | h1 | h1
  · have := rank_lt pad hp h1
    omega
  · exact drop_inj pad p q hp hq h1
  · have := rank_lt pad hq h1
    omega

theorem rank_le (pad : List Byte) {p : Nat} (hp : p ≤ pad.length) : rank pad p ≤ pad.length := by
  unfold rank
  have hsub : (Finset.range (pad.length + 1)).filter (fun x => pad.drop x < pad.drop p) ⊆
      (Finset.range (pad.length + 1)).erase p := by
    intro x hx
    simp only [Finset.mem_filter, Finset.mem_range, Finset.mem_erase] at hx ⊢
    refine ⟨?_, hx.1⟩
    rintro rfl
    exact lt_irrefl _ hx.2
  have := Finset.card_le_card hsub
  rw [Finset.card_erase_of_mem (by simp only [Finset.mem_range]; omega), Finset.card_range] at this
  omega

theorem rank_surj (pad : List Byte) {k : Nat} (hk : k ≤ pad.length) :
    ∃ p, p ≤ pad.length ∧ rank pad p = k := by
  have := Finset.surj_on_of_inj_on_of_card_le (s := Finset.range (pad.length + 1))
    (t := Finset.range (pad.length + 1)) (fun p _ => rank pad p)
    (fun p hp => by
      simp only [Finset.mem_range] at hp ⊢
      have := rank_le pad (p := p) (by omega)
      omega)
    (fun p q hp hq he => by
      simp only [Finset.mem_range] at hp hq
      exact rank_inj pad (by omega) (by omega) he)
    (le_refl _) k (by simp only [Finset.mem_range]; omega)
  obtain ⟨p, hp, he⟩ := this
  simp only [Finset.mem_range] at hp
  exact ⟨p, by omega, he.symm⟩

/-- The empty suffix comes first. -/
theorem rank_end (pad : List Byte) : rank pad pad.length = 0 := by
  unfold rank
  rw [Finset.card_eq_zero, Finset.filter_eq_empty_iff]
  intro x _
  rw [List.drop_length]
  intro h
  rw [llt_iff] at h
  generalize List.drop x pad = l at h
  cases h

/-! ## counting in an interval -/

/-- An injective map of [a, b) into itself that sends [a, m) below the images of [m, b)
sends [a, m) into [a, m) and [m, b) into [m, b). -/
theorem low_block (g : Nat → Nat) (a m b : Nat) (ham : a ≤ m) (hm : m ≤ b)
    (hr : ∀ t, a ≤ t → t < b → a ≤ g t ∧ g t < b)
    (hi : ∀ t t', a ≤ t → t < b → a ≤ t' → t' < b → g t = g t' → t = t')
    (ho : ∀ t t', a ≤ t → t < m → m ≤ t' → t' < b → g t < g t') :
    (∀ t, a ≤ t → t < m → g t < m) ∧ (∀ t, m ≤ t → t < b → m ≤ g t) := by
  constructor
  · intro t h1 h2
    by_contra hge
    have hc := Finset.card_le_card_of_injOn (s := Finset.Ico m b) (t := Finset.Ioo (g t) b) g
      (fun t' ht' => by
        simp only [Finset.mem_Ico, Finset.mem_Ioo] at ht' ⊢
        exact ⟨ho t t' h1 h2 ht'.1 ht'.2, (hr t' (by omega) ht'.2).2⟩)
      (fun x hx y hy he => by
        simp only [Finset.coe_Ico, Set.mem_Ico] at hx hy
        exact hi x y (by omega) hx.2 (by omega) hy.2 he)
    simp only [Nat.card_Ico, Nat.card_Ioo] at hc
    have := (hr t h1 (by omega)).2
    omega
  · intro t h1 h2
    by_contra hlt
    have hc := Finset.card_le_card_of_injOn (s := Finset.Ico a m) (t := Finset.Ico a (g t)) g
      (fun t' ht' => by
        simp only [Finset.mem_Ico] at ht' ⊢
        exact ⟨(hr t' ht'.1 (by omega)).1, ho t' t ht'.1 ht'.2 h1 h2⟩)
      (fun x hx y hy he => by
        simp only [Finset.coe_Ico, Set.mem_Ico] at hx hy
        exact hi x y hx.1 (by omega) hy.1 (by omega) he)
    simp only [Nat.card_Ico] at hc
    have := (hr t (by omega) h2).1
    omega

/-- An injective map of [a, b) into itself reaches every element. -/
theorem surj_block (g : Nat → Nat) (a b : Nat)
    (hr : ∀ t, a ≤ t → t < b → a ≤ g t ∧ g t < b)
    (hi : ∀ t t', a ≤ t → t < b → a ≤ t' → t' < b → g t = g t' → t = t')
    (k : Nat) (h1 : a ≤ k) (h2 : k < b) : ∃ t, a ≤ t ∧ t < b ∧ g t = k := by
  have := Finset.surj_on_of_inj_on_of_card_le (s := Finset.Ico a b) (t := Finset.Ico a b)
    (fun p _ => g p)
    (fun p hp => by
      simp only [Finset.mem_Ico] at hp ⊢
      exact hr p hp.1 hp.2)
    (fun p q hp hq he => by
      simp only [Finset.mem_Ico] at hp hq
      exact hi p q hp.1 hp.2 hq.1 hq.2 he)
    (le_refl _) k (by simp only [Finset.mem_Ico]; omega)
  obtain ⟨p, hp, he⟩ := this
  simp only [Finset.mem_Ico] at hp
  exact ⟨p, hp.1, hp.2, he.symm⟩

/-! ## reading and writing arrays -/

theorem rd_get {a : Arr Int} {i v : Int} (h : a.rd i = .ok v) :
    0 ≤ i ∧ a.get i.toNat = v ∧ a.cell i.toNat = some v := by
  unfold Arr.rd at h
  split at h
  · rename_i hc
    split at h
    · rename_i w hw
      simp only [Except.ok.injEq] at h
      subst h
      exact ⟨hc.1, by simp [Arr.get, hw], hw⟩
    · simp at h
  · simp at h

theorem wr_get {a b : Arr Int} {i v : Int} (h : a.wr i v = .ok b) :
    0 ≤ i ∧ (∀ k, b.get k = if k = i.toNat then v else a.get k) ∧
    (∀ k, b.cell k = if k = i.toNat then some v else a.cell k) := by
  unfold Arr.wr at h
  split at h
  · rename_i hc
    simp only [Except.ok.injEq] at h
    subst h
    refine ⟨hc.1, fun k => ?_, fun k => rfl⟩
    simp only [Arr.get]
    split <;> rfl
  · simp at h

/-! ## permuting the cells of an array -/

theorem Shuf.same (f : Nat → Int) (a b : Nat) : Shuf f f a b :=
  ⟨1, fun _ _ => rfl, fun _ => rfl⟩

theorem Shuf.comp {f g k : Nat → Int} {a b : Nat} (h1 : Shuf f g a b) (h2 : Shuf g k a b) :
    Shuf f k a b := by
  obtain ⟨s1, o1, e1⟩ := h1
  obtain ⟨s2, o2, e2⟩ := h2
  refine ⟨s1 * s2, fun t ht => ?_, fun t => ?_⟩
  · rw [Equiv.Perm.mul_apply, o2 t ht, o1 t ht]
  · rw [Equiv.Perm.mul_apply, e2, e1]

theorem Shuf.swap {f g : Nat → Int} {a b i j : Nat} (hi1 : a ≤ i) (hi2 : i < b) (hj1 : a ≤ j)
    (hj2 : j < b) (hg : ∀ t, g t = if t = i then f j else if t = j then f i else f t) :
    Shuf f g a b := by
  refine ⟨Equiv.swap i j, fun t ht => ?_, fun t => ?_⟩
  · exact Equiv.swap_apply_of_ne_of_ne (by omega) (by omega)
  · rw [hg]
    by_cases h1 : t = i
    · subst h1
      simp
    · by_cases h2 : t = j
      · subst h2
        simp [h1]
      · rw [if_neg h1, if_neg h2, Equiv.swap_apply_of_ne_of_ne h1 h2]

theorem Shuf.widen {f g : Nat → Int} {a b c d : Nat} (h : Shuf f g a b) (hc : c ≤ a) (hd : b ≤ d) :
    Shuf f g c d := by
  obtain ⟨s, o, e⟩ := h
  exact ⟨s, fun t ht => o t (by omega), e⟩

theorem Shuf.outside {f g : Nat → Int} {a b : Nat} (h : Shuf f g a b) {t : Nat}
    (ht : t < a ∨ b ≤ t) : g t = f t := by
  obtain ⟨s, o, e⟩ := h
  rw [e, o t ht]

theorem Shuf.perm_mem {a b : Nat} {s : Equiv.Perm Nat} (o : ∀ t, t < a ∨ b ≤ t → s t = t)
    {t : Nat} (h1 : a ≤ t) (h2 : t < b) : a ≤ s t ∧ s t < b := by
  by_contra hc
  have h3 : s (s t) = s t := o (s t) (by omega)
  have := s.injective h3
  omega

theorem Shuf.all {f g : Nat → Int} {a b : Nat} (h : Shuf f g a b) (P : Int → Prop)
    (hP : ∀ t, a ≤ t → t < b → P (f t)) : ∀ t, a ≤ t → t < b → P (g t) := by
  obtain ⟨s, o, e⟩ := h
  intro t h1 h2
  rw [e]
  have := Shuf.perm_mem o h1 h2
  exact hP _ this.1 this.2

theorem Shuf.inj {f g : Nat → Int} {a b : Nat} (h : Shuf f g a b)
    (hf : ∀ t t', a ≤ t → t < b → a ≤ t' → t' < b → f t = f t' → t = t') :
    ∀ t t', a ≤ t → t < b → a ≤ t' → t' < b → g t = g t' → t = t' := by
  obtain ⟨s, o, e⟩ := h
  intro t t' h1 h2 h3 h4 he
  rw [e, e] at he
  have m1 := Shuf.perm_mem o h1 h2
  have m2 := Shuf.perm_mem o h3 h4
  exact s.injective (hf _ _ m1.1 m1.2 m2.1 m2.2 he)

theorem Shuf.count {f g : Nat → Int} {a b : Nat} (h : Shuf f g a b) (P : Int → Prop)
    [DecidablePred P] :
    ((Finset.Ico a b).filter (fun t => P (g t))).card =
      ((Finset.Ico a b).filter (fun t => P (f t))).card := by
  obtain ⟨s, o, e⟩ := h
  apply Finset.card_bij (fun t _ => s t)
  · intro t ht
    simp only [Finset.mem_filter, Finset.mem_Ico] at ht ⊢
    have := Shuf.perm_mem o ht.1.1 ht.1.2
    refine ⟨this, ?_⟩
    rw [← e]
    exact ht.2
  · intro t _ t' _ he
    exact s.injective he
  · intro u hu
    simp only [Finset.mem_filter, Finset.mem_Ico] at hu
    refine ⟨s.symm u, ?_, by simp⟩
    simp only [Finset.mem_filter, Finset.mem_Ico]
    have o' : ∀ t, t < a ∨ b ≤ t → s.symm t = t := by
      intro t ht
      have := o t ht
      rw [Equiv.symm_apply_eq]
      exact this.symm
    refine ⟨Shuf.perm_mem o' hu.1.1 hu.1.2, ?_⟩
    rw [e]
    simpa using hu.2

/-! ## groups and blocks -/

theorem Grp.shuf {pad : List Byte} {h : Nat} {I J V : Arr Int} {a b : Nat} {G : Int}
    (hg : Grp pad h I V a b G) (hs : Shuf I.get J.get a b) : Grp pad h J V a b G :=
  ⟨Shuf.all hs (fun e => 0 ≤ e ∧ e.toNat + h ≤ pad.length ∧ a ≤ rank pad e.toNat ∧
      rank pad e.toNat < b ∧ V.get e.toNat = G) hg.mem,
   Shuf.inj hs hg.inj, hg.low⟩

theorem Grp.le_len {pad : List Byte} {h : Nat} {I V : Arr Int} {a b : Nat} {G : Int}
    (hg : Grp pad h I V a b G) {t : Nat} (h1 : a ≤ t) (h2 : t < b) :
    (I.get t).toNat ≤ pad.length := by
  have := (hg.mem t h1 h2).2.1
  omega

/-- Every suffix with a rank in the interval of a group sits in one of its cells. -/
theorem Grp.surj {pad : List Byte} {h : Nat} {I V : Arr Int} {a b : Nat} {G : Int}
    (hg : Grp pad h I V a b G) {p : Nat} (hp : p ≤ pad.length) (h1 : a ≤ rank pad p)
    (h2 : rank pad p < b) : ∃ t, a ≤ t ∧ t < b ∧ I.get t = (p : Int) := by
  obtain ⟨t, t1, t2, t3⟩ := surj_block (fun t => rank pad (I.get t).toNat) a b
    (fun t t1 t2 => ⟨(hg.mem t t1 t2).2.2.1, (hg.mem t t1 t2).2.2.2.1⟩)
    (fun t t' t1 t2 t3 t4 he => by
      have e := rank_inj pad (hg.le_len t1 t2) (hg.le_len t3 t4) he
      have m1 := (hg.mem t t1 t2).1
      have m2 := (hg.mem t' t3 t4).1
      exact hg.inj t t' t1 t2 t3 t4 (by omega))
    (rank pad p) h1 h2
  refine ⟨t, t1, t2, ?_⟩
  have e := rank_inj pad (hg.le_len t1 t2) hp t3
  have m1 := (hg.mem t t1 t2).1
  omega

theorem Blocks.le {pad : List Byte} {I V : Arr Int} {a c : Nat} (h : Blocks pad I V a c) :
    a ≤ c := by
  induction h with
  | nil a => exact le_refl _
  | neg a r c _ _ _ _ ih => omega
  | grp a b c _ _ _ ih => omega

theorem Blocks.append {pad : List Byte} {I V : Arr Int} {a b c : Nat}
    (h1 : Blocks pad I V a b) (h2 : Blocks pad I V b c) : Blocks pad I V a c := by
  induction h1 with
  | nil a => exact h2
  | neg a r c hr he hs _ ih => exact Blocks.neg a r _ hr he hs (ih h2)
  | grp a b c hb hg _ ih => exact Blocks.grp a b _ hb hg (ih h2)

/-- Blocks are not affected by changes of I outside their cells and changes of V for
suffixes ranked outside their interval. -/
theorem Blocks.frame {pad : List Byte} {I J V W : Arr Int} {a c x y : Nat}
    (h : Blocks pad I V a c) (hI : ∀ t, a ≤ t → t < c → J.get t = I.get t)
    (hV : VChg pad V W x y) (hd : y ≤ a ∨ c ≤ x) : Blocks pad J W a c := by
  induction h with
  | nil a => exact Blocks.nil a
  | neg a r c hr he hs hb ih =>
    have hle := hb.le
    refine Blocks.neg a r c hr ?_ ?_ (ih (fun t t1 t2 => hI t (by omega) t2) (by omega))
    · rw [hI a (le_refl _) (by omega)]
      exact he
    · intro k k1 k2 p hp hpk
      by_cases hc : W.get p = V.get p
      · exact hs k k1 k2 p hp (by rw [← hc]; exact hpk)
      · have := hV p hp hc
        omega
  | grp a b c hb hg hbl ih =>
    have hle := hbl.le
    refine Blocks.grp a b c hb ?_ (ih (fun t t1 t2 => hI t (by omega) t2) (by omega))
    refine ⟨fun t t1 t2 => ?_, fun t t' t1 t2 t3 t4 he => ?_, fun q hq hr => ?_⟩
    · rw [hI t t1 (by omega)]
      obtain ⟨m1, m2, m3, m4, m5⟩ := hg.mem t t1 t2
      refine ⟨m1, m2, m3, m4, ?_⟩
      by_cases hc : W.get (I.get t).toNat = V.get (I.get t).toNat
      · rw [hc]; exact m5
      · have := hV _ (by omega) hc
        omega
    · rw [hI t t1 (by omega), hI t' t3 (by omega)] at he
      exact hg.inj t t' t1 t2 t3 t4 he
    · by_cases hc : W.get q = V.get q
      · rw [hc]; exact hg.low q hq hr
      · have := hV q hq hc
        omega

/-! ## giving a group its number -/

theorem split_assign_ok (I : Arr Int) (base : Nat) (g : Int) :
    ∀ (cnt i : Nat) (V W : Arr Int), split_assign I base g cnt i V = .ok W →
      (∀ t, i ≤ t → t < i + cnt → 0 ≤ I.get (base + t) ∧ W.get (I.get (base + t)).toNat = g) ∧
      (∀ q, (∀ t, i ≤ t → t < i + cnt → (I.get (base + t)).toNat ≠ q) → W.get q = V.get q) := by
  intro cnt
  induction cnt with
  | zero =>
    intro i V W h
    simp only [split_assign, Except.ok.injEq] at h
    subst h
    exact ⟨fun t h1 h2 => by omega, fun q _ => rfl⟩
  | succ n ih =>
    intro i V W h
    simp only [split_assign, bind_ok] at h
    obtain ⟨p, hp, V1, hV1, h⟩ := h
    have hp' := rd_get hp
    have hw := wr_get hV1
    have e1 : ((base : Int) + (i : Int)).toNat = base + i := by omega
    have e2 : ((i : Int) + 1) = ((i + 1 : Nat) : Int) := by push_cast; ring
    rw [e2] at h
    obtain ⟨r1, r2⟩ := ih _ _ _ h
    rw [e1] at hp'
    constructor
    · intro t h1 h2
      by_cases ht : t = i
      · subst ht
        rw [hp'.2.1]
        refine ⟨hw.1, ?_⟩
        by_cases hex : ∃ t', t + 1 ≤ t' ∧ t' < t + 1 + n ∧ (I.get (base + t')).toNat = p.toNat
        · obtain ⟨t', a1, a2, a3⟩ := hex
          rw [← a3]
          exact (r1 t' a1 a2).2
        · rw [r2 p.toNat (fun t' a1 a2 a3 => hex ⟨t', a1, a2, a3⟩), hw.2.1, if_pos rfl]
      · exact r1 t (by omega) (by omega)
    · intro q hq
      rw [r2 q (fun t a1 a2 => hq t (by omega) (by omega)), hw.2.1]
      have := hq i (le_refl _) (by omega)
      rw [hp'.2.1] at this
      rw [if_neg (fun hc => this hc.symm)]

/-- Within a group, a smaller key V[p + h] means a smaller rank. -/
theorem key_lt_rank {pad : List Byte} {h bound : Nat} {V : Arr Int} (hv : VInv pad h bound V)
    {p q : Nat} (hp : p + h ≤ pad.length) (hq : q + h ≤ pad.length)
    (he : V.get p = V.get q) (hk : V.get (p + h) < V.get (q + h)) : rank pad p < rank pad q := by
  have h1 := hv.ord (p + h) (q + h) hp hq hk
  have h2 := hv.ge (p + h) hp
  have h3 : rank pad (p + h) < rank pad (q + h) := by omega
  have h4 := lt_of_rank pad hp hq h3
  have h5 := hv.eqv p q (by omega) (by omega) he
  apply rank_lt pad (by omega)
  apply llt_of_take_eq h _ _ h5
  rw [List.drop_drop, List.drop_drop]
  exact h4

/-- Within a group, equal keys V[p + h] mean agreement on 2h bytes. -/
theorem key_eq_take {pad : List Byte} {h bound : Nat} {V : Arr Int} (hv : VInv pad h bound V)
    {p q : Nat} (hp : p + h ≤ pad.length) (hq : q + h ≤ pad.length)
    (he : V.get p = V.get q) (hk : V.get (p + h) = V.get (q + h)) :
    (pad.drop p).take (2 * h) = (pad.drop q).take (2 * h) := by
  have h5 := hv.eqv p q (by omega) (by omega) he
  have h6 := hv.eqv (p + h) (q + h) hp hq hk
  apply take_double h _ _ h5
  rw [List.drop_drop, List.drop_drop]
  exact h6

/-- When the keys of the cells a <= t < m of a group are below those of the cells
m <= t < b, the ranks split at m as well. -/
theorem split_ranks {pad : List Byte} {h bound : Nat} {I V : Arr Int} {a m b : Nat} {G : Int}
    (hv : VInv pad h bound V) (hg : Grp pad h I V a b G) (ham : a ≤ m) (hmb : m ≤ b)
    (hk : ∀ t u, a ≤ t → t < m → m ≤ u → u < b →
      V.get ((I.get t).toNat + h) < V.get ((I.get u).toNat + h)) :
    (∀ t, a ≤ t → t < m → rank pad (I.get t).toNat < m) ∧
    (∀ t, m ≤ t → t < b → m ≤ rank pad (I.get t).toNat) := by
  apply low_block (fun t => rank pad (I.get t).toNat) a m b ham hmb
  · intro t t1 t2
    exact ⟨(hg.mem t t1 t2).2.2.1, (hg.mem t t1 t2).2.2.2.1⟩
  · intro t t' t1 t2 t3 t4 he
    have e := rank_inj pad (hg.le_len t1 t2) (hg.le_len t3 t4) he
    have m1 := (hg.mem t t1 t2).1
    have m2 := (hg.mem t' t3 t4).1
    exact hg.inj t t' t1 t2 t3 t4 (by omega)
  · intro t u t1 t2 u1 u2
    obtain ⟨_, m2, _, _, m5⟩ := hg.mem t t1 (by omega)
    obtain ⟨_, n2, _, _, n5⟩ := hg.mem u (by omega) u2
    exact key_lt_rank hv m2 n2 (by rw [m5, n5]) (hk t u t1 t2 u1 u2)

/-- What equal keys in the cells a <= t < m and larger keys in the cells m <= t < b of a
group say about the suffixes: the ranks split at m and the first cells agree on 2h bytes. -/
theorem keys_sem {pad : List Byte} {h bound : Nat} {I V : Arr Int} {a m b : Nat} {G x : Int}
    (hv : VInv pad h bound V) (hg : Grp pad h I V a b G) (ham : a ≤ m) (hmb : m ≤ b)
    (keq : ∀ t, a ≤ t → t < m → skey V I h t = x)
    (kgt : ∀ t, m ≤ t → t < b → x < skey V I h t) :
    (∀ t, a ≤ t → t < m → rank pad (I.get t).toNat < m) ∧
    (∀ t, m ≤ t → t < b → m ≤ rank pad (I.get t).toNat) ∧
    (∀ t u, a ≤ t → t < m → a ≤ u → u < m →
      (pad.drop (I.get t).toNat).take (2 * h) = (pad.drop (I.get u).toNat).take (2 * h)) := by
  obtain ⟨rk1, rk2⟩ := split_ranks hv hg ham hmb
    (fun t u t1 t2 u1 u2 => by
      have := keq t t1 t2
      have := kgt u u1 u2
      unfold skey at *
      omega)
  refine ⟨rk1, rk2, fun t u t1 t2 u1 u2 => ?_⟩
  obtain ⟨_, m2, _, _, m5⟩ := hg.mem t t1 (by omega)
  obtain ⟨_, n2, _, _, n5⟩ := hg.mem u u1 (by omega)
  have k1 := keq t t1 t2
  have k2 := keq u u1 u2
  unfold skey at k1 k2
  exact key_eq_take hv m2 n2 (by rw [m5, n5]) (by rw [k1, k2])

/-- The cells a <= t < m of a group hold the suffixes of rank below m, which agree on 2h
bytes; V[I[t]] = m - 1 is stored for them. -/
theorem assign_ok {pad : List Byte} {h : Nat} {I V W : Arr Int} {a m b : Nat} {G : Int}
    (hv : VInv pad h a V) (hg : Grp pad h I V a b G) (ham : a < m) (hmb : m ≤ b)
    (rk1 : ∀ t, a ≤ t → t < m → rank pad (I.get t).toNat < m)
    (rk2 : ∀ t, m ≤ t → t < b → m ≤ rank pad (I.get t).toNat)
    (h2eq : ∀ t u, a ≤ t → t < m → a ≤ u → u < m →
      (pad.drop (I.get t).toNat).take (2 * h) = (pad.drop (I.get u).toNat).take (2 * h))
    (hW1 : ∀ t, a ≤ t → t < m → W.get (I.get t).toNat = (m : Int) - 1)
    (hW2 : ∀ q, (∀ t, a ≤ t → t < m → (I.get t).toNat ≠ q) → W.get q = V.get q) :
    VInv pad h m W ∧ Grp pad h I W m b G ∧ VChg pad V W a m ∧
    (m = a + 1 → Sorted1 pad W a) ∧ (a + 2 ≤ m → Grp pad 0 I W a m ((m : Int) - 1)) := by
  -- the suffixes that get the new number are those of rank a <= r < m
  have hidx : ∀ q, q ≤ pad.length → a ≤ rank pad q → rank pad q < m →
      ∃ t, a ≤ t ∧ t < m ∧ I.get t = (q : Int) := by
    intro q hq q1 q2
    obtain ⟨t, t1, t2, t3⟩ := hg.surj hq q1 (by omega)
    refine ⟨t, t1, ?_, t3⟩
    by_contra hc
    have := rk2 t (by omega) t2
    rw [t3] at this
    simp only [Int.toNat_ofNat] at this
    omega
  have hin : ∀ q, q ≤ pad.length → a ≤ rank pad q → rank pad q < m → W.get q = (m : Int) - 1 := by
    intro q hq q1 q2
    obtain ⟨t, t1, t2, t3⟩ := hidx q hq q1 q2
    have := hW1 t t1 t2
    rw [t3] at this
    simpa using this
  have hout : ∀ q, q ≤ pad.length → (rank pad q < a ∨ m ≤ rank pad q) → W.get q = V.get q := by
    intro q hq hr
    apply hW2
    intro t t1 t2 he
    have r1 := rk1 t t1 t2
    have r2 := (hg.mem t t1 (by omega)).2.2.1
    rw [he] at r1 r2
    omega
  have hlow := hg.low
  have hmn : m ≤ pad.length + 1 := by
    obtain ⟨t, t1, t2, t3⟩ := surj_block (fun t => rank pad (I.get t).toNat) a m
      (fun t t1 t2 => ⟨(hg.mem t t1 (by omega)).2.2.1, rk1 t t1 t2⟩)
      (fun t t' t1 t2 t3 t4 he => by
        have e := rank_inj pad (hg.le_len t1 (by omega)) (hg.le_len t3 (by omega)) he
        have m1 := (hg.mem t t1 (by omega)).1
        have m2 := (hg.mem t' t3 (by omega)).1
        exact hg.inj t t' t1 (by omega) t3 (by omega) (by omega))
      (m - 1) (by omega) (by omega)
    have := rank_le pad (hg.le_len t1 (by omega : t < b))
    omega
  -- value of W by cases on the rank
  have hcase : ∀ q, q ≤ pad.length →
      (a ≤ rank pad q ∧ rank pad q < m ∧ W.get q = (m : Int) - 1) ∨
      ((rank pad q < a ∨ m ≤ rank pad q) ∧ W.get q = V.get q) := by
    intro q hq
    by_cases hc : a ≤ rank pad q ∧ rank pad q < m
    · exact Or.inl ⟨hc.1, hc.2, hin q hq hc.1 hc.2⟩
    · have : rank pad q < a ∨ m ≤ rank pad q := by omega
      exact Or.inr ⟨this, hout q hq this⟩
  have hmemG : ∀ q, q ≤ pad.length → a ≤ rank pad q → rank pad q < b → V.get q = G := by
    intro q hq q1 q2
    obtain ⟨t, t1, t2, t3⟩ := hg.surj hq q1 q2
    have := hg.mem t t1 t2
    rw [t3] at this
    simp only [Int.toNat_ofNat] at this
    exact this.2.2.2.2
  have h2 : ∀ p q, p ≤ pad.length → q ≤ pad.length → a ≤ rank pad p → rank pad p < m →
      a ≤ rank pad q → rank pad q < m →
      (pad.drop p).take (2 * h) = (pad.drop q).take (2 * h) := by
    intro p q hp hq p1 p2 q1 q2
    obtain ⟨t, t1, t2, t3⟩ := hidx p hp p1 p2
    obtain ⟨u, u1, u2, u3⟩ := hidx q hq q1 q2
    have := h2eq t u t1 t2 u1 u2
    rw [t3, u3] at this
    simpa using this
  have hinv : VInv pad h m W := by
    refine ⟨fun p hp => ?_, fun p hp => ?_, fun p q hp hq hlt => ?_, fun p q hp hq he => ?_,
      fun p q hp hq he hb => ?_⟩
    · rcases hcase p hp with ⟨_, c2, c3⟩ | ⟨_, c2⟩
      · rw [c3]; omega
      · rw [c2]; exact hv.ge p hp
    · rcases hcase p hp with ⟨_, c2, c3⟩ | ⟨_, c2⟩
      · rw [c3]; omega
      · rw [c2]; exact hv.le p hp
    · rcases hcase p hp with ⟨p1, p2, p3⟩ | ⟨p1, p2⟩ <;>
        rcases hcase q hq with ⟨q1, q2, q3⟩ | ⟨q1, q2⟩
      · omega
      · rw [p3, q2] at hlt
        rw [p3]
        have := hlow q hq
        omega
      · rw [p2, q3] at hlt
        rw [p2]
        have := hlow p hp
        have := hv.ge p hp
        omega
      · rw [p2, q2] at hlt
        rw [p2]
        exact hv.ord p q hp hq hlt
    · rcases hcase p hp with ⟨p1, p2, p3⟩ | ⟨p1, p2⟩ <;>
        rcases hcase q hq with ⟨q1, q2, q3⟩ | ⟨q1, q2⟩
      · exact hv.eqv p q hp hq (by
          rw [hmemG p hp p1 (by omega), hmemG q hq q1 (by omega)])
      · rw [p3, q2] at he
        have := hlow q hq
        have := hv.ge q hq
        omega
      · rw [p2, q3] at he
        have := hlow p hp
        have := hv.ge p hp
        omega
      · rw [p2, q2] at he
        exact hv.eqv p q hp hq he
    · rcases hcase p hp with ⟨p1, p2, p3⟩ | ⟨p1, p2⟩ <;>
        rcases hcase q hq with ⟨q1, q2, q3⟩ | ⟨q1, q2⟩
      · exact h2 p q hp hq p1 p2 q1 q2
      · rw [p3, q2] at he
        have := hlow q hq
        have := hv.ge q hq
        omega
      · rw [p2, q3] at he
        have := hlow p hp
        have := hv.ge p hp
        omega
      · rw [p2, q2] at he
        rw [p2] at hb
        have := hlow p hp
        have := hv.ge p hp
        exact hv.eqv2 p q hp hq he (by omega)
  have hlowm : Low pad W m := by
    intro q hq hr
    rcases hcase q hq with ⟨_, _, c3⟩ | ⟨c1, c2⟩
    · rw [c3]; omega
    · rw [c2]
      have := hlow q hq
      omega
  refine ⟨hinv, ?_, ?_, ?_, ?_⟩
  · refine ⟨fun t t1 t2 => ?_, fun t t' t1 t2 t3 t4 he => hg.inj t t' (by omega) t2 (by omega) t4 he,
      hlowm⟩
    obtain ⟨m1, m2, m3, m4, m5⟩ := hg.mem t (by omega) t2
    have := rk2 t t1 t2
    refine ⟨m1, m2, this, m4, ?_⟩
    rw [hout _ (by omega) (Or.inr this)]
    exact m5
  · intro p hp hne
    rcases hcase p hp with ⟨c1, c2, c3⟩ | ⟨_, c2⟩
    · rw [c3]; omega
    · exact absurd c2 hne
  · intro hm p hp he
    rcases hcase p hp with ⟨c1, c2, c3⟩ | ⟨c1, c2⟩
    · omega
    · rw [c2] at he
      have := hlow p hp
      have := hv.ge p hp
      omega
  · intro hm
    refine ⟨fun t t1 t2 => ?_, fun t t' t1 t2 t3 t4 he => hg.inj t t' t1 (by omega) t3 (by omega) he,
      fun q hq hr => ?_⟩
    · obtain ⟨m1, m2, m3, m4, m5⟩ := hg.mem t t1 (by omega)
      exact ⟨m1, by omega, m3, rk1 t t1 t2, hW1 t t1 t2⟩
    · rw [hout q hq (Or.inl hr)]
      exact hlow q hq hr

/-! ## suf_split for short groups -/

theorem VChg.trans {pad : List Byte} {V W X : Arr Int} {a m b : Nat} (h1 : VChg pad V W a m)
    (h2 : VChg pad W X m b) (ham : a ≤ m) (hmb : m ≤ b) : VChg pad V X a b := by
  intro p hp hne
  by_cases hc : X.get p = W.get p
  · rw [hc] at hne ⊢
    have := h1 p hp hne
    omega
  · have := h2 p hp hc
    omega

theorem VChg.refl (pad : List Byte) (V : Arr Int) (a b : Nat) : VChg pad V V a b :=
  fun _ _ hne => absurd rfl hne

theorem VChg.mono {pad : List Byte} {V W : Arr Int} {a b c d : Nat} (h : VChg pad V W a b)
    (hc : c ≤ a) (hd : b ≤ d) : VChg pad V W c d := by
  intro p hp hne
  have := h p hp hne
  omega

theorem Grp.keepI {pad : List Byte} {h : Nat} {I J V : Arr Int} {a b : Nat} {G : Int}
    (hg : Grp pad h I V a b G) (hI : ∀ t, a ≤ t → t < b → J.get t = I.get t) :
    Grp pad h J V a b G := by
  refine ⟨fun t t1 t2 => ?_, fun t t' t1 t2 t3 t4 he => ?_, hg.low⟩
  · rw [hI t t1 t2]
    exact hg.mem t t1 t2
  · rw [hI t t1 t2, hI t' t3 t4] at he
    exact hg.inj t t' t1 t2 t3 t4 he

/-- The step that closes the cells a <= t < m of a group: the loop storing V[I[t]] = m - 1,
then I[a] = -1 when the cell is alone. -/
theorem close_ok {pad : List Byte} {off : Nat} {I V W J : Arr Int} {a m b : Nat} {G : Int}
    (hv : VInv pad off a V) (hg : Grp pad off I V a b G) (ham : a < m) (hmb : m ≤ b)
    (rk1 : ∀ t, a ≤ t → t < m → rank pad (I.get t).toNat < m)
    (rk2 : ∀ t, m ≤ t → t < b → m ≤ rank pad (I.get t).toNat)
    (h2eq : ∀ t u, a ≤ t → t < m → a ≤ u → u < m →
      (pad.drop (I.get t).toNat).take (2 * off) = (pad.drop (I.get u).toNat).take (2 * off))
    (hW : split_assign I a ((m : Int) - 1) (m - a) (0 : Nat) V = .ok W)
    (hJ1 : m = a + 1 → J.get a = -1 ∧ ∀ t, t ≠ a → J.get t = I.get t)
    (hJ2 : m ≠ a + 1 → J = I) :
    SplitPost pad off I V J W a m ∧ Grp pad off J W m b G := by
  obtain ⟨a1, a2⟩ := split_assign_ok I a _ (m - a) 0 V W hW
  obtain ⟨b1, b2, b3, b4, b5⟩ := assign_ok hv hg ham hmb rk1 rk2 h2eq
    (by
      intro t t1 t2
      have := (a1 (t - a) (by omega) (by omega)).2
      have e : a + (t - a) = t := by omega
      rw [e] at this
      exact this)
    (by
      intro q hq
      apply a2
      intro t t1 t2
      exact hq (a + t) (by omega) (by omega))
  have hJ : ∀ t, t ≠ a → J.get t = I.get t := by
    intro t ht
    by_cases hm : m = a + 1
    · exact (hJ1 hm).2 t ht
    · rw [hJ2 hm]
  have hb : Blocks pad J W a m := by
    by_cases hm : m = a + 1
    · subst hm
      refine Blocks.neg a 1 (a + 1) (by omega) ?_ ?_ (Blocks.nil _)
      · rw [(hJ1 rfl).1]
        rfl
      · intro t t1 t2
        have : t = a := by omega
        subst this
        exact b4 rfl
    · rw [hJ2 hm]
      exact Blocks.grp a m m (by omega) (b5 (by omega)) (Blocks.nil _)
  exact ⟨⟨hb, fun t ht => hJ t (by omega), b3, b1, b2.low⟩,
    b2.keepI (fun t t1 t2 => hJ t (by omega))⟩

theorem split_scan_ok (V : Arr Int) (k off : Nat) :
    ∀ (cnt i : Nat) (I : Arr Int) (x : Int) (j : Nat) (J : Arr Int) (y j1 : Int),
      1 ≤ j → j ≤ i →
      (∀ t, k ≤ t → t < k + i + cnt → 0 ≤ I.get t) →
      (∀ t, k ≤ t → t < k + j → skey V I off t = x) →
      (∀ t, k + j ≤ t → t < k + i → x < skey V I off t) →
      split_scan V k off cnt i I x j = .ok (J, y, j1) →
      ∃ jn : Nat, j1 = jn ∧ 1 ≤ jn ∧ jn ≤ i + cnt ∧ Shuf I.get J.get k (k + i + cnt) ∧
        (∀ t, k ≤ t → t < k + jn → skey V J off t = y) ∧
        (∀ t, k + jn ≤ t → t < k + i + cnt → y < skey V J off t) := by
  intro cnt
  induction cnt with
  | zero =>
    intro i I x j J y j1 hj1 hji hnn heq hgt h
    simp only [split_scan, Except.ok.injEq, Prod.mk.injEq] at h
    obtain ⟨rfl, rfl, rfl⟩ := h
    exact ⟨j, rfl, hj1, by omega, Shuf.same _ _ _, heq, fun t t1 t2 => hgt t t1 (by omega)⟩
  | succ n ih =>
    intro i I x j J y j1 hj1 hji hnn heq hgt h
    simp only [split_scan, bind_ok] at h
    obtain ⟨p, hp, v, hv, h⟩ := h
    have hp' := rd_get hp
    have hv' := rd_get hv
    have e1 : ((k : Int) + (i : Int)).toNat = k + i := by omega
    rw [e1] at hp'
    have hp0 : 0 ≤ p := by
      rw [← hp'.2.1]
      exact hnn (k + i) (by omega) (by omega)
    have e2 : (p + (off : Int)).toNat = p.toNat + off := by omega
    rw [e2] at hv'
    have hkv : skey V I off (k + i) = v := by
      unfold skey
      rw [hp'.2.1]
      exact hv'.2.1
    have e3 : ((i : Int) + 1) = ((i + 1 : Nat) : Int) := by push_cast; ring
    have hcnt : k + (i + 1) + n = k + i + (n + 1) := by omega
    by_cases hlt : v < x
    · -- a new minimum
      simp only [hlt, if_true] at h
      simp only [bind_ok] at h
      obtain ⟨tmp, htmp, I1, hI1, I2, hI2, h⟩ := h
      have htmp' := rd_get htmp
      have w1 := wr_get hI1
      have w2 := wr_get hI2
      have e4 : ((k : Int) + 0).toNat = k := by omega
      rw [e4] at htmp' w1
      rw [e1] at w2
      have hget : ∀ t, I2.get t = if t = k + i then I.get k else if t = k then I.get (k + i)
          else I.get t := by
        intro t
        rw [w2.2.1 t, w1.2.1 t, htmp'.2.1, hp'.2.1]
      have hsh : Shuf I.get I2.get k (k + i + (n + 1)) :=
        Shuf.swap (by omega) (by omega) (le_refl _) (by omega) hget
      have hk2 : ∀ t, skey V I2 off t = if t = k + i then skey V I off k
          else if t = k then skey V I off (k + i) else skey V I off t := by
        intro t
        unfold skey
        rw [hget t]
        split
        · rfl
        · split <;> rfl
      have e5 : ((0 : Int) + 1) = ((1 : Nat) : Int) := by norm_num
      rw [e3, e5] at h
      obtain ⟨jn, r1, r2, r3, r4, r5, r6⟩ := ih (i + 1) I2 v 1 J y j1 (le_refl _) (by omega)
        (by
          rw [hcnt]
          exact Shuf.all hsh (fun e => 0 ≤ e) hnn)
        (by
          intro t t1 t2
          have : t = k := by omega
          subst this
          rw [hk2, if_neg (by omega), if_pos rfl]
          exact hkv)
        (by
          intro t t1 t2
          rw [hk2]
          by_cases ht : t = k + i
          · rw [if_pos ht, heq k (le_refl _) (by omega)]
            exact hlt
          · rw [if_neg ht, if_neg (by omega)]
            by_cases htj : t < k + j
            · rw [heq t (by omega) htj]
              exact hlt
            · have := hgt t (by omega) (by omega)
              omega)
        h
      refine ⟨jn, r1, r2, by omega, ?_, r5, ?_⟩
      · rw [hcnt] at r4
        exact Shuf.comp hsh r4
      · rw [hcnt] at r6
        exact r6
    · simp only [hlt, if_false] at h
      by_cases heq' : v = x
      · simp only [heq', if_true] at h
        simp only [bind_ok] at h
        obtain ⟨tmp, htmp, I1, hI1, I2, hI2, h⟩ := h
        have htmp' := rd_get htmp
        have w1 := wr_get hI1
        have w2 := wr_get hI2
        have e4 : ((k : Int) + (j : Int)).toNat = k + j := by omega
        rw [e4] at htmp' w1
        rw [e1] at w2
        have hget : ∀ t, I2.get t = if t = k + i then I.get (k + j)
            else if t = k + j then I.get (k + i) else I.get t := by
          intro t
          rw [w2.2.1 t, w1.2.1 t, htmp'.2.1, hp'.2.1]
        have hsh : Shuf I.get I2.get k (k + i + (n + 1)) :=
          Shuf.swap (by omega) (by omega) (by omega) (by omega) hget
        have hk2 : ∀ t, skey V I2 off t = if t = k + i then skey V I off (k + j)
            else if t = k + j then skey V I off (k + i) else skey V I off t := by
          intro t
          unfold skey
          rw [hget t]
          split
          · rfl
          · split <;> rfl
        have e5 : ((j : Int) + 1) = ((j + 1 : Nat) : Int) := by push_cast; ring
        rw [e3, e5] at h
        obtain ⟨jn, r1, r2, r3, r4, r5, r6⟩ := ih (i + 1) I2 x (j + 1) J y j1 (by omega) (by omega)
          (by
            rw [hcnt]
            exact Shuf.all hsh (fun e => 0 ≤ e) hnn)
          (by
            intro t t1 t2
            rw [hk2]
            by_cases ht : t = k + i
            · rw [if_pos ht]
              have : j = i := by omega
              rw [this, hkv, heq']
            · rw [if_neg ht]
              by_cases htj : t = k + j
              · rw [if_pos htj, hkv, heq']
              · rw [if_neg htj]
                exact heq t t1 (by omega))
          (by
            intro t t1 t2
            rw [hk2]
            by_cases ht : t = k + i
            · rw [if_pos ht]
              exact hgt (k + j) (by omega) (by omega)
            · rw [if_neg ht, if_neg (by omega)]
              exact hgt t (by omega) (by omega))
          h
        refine ⟨jn, r1, r2, by omega, ?_, r5, ?_⟩
        · rw [hcnt] at r4
          exact Shuf.comp hsh r4
        · rw [hcnt] at r6
          exact r6
      · simp only [heq', if_false] at h
        rw [e3] at h
        obtain ⟨jn, r1, r2, r3, r4, r5, r6⟩ := ih (i + 1) I x j J y j1 hj1 (by omega)
          (by rw [hcnt]; exact hnn) heq
          (by
            intro t t1 t2
            by_cases ht : t = k + i
            · rw [ht, hkv]
              omega
            · exact hgt t t1 (by omega))
          h
        refine ⟨jn, r1, r2, by omega, ?_, r5, ?_⟩
        · rw [hcnt] at r4
          exact r4
        · rw [hcnt] at r6
          exact r6

theorem SplitPost.nil {pad : List Byte} {h : Nat} {I V : Arr Int} {k : Nat}
    (hv : VInv pad h k V) (hl : Low pad V k) : SplitPost pad h I V I V k k :=
  ⟨Blocks.nil k, fun _ _ => rfl, VChg.refl pad V k k, hv, hl⟩

/-- Two runs of suf_split on adjacent intervals combine. -/
theorem SplitPost.join {pad : List Byte} {h : Nat} {I V J W K X : Arr Int} {a m b : Nat}
    (h1 : SplitPost pad h I V J W a m) (h2 : SplitPost pad h J W K X m b) :
    SplitPost pad h I V K X a b := by
  have l1 := h1.blocks.le
  have l2 := h2.blocks.le
  refine ⟨?_, fun t ht => ?_, h1.chg.trans h2.chg l1 l2, h2.inv, h2.low⟩
  · exact (h1.blocks.frame (fun t t1 t2 => h2.frameI t (Or.inl t2)) h2.chg (Or.inr (le_refl _))).append
      h2.blocks
  · rw [h2.frameI t (by omega), h1.frameI t (by omega)]

theorem split_small_ok {pad : List Byte} (off stop : Nat) (G : Int) :
    ∀ (fuel k : Nat) (I V J W : Arr Int), k ≤ stop → VInv pad off k V →
      Grp pad off I V k stop G → split_small off stop fuel k I V = .ok (J, W) →
      SplitPost pad off I V J W k stop := by
  intro fuel
  induction fuel with
  | zero =>
    intro k I V J W hk hv hg h
    unfold split_small at h
    split at h
    · simp at h
    · simp only [Except.ok.injEq, Prod.mk.injEq] at h
      obtain ⟨rfl, rfl⟩ := h
      have : k = stop := by omega
      subst this
      exact SplitPost.nil hv hg.low
  | succ n ih =>
    intro k I V J W hk hv hg h
    unfold split_small at h
    split at h
    · rename_i hlt
      have hlt' : k < stop := by omega
      simp only [bind_ok] at h
      obtain ⟨p, hp, x, hx, ⟨I1, y, j⟩, hscan, V1, hV1, I2, hI2, h⟩ := h
      have hp' := rd_get hp
      have hx' := rd_get hx
      simp only [Int.toNat_ofNat] at hp'
      have hp0 : 0 ≤ p := by
        rw [← hp'.2.1]
        exact (hg.mem k (le_refl _) hlt').1
      have e2 : (p + (off : Int)).toNat = p.toNat + off := by omega
      rw [e2] at hx'
      have ecnt : ((stop : Int) - (k : Int) - 1).toNat = stop - k - 1 := by omega
      rw [ecnt] at hscan
      have hend : k + 1 + (stop - k - 1) = stop := by omega
      obtain ⟨jn, r1, r2, r3, r4, r5, r6⟩ := split_scan_ok V k off (stop - k - 1) 1 I x 1 I1 y j
        (le_refl _) (le_refl _)
        (by
          intro t t1 t2
          exact (hg.mem t t1 (by omega)).1)
        (by
          intro t t1 t2
          have : t = k := by omega
          subst this
          unfold skey
          rw [hp'.2.1]
          exact hx'.2.1)
        (by
          intro t t1 t2
          omega)
        hscan
      rw [hend] at r4 r6
      subst r1
      have hg1 : Grp pad off I1 V k stop G := hg.shuf r4
      have e3 : ((k : Int) + (jn : Int) - 1) = ((k + jn : Nat) : Int) - 1 := by push_cast; ring
      simp only [Int.toNat_ofNat] at hV1
      rw [e3] at hV1
      have hV1' : split_assign I1 k (((k + jn : Nat) : Int) - 1) (k + jn - k) (0 : Nat) V =
          .ok V1 := by
        have : k + jn - k = jn := by omega
        rw [this]
        exact hV1
      simp only at hI2
      obtain ⟨s1, s2, s3⟩ := keys_sem hv hg1 (by omega : k ≤ k + jn) (by omega) r5 r6
      have e4 : ((k : Int) + (jn : Int)) = ((k + jn : Nat) : Int) := by push_cast; ring
      rw [e4] at h
      obtain ⟨first, hg2⟩ := close_ok hv hg1 (by omega : k < k + jn) (by omega) s1 s2 s3 hV1'
        (by
          intro hm
          have hj1 : (jn : Int) = 1 := by omega
          rw [if_pos hj1] at hI2
          have w := wr_get hI2
          simp only [Int.toNat_ofNat] at w
          refine ⟨by rw [w.2.1 k, if_pos rfl], fun t ht => ?_⟩
          rw [w.2.1 t, if_neg ht])
        (by
          intro hm
          have hj' : ¬ ((jn : Int) = 1) := by omega
          rw [if_neg hj'] at hI2
          simp only [Except.ok.injEq] at hI2
          exact hI2.symm)
      have post := ih (k + jn) I2 V1 J W (by omega) first.inv hg2 h
      have := first.join post
      refine ⟨this.blocks, fun t ht => ?_, this.chg, this.inv, this.low⟩
      rw [this.frameI t ht]
      exact Shuf.outside r4 ht
    · simp only [Except.ok.injEq, Prod.mk.injEq] at h
      obtain ⟨rfl, rfl⟩ := h
      have : k = stop := by omega
      subst this
      exact SplitPost.nil hv hg.low

/-! ## counting keys -/

theorem count_room (P : Nat → Prop) [DecidablePred P] (a b : Nat) (S : Finset Nat)
    (hS : ∀ t ∈ S, a ≤ t ∧ t < b ∧ P t) : S.card ≤ ((Finset.Ico a b).filter P).card := by
  apply Finset.card_le_card
  intro t ht
  simp only [Finset.mem_filter, Finset.mem_Ico]
  have := hS t ht
  exact ⟨⟨this.1, this.2.1⟩, this.2.2⟩

/-- When the cells c <= t < d account for all cells with P, no other cell has P. -/
theorem count_full (P : Nat → Prop) [DecidablePred P] (a b c d : Nat) (hac : a ≤ c) (hdb : d ≤ b)
    (hS : ∀ t, c ≤ t → t < d → P t) (hc : ((Finset.Ico a b).filter P).card = d - c) :
    ∀ t, a ≤ t → t < b → P t → c ≤ t ∧ t < d := by
  have hsub : Finset.Ico c d ⊆ (Finset.Ico a b).filter P := by
    intro t ht
    simp only [Finset.mem_filter, Finset.mem_Ico] at ht ⊢
    exact ⟨⟨by omega, by omega⟩, hS t ht.1 ht.2⟩
  have heq := Finset.eq_of_subset_of_card_le hsub (by rw [hc, Nat.card_Ico])
  intro t t1 t2 hp
  have : t ∈ (Finset.Ico a b).filter P := by
    simp only [Finset.mem_filter, Finset.mem_Ico]
    exact ⟨⟨t1, t2⟩, hp⟩
  rw [← heq] at this
  simpa using this

theorem count3 (f : Nat → Int) (x : Int) (a b : Nat) :
    ((Finset.Ico a b).filter (fun t => f t < x)).card +
      ((Finset.Ico a b).filter (fun t => f t = x)).card +
      ((Finset.Ico a b).filter (fun t => x < f t)).card = b - a := by
  have h1 := Finset.filter_card_add_filter_neg_card_eq_card (s := Finset.Ico a b)
    (fun t => f t < x)
  have h2 := Finset.filter_card_add_filter_neg_card_eq_card
    (s := (Finset.Ico a b).filter (fun t => ¬ f t < x)) (fun t => f t = x)
  rw [Finset.filter_filter, Finset.filter_filter] at h2
  have e1 : (Finset.Ico a b).filter (fun t => ¬ f t < x ∧ f t = x) =
      (Finset.Ico a b).filter (fun t => f t = x) := by
    apply Finset.filter_congr
    intro t _
    constructor
    · exact fun h => h.2
    · exact fun h => ⟨by omega, h⟩
  have e2 : (Finset.Ico a b).filter (fun t => ¬ f t < x ∧ ¬ f t = x) =
      (Finset.Ico a b).filter (fun t => x < f t) := by
    apply Finset.filter_congr
    intro t _
    constructor
    · exact fun h => by omega
    · exact fun h => ⟨by omega, by omega⟩
  rw [e1, e2] at h2
  rw [Nat.card_Ico] at h1
  omega

theorem skey_count {V I J : Arr Int} {a b : Nat} (off : Nat) (hs : Shuf I.get J.get a b)
    (P : Int → Prop) [DecidablePred P] :
    ((Finset.Ico a b).filter (fun t => P (skey V J off t))).card =
      ((Finset.Ico a b).filter (fun t => P (skey V I off t))).card :=
  Shuf.count hs (fun e => P (V.get (e.toNat + off)))

theorem split_tally_ok (I V : Arr Int) (off : Nat) (x : Int) :
    ∀ (cnt i : Nat) (jj kk : Int) (r : Int × Int),
      (∀ t, i ≤ t → t < i + cnt → 0 ≤ I.get t) →
      split_tally I V off x cnt i jj kk = .ok r →
      r.1 = jj + ((Finset.Ico i (i + cnt)).filter (fun t => skey V I off t < x)).card ∧
      r.2 = kk + ((Finset.Ico i (i + cnt)).filter (fun t => skey V I off t = x)).card := by
  intro cnt
  induction cnt with
  | zero =>
    intro i jj kk r _ h
    simp only [split_tally, Except.ok.injEq] at h
    subst h
    simp
  | succ n ih =>
    intro i jj kk r hnn h
    simp only [split_tally, bind_ok] at h
    obtain ⟨p, hp, v, hv, h⟩ := h
    have hp' := rd_get hp
    have hv' := rd_get hv
    simp only [Int.toNat_ofNat] at hp'
    have hp0 : 0 ≤ p := by
      rw [← hp'.2.1]
      exact hnn i (le_refl _) (by omega)
    have e2 : (p + (off : Int)).toNat = p.toNat + off := by omega
    rw [e2] at hv'
    have hkv : skey V I off i = v := by
      unfold skey
      rw [hp'.2.1]
      exact hv'.2.1
    have e3 : ((i : Int) + 1) = ((i + 1 : Nat) : Int) := by push_cast; ring
    rw [e3] at h
    obtain ⟨r1, r2⟩ := ih (i + 1) _ _ r (fun t t1 t2 => hnn t (by omega) (by omega)) h
    have hins : Finset.Ico i (i + (n + 1)) = insert i (Finset.Ico (i + 1) (i + 1 + n)) := by
      ext t
      simp only [Finset.mem_insert, Finset.mem_Ico]
      omega
    have hni : i ∉ Finset.Ico (i + 1) (i + 1 + n) := by simp
    rw [hins, Finset.filter_insert, Finset.filter_insert, hkv]
    constructor
    · rw [r1]
      by_cases hc : v < x
      · rw [if_pos hc, if_pos hc, Finset.card_insert_of_not_mem (by simp)]
        push_cast
        ring
      · rw [if_neg hc, if_neg hc]
    · rw [r2]
      by_cases hc : v = x
      · rw [if_pos hc, if_pos hc, Finset.card_insert_of_not_mem (by simp)]
        push_cast
        ring
      · rw [if_neg hc, if_neg hc]

/-- The exchange tmp = I[i]; I[i] = I[j]; I[j] = tmp as the two writes leave it. -/
theorem swap_ok {V I I1 I2 : Arr Int} {off a b i j : Nat} {p q : Int}
    (hi1 : a ≤ i) (hi2 : i < b) (hj1 : a ≤ j) (hj2 : j < b)
    (hp : I.get i = p) (hq : I.get j = q)
    (w1 : I.wr (i : Int) q = .ok I1) (w2 : I1.wr (j : Int) p = .ok I2) :
    Shuf I.get I2.get a b ∧
    (∀ t, skey V I2 off t = if t = j then skey V I off i else if t = i then skey V I off j
      else skey V I off t) := by
  have g1 := (wr_get w1).2.1
  have g2 := (wr_get w2).2.1
  simp only [Int.toNat_ofNat] at g1 g2
  have hget : ∀ t, I2.get t = if t = j then I.get i else if t = i then I.get j else I.get t := by
    intro t
    rw [g2 t, g1 t, hp, hq]
  refine ⟨Shuf.swap hj1 hj2 hi1 hi2 hget, fun t => ?_⟩
  unfold skey
  rw [hget t]
  split
  · rfl
  · split <;> rfl

theorem split_part1_ok (V : Arr Int) (off : Nat) (x : Int) (start jj kk stop : Nat)
    (h1 : start ≤ jj) (h2 : jj ≤ kk) (h3 : kk ≤ stop) :
    ∀ (fuel : Nat) (I : Arr Int) (i j k : Nat) (J : Arr Int) (j1 k1 : Int),
      start ≤ i → i ≤ jj → jj + j ≤ kk → kk + k ≤ stop →
      (∀ t, start ≤ t → t < stop → 0 ≤ I.get t) →
      ((Finset.Ico start stop).filter (fun t => skey V I off t < x)).card = jj - start →
      ((Finset.Ico start stop).filter (fun t => skey V I off t = x)).card = kk - jj →
      (∀ t, start ≤ t → t < i → skey V I off t < x) →
      (∀ t, jj ≤ t → t < jj + j → skey V I off t = x) →
      (∀ t, kk ≤ t → t < kk + k → x < skey V I off t) →
      split_part1 V off x jj kk fuel I i j k = .ok (J, j1, k1) →
      ∃ jn kn : Nat, j1 = jn ∧ k1 = kn ∧ jj + jn ≤ kk ∧ kk + kn ≤ stop ∧
        Shuf I.get J.get start stop ∧
        (∀ t, start ≤ t → t < jj → skey V J off t < x) ∧
        (∀ t, jj ≤ t → t < jj + jn → skey V J off t = x) ∧
        (∀ t, kk ≤ t → t < kk + kn → x < skey V J off t) := by
  intro fuel
  induction fuel with
  | zero =>
    intro I i j k J j1 k1 hi1 hi2 hj hk hnn cL cE hA hB hC h
    unfold split_part1 at h
    split at h
    · simp at h
    · simp only [Except.ok.injEq, Prod.mk.injEq] at h
      obtain ⟨rfl, rfl, rfl⟩ := h
      have : i = jj := by omega
      subst this
      exact ⟨j, k, rfl, rfl, hj, hk, Shuf.same _ _ _, hA, hB, hC⟩
  | succ n ih =>
    intro I i j k J j1 k1 hi1 hi2 hj hk hnn cL cE hA hB hC h
    unfold split_part1 at h
    split at h
    · rename_i hlt
      have hlt' : i < jj := by omega
      simp only [bind_ok] at h
      obtain ⟨p, hp, v, hv, h⟩ := h
      have hp' := rd_get hp
      have hv' := rd_get hv
      simp only [Int.toNat_ofNat] at hp'
      have hp0 : 0 ≤ p := by
        rw [← hp'.2.1]
        exact hnn i hi1 (by omega)
      have e2 : (p + (off : Int)).toNat = p.toNat + off := by omega
      rw [e2] at hv'
      have hkv : skey V I off i = v := by
        unfold skey
        rw [hp'.2.1]
        exact hv'.2.1
      have e3 : ((i : Int) + 1) = ((i + 1 : Nat) : Int) := by push_cast; ring
      have c3 := count3 (fun t => skey V I off t) x start stop
      simp only at c3
      by_cases hc1 : v < x
      · rw [if_pos hc1, e3] at h
        exact ih I (i + 1) j k J j1 k1 (by omega) (by omega) hj hk hnn cL cE
          (by
            intro t t1 t2
            by_cases ht : t = i
            · rw [ht, hkv]; exact hc1
            · exact hA t t1 (by omega))
          hB hC h
      · rw [if_neg hc1] at h
        by_cases hc2 : v = x
        · rw [if_pos hc2] at h
          simp only [bind_ok] at h
          obtain ⟨q, hq, I1, hI1, I2, hI2, h⟩ := h
          -- room for one more equal key
          have hroom : jj + j < kk := by
            have := count_room (fun t => skey V I off t = x) start stop
              (insert i (Finset.Ico jj (jj + j)))
              (fun t ht => by
                simp only [Finset.mem_insert, Finset.mem_Ico] at ht
                rcases ht with rfl | ht
                · exact ⟨hi1, by omega, by show skey V I off _ = x; rw [hkv]; exact hc2⟩
                · exact ⟨by omega, by omega, hB t ht.1 ht.2⟩)
            rw [Finset.card_insert_of_not_mem (by simp only [Finset.mem_Ico]; omega),
              Nat.card_Ico, cE] at this
            omega
          have hq' := rd_get hq
          have e4 : ((jj : Int) + (j : Int)).toNat = jj + j := by omega
          have e5 : ((jj : Int) + (j : Int)) = ((jj + j : Nat) : Int) := by push_cast; ring
          rw [e4] at hq'
          rw [e5] at hI2
          obtain ⟨hsh, hk2⟩ := @swap_ok V _ _ _ off start stop _ _ _ _ hi1
            (by omega) (by omega : start ≤ jj + j) (by omega) hp'.2.1 hq'.2.1 hI1 hI2
          have e6 : ((j : Int) + 1) = ((j + 1 : Nat) : Int) := by push_cast; ring
          rw [e6] at h
          obtain ⟨jn, kn, r1, r2, r3, r4, r5, r6, r7, r8⟩ := ih I2 i (j + 1) k J j1 k1 hi1 hi2
            (by omega) hk (Shuf.all hsh (fun e => 0 ≤ e) hnn)
            (by rw [skey_count off hsh (fun e => e < x)]; exact cL)
            (by rw [skey_count off hsh (fun e => e = x)]; exact cE)
            (by
              intro t t1 t2
              rw [hk2, if_neg (by omega), if_neg (by omega)]
              exact hA t t1 t2)
            (by
              intro t t1 t2
              rw [hk2]
              by_cases ht : t = jj + j
              · rw [if_pos ht, hkv]; exact hc2
              · rw [if_neg ht, if_neg (by omega)]
                exact hB t t1 (by omega))
            (by
              intro t t1 t2
              rw [hk2, if_neg (by omega), if_neg (by omega)]
              exact hC t t1 t2)
            h
          exact ⟨jn, kn, r1, r2, r3, r4, hsh.comp r5, r6, r7, r8⟩
        · rw [if_neg hc2] at h
          simp only [bind_ok] at h
          obtain ⟨q, hq, I1, hI1, I2, hI2, h⟩ := h
          have hroom : kk + k < stop := by
            have := count_room (fun t => x < skey V I off t) start stop
              (insert i (Finset.Ico kk (kk + k)))
              (fun t ht => by
                simp only [Finset.mem_insert, Finset.mem_Ico] at ht
                rcases ht with rfl | ht
                · exact ⟨hi1, by omega, by show x < skey V I off _; rw [hkv]; omega⟩
                · exact ⟨by omega, by omega, hC t ht.1 ht.2⟩)
            rw [Finset.card_insert_of_not_mem (by simp only [Finset.mem_Ico]; omega),
              Nat.card_Ico] at this
            omega
          have hq' := rd_get hq
          have e4 : ((kk : Int) + (k : Int)).toNat = kk + k := by omega
          have e5 : ((kk : Int) + (k : Int)) = ((kk + k : Nat) : Int) := by push_cast; ring
          rw [e4] at hq'
          rw [e5] at hI2
          obtain ⟨hsh, hk2⟩ := @swap_ok V _ _ _ off start stop _ _ _ _ hi1
            (by omega) (by omega : start ≤ kk + k) (by omega) hp'.2.1 hq'.2.1 hI1 hI2
          have e6 : ((k : Int) + 1) = ((k + 1 : Nat) : Int) := by push_cast; ring
          rw [e6] at h
          obtain ⟨jn, kn, r1, r2, r3, r4, r5, r6, r7, r8⟩ := ih I2 i j (k + 1) J j1 k1 hi1 hi2
            hj (by omega) (Shuf.all hsh (fun e => 0 ≤ e) hnn)
            (by rw [skey_count off hsh (fun e => e < x)]; exact cL)
            (by rw [skey_count off hsh (fun e => e = x)]; exact cE)
            (by
              intro t t1 t2
              rw [hk2, if_neg (by omega), if_neg (by omega)]
              exact hA t t1 t2)
            (by
              intro t t1 t2
              rw [hk2, if_neg (by omega), if_neg (by omega)]
              exact hB t t1 t2)
            (by
              intro t t1 t2
              rw [hk2]
              by_cases ht : t = kk + k
              · rw [if_pos ht, hkv]; omega
              · rw [if_neg ht, if_neg (by omega)]
                exact hC t t1 (by omega))
            h
          exact ⟨jn, kn, r1, r2, r3, r4, hsh.comp r5, r6, r7, r8⟩
    · simp only [Except.ok.injEq, Prod.mk.injEq] at h
      obtain ⟨rfl, rfl, rfl⟩ := h
      have : i = jj := by omega
      subst this
      exact ⟨j, k, rfl, rfl, hj, hk, Shuf.same _ _ _, hA, hB, hC⟩

theorem split_part2_ok (V : Arr Int) (off : Nat) (x : Int) (start jj kk stop : Nat)
    (h1 : start ≤ jj) (h2 : jj ≤ kk) (h3 : kk ≤ stop) :
    ∀ (fuel : Nat) (I : Arr Int) (j k : Nat) (J : Arr Int),
      jj + j ≤ kk → kk + k ≤ stop →
      (∀ t, start ≤ t → t < stop → 0 ≤ I.get t) →
      ((Finset.Ico start stop).filter (fun t => skey V I off t < x)).card = jj - start →
      ((Finset.Ico start stop).filter (fun t => skey V I off t = x)).card = kk - jj →
      (∀ t, start ≤ t → t < jj → skey V I off t < x) →
      (∀ t, jj ≤ t → t < jj + j → skey V I off t = x) →
      (∀ t, kk ≤ t → t < kk + k → x < skey V I off t) →
      split_part2 V off x jj kk fuel I j k = .ok J →
      Shuf I.get J.get start stop ∧
        (∀ t, start ≤ t → t < jj → skey V J off t < x) ∧
        (∀ t, jj ≤ t → t < kk → skey V J off t = x) ∧
        (∀ t, kk ≤ t → t < stop → x < skey V J off t) := by
  have fin : ∀ (I : Arr Int) (j k : Nat), jj + j = kk →
      ((Finset.Ico start stop).filter (fun t => skey V I off t < x)).card = jj - start →
      ((Finset.Ico start stop).filter (fun t => skey V I off t = x)).card = kk - jj →
      (∀ t, start ≤ t → t < jj → skey V I off t < x) →
      (∀ t, jj ≤ t → t < jj + j → skey V I off t = x) →
      Shuf I.get I.get start stop ∧
        (∀ t, start ≤ t → t < jj → skey V I off t < x) ∧
        (∀ t, jj ≤ t → t < kk → skey V I off t = x) ∧
        (∀ t, kk ≤ t → t < stop → x < skey V I off t) := by
    intro I j k hjk cL cE hA hB
    refine ⟨Shuf.same _ _ _, hA, fun t t1 t2 => hB t t1 (by omega), fun t t1 t2 => ?_⟩
    have f1 := count_full (fun t => skey V I off t < x) start stop start jj (le_refl _)
      (by omega) hA cL t (by omega) t2
    have f2 := count_full (fun t => skey V I off t = x) start stop jj kk h1 h3
      (fun t t1 t2 => hB t t1 (by omega)) cE t (by omega) t2
    by_contra hc
    by_cases hlt : skey V I off t < x
    · have := f1 hlt
      omega
    · have := f2 (by omega)
      omega
  intro fuel
  induction fuel with
  | zero =>
    intro I j k J hj hk hnn cL cE hA hB hC h
    unfold split_part2 at h
    split at h
    · simp at h
    · simp only [Except.ok.injEq] at h
      subst h
      exact fin I j k (by omega) cL cE hA hB
  | succ n ih =>
    intro I j k J hj hk hnn cL cE hA hB hC h
    unfold split_part2 at h
    split at h
    · rename_i hlt
      have hlt' : jj + j < kk := by omega
      simp only [bind_ok] at h
      obtain ⟨p, hp, v, hv, h⟩ := h
      have hp' := rd_get hp
      have hv' := rd_get hv
      have e4 : ((jj : Int) + (j : Int)).toNat = jj + j := by omega
      have e5 : ((jj : Int) + (j : Int)) = ((jj + j : Nat) : Int) := by push_cast; ring
      rw [e4] at hp'
      have hp0 : 0 ≤ p := by
        rw [← hp'.2.1]
        exact hnn (jj + j) (by omega) (by omega)
      have e2 : (p + (off : Int)).toNat = p.toNat + off := by omega
      rw [e2] at hv'
      have hkv : skey V I off (jj + j) = v := by
        unfold skey
        rw [hp'.2.1]
        exact hv'.2.1
      have c3 := count3 (fun t => skey V I off t) x start stop
      simp only at c3
      by_cases hc2 : v = x
      · rw [if_pos hc2] at h
        have e6 : ((j : Int) + 1) = ((j + 1 : Nat) : Int) := by push_cast; ring
        rw [e6] at h
        exact ih I (j + 1) k J (by omega) hk hnn cL cE hA
          (by
            intro t t1 t2
            by_cases ht : t = jj + j
            · rw [ht, hkv]; exact hc2
            · exact hB t t1 (by omega))
          hC h
      · rw [if_neg hc2] at h
        simp only [bind_ok] at h
        obtain ⟨q, hq, I1, hI1, I2, hI2, h⟩ := h
        have hgt : x < v := by
          have f1 := count_full (fun t => skey V I off t < x) start stop start jj (le_refl _)
            (by omega) hA cL (jj + j) (by omega) (by omega)
          by_contra hc
          have : skey V I off (jj + j) < x := by rw [hkv]; omega
          have := f1 this
          omega
        have hroom : kk + k < stop := by
          have := count_room (fun t => x < skey V I off t) start stop
            (insert (jj + j) (Finset.Ico kk (kk + k)))
            (fun t ht => by
              simp only [Finset.mem_insert, Finset.mem_Ico] at ht
              rcases ht with ht | ht
              · exact ⟨by omega, by omega, by show x < skey V I off t; rw [ht, hkv]; exact hgt⟩
              · exact ⟨by omega, by omega, hC t ht.1 ht.2⟩)
          rw [Finset.card_insert_of_not_mem (by simp only [Finset.mem_Ico]; omega),
            Nat.card_Ico] at this
          omega
        have hq' := rd_get hq
        have e7 : ((kk : Int) + (k : Int)).toNat = kk + k := by omega
        have e8 : ((kk : Int) + (k : Int)) = ((kk + k : Nat) : Int) := by push_cast; ring
        rw [e7] at hq'
        rw [e5] at hI1
        rw [e8] at hI2
        obtain ⟨hsh, hk2⟩ := @swap_ok V _ _ _ off start stop _ _ _ _
          (by omega : start ≤ jj + j) (by omega) (by omega : start ≤ kk + k) (by omega)
          hp'.2.1 hq'.2.1 hI1 hI2
        have e6 : ((k : Int) + 1) = ((k + 1 : Nat) : Int) := by push_cast; ring
        rw [e6] at h
        obtain ⟨r5, r6, r7, r8⟩ := ih I2 j (k + 1) J hj (by omega)
          (Shuf.all hsh (fun e => 0 ≤ e) hnn)
          (by rw [skey_count off hsh (fun e => e < x)]; exact cL)
          (by rw [skey_count off hsh (fun e => e = x)]; exact cE)
          (by
            intro t t1 t2
            rw [hk2, if_neg (by omega), if_neg (by omega)]
            exact hA t t1 t2)
          (by
            intro t t1 t2
            rw [hk2, if_neg (by omega), if_neg (by omega)]
            exact hB t t1 t2)
          (by
            intro t t1 t2
            rw [hk2]
            by_cases ht : t = kk + k
            · rw [if_pos ht, hkv]; exact hgt
            · rw [if_neg ht, if_neg (by omega)]
              exact hC t t1 (by omega))
          h
        exact ⟨hsh.comp r5, r6, r7, r8⟩
    · simp only [Except.ok.injEq] at h
      subst h
      exact fin I j k (by omega) cL cE hA hB

/-! ## suf_split -/

theorem SplitPost.reframe {pad : List Byte} {off : Nat} {I I1 V J W : Arr Int} {a b : Nat}
    (h : SplitPost pad off I1 V J W a b) (hs : Shuf I.get I1.get a b) :
    SplitPost pad off I V J W a b := by
  refine ⟨h.blocks, fun t ht => ?_, h.chg, h.inv, h.low⟩
  rw [h.frameI t ht]
  exact Shuf.outside hs ht

theorem suf_split_ok {pad : List Byte} (off : Nat) (G : Int) :
    ∀ (fuel : Nat) (I V : Arr Int) (start len : Nat) (J W : Arr Int),
      VInv pad off start V → Grp pad off I V start (start + len) G →
      suf_split fuel I V start len off = .ok (J, W) →
      SplitPost pad off I V J W start (start + len) := by
  intro fuel
  induction fuel with
  | zero =>
    intro I V start len J W _ _ h
    simp [suf_split] at h
  | succ n ih =>
    intro I V start len J W hv hg h
    unfold suf_split at h
    have est : ((start : Int) + (len : Int)) = ((start + len : Nat) : Int) := by push_cast; ring
    split at h
    · rw [est] at h
      exact split_small_ok off (start + len) G n start I V J W (by omega) hv hg h
    · rename_i hlen
      have hlen' : 16 ≤ len := by omega
      simp only [bind_ok] at h
      obtain ⟨pm, hpm, x, hx, ⟨jj0, kk0⟩, htal, ⟨I1, j, k⟩, hp1, I2, hp2, ⟨I3, V3⟩, hrec1, V4, hV4,
        I4, hI4, h⟩ := h
      simp only at hp1 hp2 hrec1 hV4 hI4 h
      -- the pivot
      have hpm' := rd_get hpm
      have hx' := rd_get hx
      have emid : ((start : Int) + (len : Int) / 2).toNat = start + len / 2 := by omega
      rw [emid] at hpm'
      have hnn : ∀ t, start ≤ t → t < start + len → 0 ≤ I.get t :=
        fun t t1 t2 => (hg.mem t t1 t2).1
      have hpm0 : 0 ≤ pm := by
        rw [← hpm'.2.1]
        exact hnn _ (by omega) (by omega)
      have e2 : (pm + (off : Int)).toNat = pm.toNat + off := by omega
      rw [e2] at hx'
      have hkx : skey V I off (start + len / 2) = x := by
        unfold skey
        rw [hpm'.2.1]
        exact hx'.2.1
      -- the counts
      simp only [Int.toNat_ofNat] at htal
      obtain ⟨c1, c2⟩ := split_tally_ok I V off x len start 0 0 _ hnn htal
      simp only [zero_add] at c1 c2
      have c3 := count3 (fun t => skey V I off t) x start (start + len)
      simp only at c3
      have cpos : 1 ≤ ((Finset.Ico start (start + len)).filter
          (fun t => skey V I off t = x)).card := by
        have := count_room (fun t => skey V I off t = x) start (start + len) {start + len / 2}
          (fun t ht => by
            simp only [Finset.mem_singleton] at ht
            subst ht
            exact ⟨by omega, by omega, hkx⟩)
        simpa using this
      generalize hcL : ((Finset.Ico start (start + len)).filter
        (fun t => skey V I off t < x)).card = cL at c1 c3
      generalize hcE : ((Finset.Ico start (start + len)).filter
        (fun t => skey V I off t = x)).card = cE at c2 c3 cpos
      subst c1 c2
      have ejj : (cL : Int) + (start : Int) = ((start + cL : Nat) : Int) := by push_cast; ring
      rw [ejj] at hp1 hp2 hV4 hrec1 hI4 h
      have ekk : (cE : Int) + ((start + cL : Nat) : Int) = ((start + cL + cE : Nat) : Int) := by
        push_cast; ring
      rw [ekk] at hp1 hp2 hV4 hI4 h
      have hj1 : start ≤ start + cL := by omega
      have hj2 : start + cL ≤ start + cL + cE := by omega
      have hj3 : start + cL + cE ≤ start + len := by omega
      -- the two partition loops
      obtain ⟨jn, kn, r1, r2, r3, r4, hs1, rA, rB, rC⟩ :=
        split_part1_ok V off x start (start + cL) (start + cL + cE) (start + len) hj1 hj2 hj3
          n I start 0 0 I1 j k (le_refl _) hj1 (by omega) (by omega) hnn
          (by rw [hcL]; omega) (by rw [hcE]; omega)
          (fun t t1 t2 => by omega) (fun t t1 t2 => by omega) (fun t t1 t2 => by omega) hp1
      subst r1 r2
      obtain ⟨hs2, kA, kB, kC⟩ :=
        split_part2_ok V off x start (start + cL) (start + cL + cE) (start + len) hj1 hj2 hj3
          n I1 jn kn I2 r3 r4 (Shuf.all hs1 (fun e => 0 ≤ e) hnn)
          (by rw [skey_count off hs1 (fun e => e < x), hcL]; omega)
          (by rw [skey_count off hs1 (fun e => e = x), hcE]; omega)
          rA rB rC hp2
      have hs : Shuf I.get I2.get start (start + len) := hs1.comp hs2
      have hg2 : Grp pad off I2 V start (start + len) G := hg.shuf hs
      -- what the keys say about the ranks
      obtain ⟨ra1, ra2⟩ := split_ranks hv hg2 hj1 (by omega : start + cL ≤ start + len)
        (fun t u t1 t2 u1 u2 => by
          have a1 := kA t t1 t2
          by_cases hu : u < start + cL + cE
          · have := kB u u1 hu
            unfold skey at *
            omega
          · have := kC u (by omega) u2
            unfold skey at *
            omega)
      obtain ⟨rb1, rb2⟩ := split_ranks hv hg2 (by omega : start ≤ start + cL + cE) hj3
        (fun t u t1 t2 u1 u2 => by
          have c := kC u u1 u2
          by_cases ht : t < start + cL
          · have := kA t t1 ht
            unfold skey at *
            omega
          · have := kB t (by omega) t2
            unfold skey at *
            omega)
      have h2eq : ∀ t u, start + cL ≤ t → t < start + cL + cE → start + cL ≤ u →
          u < start + cL + cE →
          (pad.drop (I2.get t).toNat).take (2 * off) =
            (pad.drop (I2.get u).toNat).take (2 * off) := by
        intro t u t1 t2 u1 u2
        obtain ⟨_, m2, _, _, m5⟩ := hg2.mem t (by omega) (by omega)
        obtain ⟨_, n2, _, _, n5⟩ := hg2.mem u (by omega) (by omega)
        have k1 := kB t t1 t2
        have k2 := kB u u1 u2
        unfold skey at k1 k2
        exact key_eq_take hv m2 n2 (by rw [m5, n5]) (by rw [k1, k2])
      -- the cells with a smaller key
      have post1 : SplitPost pad off I2 V I3 V3 start (start + cL) := by
        by_cases hc : 0 < cL
        · have hc' : ((start + cL : Nat) : Int) > (start : Int) := by omega
          rw [if_pos hc'] at hrec1
          have e : ((start + cL : Nat) : Int) - (start : Int) = ((cL : Nat) : Int) := by
            push_cast; ring
          rw [e] at hrec1
          refine ih I2 V start cL I3 V3 hv ⟨fun t t1 t2 => ?_, fun t u t1 t2 u1 u2 he => ?_, hg2.low⟩
            hrec1
          · obtain ⟨m1, m2, m3, _, m5⟩ := hg2.mem t t1 (by omega)
            exact ⟨m1, m2, m3, ra1 t t1 t2, m5⟩
          · exact hg2.inj t u t1 (by omega) u1 (by omega) he
        · have hc' : ¬ ((start + cL : Nat) : Int) > (start : Int) := by omega
          rw [if_neg hc'] at hrec1
          simp only [Except.ok.injEq, Prod.mk.injEq] at hrec1
          obtain ⟨rfl, rfl⟩ := hrec1
          have : cL = 0 := by omega
          subst this
          exact SplitPost.nil hv hg2.low
      -- the cells with the key of the pivot
      have hg3 : Grp pad off I3 V3 (start + cL) (start + len) G := by
        refine ⟨fun t t1 t2 => ?_, fun t u t1 t2 u1 u2 he => ?_, post1.low⟩
        · rw [post1.frameI t (Or.inr t1)]
          obtain ⟨m1, m2, m3, m4, m5⟩ := hg2.mem t (by omega) t2
          refine ⟨m1, m2, ra2 t t1 t2, m4, ?_⟩
          by_contra hne
          have hne' : V3.get (I2.get t).toNat ≠ V.get (I2.get t).toNat := by
            rw [m5]; exact hne
          have := post1.chg _ (by omega) hne'
          have := ra2 t t1 t2
          omega
        · rw [post1.frameI t (Or.inr t1), post1.frameI u (Or.inr u1)] at he
          exact hg2.inj t u (by omega) t2 (by omega) u2 he
      have hV4' : split_assign I3 ((start + cL : Nat) : Int)
          (((start + cL + cE : Nat) : Int) - 1) (start + cL + cE - (start + cL)) (0 : Nat) V3 =
          .ok V4 := by
        have e : (((start + cL + cE : Nat) : Int) - ((start + cL : Nat) : Int)).toNat =
            start + cL + cE - (start + cL) := by omega
        rw [e] at hV4
        exact hV4
      obtain ⟨second, hg4⟩ := close_ok post1.inv hg3 (by omega : start + cL < start + cL + cE) hj3
        (fun t t1 t2 => by
          rw [post1.frameI t (Or.inr t1)]
          exact rb1 t (by omega) t2)
        (fun t t1 t2 => by
          rw [post1.frameI t (Or.inr (by omega))]
          exact rb2 t t1 t2)
        (fun t u t1 t2 u1 u2 => by
          rw [post1.frameI t (Or.inr t1), post1.frameI u (Or.inr u1)]
          exact h2eq t u t1 t2 u1 u2)
        hV4'
        (J := I4)
        (by
          intro hm
          have hc : ((start + cL : Nat) : Int) = ((start + cL + cE : Nat) : Int) - 1 := by omega
          rw [if_pos hc] at hI4
          have w := wr_get hI4
          simp only [Int.toNat_ofNat] at w
          refine ⟨by rw [w.2.1 _, if_pos rfl], fun t ht => ?_⟩
          rw [w.2.1 t, if_neg ht])
        (by
          intro hm
          have hc : ¬ ((start + cL : Nat) : Int) = ((start + cL + cE : Nat) : Int) - 1 := by omega
          rw [if_neg hc] at hI4
          simp only [Except.ok.injEq] at hI4
          exact hI4.symm)
      -- the cells with a larger key
      have third : SplitPost pad off I4 V4 J W (start + cL + cE) (start + len) := by
        by_cases hc : start + cL + cE < start + len
        · have hc' : (start : Int) + (len : Int) > ((start + cL + cE : Nat) : Int) := by omega
          rw [if_pos hc'] at h
          have e : (start : Int) + (len : Int) - ((start + cL + cE : Nat) : Int) =
              ((start + len - (start + cL + cE) : Nat) : Int) := by omega
          rw [e] at h
          have e2 : start + cL + cE + (start + len - (start + cL + cE)) = start + len := by omega
          have := ih I4 V4 (start + cL + cE) (start + len - (start + cL + cE)) J W second.inv
            (by rw [e2]; exact hg4) h
          rw [e2] at this
          exact this
        · have hc' : ¬ (start : Int) + (len : Int) > ((start + cL + cE : Nat) : Int) := by omega
          rw [if_neg hc'] at h
          simp only [Except.ok.injEq, Prod.mk.injEq] at h
          obtain ⟨rfl, rfl⟩ := h
          have e : start + cL + cE = start + len := by omega
          rw [← e]
          exact SplitPost.nil second.inv second.low
      exact (post1.join (second.join third)).reframe hs

/-! ## the sweeps of suf_create -/

theorem Blocks.inv_neg {pad : List Byte} {I V : Arr Int} {a c : Nat} (h : Blocks pad I V a c)
    (hac : a < c) (he : I.get a < 0) :
    ∃ r : Nat, 0 < r ∧ I.get a = -(r : Int) ∧ (∀ k, a ≤ k → k < a + r → Sorted1 pad V k) ∧
      Blocks pad I V (a + r) c := by
  cases h with
  | nil => omega
  | neg _ r _ hr hI hs hb => exact ⟨r, hr, hI, hs, hb⟩
  | grp _ b _ hb hg _ =>
    have := (hg.mem a (le_refl _) (by omega)).1
    omega

theorem Blocks.inv_grp {pad : List Byte} {I V : Arr Int} {a c : Nat} (h : Blocks pad I V a c)
    (hac : a < c) (he : 0 ≤ I.get a) :
    ∃ b : Nat, a + 2 ≤ b ∧ Grp pad 0 I V a b ((b : Int) - 1) ∧ Blocks pad I V b c := by
  cases h with
  | nil => omega
  | neg _ r _ hr hI hs hb => omega
  | grp _ b _ hb hg hr => exact ⟨b, hb, hg, hr⟩

theorem Blocks.frameI {pad : List Byte} {I J V : Arr Int} {a c : Nat}
    (h : Blocks pad I V a c) (hI : ∀ t, a ≤ t → t < c → J.get t = I.get t) :
    Blocks pad J V a c :=
  h.frame hI (VChg.refl pad V 0 0) (Or.inl (Nat.zero_le _))

/-- The bound of the 2h agreement moves over sorted cells. -/
theorem VInv.skip {pad : List Byte} {off a b : Nat} {V : Arr Int} (hv : VInv pad off a V)
    (hs : ∀ k, a ≤ k → k < b → Sorted1 pad V k) : VInv pad off b V := by
  refine ⟨hv.ge, hv.le, hv.ord, hv.eqv, fun p q hp hq he hb => ?_⟩
  by_cases hlt : V.get p < a
  · exact hv.eqv2 p q hp hq he hlt
  · have h0 := hv.ge p hp
    have e1 : V.get p = ((V.get p).toNat : Int) := by omega
    have s1 := hs (V.get p).toNat (by omega) (by omega) p hp e1
    have s2 := hs (V.get p).toNat (by omega) (by omega) q hq (by rw [← he]; exact e1)
    have := rank_inj pad hp hq (by rw [s1, s2])
    rw [this]

/-- The members of a group of two or more suffixes have off bytes each. -/
theorem Grp.upgrade {pad : List Byte} {off bound : Nat} {I V : Arr Int} {a b : Nat} {G : Int}
    (hv : VInv pad off bound V) (hg : Grp pad 0 I V a b G) (hb : a + 2 ≤ b) :
    Grp pad off I V a b G := by
  refine ⟨fun t t1 t2 => ?_, hg.inj, hg.low⟩
  obtain ⟨m1, m2, m3, m4, m5⟩ := hg.mem t t1 t2
  refine ⟨m1, ?_, m3, m4, m5⟩
  -- another member of the group
  obtain ⟨u, u1, u2, hne⟩ : ∃ u, a ≤ u ∧ u < b ∧ u ≠ t := by
    by_cases ht : t = a
    · exact ⟨a + 1, by omega, by omega, by omega⟩
    · exact ⟨a, le_refl _, by omega, fun h => ht h.symm⟩
  obtain ⟨n1, n2, n3, n4, n5⟩ := hg.mem u u1 u2
  have hpq : (I.get t).toNat ≠ (I.get u).toNat := by
    intro he
    exact hne (hg.inj u t u1 u2 t1 t2 (by omega))
  have := hv.eqv _ _ (by omega : (I.get t).toNat ≤ pad.length) (by omega : (I.get u).toNat ≤ pad.length)
    (by rw [m5, n5])
  exact (take_eq_bound pad off _ _ (by omega) (by omega) hpq this).1

theorem suf_pass_ok {pad : List Byte} (off fuel : Nat) :
    ∀ (cnt i l : Nat) (I V J W : Arr Int) (i1 l1 : Int),
      l ≤ i → i ≤ pad.length + 1 → Blocks pad I V 0 (i - l) →
      (∀ k, i - l ≤ k → k < i → Sorted1 pad V k) → Blocks pad I V i (pad.length + 1) →
      VInv pad off i V →
      suf_pass pad.length off fuel cnt i l I V = .ok (J, W, i1, l1) →
      ∃ ln : Nat, l1 = ln ∧ i1 = ((pad.length + 1 : Nat) : Int) ∧ ln ≤ pad.length + 1 ∧
        Blocks pad J W 0 (pad.length + 1 - ln) ∧
        (∀ k, pad.length + 1 - ln ≤ k → k < pad.length + 1 → Sorted1 pad W k) ∧
        VInv pad off (pad.length + 1) W := by
  have fin : ∀ (i l : Nat) (I V : Arr Int), l ≤ i → i ≤ pad.length + 1 →
      ¬ ((i : Int) < (pad.length : Int) + 1) → Blocks pad I V 0 (i - l) →
      (∀ k, i - l ≤ k → k < i → Sorted1 pad V k) → VInv pad off i V →
      ∃ ln : Nat, (l : Int) = ln ∧ (i : Int) = ((pad.length + 1 : Nat) : Int) ∧
        ln ≤ pad.length + 1 ∧ Blocks pad I V 0 (pad.length + 1 - ln) ∧
        (∀ k, pad.length + 1 - ln ≤ k → k < pad.length + 1 → Sorted1 pad V k) ∧
        VInv pad off (pad.length + 1) V := by
    intro i l I V hl hi hc hb hs hv
    have : i = pad.length + 1 := by omega
    subst this
    exact ⟨l, rfl, rfl, hl, hb, hs, hv⟩
  intro cnt
  induction cnt with
  | zero =>
    intro i l I V J W i1 l1 hl hi hb hs hr hv h
    unfold suf_pass at h
    split at h
    · simp at h
    · rename_i hc
      simp only [Except.ok.injEq, Prod.mk.injEq] at h
      obtain ⟨rfl, rfl, rfl, rfl⟩ := h
      exact fin i l I V hl hi hc hb hs hv
  | succ n ih =>
    intro i l I V J W i1 l1 hl hi hb hs hr hv h
    unfold suf_pass at h
    split at h
    · rename_i hc
      have hc' : i < pad.length + 1 := by omega
      simp only [bind_ok] at h
      obtain ⟨e, he, h⟩ := h
      have he' := rd_get he
      simp only [Int.toNat_ofNat] at he'
      split at h
      · -- a run of sorted suffixes
        rename_i hneg
        obtain ⟨r, r1, r2, r3, r4⟩ := hr.inv_neg hc' (by rw [he'.2.1]; exact hneg)
        have er : e = -(r : Int) := by rw [← he'.2.1]; exact r2
        have e1 : (i : Int) - e = ((i + r : Nat) : Int) := by rw [er]; push_cast; ring
        have e2 : (l : Int) - e = ((l + r : Nat) : Int) := by rw [er]; push_cast; ring
        rw [e1, e2] at h
        have hle := r4.le
        have e3 : i + r - (l + r) = i - l := by omega
        exact ih (i + r) (l + r) I V J W i1 l1 (by omega) hle (by rw [e3]; exact hb)
          (by
            intro k k1 k2
            by_cases hk : k < i
            · exact hs k (by omega) hk
            · exact r3 k (by omega) k2)
          r4 (hv.skip r3) h
      · -- an unsorted group
        rename_i hpos
        have hpos' : 0 ≤ I.get i := by rw [he'.2.1]; omega
        obtain ⟨b, b1, b2, b3⟩ := hr.inv_grp hc' hpos'
        have hble := b3.le
        simp only [bind_ok] at h
        obtain ⟨I1, hI1, g, hg, ⟨I2, V2⟩, hsp, h⟩ := h
        simp only at h
        have hI1' : (∀ t, i ≤ t → I1.get t = I.get t) ∧ Blocks pad I1 V 0 i := by
          by_cases hl0 : l = 0
          · subst hl0
            rw [if_neg (by simp)] at hI1
            simp only [Except.ok.injEq] at hI1
            subst hI1
            exact ⟨fun _ _ => rfl, hb⟩
          · have hl0' : (l : Int) ≠ 0 := by omega
            rw [if_pos hl0'] at hI1
            have w := wr_get hI1
            have e : ((i : Int) - (l : Int)).toNat = i - l := by omega
            rw [e] at w
            refine ⟨fun t ht => by rw [w.2.1 t, if_neg (by omega)], ?_⟩
            have first : Blocks pad I1 V 0 (i - l) :=
              hb.frameI (fun t _ t2 => by rw [w.2.1 t, if_neg (by omega)])
            have e2 : i - l + l = i := by omega
            have run : Blocks pad I1 V (i - l) i := by
              have := @Blocks.neg pad I1 V (i - l) l i (by omega)
                (by rw [w.2.1 _, if_pos rfl]) (by rw [e2]; exact hs)
                (by rw [e2]; exact Blocks.nil i)
              exact this
            exact first.append run
        obtain ⟨f1, f2⟩ := hI1'
        have hg' := rd_get hg
        have hgv : g = (b : Int) - 1 := by
          rw [← hg'.2.1, ← he'.2.1]
          exact (b2.mem i (le_refl _) (by omega)).2.2.2.2
        have el : g + 1 - (i : Int) = ((b - i : Nat) : Int) := by rw [hgv]; omega
        rw [el] at hsp h
        have e3 : i + (b - i) = b := by omega
        have hgrp : Grp pad off I1 V i (i + (b - i)) ((b : Int) - 1) := by
          rw [e3]
          exact ((b2.upgrade hv b1).keepI (fun t t1 _ => f1 t t1))
        have post := suf_split_ok off _ fuel I1 V i (b - i) I2 V2 hv hgrp hsp
        rw [e3] at post
        have e4 : (i : Int) + ((b - i : Nat) : Int) = ((b : Nat) : Int) := by omega
        have e5 : (0 : Int) = ((0 : Nat) : Int) := rfl
        rw [e4, e5] at h
        exact ih b 0 I2 V2 J W i1 l1 (Nat.zero_le _) hble
          (by
            rw [Nat.sub_zero]
            exact (f2.frame (fun t _ t2 => post.frameI t (Or.inl t2)) post.chg
              (Or.inr (le_refl _))).append post.blocks)
          (by
            intro k k1 k2
            omega)
          (by
            refine (b3.frameI (J := I1) (fun t t1 _ => f1 t (by omega))).frame
              (fun t t1 _ => post.frameI t (Or.inr t1)) post.chg (Or.inl (le_refl _)))
          post.inv h
    · rename_i hc
      simp only [Except.ok.injEq, Prod.mk.injEq] at h
      obtain ⟨rfl, rfl, rfl, rfl⟩ := h
      exact fin i l I V hl hi hc hb hs hv

/-- After a sweep with offset off the group numbers satisfy the invariant for the offset
off + off. -/
theorem VInv.double {pad : List Byte} {off : Nat} {V : Arr Int}
    (hv : VInv pad off (pad.length + 1) V) : VInv pad (off + off) 0 V := by
  refine ⟨hv.ge, hv.le, hv.ord, fun p q hp hq he => ?_, fun p q hp hq he hb => ?_⟩
  · have := hv.eqv2 p q hp hq he (by have := hv.le p hp; omega)
    rw [two_mul] at this
    exact this
  · have := hv.ge p hp
    omega

theorem suf_double_ok {pad : List Byte} (M fuel : Nat) :
    ∀ (cnt off : Nat) (I V J W : Arr Int), Blocks pad I V 0 (pad.length + 1) → VInv pad off 0 V →
      suf_double M pad.length fuel cnt off I V = .ok (J, W) →
      ∀ p, p ≤ pad.length → W.get p = rank pad p := by
  intro cnt
  induction cnt with
  | zero =>
    intro off I V J W _ _ h
    simp [suf_double] at h
  | succ n ih =>
    intro off I V J W hb hv h
    simp only [suf_double, bind_ok] at h
    obtain ⟨e, he, h⟩ := h
    have he' := rd_get he
    simp only [Int.toNat_zero] at he'
    split at h
    · simp only [bind_ok] at h
      obtain ⟨⟨I1, V1, i, l⟩, hpass, I2, hI2, h⟩ := h
      simp only at hI2 h
      split at h
      · have e0 : (0 : Int) = ((0 : Nat) : Int) := rfl
        rw [e0] at hpass
        obtain ⟨ln, r1, r2, r3, r4, r5, r6⟩ := suf_pass_ok off fuel fuel 0 0 I V I1 V1 i l
          (le_refl _) (Nat.zero_le _) (Blocks.nil 0) (fun k k1 k2 => by omega) hb hv hpass
        subst r1 r2
        have hb2 : Blocks pad I2 V1 0 (pad.length + 1) := by
          by_cases hl0 : ln = 0
          · subst hl0
            rw [if_neg (by simp)] at hI2
            simp only [Except.ok.injEq] at hI2
            subst hI2
            exact r4
          · have hl0' : (ln : Int) ≠ 0 := by omega
            rw [if_pos hl0'] at hI2
            have w := wr_get hI2
            have e : (((pad.length + 1 : Nat) : Int) - (ln : Int)).toNat = pad.length + 1 - ln := by
              omega
            rw [e] at w
            have first : Blocks pad I2 V1 0 (pad.length + 1 - ln) :=
              r4.frameI (fun t _ t2 => by rw [w.2.1 t, if_neg (by omega)])
            have e2 : pad.length + 1 - ln + ln = pad.length + 1 := by omega
            have run : Blocks pad I2 V1 (pad.length + 1 - ln) (pad.length + 1) := by
              have := @Blocks.neg pad I2 V1 (pad.length + 1 - ln) ln
                (pad.length + 1) (by omega)
                (by rw [w.2.1 _, if_pos rfl]) (by rw [e2]; exact r5)
                (by rw [e2]; exact Blocks.nil _)
              exact this
            exact first.append run
        have e1 : (off : Int) + (off : Int) = ((off + off : Nat) : Int) := by push_cast; ring
        rw [e1] at h
        exact ih (off + off) I2 V1 J W hb2 r6.double h
      · simp at h
    · rename_i hc
      simp only [ne_eq, not_not] at hc
      simp only [Except.ok.injEq, Prod.mk.injEq] at h
      obtain ⟨rfl, rfl⟩ := h
      obtain ⟨r, r1, r2, r3, r4⟩ := hb.inv_neg (by omega) (by rw [he'.2.1, hc]; omega)
      have hr : r = pad.length + 1 := by
        rw [he'.2.1, hc] at r2
        omega
      intro p hp
      have h1 := hv.ge p hp
      have h2 := hv.le p hp
      have e1 : V.get p = ((V.get p).toNat : Int) := by omega
      have := r3 (V.get p).toNat (Nat.zero_le _) (by omega) p hp e1
      omega

theorem suf_invert_ok {pad : List Byte} (V : Arr Int)
    (hV : ∀ p, p ≤ pad.length → V.get p = rank pad p) :
    ∀ (cnt i : Nat) (I J : Arr Int), i + cnt = pad.length + 1 →
      suf_invert V cnt i I = .ok J →
      (∀ p, i ≤ p → p ≤ pad.length → J.cell (rank pad p) = some (p : Int)) ∧
      (∀ k, (∀ p, i ≤ p → p ≤ pad.length → rank pad p ≠ k) → J.cell k = I.cell k) := by
  intro cnt
  induction cnt with
  | zero =>
    intro i I J hi h
    simp only [suf_invert, Except.ok.injEq] at h
    subst h
    exact ⟨fun p p1 p2 => by omega, fun _ _ => rfl⟩
  | succ n ih =>
    intro i I J hi h
    simp only [suf_invert, bind_ok] at h
    obtain ⟨v, hv, I1, hI1, h⟩ := h
    have hv' := rd_get hv
    simp only [Int.toNat_ofNat] at hv'
    have ev : v = rank pad i := by rw [← hv'.2.1]; exact hV i (by omega)
    have w := wr_get hI1
    rw [ev] at w
    simp only [Int.toNat_ofNat] at w
    have e3 : ((i : Int) + 1) = ((i + 1 : Nat) : Int) := by push_cast; ring
    rw [e3] at h
    obtain ⟨r1, r2⟩ := ih (i + 1) I1 J (by omega) h
    constructor
    · intro p p1 p2
      by_cases hp : p = i
      · subst hp
        rw [r2 _ (fun q q1 q2 hq => by
          have := rank_inj pad q2 p2 hq
          omega), w.2.2 _, if_pos rfl]
      · exact r1 p (by omega) p2
    · intro k hk
      rw [r2 k (fun q q1 q2 => hk q (by omega) q2), w.2.2 k, if_neg (fun hc => hk i (le_refl _) (by omega) hc.symm)]

/-! ## suf_bucketsort: the chains -/

theorem Linked.keep {V W : Arr Int} : ∀ (l : List Nat) (d : Int),
    (∀ p ∈ l, W.get p = V.get p) → Linked V d l → Linked W d l := by
  intro l
  induction l with
  | nil => intro d _ h; exact h
  | cons p rest ih =>
    intro d hf h
    refine ⟨h.1, ?_⟩
    rw [hf p (List.mem_cons_self _ _)]
    exact ih _ (fun q hq => hf q (List.mem_cons_of_mem _ hq)) h.2

theorem chainL_mem {key : Nat → Nat} {i n c p : Nat} :
    p ∈ chainL key i n c ↔ i ≤ p ∧ p < n ∧ key p = c := by
  unfold chainL
  simp only [List.mem_filter, List.mem_range', decide_eq_true_eq]
  constructor
  · rintro ⟨⟨k, hk, rfl⟩, h2⟩
    exact ⟨by omega, by omega, h2⟩
  · rintro ⟨h1, h2, h3⟩
    exact ⟨⟨p - i, by omega, by omega⟩, h3⟩

theorem chainL_nodup (key : Nat → Nat) (i n c : Nat) : (chainL key i n c).Nodup :=
  (List.nodup_range' i (n - i)).filter _

theorem chainL_step (key : Nat → Nat) {i n : Nat} (c : Nat) (hi : i < n) :
    chainL key i n c = if key i = c then i :: chainL key (i + 1) n c
      else chainL key (i + 1) n c := by
  unfold chainL
  have e : n - i = (n - (i + 1)) + 1 := by omega
  rw [e, List.range'_succ, List.filter_cons]
  by_cases h : key i = c
  · simp [h]
  · simp [h]

theorem chainL_end (key : Nat → Nat) (n c : Nat) : chainL key n n c = [] := by
  simp [chainL]

theorem bucket_link_ok (key : Nat → Nat) (n : Nat) :
    ∀ (i : Nat) (V B W C : Arr Int), i ≤ n →
      (∀ p, p < i → V.get p = (key p : Int)) →
      (∀ c, Linked V (B.get c) (chainL key i n c)) →
      bucket_link i V B = .ok (W, C) →
      ∀ c, Linked W (C.get c) (chainL key 0 n c) := by
  intro i
  induction i with
  | zero =>
    intro V B W C _ _ hl h
    simp only [bucket_link, Except.ok.injEq, Prod.mk.injEq] at h
    obtain ⟨rfl, rfl⟩ := h
    exact hl
  | succ i ih =>
    intro V B W C hi hk hl h
    simp only [bucket_link, bind_ok] at h
    obtain ⟨c, hc, b, hb, V1, hV1, B1, hB1, h⟩ := h
    have hc' := rd_get hc
    simp only [Int.toNat_ofNat] at hc'
    have ec : c = (key i : Int) := by rw [← hc'.2.1]; exact hk i (by omega)
    subst ec
    have hb' := rd_get hb
    simp only [Int.toNat_ofNat] at hb'
    have w1 := wr_get hV1
    have w2 := wr_get hB1
    simp only [Int.toNat_ofNat] at w1 w2
    refine ih V1 B1 W C (by omega) ?_ ?_ h
    · intro p hp
      rw [w1.2.1 p, if_neg (by omega)]
      exact hk p (by omega)
    · intro c
      rw [chainL_step key c (by omega : i < n)]
      have hfr : ∀ p ∈ chainL key (i + 1) n c, V1.get p = V.get p := by
        intro p hp
        have := (chainL_mem.1 hp).1
        rw [w1.2.1 p, if_neg (by omega)]
      by_cases hkc : key i = c
      · rw [if_pos hkc]
        subst hkc
        refine ⟨by rw [w2.2.1, if_pos rfl], ?_⟩
        rw [w1.2.1 i, if_pos rfl, ← hb'.2.1]
        exact Linked.keep _ _ hfr (hl _)
      · rw [if_neg hkc, w2.2.1 c, if_neg (fun h => hkc h.symm)]
        exact Linked.keep _ _ hfr (hl c)

/-- The inner loop of the second loop of suf_bucketsort, entered below the top cell of the
bucket. -/
theorem bucket_chain_tail (g : Int) : ∀ (l : List Nat) (cnt : Nat) (d : Int) (i : Nat)
    (V I W J : Arr Int) (i1 : Int), Linked V d l → l.Nodup → l.length ≤ i → (i : Int) < g →
    bucket_chain g cnt d i V I = .ok (W, J, i1) →
    i1 = ((i - l.length : Nat) : Int) ∧ (∀ p ∈ l, W.get p = g) ∧
    (∀ p, p ∉ l → W.get p = V.get p) ∧
    (∀ t, i < t ∨ t + l.length ≤ i → J.get t = I.get t) ∧
    (∀ k p : Nat, l[k]? = some p → J.get (i - k) = (p : Int)) := by
  intro l
  induction l with
  | nil =>
    intro cnt d i V I W J i1 hl _ _ _ h
    have hd : d = 0 := hl
    subst hd
    cases cnt with
    | zero =>
      simp only [bucket_chain, ne_eq, not_true_eq_false, if_false, Except.ok.injEq,
        Prod.mk.injEq] at h
      obtain ⟨rfl, rfl, rfl⟩ := h
      exact ⟨by simp, fun p hp => by simp at hp, fun _ _ => rfl, fun _ _ => rfl,
        fun k p hk => by simp at hk⟩
    | succ cnt =>
      simp only [bucket_chain, ne_eq, not_true_eq_false, if_false, Except.ok.injEq,
        Prod.mk.injEq] at h
      obtain ⟨rfl, rfl, rfl⟩ := h
      exact ⟨by simp, fun p hp => by simp at hp, fun _ _ => rfl, fun _ _ => rfl,
        fun k p hk => by simp at hk⟩
  | cons p rest ih =>
    intro cnt d i V I W J i1 hl hnd hlen hg h
    obtain ⟨hd, hrest⟩ := hl
    have hd0 : d ≠ 0 := by omega
    simp only [List.length_cons] at hlen
    cases cnt with
    | zero => simp [bucket_chain, hd0] at h
    | succ cnt =>
      simp only [bucket_chain, hd0, ne_eq, not_false_eq_true, if_true, bind_ok] at h
      obtain ⟨d1, hd1, V1, hV1, I1, hI1, h⟩ := h
      have ed : d - 1 = (p : Int) := by omega
      rw [ed] at hd1 hV1 hI1
      have hd1' := rd_get hd1
      have w1 := wr_get hV1
      have w2 := wr_get hI1
      simp only [Int.toNat_ofNat] at hd1' w1 w2
      have hgi : ¬ (d1 = 0 ∧ g = (i : Int)) := by omega
      rw [if_neg hgi] at w2
      have ei : (i : Int) - 1 = ((i - 1 : Nat) : Int) := by omega
      rw [ei] at h
      have hp : p ∉ rest := (List.nodup_cons.1 hnd).1
      obtain ⟨r1, r2, r3, r4, r5⟩ := ih cnt d1 (i - 1) V1 I1 W J i1
        (by
          rw [← hd1'.2.1]
          exact Linked.keep _ _ (fun q hq => by
            rw [w1.2.1 q, if_neg (by intro hc; rw [hc] at hq; exact hp hq)]) hrest)
        (List.nodup_cons.1 hnd).2 (by omega) (by omega) h
      refine ⟨by rw [r1, List.length_cons]; congr 1; omega, ?_, ?_, ?_, ?_⟩
      · intro q hq
        rcases List.mem_cons.1 hq with rfl | hq
        · rw [r3 q hp, w1.2.1 q, if_pos rfl]
        · exact r2 q hq
      · intro q hq
        rw [r3 q (fun hc => hq (List.mem_cons_of_mem _ hc)), w1.2.1 q,
          if_neg (by intro hc; rw [hc] at hq; exact hq (List.mem_cons_self _ _))]
      · intro t ht
        simp only [List.length_cons] at ht
        rw [r4 t (by omega), w2.2.1 t, if_neg (by omega)]
      · intro k q hk
        cases k with
        | zero =>
          simp only [List.getElem?_cons_zero, Option.some.injEq] at hk
          subst hk
          rw [Nat.sub_zero, r4 i (by omega), w2.2.1 i, if_pos rfl]
        | succ k =>
          simp only [List.getElem?_cons_succ] at hk
          have := r5 k q hk
          have e : i - (k + 1) = i - 1 - k := by omega
          rw [e]
          exact this

/-- The inner loop of the second loop of suf_bucketsort for one bucket, g being the top
cell i. -/
theorem bucket_chain_ok : ∀ (l : List Nat) (cnt : Nat) (d : Int) (i : Nat)
    (V I W J : Arr Int) (i1 : Int), Linked V d l → l.Nodup → l.length ≤ i →
    bucket_chain i cnt d i V I = .ok (W, J, i1) →
    i1 = ((i - l.length : Nat) : Int) ∧ (∀ p ∈ l, W.get p = (i : Int)) ∧
    (∀ p, p ∉ l → W.get p = V.get p) ∧
    (∀ t, i < t ∨ t + l.length ≤ i → J.get t = I.get t) ∧
    (∀ k p : Nat, l[k]? = some p → J.get (i - k) = if l.length = 1 then -1 else (p : Int)) := by
  intro l
  cases l with
  | nil =>
    intro cnt d i V I W J i1 hl _ _ h
    have hd : d = 0 := hl
    subst hd
    cases cnt with
    | zero =>
      simp only [bucket_chain, ne_eq, not_true_eq_false, if_false, Except.ok.injEq,
        Prod.mk.injEq] at h
      obtain ⟨rfl, rfl, rfl⟩ := h
      exact ⟨by simp, fun p hp => by simp at hp, fun _ _ => rfl, fun _ _ => rfl,
        fun k p hk => by simp at hk⟩
    | succ cnt =>
      simp only [bucket_chain, ne_eq, not_true_eq_false, if_false, Except.ok.injEq,
        Prod.mk.injEq] at h
      obtain ⟨rfl, rfl, rfl⟩ := h
      exact ⟨by simp, fun p hp => by simp at hp, fun _ _ => rfl, fun _ _ => rfl,
        fun k p hk => by simp at hk⟩
  | cons p rest =>
    intro cnt d i V I W J i1 hl hnd hlen h
    obtain ⟨hd, hrest⟩ := hl
    have hd0 : d ≠ 0 := by omega
    simp only [List.length_cons] at hlen
    cases cnt with
    | zero => simp [bucket_chain, hd0] at h
    | succ cnt =>
      simp only [bucket_chain, hd0, ne_eq, not_false_eq_true, if_true, bind_ok] at h
      obtain ⟨d1, hd1, V1, hV1, I1, hI1, h⟩ := h
      have ed : d - 1 = (p : Int) := by omega
      rw [ed] at hd1 hV1 hI1
      have hd1' := rd_get hd1
      have w1 := wr_get hV1
      have w2 := wr_get hI1
      simp only [Int.toNat_ofNat] at hd1' w1 w2
      have ei : (i : Int) - 1 = ((i - 1 : Nat) : Int) := by omega
      rw [ei] at h
      have hp : p ∉ rest := (List.nodup_cons.1 hnd).1
      have hlk : Linked V1 d1 rest := by
        rw [← hd1'.2.1]
        exact Linked.keep _ _ (fun q hq => by
          rw [w1.2.1 q, if_neg (by intro hc; rw [hc] at hq; exact hp hq)]) hrest
      have hd1z : d1 = 0 ↔ rest = [] := by
        cases rest with
        | nil => exact ⟨fun _ => rfl, fun _ => hlk⟩
        | cons q r =>
          have : d1 = (q : Int) + 1 := hlk.1
          constructor
          · intro h0; omega
          · intro h0; simp at h0
      obtain ⟨r1, r2, r3, r4, r5⟩ := bucket_chain_tail i rest cnt d1 (i - 1) V1 I1 W J i1
        hlk (List.nodup_cons.1 hnd).2 (by omega) (by omega) h
      refine ⟨by rw [r1, List.length_cons]; congr 1; omega, ?_, ?_, ?_, ?_⟩
      · intro q hq
        rcases List.mem_cons.1 hq with rfl | hq
        · rw [r3 q hp, w1.2.1 q, if_pos rfl]
        · exact r2 q hq
      · intro q hq
        rw [r3 q (fun hc => hq (List.mem_cons_of_mem _ hc)), w1.2.1 q,
          if_neg (by intro hc; rw [hc] at hq; exact hq (List.mem_cons_self _ _))]
      · intro t ht
        simp only [List.length_cons] at ht
        rw [r4 t (by omega), w2.2.1 t, if_neg (by omega)]
      · intro k q hk
        have hlen1 : (p :: rest).length = 1 ↔ rest = [] := by
          simp only [List.length_cons]
          constructor
          · intro h1
            exact List.length_eq_zero.1 (by omega)
          · intro h1
            rw [h1]
            rfl
        cases k with
        | zero =>
          simp only [List.getElem?_cons_zero, Option.some.injEq] at hk
          subst hk
          rw [Nat.sub_zero, r4 i (by omega), w2.2.1 i, if_pos rfl]
          by_cases hr : rest = []
          · rw [if_pos ⟨hd1z.2 hr, trivial⟩, if_pos (hlen1.2 hr)]
          · rw [if_neg (fun hc => hr (hd1z.1 hc.1)), if_neg (fun hc => hr (hlen1.1 hc))]
        | succ k =>
          simp only [List.getElem?_cons_succ] at hk
          have := r5 k q hk
          have e : i - (k + 1) = i - 1 - k := by omega
          rw [e, this, if_neg]
          intro hc
          have := hlen1.1 hc
          subst this
          simp at hk

/-! ## suf_bucketsort: the cells -/

theorem chainL_length (key : Nat → Nat) (n c : Nat) :
    (chainL key 0 n c).length = ((Finset.range n).filter (fun q => key q = c)).card := by
  unfold chainL
  rw [Nat.sub_zero, ← List.range_eq_range']
  rfl

theorem hiC_eq (key : Nat → Nat) (n c : Nat) :
    hiC key n c = loC key n c + (chainL key 0 n c).length := by
  rw [chainL_length]
  unfold hiC loC
  rw [← Finset.card_union_of_disjoint]
  · congr 1
    ext q
    simp only [Finset.mem_filter, Finset.mem_range, Finset.mem_union]
    omega
  · rw [Finset.disjoint_filter]
    intro q _ h1 h2
    omega

theorem loC_succ (key : Nat → Nat) (n c : Nat) : loC key n (c + 1) = hiC key n c := by
  unfold hiC loC
  congr 1
  ext q
  simp only [Finset.mem_filter, Finset.mem_range]
  omega

theorem hiC_le_loC (key : Nat → Nat) (n : Nat) {c d : Nat} (h : c < d) :
    hiC key n c ≤ loC key n d := by
  unfold hiC loC
  apply Finset.card_le_card
  intro q hq
  simp only [Finset.mem_filter, Finset.mem_range] at hq ⊢
  omega

theorem bucket_fill_ok (key : Nat → Nat) (n : Nat) (B : Arr Int) :
    ∀ (jj i : Nat) (V I W J : Arr Int), i = loC key n jj →
      (∀ c, c < jj → Linked V (B.get c) (chainL key 0 n c)) →
      (∀ q, q < n → jj ≤ key q → V.get q = (hiC key n (key q) : Int)) →
      (∀ c, jj ≤ c → Placed key n I c) →
      bucket_fill B jj i V I = .ok (W, J) →
      (∀ q, q < n → W.get q = (hiC key n (key q) : Int)) ∧ (∀ c, Placed key n J c) := by
  have fin : ∀ (jj : Nat) (V I : Arr Int), loC key n jj = 0 →
      (∀ q, q < n → jj ≤ key q → V.get q = (hiC key n (key q) : Int)) →
      (∀ c, jj ≤ c → Placed key n I c) →
      (∀ q, q < n → V.get q = (hiC key n (key q) : Int)) ∧ (∀ c, Placed key n I c) := by
    intro jj V I h0 hV hP
    have hno : ∀ q, q < n → jj ≤ key q := by
      intro q hq
      by_contra hc
      unfold loC at h0
      rw [Finset.card_eq_zero, Finset.filter_eq_empty_iff] at h0
      exact h0 (Finset.mem_range.2 hq) (by omega)
    refine ⟨fun q hq => hV q hq (hno q hq), fun c => ?_⟩
    by_cases hc : jj ≤ c
    · exact hP c hc
    · intro k p hk
      have hmem : p ∈ chainL key 0 n c := List.getElem?_mem hk
      have := chainL_mem.1 hmem
      have := hno p this.2.1
      omega
  intro jj
  induction jj with
  | zero =>
    intro i V I W J hi hL hV hP h
    unfold bucket_fill at h
    split at h
    · simp at h
    · simp only [Except.ok.injEq, Prod.mk.injEq] at h
      obtain ⟨rfl, rfl⟩ := h
      exact fin 0 V I (by simp [loC]) hV hP
  | succ j ih =>
    intro i V I W J hi hL hV hP h
    unfold bucket_fill at h
    split at h
    · simp only [bind_ok] at h
      obtain ⟨d, hd, ⟨V1, I1, i1⟩, hch, h⟩ := h
      simp only at h
      have hd' := rd_get hd
      simp only [Int.toNat_ofNat] at hd'
      have hij : i = hiC key n j := by rw [hi, loC_succ]
      have hlen : (chainL key 0 n j).length ≤ i := by
        rw [hij, hiC_eq]
        omega
      obtain ⟨r1, r2, r3, r4, r5⟩ := bucket_chain_ok (chainL key 0 n j) _ d i V I V1 I1 i1
        (by rw [← hd'.2.1]; exact hL j (by omega)) (chainL_nodup key 0 n j) hlen hch
      rw [r1] at h
      refine ih (i - (chainL key 0 n j).length) V1 I1 W J ?_ ?_ ?_ ?_ h
      · rw [hij, hiC_eq]
        omega
      · intro c hc
        exact Linked.keep _ _ (fun p hp => by
          apply r3
          intro hp'
          have := (chainL_mem.1 hp).2.2
          have := (chainL_mem.1 hp').2.2
          omega) (hL c (by omega))
      · intro q hq hk
        by_cases hkj : key q = j
        · rw [r2 q (chainL_mem.2 ⟨Nat.zero_le _, hq, hkj⟩), hkj, hij]
        · rw [r3 q (fun hc => hkj (chainL_mem.1 hc).2.2)]
          exact hV q hq (by omega)
      · intro c hc
        by_cases hcj : c = j
        · subst hcj
          intro k p hk
          rw [← hij]
          exact r5 k p hk
        · intro k p hk
          have hk' : k < (chainL key 0 n c).length := by
            by_contra hge
            rw [List.getElem?_eq_none (by omega)] at hk
            simp at hk
          have h1 := hiC_eq key n c
          have h2 := hiC_le_loC key n (by omega : j < c)
          rw [r4 _ (Or.inl (by omega))]
          exact hP c (by omega) k p hk
    · rename_i hi0
      simp only [ne_eq, Nat.cast_eq_zero, not_not] at hi0
      simp only [Except.ok.injEq, Prod.mk.injEq] at h
      obtain ⟨rfl, rfl⟩ := h
      exact fin (j + 1) V I (by omega) hV hP

/-- What suf_bucketsort leaves in V and I when V holds the keys of the n positions. -/
theorem suf_bucketsort_ok (key : Nat → Nat) (n s : Nat) (V I W J : Arr Int)
    (hk : ∀ p, p < n → V.get p = (key p : Int)) (hs : ∀ p, p < n → key p < s)
    (h : suf_bucketsort V I n s = .ok (W, J)) :
    (∀ q, q < n → W.get q = (hiC key n (key q) : Int)) ∧ W.get n = 0 ∧ J.get 0 = -1 ∧
    (∀ c, Placed key n J c) := by
  unfold suf_bucketsort at h
  simp only [bind_ok] at h
  obtain ⟨⟨V1, B⟩, hln, ⟨V2, I2⟩, hfl, V3, hV3, I3, hI3, h⟩ := h
  simp only [Except.ok.injEq, Prod.mk.injEq] at h
  obtain ⟨rfl, rfl⟩ := h
  simp only [Int.toNat_ofNat] at hln hfl
  have hL := bucket_link_ok key n n V (Arr.calloc s 0) V1 B (le_refl _) hk
    (fun c => by
      rw [chainL_end]
      rfl)
    hln
  have hn : n = loC key n s := by
    unfold loC
    rw [Finset.filter_true_of_mem (fun q hq => hs q (Finset.mem_range.1 hq)), Finset.card_range]
  obtain ⟨f1, f2⟩ := bucket_fill_ok key n B s n V1 I V2 I2 hn (fun c _ => hL c)
    (fun q hq hq2 => by
      have := hs q hq
      omega)
    (fun c hc k p hk => by
      have hmem : p ∈ chainL key 0 n c := List.getElem?_mem hk
      have := chainL_mem.1 hmem
      have := hs p this.2.1
      omega)
    hfl
  have w1 := wr_get hV3
  have w2 := wr_get hI3
  simp only [Int.toNat_ofNat, Int.toNat_zero] at w1 w2
  refine ⟨fun q hq => ?_, ?_, ?_, fun c k p hk => ?_⟩
  · rw [w1.2.1 q, if_neg (by omega)]
    exact f1 q hq
  · rw [w1.2.1 n, if_pos rfl]
  · rw [w2.2.1 0, if_pos rfl]
  · have hk' : k < (chainL key 0 n c).length := by
      by_contra hge
      rw [List.getElem?_eq_none (by omega)] at hk
      simp at hk
    have h1 := hiC_eq key n c
    rw [w2.2.1 _, if_neg (by omega)]
    exact f2 c k p hk

/-! ## the state after suf_bucketsort -/

theorem loC_mono (key : Nat → Nat) (n : Nat) {c d : Nat} (h : c ≤ d) :
    loC key n c ≤ loC key n d := by
  unfold loC
  apply Finset.card_le_card
  intro q hq
  simp only [Finset.mem_filter, Finset.mem_range] at hq ⊢
  omega

theorem hiC_mono (key : Nat → Nat) (n : Nat) {c d : Nat} (h : c ≤ d) :
    hiC key n c ≤ hiC key n d := by
  unfold hiC
  apply Finset.card_le_card
  intro q hq
  simp only [Finset.mem_filter, Finset.mem_range] at hq ⊢
  omega

theorem hiC_le (key : Nat → Nat) (n c : Nat) : hiC key n c ≤ n := by
  unfold hiC
  have := Finset.card_filter_le (Finset.range n) (fun q => key q ≤ c)
  rwa [Finset.card_range] at this

theorem loC_lt_hiC (key : Nat → Nat) {n p : Nat} (hp : p < n) :
    loC key n (key p) < hiC key n (key p) := by
  rw [hiC_eq]
  have : p ∈ chainL key 0 n (key p) := chainL_mem.2 ⟨Nat.zero_le _, hp, rfl⟩
  have := List.length_pos_of_mem this
  omega

/-- The rank of a suffix lies in the cells of its bucket. -/
theorem rank_bucket (pad : List Byte) (key : Nat → Nat)
    (hk1 : ∀ p q, p < pad.length → q < pad.length → key p < key q → pad.drop p < pad.drop q)
    {p : Nat} (hp : p < pad.length) :
    loC key pad.length (key p) + 1 ≤ rank pad p ∧ rank pad p ≤ hiC key pad.length (key p) := by
  have hend : pad.drop pad.length < pad.drop p := by
    rw [List.drop_length]
    cases hd : pad.drop p with
    | nil =>
      have := congrArg List.length hd
      simp only [List.length_drop, List.length_nil] at this
      omega
    | cons a l => exact List.nil_lt_cons a l
  constructor
  · unfold loC rank
    have hsub : insert pad.length ((Finset.range pad.length).filter (fun q => key q < key p)) ⊆
        (Finset.range (pad.length + 1)).filter (fun q => pad.drop q < pad.drop p) := by
      intro q hq
      simp only [Finset.mem_insert, Finset.mem_filter, Finset.mem_range] at hq ⊢
      rcases hq with rfl | ⟨h1, h2⟩
      · exact ⟨by omega, hend⟩
      · exact ⟨by omega, hk1 q p h1 hp h2⟩
    have := Finset.card_le_card hsub
    rw [Finset.card_insert_of_not_mem (by simp)] at this
    exact this
  · unfold hiC rank
    have hsub : (Finset.range (pad.length + 1)).filter (fun q => pad.drop q < pad.drop p) ⊆
        insert pad.length (((Finset.range pad.length).filter (fun q => key q ≤ key p)).erase p) := by
      intro q hq
      simp only [Finset.mem_insert, Finset.mem_filter, Finset.mem_range, Finset.mem_erase] at hq ⊢
      by_cases hqn : q = pad.length
      · exact Or.inl hqn
      · right
        refine ⟨?_, by omega, ?_⟩
        · rintro rfl
          exact lt_irrefl _ hq.2
        · by_contra hc
          have := hk1 p q hp (by omega) (by omega)
          exact lt_asymm this hq.2
    have := Finset.card_le_card hsub
    rw [Finset.card_insert_of_not_mem (by simp), Finset.card_erase_of_mem (by
      simp only [Finset.mem_filter, Finset.mem_range]
      exact ⟨hp, le_refl _⟩)] at this
    have hpos : 0 < ((Finset.range pad.length).filter (fun q => key q ≤ key p)).card :=
      Finset.card_pos.2 ⟨p, by
        simp only [Finset.mem_filter, Finset.mem_range]
        exact ⟨hp, le_refl _⟩⟩
    omega

/-- The state after suf_bucketsort: the group numbers fit the order of the suffixes on the
h bytes the keys stand for. -/
theorem bucket_inv (pad : List Byte) (key : Nat → Nat) (h : Nat) (W : Arr Int)
    (hk1 : ∀ p q, p < pad.length → q < pad.length → key p < key q → pad.drop p < pad.drop q)
    (hk2 : ∀ p q, p < pad.length → q < pad.length → key p = key q →
      (pad.drop p).take h = (pad.drop q).take h)
    (hW : ∀ q, q < pad.length → W.get q = (hiC key pad.length (key q) : Int))
    (hWn : W.get pad.length = 0) : VInv pad h 0 W := by
  have hval : ∀ p, p ≤ pad.length → (p = pad.length ∧ W.get p = 0 ∧ rank pad p = 0) ∨
      (p < pad.length ∧ W.get p = (hiC key pad.length (key p) : Int) ∧
        loC key pad.length (key p) + 1 ≤ rank pad p ∧
        rank pad p ≤ hiC key pad.length (key p)) := by
    intro p hp
    by_cases hpn : p = pad.length
    · subst hpn
      exact Or.inl ⟨rfl, hWn, rank_end pad⟩
    · have hp' : p < pad.length := by omega
      have := rank_bucket pad key hk1 hp'
      exact Or.inr ⟨hp', hW p hp', this.1, this.2⟩
  have hkey : ∀ p q, p < pad.length → q < pad.length →
      hiC key pad.length (key p) = hiC key pad.length (key q) → key p = key q := by
    intro p q hp hq he
    by_contra hne
    rcases Nat.lt_or_gt_of_ne hne with hlt | hlt
    · have := hiC_le_loC key pad.length hlt
      have := loC_lt_hiC key hq
      omega
    · have := hiC_le_loC key pad.length hlt
      have := loC_lt_hiC key hp
      omega
  refine ⟨fun p hp => ?_, fun p hp => ?_, fun p q hp hq hlt => ?_, fun p q hp hq he => ?_,
    fun p q hp hq he hb => ?_⟩
  · rcases hval p hp with ⟨_, h2, h3⟩ | ⟨_, h2, _, h4⟩
    · rw [h2, h3]; rfl
    · rw [h2]; omega
  · rcases hval p hp with ⟨_, h2, _⟩ | ⟨_, h2, _, _⟩
    · rw [h2]; omega
    · rw [h2]
      have := hiC_le key pad.length (key p)
      omega
  · rcases hval p hp with ⟨_, p2, _⟩ | ⟨p1, p2, p3, p4⟩ <;>
      rcases hval q hq with ⟨_, q2, _⟩ | ⟨q1, q2, q3, q4⟩
    · omega
    · rw [p2]; omega
    · omega
    · rw [p2, q2] at hlt
      rw [p2]
      have hkl : key p < key q := by
        by_contra hc
        have := hiC_mono key pad.length (by omega : key q ≤ key p)
        omega
      have := hiC_le_loC key pad.length hkl
      omega
  · rcases hval p hp with ⟨p1, p2, _⟩ | ⟨p1, p2, p3, p4⟩ <;>
      rcases hval q hq with ⟨q1, q2, _⟩ | ⟨q1, q2, q3, q4⟩
    · rw [p1, q1]
    · omega
    · omega
    · rw [p2, q2] at he
      exact hk2 p q p1 q1 (hkey p q p1 q1 (by omega))
  · have := (hval p hp)
    rcases this with ⟨_, p2, _⟩ | ⟨_, p2, _, _⟩ <;> omega

theorem bucket_blocks (pad : List Byte) (key : Nat → Nat) (W J : Arr Int)
    (hk1 : ∀ p q, p < pad.length → q < pad.length → key p < key q → pad.drop p < pad.drop q)
    (hW : ∀ q, q < pad.length → W.get q = (hiC key pad.length (key q) : Int))
    (hWn : W.get pad.length = 0) (hJ0 : J.get 0 = -1)
    (hP : ∀ c, Placed key pad.length J c) :
    ∀ c, Blocks pad J W 0 (loC key pad.length c + 1) := by
  have hkey : ∀ q c, q < pad.length → 0 < (chainL key 0 pad.length c).length →
      hiC key pad.length (key q) = hiC key pad.length c → key q = c := by
    intro q c hq hc he
    have h1 := hiC_eq key pad.length c
    by_contra hne
    rcases Nat.lt_or_gt_of_ne hne with hlt | hlt
    · have := hiC_le_loC key pad.length hlt
      omega
    · have := hiC_le_loC key pad.length hlt
      have := loC_lt_hiC key hq
      omega
  intro c
  induction c with
  | zero =>
    have e : loC key pad.length 0 = 0 := by simp [loC]
    rw [e]
    refine Blocks.neg 0 1 1 (by omega) (by rw [hJ0]; rfl) ?_ (Blocks.nil _)
    intro k k1 k2 p hp hv
    have : k = 0 := by omega
    subst this
    by_cases hpn : p = pad.length
    · subst hpn
      exact rank_end pad
    · have hp' : p < pad.length := by omega
      rw [hW p hp'] at hv
      have := loC_lt_hiC key hp'
      omega
  | succ c ih =>
    rw [loC_succ]
    have h1 := hiC_eq key pad.length c
    by_cases hm0 : (chainL key 0 pad.length c).length = 0
    · have : hiC key pad.length c = loC key pad.length c := by omega
      rw [this]
      exact ih
    · by_cases hm1 : (chainL key 0 pad.length c).length = 1
      · -- a single suffix
        have e : hiC key pad.length c + 1 = (loC key pad.length c + 1) + 1 := by omega
        rw [e]
        refine ih.append (Blocks.neg _ 1 _ (by omega) ?_ ?_ (Blocks.nil _))
        · have hk : (chainL key 0 pad.length c)[0]? =
              some ((chainL key 0 pad.length c).get ⟨0, by omega⟩) := by
            rw [List.getElem?_eq_getElem (by omega)]
            rfl
          have := hP c 0 _ hk
          rw [if_pos hm1, Nat.sub_zero] at this
          have e2 : loC key pad.length c + 1 = hiC key pad.length c := by omega
          rw [e2, this]
          rfl
        · intro k k1 k2 p hp hv
          have hk : k = hiC key pad.length c := by omega
          subst hk
          by_cases hpn : p = pad.length
          · subst hpn
            rw [hWn] at hv
            omega
          · have hp' : p < pad.length := by omega
            rw [hW p hp'] at hv
            have hkc := hkey p c hp' (by omega) (by omega)
            have := rank_bucket pad key hk1 hp'
            rw [hkc] at this
            omega
      · -- a group
        refine ih.append (Blocks.grp _ (hiC key pad.length c + 1) _ (by omega) ?_ (Blocks.nil _))
        have hget : ∀ t, loC key pad.length c + 1 ≤ t → t < hiC key pad.length c + 1 →
            ∃ p, (chainL key 0 pad.length c)[hiC key pad.length c - t]? = some p ∧
              J.get t = (p : Int) ∧ p < pad.length ∧ key p = c := by
          intro t t1 t2
          have hlt : hiC key pad.length c - t < (chainL key 0 pad.length c).length := by omega
          have hk : (chainL key 0 pad.length c)[hiC key pad.length c - t]? =
              some ((chainL key 0 pad.length c).get ⟨_, hlt⟩) := by
            rw [List.getElem?_eq_getElem hlt]
            rfl
          have := hP c _ _ hk
          rw [if_neg hm1] at this
          have e2 : hiC key pad.length c - (hiC key pad.length c - t) = t := by omega
          rw [e2] at this
          have hmem := chainL_mem.1 (List.getElem?_mem hk)
          exact ⟨_, hk, this, hmem.2.1, hmem.2.2⟩
        refine ⟨fun t t1 t2 => ?_, fun t u t1 t2 u1 u2 he => ?_, fun q hq hr => ?_⟩
        · obtain ⟨p, _, g2, g3, g4⟩ := hget t t1 t2
          have rb := rank_bucket pad key hk1 g3
          rw [g4] at rb
          rw [g2]
          simp only [Int.toNat_ofNat]
          refine ⟨by omega, by omega, by omega, by omega, ?_⟩
          rw [hW p g3, g4]
          push_cast
          ring
        · obtain ⟨p, g1, g2, _, _⟩ := hget t t1 t2
          obtain ⟨q, k1, k2, _, _⟩ := hget u u1 u2
          rw [g2, k2] at he
          have hpq : p = q := by omega
          subst hpq
          have hnd := chainL_nodup key 0 pad.length c
          have hlt1 : hiC key pad.length c - t < (chainL key 0 pad.length c).length := by omega
          have hlt2 : hiC key pad.length c - u < (chainL key 0 pad.length c).length := by omega
          rw [List.getElem?_eq_getElem hlt1] at g1
          rw [List.getElem?_eq_getElem hlt2] at k1
          have := (List.Nodup.getElem_inj_iff hnd).1 (Option.some.inj (g1.trans k1.symm))
          omega
        · by_cases hqn : q = pad.length
          · subst hqn
            rw [hWn]
            omega
          · have hq' : q < pad.length := by omega
            rw [hW q hq']
            have rb := rank_bucket pad key hk1 hq'
            by_cases hkc : key q < c
            · have := hiC_le_loC key pad.length hkc
              omega
            · have := loC_mono key pad.length (by omega : c ≤ key q)
              omega

/-! ## the keys of suf_create -/

theorem shift_or (x c : Nat) (hc : c < 256) : ((x &&& 0xff) <<< 8) ||| c = x % 256 * 256 + c := by
  have h1 : x &&& 0xff = x % 256 := Nat.and_pow_two_sub_one_eq_mod x 8
  rw [h1, Nat.shiftLeft_eq]
  have := Nat.mul_add_lt_is_or (i := 8) (b := c) (by simpa using hc) (x % 256)
  rw [Nat.mul_comm (x % 256) (2 ^ 8), ← this]

theorem shift_or3 (x c : Nat) (hc : c < 256) :
    ((x &&& 0xffff) <<< 8) ||| c = x % 65536 * 256 + c := by
  have h1 : x &&& 0xffff = x % 65536 := Nat.and_pow_two_sub_one_eq_mod x 16
  rw [h1, Nat.shiftLeft_eq]
  have := Nat.mul_add_lt_is_or (i := 8) (b := c) (by simpa using hc) (x % 65536)
  rw [Nat.mul_comm (x % 65536) (2 ^ 8), ← this]

theorem shift8 (x : Nat) : (x &&& 0xff) <<< 8 = x % 256 * 256 := by
  have h1 : x &&& 0xff = x % 256 := Nat.and_pow_two_sub_one_eq_mod x 8
  rw [h1, Nat.shiftLeft_eq]

theorem shift8_3 (x : Nat) : (x &&& 0xffff) <<< 8 = x % 65536 * 256 := by
  have h1 : x &&& 0xffff = x % 65536 := Nat.and_pow_two_sub_one_eq_mod x 16
  rw [h1, Nat.shiftLeft_eq]

theorem byteAt_of_rdB {buf : List Byte} {i : Nat} {c : Byte} (h : rdB buf i = .ok c) :
    i < buf.length ∧ byteAt buf i = c.val := by
  have := rdB_ok h
  refine ⟨this.1, ?_⟩
  unfold byteAt
  rw [List.getD_eq_getElem?_getD, this.2]
  rfl

theorem byteAt_lt (buf : List Byte) (p : Nat) : byteAt buf p < 256 := (buf.getD p 0).isLt

theorem byteAt_end (buf : List Byte) {p : Nat} (hp : buf.length ≤ p) : byteAt buf p = 0 := by
  unfold byteAt
  rw [List.getD_eq_getElem?_getD, List.getElem?_eq_none hp]
  rfl

theorem suf_keys2_ok (buf : List Byte) :
    ∀ (cnt i oldv : Nat) (F V : Arr Int) (r : Nat × Arr Int × Arr Int), 1 ≤ i →
      oldv % 256 = byteAt buf (i - 1) →
      suf_keys2 buf cnt i oldv F V = .ok r →
      r.1 % 256 = byteAt buf (i + cnt - 1) ∧ (0 < cnt → i + cnt ≤ buf.length) ∧
      (∀ p, i ≤ p + 1 → p + 1 < i + cnt →
        r.2.2.get p = ((byteAt buf p * 256 + byteAt buf (p + 1) + 1 : Nat) : Int)) ∧
      (∀ p, p + 1 < i ∨ i + cnt ≤ p + 1 → r.2.2.get p = V.get p) := by
  intro cnt
  induction cnt with
  | zero =>
    intro i oldv F V r hi ho h
    simp only [suf_keys2, Except.ok.injEq] at h
    subst h
    exact ⟨ho, fun hc => by omega, fun p p1 p2 => by omega, fun _ _ => rfl⟩
  | succ n ih =>
    intro i oldv F V r hi ho h
    simp only [suf_keys2, bind_ok] at h
    obtain ⟨c, hc, F1, _, V1, hV1, h⟩ := h
    obtain ⟨c1, c2⟩ := byteAt_of_rdB hc
    rw [shift_or oldv c.val c.isLt] at hV1 h
    have w := wr_get hV1
    have e1 : ((i : Int) - 1).toNat = i - 1 := by omega
    rw [e1] at w
    obtain ⟨r1, r2, r3, r4⟩ := ih (i + 1) _ F1 V1 r (by omega)
      (by
        rw [Nat.add_sub_cancel, c2]
        have := c.isLt
        omega)
      h
    refine ⟨by rw [r1]; congr 1; omega, fun _ => ?_, fun p p1 p2 => ?_, fun p hp => ?_⟩
    · by_cases hn : 0 < n
      · have := r2 hn
        omega
      · omega
    · by_cases hp : p + 1 = i
      · rw [r4 p (by omega), w.2.1 p, if_pos (by omega)]
        have e : p = i - 1 := by omega
        rw [e, ho]
        have e2 : i - 1 + 1 = i := by omega
        rw [e2, c2]
        push_cast
        ring
      · exact r3 p (by omega) (by omega)
    · rw [r4 p (by omega), w.2.1 p, if_neg (by omega)]

theorem suf_keys3_ok (buf : List Byte) :
    ∀ (cnt i oldv : Nat) (F V : Arr Int) (r : Nat × Arr Int × Arr Int), 2 ≤ i →
      oldv % 65536 = byteAt buf (i - 2) * 256 + byteAt buf (i - 1) →
      suf_keys3 buf cnt i oldv F V = .ok r →
      r.1 % 65536 = byteAt buf (i + cnt - 2) * 256 + byteAt buf (i + cnt - 1) ∧
      (0 < cnt → i + cnt ≤ buf.length) ∧
      (∀ p, i ≤ p + 2 → p + 2 < i + cnt →
        r.2.2.get p = ((byteAt buf p * 65536 + byteAt buf (p + 1) * 256 + byteAt buf (p + 2) + 2
          : Nat) : Int)) ∧
      (∀ p, p + 2 < i ∨ i + cnt ≤ p + 2 → r.2.2.get p = V.get p) := by
  intro cnt
  induction cnt with
  | zero =>
    intro i oldv F V r hi ho h
    simp only [suf_keys3, Except.ok.injEq] at h
    subst h
    exact ⟨ho, fun hc => by omega, fun p p1 p2 => by omega, fun _ _ => rfl⟩
  | succ n ih =>
    intro i oldv F V r hi ho h
    simp only [suf_keys3, bind_ok] at h
    obtain ⟨c, hc, F1, _, V1, hV1, h⟩ := h
    obtain ⟨c1, c2⟩ := byteAt_of_rdB hc
    rw [shift_or3 oldv c.val c.isLt] at hV1 h
    have w := wr_get hV1
    have e1 : ((i : Int) - 2).toNat = i - 2 := by omega
    rw [e1] at w
    have b1 := byteAt_lt buf (i - 1)
    have b2 := byteAt_lt buf (i - 2)
    obtain ⟨r1, r2, r3, r4⟩ := ih (i + 1) _ F1 V1 r (by omega)
      (by
        have e2 : i + 1 - 2 = i - 1 := by omega
        rw [e2, Nat.add_sub_cancel, c2]
        have := c.isLt
        omega)
      h
    refine ⟨?_, fun _ => ?_, fun p p1 p2 => ?_, fun p hp => ?_⟩
    · rw [r1]
      have e3 : i + 1 + n - 2 = i + (n + 1) - 2 := by omega
      have e4 : i + 1 + n - 1 = i + (n + 1) - 1 := by omega
      rw [e3, e4]
    · by_cases hn : 0 < n
      · have := r2 hn
        omega
      · omega
    · by_cases hp : p + 2 = i
      · rw [r4 p (by omega), w.2.1 p, if_pos (by omega)]
        have e : p = i - 2 := by omega
        have e2 : p + 1 = i - 1 := by omega
        have e3 : p + 2 = i := by omega
        rw [e2, e3, ho, c2]
        rw [e]
        push_cast
        ring
      · exact r3 p (by omega) (by omega)
    · rw [r4 p (by omega), w.2.1 p, if_neg (by omega)]

/-! ## the keys and the order of the suffixes -/

theorem drop_pad (buf : List Byte) (k p : Nat) (hp : p < (buf ++ List.replicate k (0 : Byte)).length) :
    (buf ++ List.replicate k (0 : Byte)).drop p =
      buf.getD p 0 :: (buf ++ List.replicate k (0 : Byte)).drop (p + 1) := by
  rw [List.drop_eq_getElem_cons hp]
  congr 1
  rw [List.getD_eq_getElem?_getD]
  by_cases h : p < buf.length
  · rw [List.getElem_append_left h, List.getElem?_eq_getElem h]
    rfl
  · rw [List.getElem_append_right (by omega), List.getElem?_eq_none (by omega)]
    simp

theorem drop_pad_end (buf : List Byte) (k : Nat) :
    (buf ++ List.replicate k (0 : Byte)).drop (buf.length + k) = [] := by
  apply List.drop_eq_nil_of_le
  simp

theorem byte_lt {a b : Byte} (h : a.val < b.val) : a < b := h

theorem byte_eq {a b : Byte} (h : a.val = b.val) : a = b := Fin.ext h

theorem key2_lt (buf : List Byte) (p q : Nat) (hp : p < (buf ++ [0]).length)
    (hq : q < (buf ++ [0]).length) (h : key2 buf p < key2 buf q) :
    (buf ++ [0]).drop p < (buf ++ [0]).drop q := by
  have e : (buf ++ [(0 : Byte)]) = buf ++ List.replicate 1 (0 : Byte) := rfl
  rw [e] at hp hq ⊢
  simp only [List.length_append, List.length_replicate] at hp hq
  have a1 := byteAt_lt buf p
  have a2 := byteAt_lt buf (p + 1)
  have a3 := byteAt_lt buf q
  have a4 := byteAt_lt buf (q + 1)
  unfold key2 at h
  by_cases hq1 : q < buf.length
  · rw [if_pos hq1] at h
    rw [drop_pad buf 1 q (by simp; omega), drop_pad buf 1 (q + 1) (by simp; omega)]
    by_cases hp1 : p < buf.length
    · rw [if_pos hp1] at h
      rw [drop_pad buf 1 p (by simp; omega), drop_pad buf 1 (p + 1) (by simp; omega)]
      unfold byteAt at h a1 a2 a3 a4
      by_cases hab : (buf.getD p 0).val < (buf.getD q 0).val
      · exact List.Lex.rel (byte_lt hab)
      · have he : buf.getD p 0 = buf.getD q 0 := byte_eq (by omega)
        rw [he]
        apply List.Lex.cons
        exact List.Lex.rel (byte_lt (by rw [he] at h; omega))
    · have hpe : p = buf.length := by omega
      rw [drop_pad buf 1 p (by simp; omega), hpe, drop_pad_end buf 1]
      have hz : buf.getD buf.length 0 = 0 := by
        rw [List.getD_eq_getElem?_getD, List.getElem?_eq_none (le_refl _)]
        rfl
      rw [hz]
      by_cases hb : buf.getD q 0 = 0
      · rw [hb]
        exact List.Lex.cons List.Lex.nil
      · apply List.Lex.rel
        apply byte_lt
        have : (buf.getD q 0).val ≠ 0 := fun hc => hb (byte_eq hc)
        show (0 : Nat) < _
        omega
  · rw [if_neg hq1] at h
    omega

theorem key2_eq (buf : List Byte) (p q : Nat) (hp : p < (buf ++ [0]).length)
    (hq : q < (buf ++ [0]).length) (h : key2 buf p = key2 buf q) :
    ((buf ++ [0]).drop p).take 2 = ((buf ++ [0]).drop q).take 2 := by
  have e : (buf ++ [(0 : Byte)]) = buf ++ List.replicate 1 (0 : Byte) := rfl
  rw [e] at hp hq ⊢
  simp only [List.length_append, List.length_replicate] at hp hq
  have a1 := byteAt_lt buf p
  have a2 := byteAt_lt buf (p + 1)
  have a3 := byteAt_lt buf q
  have a4 := byteAt_lt buf (q + 1)
  unfold key2 at h
  by_cases hq1 : q < buf.length
  · rw [if_pos hq1] at h
    by_cases hp1 : p < buf.length
    · rw [if_pos hp1] at h
      rw [drop_pad buf 1 q (by simp; omega), drop_pad buf 1 (q + 1) (by simp; omega),
        drop_pad buf 1 p (by simp; omega), drop_pad buf 1 (p + 1) (by simp; omega)]
      unfold byteAt at h a1 a2 a3 a4
      have he1 : buf.getD p 0 = buf.getD q 0 := byte_eq (by omega)
      have he2 : buf.getD (p + 1) 0 = buf.getD (q + 1) 0 := byte_eq (by rw [he1] at h; omega)
      rw [he1, he2]
      rfl
    · rw [if_neg hp1] at h
      omega
  · rw [if_neg hq1] at h
    by_cases hp1 : p < buf.length
    · rw [if_pos hp1] at h
      omega
    · have : p = q := by omega
      rw [this]

theorem key2_bound (buf : List Byte) (p : Nat) : key2 buf p < 65537 := by
  have a1 := byteAt_lt buf p
  have a2 := byteAt_lt buf (p + 1)
  unfold key2
  split <;> omega

theorem key3_bound (buf : List Byte) (p : Nat) : key3 buf p < 16777218 := by
  have a1 := byteAt_lt buf p
  have a2 := byteAt_lt buf (p + 1)
  have a3 := byteAt_lt buf (p + 2)
  unfold key3
  split
  · omega
  · split <;> omega

theorem key3_lt (buf : List Byte) (p q : Nat) (hp : p < (buf ++ [0, 0]).length)
    (hq : q < (buf ++ [0, 0]).length) (h : key3 buf p < key3 buf q) :
    (buf ++ [0, 0]).drop p < (buf ++ [0, 0]).drop q := by
  have e : (buf ++ [(0 : Byte), 0]) = buf ++ List.replicate 2 (0 : Byte) := rfl
  rw [e] at hp hq ⊢
  simp only [List.length_append, List.length_replicate] at hp hq
  have a1 := byteAt_lt buf p
  have a2 := byteAt_lt buf (p + 1)
  have a3 := byteAt_lt buf (p + 2)
  have a4 := byteAt_lt buf q
  have a5 := byteAt_lt buf (q + 1)
  have a6 := byteAt_lt buf (q + 2)
  have hz : ∀ t, buf.length ≤ t → buf.getD t 0 = 0 := by
    intro t ht
    rw [List.getD_eq_getElem?_getD, List.getElem?_eq_none ht]
    rfl
  have hpos : ∀ b : Byte, b ≠ 0 → (0 : Byte) < b := by
    intro b hb
    apply byte_lt
    have : b.val ≠ 0 := fun hc => hb (byte_eq hc)
    show (0 : Nat) < _
    omega
  unfold key3 at h
  by_cases hq1 : q < buf.length
  · rw [if_pos hq1] at h
    rw [drop_pad buf 2 q (by simp; omega), drop_pad buf 2 (q + 1) (by simp; omega),
      drop_pad buf 2 (q + 2) (by simp; omega)]
    by_cases hp1 : p < buf.length
    · rw [if_pos hp1] at h
      rw [drop_pad buf 2 p (by simp; omega), drop_pad buf 2 (p + 1) (by simp; omega),
        drop_pad buf 2 (p + 2) (by simp; omega)]
      unfold byteAt at h a1 a2 a3 a4 a5 a6
      by_cases hab : (buf.getD p 0).val < (buf.getD q 0).val
      · exact List.Lex.rel (byte_lt hab)
      · have he : buf.getD p 0 = buf.getD q 0 := byte_eq (by omega)
        rw [he] at h ⊢
        apply List.Lex.cons
        by_cases hab2 : (buf.getD (p + 1) 0).val < (buf.getD (q + 1) 0).val
        · exact List.Lex.rel (byte_lt hab2)
        · have he2 : buf.getD (p + 1) 0 = buf.getD (q + 1) 0 := byte_eq (by omega)
          rw [he2] at h ⊢
          apply List.Lex.cons
          exact List.Lex.rel (byte_lt (by omega))
    · by_cases hp2 : p = buf.length
      · rw [drop_pad buf 2 p (by simp; omega), drop_pad buf 2 (p + 1) (by simp; omega), hp2,
          drop_pad_end buf 2, hz _ (le_refl _), hz _ (by omega)]
        by_cases hb : buf.getD q 0 = 0
        · rw [hb]
          apply List.Lex.cons
          by_cases hb2 : buf.getD (q + 1) 0 = 0
          · rw [hb2]
            exact List.Lex.cons List.Lex.nil
          · exact List.Lex.rel (hpos _ hb2)
        · exact List.Lex.rel (hpos _ hb)
      · have hp3 : p = buf.length + 1 := by omega
        rw [drop_pad buf 2 p (by simp; omega), hp3, drop_pad_end buf 2, hz _ (by omega)]
        by_cases hb : buf.getD q 0 = 0
        · rw [hb]
          exact List.Lex.cons List.Lex.nil
        · exact List.Lex.rel (hpos _ hb)
  · rw [if_neg hq1] at h
    by_cases hq2 : q = buf.length
    · rw [if_pos hq2] at h
      by_cases hp1 : p < buf.length
      · rw [if_pos hp1] at h
        omega
      · rw [if_neg hp1] at h
        by_cases hp2 : p = buf.length
        · rw [if_pos hp2] at h
          omega
        · have hp3 : p = buf.length + 1 := by omega
          rw [drop_pad buf 2 p (by simp; omega), hp3, drop_pad_end buf 2, hz _ (by omega),
            drop_pad buf 2 q (by simp; omega), drop_pad buf 2 (q + 1) (by simp; omega), hq2,
            drop_pad_end buf 2, hz _ (le_refl _), hz _ (by omega)]
          exact List.Lex.cons List.Lex.nil
    · rw [if_neg hq2] at h
      omega

theorem key3_eq (buf : List Byte) (p q : Nat) (hp : p < (buf ++ [0, 0]).length)
    (hq : q < (buf ++ [0, 0]).length) (h : key3 buf p = key3 buf q) :
    ((buf ++ [0, 0]).drop p).take 3 = ((buf ++ [0, 0]).drop q).take 3 := by
  have e : (buf ++ [(0 : Byte), 0]) = buf ++ List.replicate 2 (0 : Byte) := rfl
  rw [e] at hp hq ⊢
  simp only [List.length_append, List.length_replicate] at hp hq
  have a1 := byteAt_lt buf p
  have a2 := byteAt_lt buf (p + 1)
  have a3 := byteAt_lt buf (p + 2)
  have a4 := byteAt_lt buf q
  have a5 := byteAt_lt buf (q + 1)
  have a6 := byteAt_lt buf (q + 2)
  unfold key3 at h
  by_cases hq1 : q < buf.length
  · rw [if_pos hq1] at h
    by_cases hp1 : p < buf.length
    · rw [if_pos hp1] at h
      rw [drop_pad buf 2 q (by simp; omega), drop_pad buf 2 (q + 1) (by simp; omega),
        drop_pad buf 2 (q + 2) (by simp; omega),
        drop_pad buf 2 p (by simp; omega), drop_pad buf 2 (p + 1) (by simp; omega),
        drop_pad buf 2 (p + 2) (by simp; omega)]
      unfold byteAt at h a1 a2 a3 a4 a5 a6
      have he1 : buf.getD p 0 = buf.getD q 0 := byte_eq (by omega)
      rw [he1] at h
      have he2 : buf.getD (p + 1) 0 = buf.getD (q + 1) 0 := byte_eq (by omega)
      rw [he2] at h
      have he3 : buf.getD (p + 2) 0 = buf.getD (q + 2) 0 := byte_eq (by omega)
      rw [he1, he2, he3]
      rfl
    · rw [if_neg hp1] at h
      split at h <;> omega
  · rw [if_neg hq1] at h
    by_cases hp1 : p < buf.length
    · rw [if_pos hp1] at h
      split at h <;> omega
    · rw [if_neg hp1] at h
      have : p = q := by
        split at h <;> split at h <;> omega
      rw [this]

theorem loC_full (key : Nat → Nat) (n s : Nat) (hs : ∀ p, p < n → key p < s) :
    loC key n s = n := by
  unfold loC
  rw [Finset.filter_true_of_mem, Finset.card_range]
  intro p hp
  exact hs p (Finset.mem_range.1 hp)

/-- Bucket sort on keys that respect the suffix order, doubling and inversion give the
inverse of the rank function. -/
theorem suf_tail_ok (pad : List Byte) (key : Nat → Nat) (h s M fuel : Nat)
    (V1 I0 V2 I2 I3 V3 I4 : Arr Int)
    (hk : ∀ p, p < pad.length → V1.get p = (key p : Int))
    (hs : ∀ p, p < pad.length → key p < s)
    (hk1 : ∀ p q, p < pad.length → q < pad.length → key p < key q → pad.drop p < pad.drop q)
    (hk2 : ∀ p q, p < pad.length → q < pad.length → key p = key q →
      (pad.drop p).take h = (pad.drop q).take h)
    (hb : suf_bucketsort V1 I0 pad.length s = .ok (V2, I2))
    (hd : suf_double M pad.length fuel fuel h I2 V2 = .ok (I3, V3))
    (hi : suf_invert V3 (pad.length + 1) 0 I3 = .ok I4) :
    ∀ p, p ≤ pad.length → I4.cell (rank pad p) = some (p : Int) := by
  obtain ⟨hW, hWn, hJ0, hP⟩ := suf_bucketsort_ok key pad.length s V1 I0 V2 I2 hk hs hb
  have inv := bucket_inv pad key h V2 hk1 hk2 hW hWn
  have blk := bucket_blocks pad key V2 I2 hk1 hW hWn hJ0 hP s
  rw [loC_full key pad.length s hs] at blk
  have hV := suf_double_ok M fuel fuel h I2 V2 I3 V3 blk inv hd
  have := (suf_invert_ok V3 hV (pad.length + 1) 0 I3 I4 (by omega) hi).1
  intro p hp
  exact this p (Nat.zero_le _) hp

theorem shift_or0 (a c : Nat) (hc : c < 256) : (a <<< 8) ||| c = a * 256 + c := by
  rw [Nat.shiftLeft_eq]
  have := Nat.mul_add_lt_is_or (i := 8) (b := c) (by simpa using hc) a
  rw [Nat.mul_comm a (2 ^ 8), ← this]

theorem toS_nonneg {M x : Nat} (hx : x < M) (h : ¬ toS M x < 0) : toS M x = (x : Int) := by
  unfold toS at h ⊢
  split
  · rfl
  · rename_i hc
    rw [if_neg hc] at h
    omega

theorem padded_small {B : Build} {buf : List Byte} (h : ¬ toS B.M buf.length ≥ 0x1000000) :
    padded B buf = buf ++ [0] := by
  unfold padded
  rw [if_neg h]

theorem padded_large {B : Build} {buf : List Byte} (h : toS B.M buf.length ≥ 0x1000000) :
    padded B buf = buf ++ [0, 0] := by
  unfold padded
  rw [if_pos h]

/-- The keys written by the path of suf_create for long buffers. -/
theorem suf_large_keys (buf : List Byte) (b0 b1 : Byte) (Fb Fc V0 Va Vb Vc Vd Ve : Arr Int)
    (ov : Nat) (hb0 : rdB buf 0 = .ok b0) (hb1 : rdB buf 1 = .ok b1)
    (hkeys : suf_keys3 buf (buf.length - 2) 2 ((b0.val <<< 8) ||| b1.val) Fb V0 = .ok (ov, Fc, Va))
    (hVb : Va.wr ((buf.length : Int) - 2) ((((ov &&& 0xffff) <<< 8 : Nat) : Int) + 2) = .ok Vb)
    (hVc : Vb.wr ((buf.length : Int) - 1)
      ((((((ov &&& 0xffff) <<< 8) &&& 0xffff) <<< 8 : Nat) : Int) + 2) = .ok Vc)
    (hVd : Vc.wr ((buf.length : Int) + 2 - 2) 1 = .ok Vd)
    (hVe : Vd.wr ((buf.length : Int) + 2 - 1) 0 = .ok Ve) :
    ∀ p, p < buf.length + 2 → Ve.get p = (key3 buf p : Int) := by
  have c0 := byteAt_of_rdB hb0
  have c1 := byteAt_of_rdB hb1
  have hb0lt : b0.val < 256 := b0.isLt
  have hb1lt : b1.val < 256 := b1.isLt
  obtain ⟨k1, _, k3, k4⟩ := suf_keys3_ok buf (buf.length - 2) 2 _ Fb _ _ (le_refl _)
    (by
      rw [shift_or0 _ _ hb1lt, c0.2, c1.2]
      omega) hkeys
  simp only at k1 k3 k4
  have e2 : 2 + (buf.length - 2) = buf.length := by omega
  rw [e2] at k1 k3 k4
  have w1 := (wr_get hVb).2.1
  have w2 := (wr_get hVc).2.1
  have w3 := (wr_get hVd).2.1
  have w4 := (wr_get hVe).2.1
  have t1 : ((buf.length : Int) - 2).toNat = buf.length - 2 := by omega
  have t2 : ((buf.length : Int) - 1).toNat = buf.length - 1 := by omega
  have t3 : ((buf.length : Int) + 2 - 2).toNat = buf.length := by omega
  have t4 : ((buf.length : Int) + 2 - 1).toNat = buf.length + 1 := by omega
  rw [t1] at w1
  rw [t2] at w2
  rw [t3] at w3
  rw [t4] at w4
  rw [shift8_3] at w1 w2
  rw [shift8_3] at w2
  have a1 := byteAt_lt buf (buf.length - 2)
  have a2 := byteAt_lt buf (buf.length - 1)
  intro p hp
  rw [w4 p]
  by_cases p4 : p = buf.length + 1
  · rw [if_pos p4]
    unfold key3
    rw [if_neg (by omega), if_neg (by omega)]
    rfl
  rw [if_neg p4, w3 p]
  by_cases p3 : p = buf.length
  · rw [if_pos p3]
    unfold key3
    rw [if_neg (by omega), if_pos p3]
    rfl
  rw [if_neg p3, w2 p]
  have hpl : p < buf.length := by omega
  unfold key3
  rw [if_pos hpl]
  by_cases p2 : p = buf.length - 1
  · rw [if_pos p2]
    have z1 := byteAt_end buf (p := p + 1) (by omega)
    have z2 := byteAt_end buf (p := p + 2) (by omega)
    rw [z1, z2, p2]
    have : ov % 65536 * 256 % 65536 * 256 = byteAt buf (buf.length - 1) * 65536 := by omega
    rw [this]
    push_cast
    ring
  rw [if_neg p2, w1 p]
  by_cases p1 : p = buf.length - 2
  · rw [if_pos p1]
    have z2 := byteAt_end buf (p := p + 2) (by omega)
    have e : p + 1 = buf.length - 1 := by omega
    rw [z2, e, p1, k1]
    push_cast
    ring
  rw [if_neg p1]
  exact k3 p (by omega) (by omega)

/-- The keys written by the path of suf_create for short buffers. -/
theorem suf_small_keys (buf : List Byte) (b0 : Byte) (Fa Fc V0 Va Vb Vc : Arr Int)
    (ov : Nat) (hb0 : rdB buf 0 = .ok b0)
    (hkeys : suf_keys2 buf (buf.length - 1) 1 b0.val Fa V0 = .ok (ov, Fc, Va))
    (hVb : Va.wr ((buf.length : Int) - 1) ((((ov &&& 0xff) <<< 8 : Nat) : Int) + 1) = .ok Vb)
    (hVc : Vb.wr ((buf.length : Int) + 1 - 1) 0 = .ok Vc) :
    ∀ p, p < buf.length + 1 → Vc.get p = (key2 buf p : Int) := by
  have c0 := byteAt_of_rdB hb0
  have hb0lt : b0.val < 256 := b0.isLt
  obtain ⟨k1, _, k3, k4⟩ := suf_keys2_ok buf (buf.length - 1) 1 _ Fa _ _ (le_refl _)
    (by
      rw [c0.2]
      omega) hkeys
  simp only at k1 k3 k4
  have e2 : 1 + (buf.length - 1) = buf.length := by omega
  rw [e2] at k1 k3 k4
  have w1 := (wr_get hVb).2.1
  have w2 := (wr_get hVc).2.1
  have t1 : ((buf.length : Int) - 1).toNat = buf.length - 1 := by omega
  have t2 : ((buf.length : Int) + 1 - 1).toNat = buf.length := by omega
  rw [t1] at w1
  rw [t2] at w2
  rw [shift8] at w1
  have a1 := byteAt_lt buf (buf.length - 1)
  intro p hp
  rw [w2 p]
  by_cases p2 : p = buf.length
  · rw [if_pos p2]
    unfold key2
    rw [if_neg (by omega)]
    rfl
  rw [if_neg p2, w1 p]
  have hpl : p < buf.length := by omega
  unfold key2
  rw [if_pos hpl]
  by_cases p1 : p = buf.length - 1
  · rw [if_pos p1]
    have z1 := byteAt_end buf (p := p + 1) (by omega)
    rw [z1, p1, k1]
    push_cast
    ring
  rw [if_neg p1]
  exact k3 p (by omega) (by omega)

/-- The tail of suf_create on a buffer of known padded length. -/
theorem suf_tail_len (pad : List Byte) (n : Nat) (hn : pad.length = n) (key : Nat → Nat)
    (h s M fuel : Nat) (V1 I0 V2 I2 I3 V3 I4 : Arr Int)
    (hk : ∀ p, p < n → V1.get p = (key p : Int))
    (hs : ∀ p, key p < s)
    (hk1 : ∀ p q, p < pad.length → q < pad.length → key p < key q → pad.drop p < pad.drop q)
    (hk2 : ∀ p q, p < pad.length → q < pad.length → key p = key q →
      (pad.drop p).take h = (pad.drop q).take h)
    (hb : suf_bucketsort V1 I0 (n : Int) (s : Int) = .ok (V2, I2))
    (hd : suf_double M (n : Int) fuel fuel (h : Int) I2 V2 = .ok (I3, V3))
    (hi : suf_invert V3 (((n : Int) + 1).toNat) 0 I3 = .ok I4) :
    ∀ p, p ≤ pad.length → I4.cell (rank pad p) = some (p : Int) := by
  subst hn
  have e : (((pad.length : Nat) : Int) + 1).toNat = pad.length + 1 := by omega
  rw [e] at hi
  exact suf_tail_ok pad key h s M fuel V1 I0 V2 I2 I3 V3 I4 hk (fun p _ => hs p) hk1 hk2 hb hd hi

/-- The array I built by suf_create holds position p in cell rank p. -/
theorem suf_create_rank (B : Build) (fuel : Nat) (buf : List Byte) (sd : suf_data)
    (hlen : buf.length < B.M) (h : suf_create B fuel buf buf.length = .ok (some sd)) :
    ∀ p, p ≤ (padded B buf).length → sd.I.cell (rank (padded B buf) p) = some (p : Int) := by
  unfold suf_create at h
  simp only at h
  split at h
  · simp at h
  rename_i hneg
  have hl := toS_nonneg hlen hneg
  simp only [bind_ok] at h
  obtain ⟨⟨oldv, len, hh, s, F1, V1⟩, hinit, ⟨oldv2, F2⟩, _, F3, _, ⟨V2, I2⟩, hb, ⟨I3, V3⟩, hd,
    I4, hi, h⟩ := h
  simp only [Except.ok.injEq, Option.some.injEq] at h
  subst h
  simp only at hb hd hi ⊢
  split at hinit
  · rename_i hbig
    rw [padded_large hbig]
    simp only [bind_ok] at hinit
    obtain ⟨b0, hb0, Fa, _, b1, hb1, Fb, _, ⟨ov, Fc, Va⟩, hkeys, Vb, hVb, Vc, hVc, Vd, hVd,
      Ve, hVe, hinit⟩ := hinit
    simp only [Except.ok.injEq, Prod.mk.injEq] at hinit
    obtain ⟨_, e1, e2, e3, _, e4⟩ := hinit
    subst e1 e2 e3 e4
    rw [hl] at hkeys hVb hVc hVd hVe hb hd hi
    have ecnt : ((buf.length : Int) - 2).toNat = buf.length - 2 := by omega
    rw [ecnt] at hkeys
    have hk := suf_large_keys buf b0 b1 Fb Fc _ Va Vb Vc Vd Ve ov hb0 hb1 hkeys hVb hVc hVd hVe
    exact suf_tail_len _ (buf.length + 2) (by simp) (key3 buf) 3 16777218 B.M fuel _ _ V2 I2 I3 V3
      I4 hk (key3_bound buf) (key3_lt buf) (key3_eq buf) hb hd hi
  · rename_i hbig
    rw [padded_small hbig]
    simp only [bind_ok] at hinit
    obtain ⟨b0, hb0, Fa, _, ⟨ov, Fc, Va⟩, hkeys, Vb, hVb, Vc, hVc, hinit⟩ := hinit
    simp only [Except.ok.injEq, Prod.mk.injEq] at hinit
    obtain ⟨_, e1, e2, e3, _, e4⟩ := hinit
    subst e1 e2 e3 e4
    rw [hl] at hkeys hVb hVc hb hd hi
    have ecnt : ((buf.length : Int) - 1).toNat = buf.length - 1 := by omega
    rw [ecnt] at hkeys
    have hk := suf_small_keys buf b0 Fa Fc _ Va Vb Vc ov hb0 hkeys hVb hVc
    exact suf_tail_len _ (buf.length + 1) (by simp) (key2 buf) 2 65537 B.M fuel _ _ V2 I2 I3 V3
      I4 hk (key2_bound buf) (key2_lt buf) (key2_eq buf) hb hd hi

theorem sufView_ok {n : Nat} {r : Res (Option suf_data)} {I F : List (Option Int)}
    (h : sufView n r = some (I, F)) :
    r = .ok (some (sufOf r)) ∧ cells (sufOf r).I n = I ∧ cells (sufOf r).F 257 = F := by
  unfold sufView at h
  split at h
  · simp only [Option.some.injEq, Prod.mk.injEq] at h
    exact ⟨rfl, h.1, h.2⟩
  · simp at h

/-- The first loop of suf_bucketsort leaves the buckets that are no key as they were. -/
theorem bucket_link_frame : ∀ (n : Nat) (V B V1 B1 : Arr Int),
    bucket_link n V B = .ok (V1, B1) →
    B1.size = B.size ∧
    ∀ t : Nat, (∀ i, i < n → V.cell i ≠ some (t : Int)) → B1.cell t = B.cell t := by
  intro n
  induction n with
  | zero =>
    intro V B V1 B1 h
    simp only [bucket_link, Except.ok.injEq, Prod.mk.injEq] at h
    obtain ⟨_, rfl⟩ := h
    exact ⟨rfl, fun _ _ => rfl⟩
  | succ i ih =>
    intro V B V1 B1 h
    simp only [bucket_link, bind_ok] at h
    obtain ⟨c, hc, b, hb, Va, hVa, Ba, hBa, h⟩ := h
    obtain ⟨hs, hf⟩ := ih Va Ba V1 B1 h
    have hc1 := rd_get hc
    have hc2 : V.cell i = some c := by
      have := hc1.2.2
      simpa using this
    have wB := wr_get hBa
    have wV := wr_get hVa
    have hsz : Ba.size = B.size := by
      unfold Arr.wr at hBa
      split at hBa
      · simp only [Except.ok.injEq] at hBa
        rw [← hBa]
      · simp at hBa
    refine ⟨by rw [hs, hsz], ?_⟩
    intro t ht
    rw [hf t, wB.2.2 t]
    · have : t ≠ c.toNat := by
        intro e
        apply ht i (Nat.lt_succ_self i)
        rw [hc2, e, Int.toNat_of_nonneg wB.1]
      rw [if_neg this]
    · intro k hk
      rw [wV.2.2 k]
      have e : ((i : Int)).toNat = i := by omega
      rw [e, if_neg (by omega)]
      exact ht k (by omega)

theorem bucket_chain_zero (g : Int) (cnt : Nat) (i : Int) (V I : Arr Int) :
    bucket_chain g cnt 0 i V I = .ok (V, I, i) := by
  cases cnt <;> simp [bucket_chain]

theorem descBelow_lt : ∀ (js : List Nat) (s : Nat), descBelow s js = true → ∀ j, j ∈ js → j < s := by
  intro js
  induction js with
  | nil =>
    intro s _ j hj
    simp at hj
  | cons a l ih =>
    intro s h j hj
    simp only [descBelow, Bool.and_eq_true, decide_eq_true_eq] at h
    rcases List.mem_cons.1 hj with e | e
    · rw [e]
      exact h.1
    · have := ih a h.2 j e
      omega

theorem descBelow_mono : ∀ (js : List Nat) (s t : Nat), descBelow s js = true →
    (∀ j, j ∈ js → j < t) → descBelow t js = true := by
  intro js s t h ht
  cases js with
  | nil => rfl
  | cons a l =>
    simp only [descBelow, Bool.and_eq_true, decide_eq_true_eq] at h ⊢
    exact ⟨ht a (List.mem_cons_self a l), h.2⟩

/-- The second loop of suf_bucketsort may skip the buckets that are zero. -/
theorem bucket_fill_at_eq (B : Arr Int) : ∀ (s : Nat) (js : List Nat) (i : Int) (V I : Arr Int),
    descBelow s js = true → (∀ t : Nat, t < s → t ∉ js → B.rd t = .ok 0) →
    bucket_fill B s i V I = bucket_fill_at B js i V I := by
  intro s
  induction s with
  | zero =>
    intro js i V I hd _
    cases js with
    | nil => simp [bucket_fill, bucket_fill_at]
    | cons a l =>
      have := descBelow_lt _ _ hd a (List.mem_cons_self a l)
      omega
  | succ j ih =>
    intro js i V I hd hz
    by_cases hi : i = 0
    · subst hi
      cases js <;> simp [bucket_fill, bucket_fill_at]
    · by_cases hj : j ∈ js
      · cases js with
        | nil => simp at hj
        | cons a l =>
          simp only [descBelow, Bool.and_eq_true, decide_eq_true_eq] at hd
          have hl := descBelow_lt _ _ hd.2
          have ha : a = j := by
            rcases List.mem_cons.1 hj with e | e
            · exact e.symm
            · have := hl j e
              omega
          subst ha
          have hrec : ∀ i1 V1 I1, bucket_fill B a i1 V1 I1 = bucket_fill_at B l i1 V1 I1 := by
            intro i1 V1 I1
            apply ih l i1 V1 I1 hd.2
            intro t ht hn
            apply hz t (by omega)
            intro hc
            rcases List.mem_cons.1 hc with e | e
            · omega
            · exact hn e
          simp only [bucket_fill, bucket_fill_at, if_pos hi, ne_eq, hi, not_false_eq_true, hrec]
      · have h0 := hz j (Nat.lt_succ_self j) hj
        have hd2 : descBelow j js = true := by
          apply descBelow_mono js _ j hd
          intro t ht
          have := descBelow_lt _ _ hd t ht
          have : t ≠ j := fun e => hj (e ▸ ht)
          omega
        have hrec := ih js i V I hd2 (fun t ht hn => hz t (by omega) hn)
        simp only [bucket_fill, ne_eq, hi, not_false_eq_true, if_true, h0]
        show (do
          let r ← bucket_chain i (i + 2).toNat 0 i V I
          bucket_fill B j r.2.2 r.1 r.2.1) = _
        rw [bucket_chain_zero]
        exact hrec

theorem keysIn_mem {V : Arr Int} {n : Nat} {js : List Nat} (h : keysIn V n js = true)
    {t : Nat} (ht : t ∉ js) : ∀ i, i < n → V.cell i ≠ some (t : Int) := by
  intro i hi hc
  unfold keysIn at h
  rw [List.all_eq_true] at h
  have := h i (List.mem_range.2 hi)
  rw [List.any_eq_true] at this
  obtain ⟨c, hc1, hc2⟩ := this
  rw [decide_eq_true_eq, hc] at hc2
  simp only [Option.some.injEq, Nat.cast_inj] at hc2
  exact ht (hc2 ▸ hc1)

/-- The bucket sort restricted to the listed buckets is the bucket sort. -/
theorem suf_bucketsort_at_eq (js : List Nat) (V I : Arr Int) (n s : Int) :
    suf_bucketsort_at js V I n s = suf_bucketsort V I n s := by
  unfold suf_bucketsort_at
  split
  · rename_i hc
    unfold suf_bucketsort
    cases hl : bucket_link n.toNat V (Arr.calloc s.toNat 0) with
    | error e => rfl
    | ok r =>
      obtain ⟨V1, B⟩ := r
      obtain ⟨hs, hf⟩ := bucket_link_frame _ _ _ _ _ hl
      have hz : ∀ t : Nat, t < s.toNat → t ∉ js → B.rd t = .ok 0 := by
        intro t ht hn
        have h1 := hf t (keysIn_mem hc.2 hn)
        unfold Arr.rd
        have e : ((t : Int)).toNat = t := by omega
        rw [e, if_pos ⟨by omega, by rw [hs]; exact ht⟩, h1]
        rfl
      have := bucket_fill_at_eq B s.toNat js n V1 I hc.1 hz
      show (do
        let r ← bucket_fill_at B js n V1 I
        let V3 ← r.1.wr n 0
        let I3 ← r.2.wr 0 (-1)
        Except.ok (V3, I3)) = (do
        let r ← bucket_fill B s.toNat n V1 I
        let V3 ← r.1.wr n 0
        let I3 ← r.2.wr 0 (-1)
        Except.ok (V3, I3))
      rw [this]
  · rfl

/-- The build with the restricted bucket sort is the build. -/
theorem suf_create_at_eq (js : List Nat) (B : Build) (fuel : Nat) (buf : List Byte) (ulen : Nat) :
    suf_create_at js B fuel buf ulen = suf_create B fuel buf ulen := by
  unfold suf_create_at suf_create
  simp only [suf_bucketsort_at_eq]

set_option maxRecDepth 1000000 in
/-- Evaluation of the build of mississippi with the restricted bucket sort. -/
theorem mississippi_at_eval : sufView 14 (suf_create_at mississippi_keys B32 16 mississippi 12) =
    some ([some 13, some 12, some 11, some 10, some 7, some 4, some 1, some 0, some 9, some 8,
      some 6, some 3, some 5, some 2], (List.range 257).map (fun c => some (bucketF B32 mississippi c))) := by
  decide!

theorem mississippi_ok : suf_create B32 16 mississippi 12 = .ok (some sd_mississippi) := by
  rw [← suf_create_at_eq mississippi_keys]
  exact (sufView_ok mississippi_at_eval).1

theorem mississippi_I : cells sd_mississippi.I 14 =
    [some 13, some 12, some 11, some 10, some 7, some 4, some 1, some 0, some 9, some 8,
      some 6, some 3, some 5, some 2] :=
  (sufView_ok mississippi_at_eval).2.1

theorem mississippi_F : cells sd_mississippi.F 257 =
    (List.range 257).map (fun c => some (bucketF B32 mississippi c)) :=
  (sufView_ok mississippi_at_eval).2.2

/-- The cells 0..len of I hold the positions 0..len in the order of their suffixes. -/
theorem rank_sorted (pad : List Byte) (I : Arr Int)
    (h : ∀ p, p ≤ pad.length → I.cell (rank pad p) = some (p : Int)) :
    (∀ i, i ≤ pad.length → ∃ p, p ≤ pad.length ∧ I.cell i = some (p : Int)) ∧
    (∀ p, p ≤ pad.length → ∃ i, i ≤ pad.length ∧ I.cell i = some (p : Int)) ∧
    (∀ i j, i ≤ pad.length → j ≤ pad.length → I.cell i = I.cell j → i = j) ∧
    (∀ i j p q : Nat, i < j → j ≤ pad.length → I.cell i = some (p : Int) → I.cell j = some (q : Int) →
      pad.drop p < pad.drop q) := by
  have hcell : ∀ i, i ≤ pad.length → ∃ p, p ≤ pad.length ∧ rank pad p = i ∧
      I.cell i = some (p : Int) := by
    intro i hi
    obtain ⟨p, hp, e⟩ := rank_surj pad hi
    exact ⟨p, hp, e, by rw [← e]; exact h p hp⟩
  refine ⟨?_, ?_, ?_, ?_⟩
  · intro i hi
    obtain ⟨p, hp, _, e⟩ := hcell i hi
    exact ⟨p, hp, e⟩
  · intro p hp
    exact ⟨rank pad p, rank_le pad hp, h p hp⟩
  · intro i j hi hj e
    obtain ⟨p, hp, e1, c1⟩ := hcell i hi
    obtain ⟨q, hq, e2, c2⟩ := hcell j hj
    rw [c1, c2] at e
    simp only [Option.some.injEq, Nat.cast_inj] at e
    rw [← e1, ← e2, e]
  · intro i j p q hij hj hi1 hj1
    obtain ⟨p1, hp, e1, c1⟩ := hcell i (by omega)
    obtain ⟨q1, hq, e2, c2⟩ := hcell j hj
    rw [c1] at hi1
    rw [c2] at hj1
    simp only [Option.some.injEq, Nat.cast_inj] at hi1 hj1
    subst hi1 hj1
    exact lt_of_rank pad hp hq (by omega)

/-- C10: when suf_create succeeds on a buffer whose length fits the offset type, with pad the
buffer followed by the zero padding of the build and len its length, every cell of I[0..len]
holds a position of 0..len, every position stands in a cell, no two cells hold the same
position, and for two cells i < j the suffix of pad at I[i] comes strictly before the suffix
at I[j] in lexicographic order, the end of the input below every byte. -/
theorem suf_create_sorted (B : Build) (fuel : Nat) (buf : List Byte) (sd : suf_data)
    (hlen : buf.length < B.M) (h : suf_create B fuel buf buf.length = .ok (some sd)) :
    (∀ i, i ≤ (padded B buf).length →
      ∃ p, p ≤ (padded B buf).length ∧ sd.I.cell i = some (p : Int)) ∧
    (∀ p, p ≤ (padded B buf).length →
      ∃ i, i ≤ (padded B buf).length ∧ sd.I.cell i = some (p : Int)) ∧
    (∀ i j, i ≤ (padded B buf).length → j ≤ (padded B buf).length →
      sd.I.cell i = sd.I.cell j → i = j) ∧
    (∀ i j p q : Nat, i < j → j ≤ (padded B buf).length → sd.I.cell i = some (p : Int) →
      sd.I.cell j = some (q : Int) → (padded B buf).drop p < (padded B buf).drop q) :=
  rank_sorted (padded B buf) sd.I (suf_create_rank B fuel buf sd hlen h)

/-- Witness for C10 on mississippi: the build succeeds and I lists the empty suffix, the
padding byte and then the twelve suffixes of the buffer in lexicographic order. -/
theorem suf_create_sorted_witness :
    suf_create B32 16 mississippi mississippi.length = .ok (some sd_mississippi) ∧
    cells sd_mississippi.I 14 =
      [some 13, some 12, some 11, some 10, some 7, some 4, some 1, some 0, some 9, some 8,
        some 6, some 3, some 5, some 2] ∧
    ((∀ i, i ≤ (padded B32 mississippi).length →
      ∃ p, p ≤ (padded B32 mississippi).length ∧ sd_mississippi.I.cell i = some (p : Int)) ∧
    (∀ p, p ≤ (padded B32 mississippi).length →
      ∃ i, i ≤ (padded B32 mississippi).length ∧ sd_mississippi.I.cell i = some (p : Int)) ∧
    (∀ i j, i ≤ (padded B32 mississippi).length → j ≤ (padded B32 mississippi).length →
      sd_mississippi.I.cell i = sd_mississippi.I.cell j → i = j) ∧
    (∀ i j p q : Nat, i < j → j ≤ (padded B32 mississippi).length →
      sd_mississippi.I.cell i = some (p : Int) → sd_mississippi.I.cell j = some (q : Int) →
      (padded B32 mississippi).drop p < (padded B32 mississippi).drop q)) :=
  ⟨mississippi_ok, mississippi_I,
    suf_create_sorted B32 16 mississippi sd_mississippi (by decide) mississippi_ok⟩

theorem addoff_succeeds {M : Nat} {off : Int} (hM : 2 * off.natAbs < M) :
    ∃ b, addoff M off = .ok b := by
  unfold addoff
  rw [if_neg (by omega)]
  exact ⟨_, rfl⟩

theorem F_incr_ok {F F1 : Arr Int} {c : Byte} (h : F_incr F c = .ok F1) (cnt : Nat → Nat)
    (hF : ∀ d, F.cell d = some (cnt d : Int)) :
    ∀ d, F1.cell d = some ((cnt d + if c.val = d then 1 else 0 : Nat) : Int) := by
  unfold F_incr at h
  simp only [bind_ok] at h
  obtain ⟨v, hv, h⟩ := h
  have r := rd_get hv
  have w := wr_get h
  have e : ((c.val : Nat) : Int).toNat = c.val := by omega
  rw [e] at r w
  intro d
  rw [w.2.2 d]
  by_cases hd : d = c.val
  · rw [if_pos hd, if_pos hd.symm]
    have := r.2.2
    rw [hF] at this
    simp only [Option.some.injEq] at this
    rw [← this, hd]
    push_cast
    rfl
  · rw [if_neg hd, if_neg (fun e => hd e.symm), hF]
    simp

theorem byteCount_take_succ (buf : List Byte) {i : Nat} {c : Byte} (h : buf[i]? = some c) (d : Nat) :
    byteCount (buf.take (i + 1)) d = byteCount (buf.take i) d + if c.val = d then 1 else 0 := by
  have hi : i < buf.length := by
    by_contra hn
    rw [List.getElem?_eq_none (by omega)] at h
    simp at h
  rw [List.take_succ, h]
  unfold byteCount
  simp only [Option.toList, List.countP_append, List.countP_cons, List.countP_nil, zero_add,
    decide_eq_true_eq]

theorem suf_keys2_F (buf : List Byte) :
    ∀ (cnt i oldv : Nat) (F V : Arr Int) (r : Nat × Arr Int × Arr Int),
      (∀ d, F.cell d = some (byteCount (buf.take i) d : Int)) →
      suf_keys2 buf cnt i oldv F V = .ok r →
      ∀ d, r.2.1.cell d = some (byteCount (buf.take (i + cnt)) d : Int) := by
  intro cnt
  induction cnt with
  | zero =>
    intro i oldv F V r hF h
    simp only [suf_keys2, Except.ok.injEq] at h
    subst h
    exact hF
  | succ n ih =>
    intro i oldv F V r hF h
    simp only [suf_keys2, bind_ok] at h
    obtain ⟨c, hc, F1, hF1, V1, _, h⟩ := h
    have hc2 := (rdB_ok hc).2
    have := ih (i + 1) _ F1 V1 r (by
      intro d
      rw [byteCount_take_succ buf hc2 d]
      exact F_incr_ok hF1 _ hF d) h
    have e : i + 1 + n = i + (n + 1) := by omega
    rw [e] at this
    exact this

theorem suf_keys3_F (buf : List Byte) :
    ∀ (cnt i oldv : Nat) (F V : Arr Int) (r : Nat × Arr Int × Arr Int),
      (∀ d, F.cell d = some (byteCount (buf.take i) d : Int)) →
      suf_keys3 buf cnt i oldv F V = .ok r →
      ∀ d, r.2.1.cell d = some (byteCount (buf.take (i + cnt)) d : Int) := by
  intro cnt
  induction cnt with
  | zero =>
    intro i oldv F V r hF h
    simp only [suf_keys3, Except.ok.injEq] at h
    subst h
    exact hF
  | succ n ih =>
    intro i oldv F V r hF h
    simp only [suf_keys3, bind_ok] at h
    obtain ⟨c, hc, F1, hF1, V1, _, h⟩ := h
    have hc2 := (rdB_ok hc).2
    have := ih (i + 1) _ F1 V1 r (by
      intro d
      rw [byteCount_take_succ buf hc2 d]
      exact F_incr_ok hF1 _ hF d) h
    have e : i + 1 + n = i + (n + 1) := by omega
    rw [e] at this
    exact this

theorem belowCount_succ (buf : List Byte) (c : Nat) :
    belowCount buf (c + 1) = belowCount buf c + byteCount buf c := by
  unfold belowCount byteCount
  induction buf with
  | nil => rfl
  | cons a l ih =>
    simp only [List.countP_cons, ih, decide_eq_true_eq]
    split_ifs <;> omega

theorem belowCount_zero (buf : List Byte) : belowCount buf 0 = 0 := by
  unfold belowCount
  rw [List.countP_eq_zero]
  intro a _
  simp

theorem belowCount_full (buf : List Byte) : belowCount buf 256 = buf.length := by
  unfold belowCount
  rw [List.countP_eq_length]
  intro a _
  simp only [decide_eq_true_eq]
  exact a.isLt

theorem belowCount_mono (buf : List Byte) {c d : Nat} (h : c ≤ d) :
    belowCount buf c ≤ belowCount buf d := by
  induction h with
  | refl => exact le_refl _
  | step _ ih =>
    rw [belowCount_succ]
    omega

theorem belowCount_le (buf : List Byte) (c : Nat) : belowCount buf c ≤ buf.length :=
  List.countP_le_length _

/-- The loop that turns the byte counts into the bucket table. -/
theorem suf_cumul_ok (buf : List Byte) (k : Nat) :
    ∀ (i : Nat) (oldv : Int) (F F2 : Arr Int) (o2 : Int),
      oldv = ((k + belowCount buf i : Nat) : Int) →
      (∀ d, d < i → F.cell d = some (byteCount buf d : Int)) →
      suf_cumul i oldv F = .ok (o2, F2) →
      o2 = (k : Int) ∧
      (∀ c, 1 ≤ c → c ≤ i → F2.cell c = some ((k + belowCount buf c : Nat) : Int)) ∧
      (∀ c, c = 0 ∨ i < c → F2.cell c = F.cell c) := by
  intro i
  induction i with
  | zero =>
    intro oldv F F2 o2 ho _ h
    simp only [suf_cumul, Except.ok.injEq, Prod.mk.injEq] at h
    obtain ⟨rfl, rfl⟩ := h
    rw [belowCount_zero] at ho
    exact ⟨by rw [ho]; simp, fun c h1 h2 => by omega, fun _ _ => rfl⟩
  | succ n ih =>
    intro oldv F F2 o2 ho hF h
    simp only [suf_cumul, bind_ok] at h
    obtain ⟨F1, hF1, f, hf, h⟩ := h
    have w := wr_get hF1
    have r := rd_get hf
    have e1 : ((n : Int) + 1).toNat = n + 1 := by omega
    have e2 : ((n : Nat) : Int).toNat = n := by omega
    rw [e1] at w
    rw [e2] at r
    have hfn : f = (byteCount buf n : Int) := by
      have := r.2.2
      rw [w.2.2 n, if_neg (by omega), hF n (by omega)] at this
      simp only [Option.some.injEq] at this
      exact this.symm
    obtain ⟨a1, a2, a3⟩ := ih (oldv - f) F1 F2 o2 (by
      rw [ho, hfn, belowCount_succ]
      push_cast
      ring) (by
      intro d hd
      rw [w.2.2 d, if_neg (by omega)]
      exact hF d (by omega)) h
    refine ⟨a1, ?_, ?_⟩
    · intro c h1 h2
      by_cases hc : c = n + 1
      · rw [a3 c (Or.inr (by omega)), w.2.2 c, if_pos hc, ho, hc]
      · exact a2 c h1 (by omega)
    · intro c hc
      rw [a3 c (by omega), w.2.2 c, if_neg (by omega)]

theorem pads_small {B : Build} {buf : List Byte} (h : ¬ toS B.M buf.length ≥ 0x1000000) :
    pads B buf = 1 := by
  unfold pads
  rw [padded_small h]
  simp

theorem pads_large {B : Build} {buf : List Byte} (h : toS B.M buf.length ≥ 0x1000000) :
    pads B buf = 2 := by
  unfold pads
  rw [padded_large h]
  simp

theorem padded_length (B : Build) (buf : List Byte) :
    (padded B buf).length = buf.length + pads B buf := by
  unfold pads padded
  split <;> simp

theorem padded_eq (B : Build) (buf : List Byte) :
    padded B buf = buf ++ List.replicate (pads B buf) 0 := by
  by_cases h : toS B.M buf.length ≥ 0x1000000
  · rw [pads_large h, padded_large h]
    rfl
  · rw [pads_small h, padded_small h]
    rfl

theorem pads_pos (B : Build) (buf : List Byte) : 1 ≤ pads B buf := by
  by_cases h : toS B.M buf.length ≥ 0x1000000
  · rw [pads_large h]
    omega
  · rw [pads_small h]

/-- The table F built by suf_create. -/
theorem suf_create_F (B : Build) (fuel : Nat) (buf : List Byte) (sd : suf_data)
    (hlen : buf.length < B.M) (h : suf_create B fuel buf buf.length = .ok (some sd)) :
    ∀ c, c ≤ 256 → sd.F.cell c = some (bucketF B buf c) := by
  unfold suf_create at h
  simp only at h
  split at h
  · simp at h
  rename_i hneg
  have hl := toS_nonneg hlen hneg
  simp only [bind_ok] at h
  obtain ⟨⟨oldv, len, hh, s, F1, V1⟩, hinit, ⟨oldv2, F2⟩, hcum, F3, hF3, _, _, _, _,
    I4, _, h⟩ := h
  simp only [Except.ok.injEq, Option.some.injEq] at h
  subst h
  simp only at hcum hF3 ⊢
  have hz : ∀ d, (Arr.calloc 257 (0 : Int)).cell d = some (byteCount (buf.take 0) d : Int) := by
    intro d
    simp [Arr.calloc, byteCount]
  have w := wr_get hF3
  have fin : ∀ (k : Nat), pads B buf = k → len = ((buf.length + k : Nat) : Int) →
      (∀ d, F1.cell d = some (byteCount buf d : Int)) →
      ∀ c, c ≤ 256 → F3.cell c = some (bucketF B buf c) := by
    intro k hk hlen2 hF1 c hc
    obtain ⟨a1, a2, a3⟩ := suf_cumul_ok buf k 256 len F1 F2 oldv2 (by
      rw [hlen2, belowCount_full]
      push_cast
      ring) (fun d _ => hF1 d) hcum
    rw [w.2.2 c]
    unfold bucketF
    rw [hk]
    by_cases h0 : c = 0
    · have : (0 : Int).toNat = 0 := rfl
      rw [this, if_pos h0, a1, h0, belowCount_zero]
      rfl
    · have : (0 : Int).toNat = 0 := rfl
      rw [this, if_neg h0]
      exact a2 c (by omega) hc
  split at hinit
  · rename_i hbig
    simp only [bind_ok] at hinit
    obtain ⟨b0, hb0, Fa, hFa, b1, hb1, Fb, hFb, ⟨ov, Fc, Va⟩, hkeys, Vb, _, Vc, _, Vd, _,
      Ve, _, hinit⟩ := hinit
    simp only [Except.ok.injEq, Prod.mk.injEq] at hinit
    obtain ⟨_, e1, _, _, e3, _⟩ := hinit
    subst e1 e3
    have hbl : 16777216 ≤ buf.length := by
      rw [hl] at hbig
      omega
    have f1 := F_incr_ok hFa _ hz
    have f1' : ∀ d, Fa.cell d = some (byteCount (buf.take 1) d : Int) := by
      intro d
      rw [byteCount_take_succ buf (rdB_ok hb0).2 d]
      exact f1 d
    have f2 := F_incr_ok hFb _ f1'
    have f2' : ∀ d, Fb.cell d = some (byteCount (buf.take 2) d : Int) := by
      intro d
      rw [byteCount_take_succ buf (rdB_ok hb1).2 d]
      exact f2 d
    have f3 := suf_keys3_F buf _ 2 _ Fb _ _ f2' hkeys
    simp only at f3
    rw [hl] at f3
    have e : 2 + ((buf.length : Int) - 2).toNat = buf.length := by omega
    rw [e, List.take_length] at f3
    exact fin 2 (pads_large hbig) (by rw [hl]; push_cast; ring) f3
  · rename_i hbig
    simp only [bind_ok] at hinit
    obtain ⟨b0, hb0, Fa, hFa, ⟨ov, Fc, Va⟩, hkeys, Vb, _, Vc, _, hinit⟩ := hinit
    simp only [Except.ok.injEq, Prod.mk.injEq] at hinit
    obtain ⟨_, e1, _, _, e3, _⟩ := hinit
    subst e1 e3
    have hbl : 1 ≤ buf.length := by
      have := (rdB_ok hb0).1
      omega
    have f1 := F_incr_ok hFa _ hz
    have f1' : ∀ d, Fa.cell d = some (byteCount (buf.take 1) d : Int) := by
      intro d
      rw [byteCount_take_succ buf (rdB_ok hb0).2 d]
      exact f1 d
    have f3 := suf_keys2_F buf _ 1 _ Fa _ _ f1' hkeys
    simp only at f3
    rw [hl] at f3
    have e : 1 + ((buf.length : Int) - 1).toNat = buf.length := by omega
    rw [e, List.take_length] at f3
    exact fin 1 (pads_small hbig) (by rw [hl]; push_cast; ring) f3

/-! ## the buckets of the leading byte -/

theorem zeros_lt : ∀ (m : Nat) (l : List Byte), m < l.length → List.replicate m (0 : Byte) < l := by
  intro m
  induction m with
  | zero =>
    intro l hl
    cases l with
    | nil => simp at hl
    | cons a t => exact List.Lex.nil
  | succ n ih =>
    intro l hl
    cases l with
    | nil => simp at hl
    | cons a t =>
      rw [List.replicate_succ]
      by_cases ha : a = 0
      · rw [ha]
        exact List.Lex.cons (ih t (by simpa using hl))
      · apply List.Lex.rel
        apply byte_lt
        have : a.val ≠ 0 := fun hc => ha (byte_eq hc)
        show (0 : Nat) < _
        omega

theorem drop_zeros (buf : List Byte) (k p : Nat) (hp : buf.length ≤ p) :
    (buf ++ List.replicate k (0 : Byte)).drop p = List.replicate (buf.length + k - p) 0 := by
  rw [List.drop_append_eq_append_drop, List.drop_eq_nil_of_le hp, List.nil_append,
    List.drop_replicate]
  congr 1
  omega

theorem key1_lt (k : Nat) (buf : List Byte) (p q : Nat)
    (hp : p < (buf ++ List.replicate k (0 : Byte)).length)
    (hq : q < (buf ++ List.replicate k (0 : Byte)).length)
    (h : key1 k buf p < key1 k buf q) :
    (buf ++ List.replicate k (0 : Byte)).drop p < (buf ++ List.replicate k (0 : Byte)).drop q := by
  have hp0 := hp
  have hq0 := hq
  simp only [List.length_append, List.length_replicate] at hp hq
  unfold key1 at h
  by_cases hq1 : q < buf.length
  · rw [if_pos hq1] at h
    by_cases hp1 : p < buf.length
    · rw [if_pos hp1] at h
      rw [drop_pad buf k p hp0, drop_pad buf k q hq0]
      apply List.Lex.rel
      apply byte_lt
      unfold byteAt at h
      omega
    · rw [drop_zeros buf k p (by omega)]
      apply zeros_lt
      simp only [List.length_drop, List.length_append, List.length_replicate]
      omega
  · rw [if_neg hq1] at h
    by_cases hp1 : p < buf.length
    · rw [if_pos hp1] at h
      omega
    · rw [if_neg hp1] at h
      rw [drop_zeros buf k p (by omega)]
      apply zeros_lt
      simp only [List.length_drop, List.length_append, List.length_replicate]
      omega

theorem count_range_list (P : Byte → Bool) : ∀ (l : List Byte),
    ((Finset.range l.length).filter (fun q => P (l.getD q 0) = true)).card = l.countP P := by
  intro l
  induction l using List.reverseRecOn with
  | nil => simp
  | append_singleton l a ih =>
    rw [List.length_append, List.length_singleton, Finset.range_succ, Finset.filter_insert,
      List.countP_append, List.countP_singleton]
    have e1 : (l ++ [a]).getD l.length 0 = a := by
      rw [List.getD_eq_getElem?_getD, List.getElem?_append_right (le_refl _)]
      simp
    have e2 : (Finset.range l.length).filter (fun q => P ((l ++ [a]).getD q 0) = true) =
        (Finset.range l.length).filter (fun q => P (l.getD q 0) = true) := by
      apply Finset.filter_congr
      intro q hq
      rw [Finset.mem_range] at hq
      rw [List.getD_eq_getElem?_getD, List.getD_eq_getElem?_getD, List.getElem?_append_left hq]
    rw [e1, e2]
    by_cases hP : P a = true
    · rw [if_pos hP, if_pos hP, Finset.card_insert_of_not_mem (by simp), ih]
    · rw [if_neg hP, if_neg hP, ih]
      rfl

/-- The number of positions whose key is below c + k: the k padding positions and the bytes
below c. -/
theorem loC_key1 (k : Nat) (buf : List Byte) (c : Nat) :
    loC (key1 k buf) (buf.length + k) (c + k) = k + belowCount buf c := by
  have gen : ∀ j, j ≤ k →
      ((Finset.range (buf.length + j)).filter (fun q => key1 k buf q < c + k)).card =
        j + belowCount buf c := by
    intro j
    induction j with
    | zero =>
      intro _
      rw [Nat.add_zero, Nat.zero_add]
      unfold belowCount
      rw [← count_range_list]
      congr 1
      apply Finset.filter_congr
      intro q hq
      rw [Finset.mem_range] at hq
      unfold key1 byteAt
      rw [if_pos hq]
      simp
    | succ n ih =>
      intro hn
      have e : buf.length + (n + 1) = (buf.length + n) + 1 := by omega
      rw [e, Finset.range_succ, Finset.filter_insert]
      have hk : key1 k buf (buf.length + n) < c + k := by
        unfold key1
        rw [if_neg (by omega)]
        omega
      rw [if_pos hk, Finset.card_insert_of_not_mem (by simp), ih (by omega)]
      omega
  unfold loC
  exact gen k (le_refl _)

theorem hiC_key1 (k : Nat) (buf : List Byte) (c : Nat) :
    hiC (key1 k buf) (buf.length + k) (c + k) = k + belowCount buf (c + 1) := by
  rw [← loC_succ]
  have : c + k + 1 = (c + 1) + k := by omega
  rw [this, loC_key1]

/-- The rank of a position of the buffer lies in the bucket of its byte; the padding
positions and the end come before all buckets. -/
theorem rank_key1 (k : Nat) (buf : List Byte) (p : Nat) (hk : 1 ≤ k) (hp : p < buf.length) :
    k + belowCount buf (byteAt buf p) + 1 ≤ rank (buf ++ List.replicate k (0 : Byte)) p ∧
    rank (buf ++ List.replicate k (0 : Byte)) p ≤ k + belowCount buf (byteAt buf p + 1) := by
  have hlen : (buf ++ List.replicate k (0 : Byte)).length = buf.length + k := by simp
  have := rank_bucket (buf ++ List.replicate k (0 : Byte)) (key1 k buf) (key1_lt k buf)
    (p := p) (by rw [hlen]; omega)
  rw [hlen] at this
  have e : key1 k buf p = byteAt buf p + k := by
    unfold key1
    rw [if_pos hp]
  rw [e, loC_key1, hiC_key1] at this
  exact this

theorem rank_pad (k : Nat) (buf : List Byte) (p : Nat) (hp1 : buf.length ≤ p)
    (hp2 : p ≤ buf.length + k) : rank (buf ++ List.replicate k (0 : Byte)) p ≤ k := by
  have hlen : (buf ++ List.replicate k (0 : Byte)).length = buf.length + k := by simp
  by_cases hp : p = buf.length + k
  · have := rank_end (buf ++ List.replicate k (0 : Byte))
    rw [hlen] at this
    rw [hp, this]
    omega
  · have := (rank_bucket (buf ++ List.replicate k (0 : Byte)) (key1 k buf) (key1_lt k buf)
      (p := p) (by rw [hlen]; omega)).2
    rw [hlen] at this
    have e : key1 k buf p < 0 + k := by
      unfold key1
      rw [if_neg (by omega)]
      omega
    have h2 := hiC_le_loC (key1 k buf) (buf.length + k) e
    rw [loC_key1, belowCount_zero] at h2
    omega

/-- The cells of a bucket hold the positions of the byte. -/
theorem bucket_cells (k : Nat) (buf : List Byte) (hk : 1 ≤ k) (c p : Nat)
    (hp : p ≤ buf.length + k)
    (h1 : k + belowCount buf c + 1 ≤ rank (buf ++ List.replicate k (0 : Byte)) p)
    (h2 : rank (buf ++ List.replicate k (0 : Byte)) p ≤ k + belowCount buf (c + 1)) :
    p < buf.length ∧ byteAt buf p = c := by
  by_cases hp1 : p < buf.length
  · refine ⟨hp1, ?_⟩
    obtain ⟨r1, r2⟩ := rank_key1 k buf p hk hp1
    by_contra hne
    rcases Nat.lt_or_gt_of_ne hne with hlt | hgt
    · have := belowCount_mono buf (show byteAt buf p + 1 ≤ c by omega)
      omega
    · have := belowCount_mono buf (show c + 1 ≤ byteAt buf p by omega)
      omega
  · have := rank_pad k buf p (by omega) hp
    omega

theorem byteAt_eq {buf : List Byte} {p : Nat} (hp : p < buf.length) (c : Byte) :
    byteAt buf p = c.val ↔ buf[p]? = some c := by
  unfold byteAt
  rw [List.getD_eq_getElem?_getD, List.getElem?_eq_getElem hp]
  simp only [Option.getD_some, Option.some.injEq]
  constructor
  · intro h
    exact Fin.ext h
  · intro h
    rw [h]

theorem byteCount_pos (buf : List Byte) (c : Byte) : 0 < byteCount buf c.val ↔ c ∈ buf := by
  unfold byteCount
  rw [List.countP_pos_iff]
  constructor
  · rintro ⟨a, ha, h⟩
    simp only [decide_eq_true_eq] at h
    have : a = c := Fin.ext h
    rw [← this]
    exact ha
  · intro h
    exact ⟨c, h, by simp⟩

/-- C16 (counterexample): the build of mississippi followed by a zero byte succeeds and its
table has F[0] = 1, not 0. -/
theorem bucket_table_as_stated_fails :
    suf_create B32 16 mississippi mississippi.length = .ok (some sd_mississippi) ∧
    sd_mississippi.F.cell 0 = some 1 ∧ (1 : Int) ≠ 0 := by
  refine ⟨mississippi_ok, ?_, by decide⟩
  have := suf_create_F B32 16 mississippi sd_mississippi (by decide) mississippi_ok 0 (by omega)
  rw [this]
  decide

/-- C16 (as amended): after suf_create, F[c] is the number of padding bytes of the build (1, or
2 for a buffer of 0x1000000 bytes or more) plus the number of bytes of the buffer below c, for
every c of 0..256; so F[c] <= F[c+1], F[0] is the number of padding bytes and F[256] is the
padded length. -/
theorem bucket_table (B : Build) (fuel : Nat) (buf : List Byte) (sd : suf_data)
    (hlen : buf.length < B.M) (h : suf_create B fuel buf buf.length = .ok (some sd)) :
    (∀ c, c ≤ 256 → sd.F.cell c = some ((pads B buf + belowCount buf c : Nat) : Int)) ∧
    (∀ c, c < 256 → ∃ f0 f1 : Int, sd.F.cell c = some f0 ∧ sd.F.cell (c + 1) = some f1 ∧
      f0 ≤ f1) ∧
    sd.F.cell 0 = some (pads B buf : Int) ∧
    sd.F.cell 256 = some ((padded B buf).length : Int) ∧
    (pads B buf = 1 ∨ pads B buf = 2) := by
  have hF := suf_create_F B fuel buf sd hlen h
  unfold bucketF at hF
  refine ⟨hF, ?_, ?_, ?_, ?_⟩
  · intro c hc
    refine ⟨_, _, hF c (by omega), hF (c + 1) (by omega), ?_⟩
    have := belowCount_mono buf (show c ≤ c + 1 by omega)
    omega
  · rw [hF 0 (by omega), belowCount_zero]
    rfl
  · rw [hF 256 (le_refl _), belowCount_full, padded_length, Nat.add_comm]
  · by_cases hb : toS B.M buf.length ≥ 0x1000000
    · exact Or.inr (pads_large hb)
    · exact Or.inl (pads_small hb)

/-- Witness for C16 on mississippi followed by a zero byte. -/
theorem bucket_table_witness :
    suf_create B32 16 mississippi mississippi.length = .ok (some sd_mississippi) ∧
    ((∀ c, c ≤ 256 →
      sd_mississippi.F.cell c = some ((pads B32 mississippi + belowCount mississippi c : Nat) : Int)) ∧
    (∀ c, c < 256 → ∃ f0 f1 : Int, sd_mississippi.F.cell c = some f0 ∧
      sd_mississippi.F.cell (c + 1) = some f1 ∧ f0 ≤ f1) ∧
    sd_mississippi.F.cell 0 = some (pads B32 mississippi : Int) ∧
    sd_mississippi.F.cell 256 = some ((padded B32 mississippi).length : Int) ∧
    (pads B32 mississippi = 1 ∨ pads B32 mississippi = 2)) :=
  ⟨mississippi_ok, bucket_table B32 16 mississippi sd_mississippi (by decide) mississippi_ok⟩

theorem toS_small_path {B : Build} {n : Nat} (h : n < 2 ^ 24) : ¬ toS B.M n ≥ 0x1000000 := by
  have hb := IsM.big B.M_cases
  unfold toS
  rw [if_pos (by omega)]
  omega

theorem toU_nat {M : Nat} (n : Nat) (h : n < M) : toU M (n : Int) = n := by
  unfold toU
  rw [Int.emod_eq_of_lt (by omega) (by omega)]
  rfl

/-- The facts about a bucket shared by the properties of the search. -/
theorem bucket_facts (B : Build) (fuel : Nat) (buf : List Byte) (sd : suf_data)
    (hlen : buf.length < B.M) (h : suf_create B fuel buf buf.length = .ok (some sd)) (c : Byte) :
    sd.F.cell c.val = some ((pads B buf + belowCount buf c.val : Nat) : Int) ∧
    sd.F.cell (c.val + 1) = some ((pads B buf + belowCount buf (c.val + 1) : Nat) : Int) ∧
    (∀ i, pads B buf + belowCount buf c.val + 1 ≤ i → i ≤ pads B buf + belowCount buf (c.val + 1) →
      ∃ p, p < buf.length ∧ sd.I.cell i = some (p : Int) ∧ buf[p]? = some c) ∧
    (∀ p, p < buf.length → buf[p]? = some c →
      ∃ i, pads B buf + belowCount buf c.val + 1 ≤ i ∧ i ≤ pads B buf + belowCount buf (c.val + 1) ∧
        sd.I.cell i = some (p : Int)) := by
  have hc := c.isLt
  have hF := suf_create_F B fuel buf sd hlen h
  unfold bucketF at hF
  have hI := suf_create_rank B fuel buf sd hlen h
  rw [padded_eq] at hI
  have hN : (buf ++ List.replicate (pads B buf) (0 : Byte)).length = buf.length + pads B buf := by
    simp
  rw [hN] at hI
  refine ⟨hF _ (by omega), hF _ (by omega), ?_, ?_⟩
  · intro i h1 h2
    have hb := belowCount_le buf (c.val + 1)
    obtain ⟨p, hp, e⟩ := rank_surj (buf ++ List.replicate (pads B buf) (0 : Byte)) (k := i)
      (by rw [hN]; omega)
    rw [hN] at hp
    obtain ⟨p1, p2⟩ := bucket_cells (pads B buf) buf (pads_pos B buf) c.val p hp
      (by rw [e]; exact h1) (by rw [e]; exact h2)
    refine ⟨p, p1, ?_, (byteAt_eq p1 c).1 p2⟩
    rw [← e]
    exact hI p hp
  · intro p hp hb
    have e := (byteAt_eq hp c).2 hb
    obtain ⟨r1, r2⟩ := rank_key1 (pads B buf) buf p (pads_pos B buf) hp
    rw [e] at r1 r2
    exact ⟨_, r1, r2, hI p (by omega)⟩

/-- C17: after suf_create on a buffer of 1 <= oldlen < 2^24 bytes, with f0 = F[c] and
f1 = F[c+1] for a byte c, the cells I[f0+1], ..., I[f1] hold positions p < oldlen with
old[p] = c, every such position stands in one of these cells, no two of these cells hold the
same position, f0 + 1 > f1 holds iff c does not occur in old, and then suf_bsearch over this
range returns length 0. -/
theorem bucket_range (B : Build) (fuel : Nat) (buf : List Byte) (sd : suf_data)
    (h1 : 1 ≤ buf.length) (h2 : buf.length < 2 ^ 24)
    (h : suf_create B fuel buf buf.length = .ok (some sd)) (c : Byte) :
    ∃ f0 f1 : Nat, sd.F.cell c.val = some (f0 : Int) ∧ sd.F.cell (c.val + 1) = some (f1 : Int) ∧
      (∀ i, f0 + 1 ≤ i → i ≤ f1 →
        ∃ p, p < buf.length ∧ sd.I.cell i = some (p : Int) ∧ buf[p]? = some c) ∧
      (∀ p, p < buf.length → buf[p]? = some c →
        ∃ i, f0 + 1 ≤ i ∧ i ≤ f1 ∧ sd.I.cell i = some (p : Int)) ∧
      (∀ i j, f0 + 1 ≤ i → i ≤ f1 → f0 + 1 ≤ j → j ≤ f1 → sd.I.cell i = sd.I.cell j → i = j) ∧
      (f0 + 1 > f1 ↔ c ∉ buf) ∧
      (c ∉ buf → ∀ (new : List Byte) (pn nl pos : Nat),
        suf_bsearch B.M sd.I buf buf.length new pn nl (toU B.M ((f0 : Int) + 1))
          (toU B.M (f1 : Int)) pos = .ok (0, pos)) := by
  have hb := IsM.big B.M_cases
  have hlen : buf.length < B.M := by omega
  obtain ⟨a1, a2, a3, a4⟩ := bucket_facts B fuel buf sd hlen h c
  have hI := suf_create_rank B fuel buf sd hlen h
  have hp1 := pads_small (toS_small_path (B := B) h2)
  have hN := padded_length B buf
  have hle := belowCount_le buf (c.val + 1)
  have hsucc := belowCount_succ buf c.val
  have hpos := byteCount_pos buf c
  refine ⟨_, _, a1, a2, a3, a4, ?_, ?_, ?_⟩
  · intro i j i1 i2 j1 j2 e
    obtain ⟨p, hp, ep⟩ := rank_surj (padded B buf) (k := i) (by omega)
    obtain ⟨q, hq, eq⟩ := rank_surj (padded B buf) (k := j) (by omega)
    rw [← ep, ← eq, hI p hp, hI q hq] at e
    simp only [Option.some.injEq, Nat.cast_inj] at e
    rw [← ep, ← eq, e]
  · constructor
    · intro hgt hc
      have := hpos.2 hc
      omega
    · intro hc
      have : ¬ 0 < byteCount buf c.val := fun hp => hc (hpos.1 hp)
      omega
  · intro hc new pn nl pos
    have : ¬ 0 < byteCount buf c.val := fun hp => hc (hpos.1 hp)
    unfold suf_bsearch
    have e1 : ((pads B buf + belowCount buf c.val : Nat) : Int) + 1 =
        ((pads B buf + belowCount buf c.val + 1 : Nat) : Int) := by push_cast; ring
    rw [e1, toU_nat _ (by omega), toU_nat _ (by omega), if_pos (by omega)]

/-- Witness for C17: the bucket of the byte s in mississippi followed by a zero byte. -/
theorem bucket_range_witness :
    suf_create B32 16 mississippi mississippi.length = .ok (some sd_mississippi) ∧
    ∃ f0 f1 : Nat, sd_mississippi.F.cell (115 : Byte).val = some (f0 : Int) ∧
      sd_mississippi.F.cell ((115 : Byte).val + 1) = some (f1 : Int) ∧
      (∀ i, f0 + 1 ≤ i → i ≤ f1 →
        ∃ p, p < mississippi.length ∧ sd_mississippi.I.cell i = some (p : Int) ∧
          mississippi[p]? = some 115) ∧
      (∀ p, p < mississippi.length → mississippi[p]? = some 115 →
        ∃ i, f0 + 1 ≤ i ∧ i ≤ f1 ∧ sd_mississippi.I.cell i = some (p : Int)) ∧
      (∀ i j, f0 + 1 ≤ i → i ≤ f1 → f0 + 1 ≤ j → j ≤ f1 →
        sd_mississippi.I.cell i = sd_mississippi.I.cell j → i = j) ∧
      (f0 + 1 > f1 ↔ (115 : Byte) ∉ mississippi) ∧
      ((115 : Byte) ∉ mississippi → ∀ (new : List Byte) (pn nl pos : Nat),
        suf_bsearch B32.M sd_mississippi.I mississippi mississippi.length new pn nl
          (toU B32.M ((f0 : Int) + 1)) (toU B32.M (f1 : Int)) pos = .ok (0, pos)) :=
  ⟨mississippi_ok, bucket_range B32 16 mississippi sd_mississippi (by decide) (by decide)
    mississippi_ok 115⟩

/-! ## suf_bsearch -/

theorem matchlen_go_max (old : List Byte) (po : Nat) (new : List Byte) (pn : Nat) :
    ∀ (max k r : Nat), matchlen_go old po new pn max k = .ok r → r < k + max →
      ∃ a b, old[po + r]? = some a ∧ new[pn + r]? = some b ∧ a ≠ b := by
  intro max
  induction max with
  | zero =>
    intro k r h hr
    simp [matchlen_go] at h
    omega
  | succ n ih =>
    intro k r h hr
    simp only [matchlen_go, bind_ok] at h
    obtain ⟨a, ha, b, hb, h⟩ := h
    by_cases hab : a ≠ b
    · simp [hab] at h
      subst h
      exact ⟨a, b, (rdB_ok ha).2, (rdB_ok hb).2, hab⟩
    · simp only [hab, if_false] at h
      exact ih (k + 1) r h (by omega)

theorem matchlen_max {old : List Byte} {po ol : Nat} {new : List Byte} {pn nl r : Nat}
    (h : matchlen old po ol new pn nl = .ok r) (h1 : r < ol) (h2 : r < nl) :
    ∃ a b, old[po + r]? = some a ∧ new[pn + r]? = some b ∧ a ≠ b := by
  unfold matchlen at h
  apply matchlen_go_max old po new pn _ 0 r h
  split <;> omega

theorem matchlen_pos {old : List Byte} {po ol : Nat} {new : List Byte} {pn nl r : Nat}
    (h : matchlen old po ol new pn nl = .ok r) (h1 : 0 < ol) (h2 : 0 < nl)
    (he : old[po]? = new[pn]?) : 0 < r := by
  by_contra hr
  have hr0 : r = 0 := by omega
  subst hr0
  obtain ⟨a, b, e1, e2, hab⟩ := matchlen_max h h1 h2
  rw [Nat.add_zero] at e1 e2
  rw [e1, e2] at he
  simp only [Option.some.injEq] at he
  exact hab he

theorem bsearch_go_range {M : Nat} (I : Arr Int) (old : List Byte) (oldlen : Nat)
    (new : List Byte) (pn nl : Nat) :
    ∀ (cnt st en st1 en1 : Nat), st ≤ en → en < M →
      bsearch_go M I old oldlen new pn nl cnt st en = .ok (st1, en1) →
      st ≤ st1 ∧ st1 ≤ en1 ∧ en1 ≤ en := by
  intro cnt
  induction cnt with
  | zero =>
    intro st en st1 en1 h1 h2 h
    simp only [bsearch_go] at h
    split at h
    · simp at h
    · simp only [Except.ok.injEq, Prod.mk.injEq] at h
      omega
  | succ n ih =>
    intro st en st1 en1 h1 h2 h
    simp only [bsearch_go] at h
    have hw : wsub M en st = en - st := wsub_eq h1 h2
    rw [hw] at h
    split at h
    · have hx : wadd M st ((en - st) / 2) = st + (en - st) / 2 := wadd_eq (by omega)
      rw [hx] at h
      simp only [bind_ok] at h
      obtain ⟨ix, _, po, _, c, _, h⟩ := h
      split at h
      · have := ih _ _ _ _ (by omega) h2 h
        omega
      · have := ih _ _ _ _ (by omega) (by omega) h
        omega
    · simp only [Except.ok.injEq, Prod.mk.injEq] at h
      omega

/-- What suf_bsearch returns over the bucket of the byte c = new[scan] of a built index. -/
theorem suf_bsearch_facts (B : Build) (fuel : Nat) (old : List Byte) (sd : suf_data)
    (hol : 2 * old.length < B.M) (h : suf_create B fuel old old.length = .ok (some sd))
    (new : List Byte) (scan nl : Nat) (c : Byte) (hc : new[scan]? = some c) (hnl : 0 < nl)
    (f0 f1 : Int) (hf0 : sd.F.rd c.val = .ok f0) (hf1 : sd.F.rd (c.val + 1) = .ok f1)
    (pos0 len pos : Nat)
    (hr : suf_bsearch B.M sd.I old old.length new scan nl
      (toU B.M (f0 + 1)) (toU B.M f1) pos0 = .ok (len, pos)) :
    (∀ i, i < len → old[pos + i]? = new[scan + i]? ∧ pos + i < old.length) ∧
    len ≤ nl ∧
    (0 < len ↔ c ∈ old) ∧
    (0 < len → pos + len = old.length ∨ len = nl ∨
      ∃ a b, old[pos + len]? = some a ∧ new[scan + len]? = some b ∧ a ≠ b) ∧
    (len = 0 → pos = pos0) := by
  have hM := B.M_cases
  have hb := IsM.big hM
  obtain ⟨a1, a2, a3, _⟩ := bucket_facts B fuel old sd (by omega) h c
  have hp := pads_pos B old
  have hp2 : pads B old ≤ 2 := by
    by_cases hbig : toS B.M old.length ≥ 0x1000000
    · rw [pads_large hbig]
    · rw [pads_small hbig]
      omega
  have hle := belowCount_le old (c.val + 1)
  have hsucc := belowCount_succ old c.val
  have hpos := byteCount_pos old c
  have e0 := (rd_get hf0).2.2
  have e1 := (rd_get hf1).2.2
  have t0 : ((c.val : Nat) : Int).toNat = c.val := by omega
  have t1 : (((c.val : Nat) : Int) + 1).toNat = c.val + 1 := by omega
  rw [t0, a1] at e0
  rw [t1, a2] at e1
  simp only [Option.some.injEq] at e0 e1
  have s0 : toU B.M (f0 + 1) = pads B old + belowCount old c.val + 1 := by
    rw [← e0]
    have : ((pads B old + belowCount old c.val : Nat) : Int) + 1 =
        ((pads B old + belowCount old c.val + 1 : Nat) : Int) := by push_cast; ring
    rw [this, toU_nat _ (by omega)]
  have s1 : toU B.M f1 = pads B old + belowCount old (c.val + 1) := by
    rw [← e1, toU_nat _ (by omega)]
  rw [s0, s1] at hr
  unfold suf_bsearch at hr
  split at hr
  · rename_i hgt
    simp only [Except.ok.injEq, Prod.mk.injEq] at hr
    obtain ⟨rfl, rfl⟩ := hr
    refine ⟨fun i hi => absurd hi (by omega), by omega, ?_, fun h0 => absurd h0 (by omega),
      fun _ => rfl⟩
    constructor
    · intro h0
      omega
    · intro hc2
      have := hpos.2 hc2
      omega
  · rename_i hgt
    simp only [bind_ok] at hr
    obtain ⟨⟨st1, en1⟩, hgo, ist, hist, pst, hpst, x, hx, ien, hien, pen, hpen, y, hy, hr⟩ := hr
    simp only [Except.ok.injEq, Prod.mk.injEq] at hr
    obtain ⟨r1, r2, r3⟩ := bsearch_go_range sd.I old old.length new scan nl _ _ _ _ _
      (by omega) (by omega) hgo
    -- the two final cells hold positions of the byte c
    have cellfact : ∀ (i : Nat) (v : Int) (pv r : Nat),
        pads B old + belowCount old c.val + 1 ≤ i → i ≤ pads B old + belowCount old (c.val + 1) →
        sd.I.rd i = .ok v → ptr v = .ok pv →
        matchlen old pv (wsub B.M old.length (toU B.M v)) new scan nl = .ok r →
        toU B.M v = pv ∧ pv < old.length ∧ 0 < r ∧ r ≤ nl ∧
        (∀ t, t < r → old[pv + t]? = new[scan + t]? ∧ pv + t < old.length) ∧
        (pv + r = old.length ∨ r = nl ∨
          ∃ a b, old[pv + r]? = some a ∧ new[scan + r]? = some b ∧ a ≠ b) := by
      intro i v pv r i1 i2 hv hpv hm
      obtain ⟨p, p1, p2, p3⟩ := a3 i i1 i2
      have hv2 := (rd_get hv).2.2
      have ti : ((i : Nat) : Int).toNat = i := by omega
      rw [ti, p2] at hv2
      simp only [Option.some.injEq] at hv2
      subst hv2
      unfold ptr at hpv
      rw [if_neg (by omega)] at hpv
      simp only [Except.ok.injEq] at hpv
      have tp : ((p : Nat) : Int).toNat = p := by omega
      rw [tp] at hpv
      subst hpv
      rw [toU_nat _ (by omega), wsub_eq (by omega) (by omega)] at hm
      have m := matchlen_ok hm
      refine ⟨toU_nat _ (by omega), p1, ?_, m.2.1, m.2.2.2, ?_⟩
      · exact matchlen_pos hm (by omega) hnl (by rw [p3, hc])
      · by_cases q1 : r < old.length - p
        · by_cases q2 : r < nl
          · exact Or.inr (Or.inr (matchlen_max hm q1 q2))
          · exact Or.inr (Or.inl (by omega))
        · have := m.1
          exact Or.inl (by omega)
    have cx := cellfact st1 ist pst x (by omega) (by omega) hist hpst hx
    have cy := cellfact en1 ien pen y (by omega) (by omega) hien hpen hy
    have hcin : c ∈ old := by
      apply hpos.1
      omega
    by_cases hxy : x > y
    · rw [if_pos hxy, if_pos hxy] at hr
      obtain ⟨rfl, rfl⟩ := hr
      rw [cx.1]
      exact ⟨cx.2.2.2.2.1, cx.2.2.2.1, ⟨fun _ => hcin, fun _ => cx.2.2.1⟩, fun _ => cx.2.2.2.2.2,
        fun h0 => absurd cx.2.2.1 (by omega)⟩
    · rw [if_neg hxy, if_neg hxy] at hr
      obtain ⟨rfl, rfl⟩ := hr
      rw [cy.1]
      exact ⟨cy.2.2.2.2.1, cy.2.2.2.1, ⟨fun _ => hcin, fun _ => cy.2.2.1⟩, fun _ => cy.2.2.2.2.2,
        fun h0 => absurd cy.2.2.1 (by omega)⟩

set_option maxRecDepth 1000000 in
/-- Evaluation of the build of aaa with the restricted bucket sort. -/
theorem aaa_at_eval : sufView 5 (suf_create_at aaa_keys B32 16 aaa 3) =
    some ([some 4, some 3, some 2, some 1, some 0],
      (List.range 257).map (fun c => some (bucketF B32 aaa c))) := by
  decide!

theorem aaa_ok : suf_create B32 16 aaa 3 = .ok (some sd_aaa) := by
  rw [← suf_create_at_eq aaa_keys]
  exact (sufView_ok aaa_at_eval).1

theorem sf_loop_succ (M : Nat) (sd : suf_data) (old : List Byte) (oldlen : Nat) (new : List Byte)
    (newlen lo cnt : Nat) (st : SState) :
    sf_loop M sd old oldlen new newlen lo (cnt + 1) st =
      if st.scan < newlen then
        (sf_step M sd old oldlen new newlen lo st).bind
          (fun r => if r.2 = true then .ok r.1 else sf_loop M sd old oldlen new newlen lo cnt r.1)
      else .ok st := by
  rw [sf_loop]
  split
  · unfold sf_step sf_probe
    cases h1 : rdB new st.scan with
    | error e => rfl
    | ok c =>
      cases h2 : sd.F.rd c.val with
      | error e => simp [bind, Except.bind, h2]
      | ok f0 =>
        cases h3 : sd.F.rd (c.val + 1) with
        | error e => simp [bind, Except.bind, h2, h3]
        | ok f1 =>
          cases h4 : suf_bsearch M sd.I old oldlen new st.scan (wsub M newlen st.scan)
              (toU M (f0 + 1)) (toU M f1) st.pos with
          | error e => simp [bind, Except.bind, h2, h3, h4]
          | ok r =>
            obtain ⟨len, pos⟩ := r
            cases h5 : score_count M old oldlen new lo (wadd M st.scan len - st.scsc) st.scsc
                st.oldscore with
            | error e => simp [bind, Except.bind, h2, h3, h4, h5]
            | ok os =>
              simp only [bind, Except.bind, h2, h3, h4, h5]
              by_cases c1 : len ≠ 0 ∧ len = os
              · rw [if_pos c1, if_pos c1]
                simp
              · rw [if_neg c1, if_neg c1]
                by_cases c2 : len > wadd M os 32
                · rw [if_pos c2, if_pos c2]
                  simp
                · rw [if_neg c2, if_neg c2]
                  cases h6 : score_hit M old oldlen new lo st.scan with
                  | error e => rfl
                  | ok hit => simp
  · rfl

theorem score_hit_eq {M : Nat} {old new : List Byte} {lo k : Nat} {b : Bool}
    (h : score_hit M old old.length new lo k = .ok b) : b = hitAt M old old.length new lo k := by
  unfold score_hit at h
  unfold hitAt
  split at h
  · rename_i hc
    simp only [bind_ok] at h
    obtain ⟨x, hx, y, hy, h⟩ := h
    simp only [Except.ok.injEq] at h
    have hx2 := rdB_ok hx
    have hy2 := rdB_ok hy
    rw [List.getD_eq_getElem?_getD, List.getD_eq_getElem?_getD, hx2.2, hy2.2]
    simp only [hc, decide_True, Bool.true_and, Option.getD_some]
    exact h.symm
  · rename_i hc
    simp only [Except.ok.injEq] at h
    simp [hc, ← h]

theorem hitCount_self (M : Nat) (old : List Byte) (ol : Nat) (new : List Byte) (lo a : Nat) :
    hitCount M old ol new lo a a = 0 := by
  simp [hitCount]

theorem hitCount_succ (M : Nat) (old : List Byte) (ol : Nat) (new : List Byte) (lo : Nat)
    {a b : Nat} (h : a ≤ b) :
    hitCount M old ol new lo a (b + 1) =
      hitCount M old ol new lo a b + if hitAt M old ol new lo b = true then 1 else 0 := by
  unfold hitCount
  have e : b + 1 - a = (b - a) + 1 := by omega
  rw [e, List.range_succ, List.countP_append, List.countP_singleton]
  have e2 : a + (b - a) = b := by omega
  rw [e2]

theorem hitCount_split (M : Nat) (old : List Byte) (ol : Nat) (new : List Byte) (lo : Nat)
    {a b : Nat} (h : a ≤ b) : ∀ c, b ≤ c →
    hitCount M old ol new lo a c = hitCount M old ol new lo a b + hitCount M old ol new lo b c := by
  intro c hc
  induction hc with
  | refl => rw [hitCount_self, Nat.add_zero]
  | step hbc ih =>
    rename_i m
    rw [hitCount_succ M old ol new lo (le_trans h hbc), hitCount_succ M old ol new lo hbc, ih]
    omega

theorem hitCount_one (M : Nat) (old : List Byte) (ol : Nat) (new : List Byte) (lo a : Nat) :
    hitCount M old ol new lo a (a + 1) = if hitAt M old ol new lo a = true then 1 else 0 := by
  rw [hitCount_succ M old ol new lo (le_refl a), hitCount_self, Nat.zero_add]

theorem hitCount_le (M : Nat) (old : List Byte) (ol : Nat) (new : List Byte) (lo a b : Nat) :
    hitCount M old ol new lo a b ≤ b - a := by
  unfold hitCount
  have := List.countP_le_length (fun i => hitAt M old ol new lo (a + i)) (l := List.range (b - a))
  rwa [List.length_range] at this

/-- The scoring loop adds the hits of the positions it visits. -/
theorem score_count_eq {M : Nat} (old new : List Byte) (lo : Nat) :
    ∀ (cnt s os r : Nat), s + cnt < M → os + cnt < M →
      score_count M old old.length new lo cnt s os = .ok r →
      r = os + hitCount M old old.length new lo s (s + cnt) := by
  intro cnt
  induction cnt with
  | zero =>
    intro s os r _ _ h
    simp only [score_count, Except.ok.injEq] at h
    rw [← h, Nat.add_zero, hitCount_self, Nat.add_zero]
  | succ n ih =>
    intro s os r h1 h2 h
    simp only [score_count, bind_ok] at h
    obtain ⟨hit, hh, h⟩ := h
    have e := score_hit_eq hh
    rw [wadd_eq (by omega)] at h
    have e2 : s + 1 + n = s + (n + 1) := by omega
    have hs := hitCount_split M old old.length new lo (show s ≤ s + 1 by omega) (s + (n + 1))
      (by omega)
    rw [hitCount_one, ← e] at hs
    cases hit
    · simp only [Bool.false_eq_true, if_false] at h hs
      have h3 := ih (s + 1) os r (by omega) (by omega) h
      rw [e2] at h3
      omega
    · simp only [if_true] at h hs
      rw [wadd_eq (by omega)] at h
      have h3 := ih (s + 1) (os + 1) r (by omega) (by omega) h
      rw [e2] at h3
      omega

theorem hitAt_mem {M : Nat} {old new : List Byte} {lo k : Nat} {c : Byte}
    (hc : new[k]? = some c) (h : hitAt M old old.length new lo k = true) : c ∈ old := by
  unfold hitAt at h
  simp only [Bool.and_eq_true, decide_eq_true_eq, beq_iff_eq] at h
  obtain ⟨h1, h2⟩ := h
  rw [List.getD_eq_getElem?_getD, List.getD_eq_getElem?_getD, hc,
    List.getElem?_eq_getElem h1] at h2
  simp only [Option.getD_some] at h2
  rw [← h2]
  exact List.getElem_mem h1

theorem SInv.start (M : Nat) (old new : List Byte) (lo scan0 : Nat) (h : scan0 ≤ new.length) :
    SInv M old new lo scan0 (sf_init scan0) :=
  ⟨le_refl _, h, h, Or.inl ⟨le_refl _, by simp [sf_init, hitCount_self]⟩⟩

/-- What a round of suf_findnext has computed when it reaches its tests. -/
theorem sf_probe_ok (B : Build) (fuel : Nat) (old : List Byte) (sd : suf_data)
    (hol : 2 * old.length < B.M) (hsd : suf_create B fuel old old.length = .ok (some sd))
    (new : List Byte) (hnl : 2 * new.length < B.M) (lo scan0 : Nat) (st : SState)
    (hinv : SInv B.M old new lo scan0 st) (hlt : st.scan < new.length)
    (len pos os scsc : Nat)
    (hp : sf_probe B.M sd old old.length new new.length lo st = .ok (len, pos, os, scsc)) :
    (∃ (c : Byte) (f0 f1 : Int), new[st.scan]? = some c ∧ sd.F.rd c.val = .ok f0 ∧
      sd.F.rd (c.val + 1) = .ok f1 ∧
      suf_bsearch B.M sd.I old old.length new st.scan (new.length - st.scan)
        (toU B.M (f0 + 1)) (toU B.M f1) st.pos = .ok (len, pos)) ∧
    (∀ i, i < len → old[pos + i]? = new[st.scan + i]? ∧ pos + i < old.length) ∧
    st.scan + len ≤ new.length ∧
    (st.scan + len ≤ scsc ∧ st.scsc ≤ scsc ∧ scsc ≤ new.length ∧
      (scsc = st.scsc ∨ scsc = st.scan + len)) ∧
    os = hitCount B.M old old.length new lo st.scan scsc ∧
    (hitAt B.M old old.length new lo st.scan = true → 0 < len) ∧
    (len = 0 → pos = st.pos) := by
  unfold sf_probe at hp
  simp only [bind_ok] at hp
  obtain ⟨c, hc, f0, hf0, f1, hf1, ⟨len1, pos1⟩, hb, os1, hos, hp⟩ := hp
  simp only [Except.ok.injEq, Prod.mk.injEq] at hp
  obtain ⟨rfl, rfl, rfl, hsc⟩ := hp
  have hc2 := (rdB_ok hc).2
  have hw : wsub B.M new.length st.scan = new.length - st.scan :=
    wsub_eq (by omega) (by omega)
  rw [hw] at hb
  obtain ⟨g1, g2, g3, _, g5⟩ := suf_bsearch_facts B fuel old sd hol hsd new st.scan
    (new.length - st.scan) c hc2 (by omega) f0 f1 hf0 hf1 st.pos len1 pos1 hb
  have hlim : wadd B.M st.scan len1 = st.scan + len1 := wadd_eq (by omega)
  rw [hlim] at hos hsc
  have i3 := hinv.sle
  have hcnt := score_count_eq old new lo (st.scan + len1 - st.scsc) st.scsc st.oldscore os1
    (by omega) (by
      have : st.oldscore ≤ new.length := by
        rcases hinv.score with ⟨_, e⟩ | ⟨_, e, _⟩
        · rw [e]
          have := hitCount_le B.M old old.length new lo st.scan st.scsc
          omega
        · omega
      omega) hos
  refine ⟨⟨c, f0, f1, hc2, hf0, hf1, hb⟩, g1, by omega, ?_, ?_, ?_, g5⟩
  · rw [← hsc]
    split <;> omega
  · rcases hinv.score with ⟨a1, a2⟩ | ⟨a1, a2, a3⟩
    · by_cases hlt2 : st.scsc < st.scan + len1
      · rw [if_pos hlt2] at hsc
        rw [← hsc, hcnt, a2]
        have e : st.scsc + (st.scan + len1 - st.scsc) = st.scan + len1 := by omega
        rw [e]
        exact (hitCount_split B.M old old.length new lo a1 _ (by omega)).symm
      · rw [if_neg hlt2] at hsc
        rw [← hsc, hcnt, a2]
        have e : st.scan + len1 - st.scsc = 0 := by omega
        rw [e, Nat.add_zero, hitCount_self, Nat.add_zero]
    · rw [if_pos (by omega)] at hsc
      rw [← hsc, hcnt, a2, Nat.zero_add]
      have e : st.scsc + (st.scan + len1 - st.scsc) = st.scan + len1 := by omega
      rw [e, hitCount_split B.M old old.length new lo (show st.scsc ≤ st.scsc + 1 by omega)
        (st.scan + len1) (by omega), hitCount_one, a3, a1]
      simp
  · intro hh
    exact g3.2 (hitAt_mem hc2 hh)

/-- A round of suf_findnext keeps the invariant, or leaves the loop with a match of more
than 32 bytes. -/
theorem sf_step_ok (B : Build) (fuel : Nat) (old : List Byte) (sd : suf_data)
    (hol : 2 * old.length < B.M) (hsd : suf_create B fuel old old.length = .ok (some sd))
    (new : List Byte) (hnl : 2 * new.length < B.M) (lo scan0 : Nat) (st st1 : SState)
    (brk : Bool) (hinv : SInv B.M old new lo scan0 st) (hlt : st.scan < new.length)
    (h : sf_step B.M sd old old.length new new.length lo st = .ok (st1, brk)) :
    ∃ len pos os scsc,
      sf_probe B.M sd old old.length new new.length lo st = .ok (len, pos, os, scsc) ∧
      st1.len = len ∧ st1.pos = pos ∧
      (brk = false → SInv B.M old new lo scan0 st1 ∧
        (st1.scan = st.scan + len ∨ st1.scan = st.scan + 1)) ∧
      (brk = true → st1.scan = st.scan ∧ os + 32 < len) := by
  unfold sf_step at h
  simp only [bind_ok] at h
  obtain ⟨⟨len, pos, os, scsc⟩, hp, h⟩ := h
  obtain ⟨_, p2, p3, p4, p5, p6, _⟩ := sf_probe_ok B fuel old sd hol hsd new hnl lo scan0 st hinv
    hlt len pos os scsc hp
  refine ⟨len, pos, os, scsc, hp, ?_⟩
  have i1 := hinv.ge
  have hb := IsM.big B.M_cases
  have hos : os ≤ new.length := by
    rw [p5]
    have := hitCount_le B.M old old.length new lo st.scan scsc
    omega
  simp only at h
  split at h
  · rename_i hacc
    simp only [Except.ok.injEq, Prod.mk.injEq] at h
    obtain ⟨rfl, rfl⟩ := h
    have hlim : wadd B.M st.scan len = st.scan + len := wadd_eq (by omega)
    simp only [hlim]
    refine ⟨trivial, trivial, fun _ => ⟨⟨by simp; omega, by simpa using p3, by simpa using p3,
      Or.inl ⟨le_refl _, by simp [hitCount_self]⟩⟩, by simp⟩, fun hc => absurd hc (by simp)⟩
  · split at h
    · rename_i hbrk
      simp only [Except.ok.injEq, Prod.mk.injEq] at h
      obtain ⟨rfl, rfl⟩ := h
      rw [wadd_eq (by omega)] at hbrk
      exact ⟨rfl, rfl, fun hc => absurd hc (by simp), fun _ => ⟨rfl, hbrk⟩⟩
    · simp only [bind_ok] at h
      obtain ⟨hit, hh, h⟩ := h
      simp only [Except.ok.injEq, Prod.mk.injEq] at h
      obtain ⟨rfl, rfl⟩ := h
      have e := score_hit_eq hh
      have h1 : wadd B.M st.scan 1 = st.scan + 1 := wadd_eq (by omega)
      simp only [h1]
      refine ⟨trivial, trivial, fun _ => ⟨⟨by simp; omega, by simp; omega, by simpa using p4.2.2.1,
        ?_⟩, by simp⟩, fun hc => absurd hc (by simp)⟩
      simp only
      by_cases hw : st.scan < scsc
      · left
        refine ⟨by omega, ?_⟩
        have hs := hitCount_split B.M old old.length new lo (show st.scan ≤ st.scan + 1 by omega)
          scsc (by omega)
        rw [hitCount_one, ← e, ← p5] at hs
        cases hit
        · simp only [Bool.false_eq_true, if_false] at hs ⊢
          omega
        · simp only [if_true] at hs ⊢
          rw [wsub_eq (by omega) (by omega)]
          omega
      · right
        have hl0 : len = 0 := by omega
        have hsc : scsc = st.scan := by omega
        have hnh : hitAt B.M old old.length new lo st.scan = false := by
          by_contra hc
          have := p6 (by simpa using hc)
          omega
        rw [← e] at hnh
        subst hnh
        rw [hsc, hitCount_self] at p5
        simp only [Bool.false_eq_true, if_false]
        exact ⟨by omega, p5, by rw [hsc, ← e]⟩

theorem sf_iter_inv (B : Build) (fuel : Nat) (old : List Byte) (sd : suf_data)
    (hol : 2 * old.length < B.M) (hsd : suf_create B fuel old old.length = .ok (some sd))
    (new : List Byte) (hnl : 2 * new.length < B.M) (lo scan0 : Nat) :
    ∀ (k : Nat) (st0 st : SState), SInv B.M old new lo scan0 st0 →
      sf_iter B.M sd old old.length new new.length lo k st0 = .ok (some st) →
      SInv B.M old new lo scan0 st := by
  intro k
  induction k with
  | zero =>
    intro st0 st hinv h
    simp only [sf_iter, Except.ok.injEq, Option.some.injEq] at h
    rw [← h]
    exact hinv
  | succ n ih =>
    intro st0 st hinv h
    simp only [sf_iter] at h
    split at h
    · rename_i hlt
      simp only [bind_ok] at h
      obtain ⟨⟨st1, brk⟩, hs, h⟩ := h
      simp only at h
      cases brk
      · simp only [Bool.false_eq_true, if_false] at h
        obtain ⟨_, _, _, _, _, _, _, q, _⟩ := sf_step_ok B fuel old sd hol hsd new hnl lo scan0 st0
          st1 false hinv hlt hs
        exact ih st1 st (q rfl).1 h
      · simp at h
    · simp at h

set_option maxRecDepth 1000000 in
/-- Evaluation of the build of baaa with the restricted bucket sort. -/
theorem baaa_at_eval : sufView 6 (suf_create_at baaa_keys B32 16 baaa 4) =
    some ([some 5, some 4, some 3, some 2, some 1, some 0],
      (List.range 257).map (fun c => some (bucketF B32 baaa c))) := by
  decide!

theorem baaa_ok : suf_create B32 16 baaa 4 = .ok (some sd_baaa) := by
  rw [← suf_create_at_eq baaa_keys]
  exact (sufView_ok baaa_at_eval).1

set_option maxRecDepth 1000000 in
theorem baaa_iter :
    sf_iter B32.M sd_baaa baaa baaa.length baaa baaa.length 4294967295 1 (sf_init 0) =
      .ok (some ⟨1, 4, 2, 4, 0⟩) := by
  decide!

set_option maxRecDepth 1000000 in
theorem baaa_probe :
    sf_probe B32.M sd_baaa baaa baaa.length baaa baaa.length 4294967295 ⟨1, 4, 2, 4, 0⟩ =
      .ok (2, 2, 2, 4) := by
  decide!

/-- C14 (counterexample): old = new = baaa, lastoffset = -1 (as a 32-bit bsuint), scan = 0.
The first round finds len = 4 at scan = 0 and scores the positions 0..3; the second round,
at scan = 1, finds only len = 2, and tests with oldscore = 2, the hits of the positions 1..3,
while the positions 1..2 of the candidate hold one hit. -/
theorem oldscore_window_as_stated_fails :
    suf_create B32 16 baaa baaa.length = .ok (some sd_baaa) ∧
    sf_iter B32.M sd_baaa baaa baaa.length baaa baaa.length 4294967295 1 (sf_init 0) =
      .ok (some ⟨1, 4, 2, 4, 0⟩) ∧
    sf_probe B32.M sd_baaa baaa baaa.length baaa baaa.length 4294967295 ⟨1, 4, 2, 4, 0⟩ =
      .ok (2, 2, 2, 4) ∧
    hitCount B32.M baaa baaa.length baaa 4294967295 1 (1 + 2) = 1 :=
  ⟨baaa_ok, baaa_iter, baaa_probe, by decide⟩

/-- C14 (as amended): over the index built by suf_create, every time suf_findnext reaches its
tests in a round at scan, oldscore is the number of hits (s + lastoffset < oldlen in
wrap-around arithmetic and old[s + lastoffset] = new[s]) among the positions scan <= s < scsc,
where scsc is the end of the region scored so far: scsc >= scan + len, and scsc is the value
of the round before when that reaches further than scan + len. A hit at scan is counted, so
the decrement that follows never goes below zero. -/
theorem oldscore_window (B : Build) (fuel : Nat) (old : List Byte) (sd : suf_data)
    (hol : 2 * old.length < B.M) (hsd : suf_create B fuel old old.length = .ok (some sd))
    (new : List Byte) (hnl : 2 * new.length < B.M) (lo scan0 : Nat) (hs : scan0 ≤ new.length)
    (k : Nat) (st : SState)
    (hit : sf_iter B.M sd old old.length new new.length lo k (sf_init scan0) = .ok (some st))
    (hlt : st.scan < new.length) (len pos os scsc : Nat)
    (hp : sf_probe B.M sd old old.length new new.length lo st = .ok (len, pos, os, scsc)) :
    os = hitCount B.M old old.length new lo st.scan scsc ∧
    st.scan + len ≤ scsc ∧ scsc ≤ new.length ∧
    (scsc = st.scan + len ∨ (scsc = st.scsc ∧ st.scan + len ≤ st.scsc)) ∧
    (hitAt B.M old old.length new lo st.scan = true → 0 < os) := by
  have hinv := sf_iter_inv B fuel old sd hol hsd new hnl lo scan0 k _ st
    (SInv.start B.M old new lo scan0 hs) hit
  obtain ⟨_, _, p3, p4, p5, p6, _⟩ := sf_probe_ok B fuel old sd hol hsd new hnl lo scan0 st hinv
    hlt len pos os scsc hp
  refine ⟨p5, p4.1, p4.2.2.1, ?_, ?_⟩
  · rcases p4.2.2.2 with e | e
    · exact Or.inr ⟨e, by omega⟩
    · exact Or.inl e
  · intro hh
    have hl := p6 hh
    have hsp := hitCount_split B.M old old.length new lo (show st.scan ≤ st.scan + 1 by omega)
      scsc (by omega)
    rw [hitCount_one, hh] at hsp
    simp only [if_true] at hsp
    omega

/-- Witness for C14: the second round of suf_findnext on old = new = baaa with
lastoffset = -1. -/
theorem oldscore_window_witness :
    suf_create B32 16 baaa baaa.length = .ok (some sd_baaa) ∧
    sf_iter B32.M sd_baaa baaa baaa.length baaa baaa.length 4294967295 1 (sf_init 0) =
      .ok (some ⟨1, 4, 2, 4, 0⟩) ∧
    sf_probe B32.M sd_baaa baaa baaa.length baaa baaa.length 4294967295 ⟨1, 4, 2, 4, 0⟩ =
      .ok (2, 2, 2, 4) ∧
    (2 = hitCount B32.M baaa baaa.length baaa 4294967295 (⟨1, 4, 2, 4, 0⟩ : SState).scan 4 ∧
    (⟨1, 4, 2, 4, 0⟩ : SState).scan + 2 ≤ 4 ∧ 4 ≤ baaa.length ∧
    (4 = (⟨1, 4, 2, 4, 0⟩ : SState).scan + 2 ∨
      (4 = (⟨1, 4, 2, 4, 0⟩ : SState).scsc ∧
        (⟨1, 4, 2, 4, 0⟩ : SState).scan + 2 ≤ (⟨1, 4, 2, 4, 0⟩ : SState).scsc)) ∧
    (hitAt B32.M baaa baaa.length baaa 4294967295 (⟨1, 4, 2, 4, 0⟩ : SState).scan = true →
      0 < 2)) :=
  ⟨baaa_ok, baaa_iter, baaa_probe,
    oldscore_window B32 16 baaa sd_baaa (by decide) baaa_ok baaa (by decide) 4294967295 0
      (by decide) 1 ⟨1, 4, 2, 4, 0⟩ baaa_iter (by decide) 2 2 2 4 baaa_probe⟩

/-- The loop of suf_findnext ends on a match of more than 32 bytes or at the end of new,
with the values of its last search. -/
theorem sf_loop_end (B : Build) (fuel : Nat) (old : List Byte) (sd : suf_data)
    (hol : 2 * old.length < B.M) (hsd : suf_create B fuel old old.length = .ok (some sd))
    (new : List Byte) (hnl : 2 * new.length < B.M) (lo scan0 : Nat) :
    ∀ (cnt : Nat) (st stf : SState), SInv B.M old new lo scan0 st →
      sf_loop B.M sd old old.length new new.length lo cnt st = .ok stf →
      scan0 ≤ stf.scan ∧ stf.scan ≤ new.length ∧
      (stf.scan < new.length → 32 < stf.len ∧ stf.scan + stf.len ≤ new.length ∧
        ∀ i, i < stf.len → old[stf.pos + i]? = new[stf.scan + i]? ∧ stf.pos + i < old.length) ∧
      (stf.scan = new.length → stf = st ∨ ∃ k sp os scsc,
        sf_iter B.M sd old old.length new new.length lo k st = .ok (some sp) ∧
        sp.scan < new.length ∧
        sf_probe B.M sd old old.length new new.length lo sp = .ok (stf.len, stf.pos, os, scsc) ∧
        (sp.scan + stf.len = new.length ∨ sp.scan + 1 = new.length)) := by
  intro cnt
  induction cnt with
  | zero =>
    intro st stf hinv h
    simp only [sf_loop] at h
    split at h
    · simp at h
    · simp only [Except.ok.injEq] at h
      subst h
      have := hinv.le
      exact ⟨hinv.ge, hinv.le, fun hc => absurd hc (by omega), fun _ => Or.inl rfl⟩
  | succ n ih =>
    intro st stf hinv h
    rw [sf_loop_succ] at h
    split at h
    · rename_i hlt
      cases hs : sf_step B.M sd old old.length new new.length lo st with
      | error e =>
        rw [hs] at h
        simp [Except.bind] at h
      | ok r =>
        obtain ⟨st1, brk⟩ := r
        rw [hs] at h
        simp only [Except.bind] at h
        obtain ⟨len, pos, os, scsc, hp, e1, e2, q1, q2⟩ := sf_step_ok B fuel old sd hol hsd new hnl
          lo scan0 st st1 brk hinv hlt hs
        obtain ⟨_, p2, p3, _, _, _, _⟩ := sf_probe_ok B fuel old sd hol hsd new hnl lo scan0 st
          hinv hlt len pos os scsc hp
        cases brk
        · simp only [Bool.false_eq_true, if_false] at h
          obtain ⟨inv1, prog⟩ := q1 rfl
          obtain ⟨r1, r2, r3, r4⟩ := ih st1 stf inv1 h
          refine ⟨r1, r2, r3, ?_⟩
          intro he
          right
          have hit1 : ∀ k sp, sf_iter B.M sd old old.length new new.length lo k st1 = .ok (some sp) →
              sf_iter B.M sd old old.length new new.length lo (k + 1) st = .ok (some sp) := by
            intro k sp hk
            simp only [sf_iter, if_pos hlt, hs, bind, Except.bind]
            simpa using hk
          rcases r4 he with e | ⟨k, sp, os2, scsc2, a1, a2, a3, a4⟩
          · subst e
            refine ⟨0, st, os, scsc, rfl, hlt, ?_, ?_⟩
            · rw [e1, e2]
              exact hp
            · rw [e1]
              omega
          · exact ⟨k + 1, sp, os2, scsc2, hit1 k sp a1, a2, a3, a4⟩
        · simp only [if_true, Except.ok.injEq] at h
          subst h
          obtain ⟨b1, b2⟩ := q2 rfl
          have := hinv.ge
          refine ⟨by omega, by omega, ?_, fun hc => absurd hc (by omega)⟩
          intro _
          rw [e1, e2, b1]
          exact ⟨by omega, p3, p2⟩
    · simp only [Except.ok.injEq] at h
      subst h
      exact ⟨hinv.ge, hinv.le, fun hc => absurd hc (by assumption), fun _ => Or.inl rfl⟩

set_option maxRecDepth 1000000 in
theorem aaa_findnext : suf_findnext B32.M sd_aaa aaa aaa.length aaa aaa.length 3 0 = .ok (3, 1, 1) := by
  decide!

/-- C15 (failing input): old = new = aaa, lastoffset = 3 (no position is a hit), scan = 0.
No round finds len > oldscore + 32 or len = oldscore; scan reaches newlen = 3 and
suf_findnext returns pos = 1 and len = 1, the result of its last search, not 0 and 0. -/
theorem end_of_input_as_stated_fails :
    suf_create B32 16 aaa aaa.length = .ok (some sd_aaa) ∧
    suf_findnext B32.M sd_aaa aaa aaa.length aaa aaa.length 3 0 = .ok (3, 1, 1) :=
  ⟨aaa_ok, aaa_findnext⟩

/-- What suf_findnext returns at the end of the input: over the index built by suf_create, a
call with scan <= newlen that returns scan = newlen either was entered with scan = newlen and
returns pos = 0 and len = 0, or returns the pos and len of its last search: there is a round,
at a position s < newlen, whose suf_bsearch gave (pos, len), with s + len = newlen or
s + 1 = newlen. -/
theorem sf_end_of_input (B : Build) (fuel : Nat) (old : List Byte) (sd : suf_data)
    (hol : 2 * old.length < B.M) (hsd : suf_create B fuel old old.length = .ok (some sd))
    (new : List Byte) (hnl : 2 * new.length < B.M) (lo scan0 : Nat) (hs : scan0 ≤ new.length)
    (r : Nat × Nat × Nat)
    (h : suf_findnext B.M sd old old.length new new.length lo scan0 = .ok r)
    (he : r.1 = new.length) :
    (scan0 = new.length ∧ r.2.1 = 0 ∧ r.2.2 = 0) ∨
    ∃ k sp os scsc,
      sf_iter B.M sd old old.length new new.length lo k (sf_init scan0) = .ok (some sp) ∧
      sp.scan < new.length ∧
      sf_probe B.M sd old old.length new new.length lo sp = .ok (r.2.2, r.2.1, os, scsc) ∧
      (sp.scan + r.2.2 = new.length ∨ sp.scan + 1 = new.length) := by
  unfold suf_findnext at h
  simp only [bind_ok] at h
  obtain ⟨stf, hl, h⟩ := h
  simp only [Except.ok.injEq] at h
  subst h
  obtain ⟨_, _, _, r4⟩ := sf_loop_end B fuel old sd hol hsd new hnl lo scan0 _ (sf_init scan0) stf
    (SInv.start B.M old new lo scan0 hs) hl
  rcases r4 he with e | e
  · left
    subst e
    exact ⟨he, rfl, rfl⟩
  · exact Or.inr e

/-- The end of the input for old = new = aaa with lastoffset = 3. -/
theorem sf_end_of_input_aaa :
    suf_create B32 16 aaa aaa.length = .ok (some sd_aaa) ∧
    suf_findnext B32.M sd_aaa aaa aaa.length aaa aaa.length 3 0 = .ok (3, 1, 1) ∧
    (((0 : Nat) = aaa.length ∧ (1 : Nat) = 0 ∧ (1 : Nat) = 0) ∨
    ∃ k sp os scsc,
      sf_iter B32.M sd_aaa aaa aaa.length aaa aaa.length 3 k (sf_init 0) = .ok (some sp) ∧
      sp.scan < aaa.length ∧
      sf_probe B32.M sd_aaa aaa aaa.length aaa aaa.length 3 sp = .ok (1, 1, os, scsc) ∧
      (sp.scan + 1 = aaa.length ∨ sp.scan + 1 = aaa.length)) :=
  ⟨aaa_ok, aaa_findnext,
    sf_end_of_input B32 16 aaa sd_aaa (by decide) aaa_ok aaa (by decide) 3 0 (by decide)
      (3, 1, 1) aaa_findnext rfl⟩

/-! ## the matches of hash_findnext are genuine -/

theorem memcmp_go_zero (a b : List Byte) :
    ∀ (n pa pb : Nat), memcmp_go a b n pa pb = 0 →
      ∀ t, t < n → a.getD (pa + t) 0 = b.getD (pb + t) 0 := by
  intro n
  induction n with
  | zero =>
    intro pa pb _ t ht
    omega
  | succ m ih =>
    intro pa pb h t ht
    simp only [memcmp_go] at h
    split at h
    · simp at h
    · split at h
      · simp at h
      · rename_i h1 h2
        cases t with
        | zero =>
          simp only [Nat.add_zero]
          exact le_antisymm (not_lt.1 h2) (not_lt.1 h1)
        | succ u =>
          have := ih (pa + 1) (pb + 1) h u (by omega)
          have e1 : pa + (u + 1) = pa + 1 + u := by omega
          have e2 : pb + (u + 1) = pb + 1 + u := by omega
          rw [e1, e2]
          exact this

theorem memcmp_zero {a b : List Byte} {pa pb n : Nat} {c : Int} (h : memcmp a pa b pb n = .ok c)
    (hc : ¬ c ≠ 0) : Genuine a b pb pa n := by
  have hb := memcmp_ok h
  unfold memcmp at h
  rw [if_pos hb] at h
  simp only [Except.ok.injEq] at h
  have hz : memcmp_go a b n pa pb = 0 := by
    rw [h]
    simpa using hc
  intro t ht
  have := memcmp_go_zero a b n pa pb hz t ht
  rw [List.getD_eq_getElem?_getD, List.getD_eq_getElem?_getD,
    List.getElem?_eq_getElem (show pa + t < a.length by omega),
    List.getElem?_eq_getElem (show pb + t < b.length by omega)] at this
  simp only [Option.getD_some] at this
  rw [List.getElem?_eq_getElem (show pa + t < a.length by omega),
    List.getElem?_eq_getElem (show pb + t < b.length by omega), this]
  exact ⟨rfl, by omega⟩

theorem Genuine.extend {old new : List Byte} {scan pos n m : Nat}
    (h1 : Genuine old new scan pos n) (h2 : Genuine old new (scan + n) (pos + n) m) :
    Genuine old new scan pos (n + m) := by
  intro t ht
  by_cases h : t < n
  · exact h1 t h
  · have := h2 (t - n) (by omega)
    have e1 : pos + n + (t - n) = pos + t := by omega
    have e2 : scan + n + (t - n) = scan + t := by omega
    rw [e1, e2] at this
    exact this

theorem hf_leftext_gen {M : Nat} (hM : IsM M) (old new : List Byte) (hnl : 2 * new.length < M) :
    ∀ (i : Nat) (st st1 : HState), st.scan + st.len ≤ new.length →
      Genuine old new st.scan st.pos st.len →
      hf_leftext M old new i st = .ok st1 →
      Genuine old new st1.scan st1.pos st1.len ∧ st.len ≤ st1.len := by
  intro i
  induction i with
  | zero =>
    intro st st1 _ hg h
    simp [hf_leftext] at h
    subst h
    exact ⟨hg, le_refl _⟩
  | succ n ih =>
    intro st st1 hsl hg h
    unfold hf_leftext at h
    by_cases hc : st.pos ≠ 0 ∧ st.scan ≠ 0
    · rw [if_pos hc] at h
      simp only [bind_ok] at h
      obtain ⟨a, ha, b, hb, h⟩ := h
      by_cases hab : a = b
      · rw [if_pos hab] at h
        have hw : wadd M st.len 1 = st.len + 1 := wadd_eq (by omega)
        rw [hw] at h
        have ha2 := rdB_ok ha
        have hb2 := rdB_ok hb
        have := ih _ st1 (by simp only; omega) (by
          intro t ht
          simp only at ht ⊢
          cases t with
          | zero =>
            rw [Nat.add_zero, Nat.add_zero, ha2.2, hb2.2, hab]
            exact ⟨rfl, ha2.1⟩
          | succ u =>
            have := hg u (by omega)
            have e1 : st.pos - 1 + (u + 1) = st.pos + u := by omega
            have e2 : st.scan - 1 + (u + 1) = st.scan + u := by omega
            rw [e1, e2]
            exact this) h
        simp only at this
        exact ⟨this.1, by omega⟩
      · rw [if_neg hab] at h
        simp only [Except.ok.injEq] at h
        subst h
        exact ⟨hg, le_refl _⟩
    · rw [if_neg hc] at h
      simp only [Except.ok.injEq] at h
      subst h
      exact ⟨hg, le_refl _⟩

theorem hf_gotit_gen {M : Nat} (hM : IsM M) {old new : List Byte} (lo scan0 : Nat)
    (hnl : 2 * new.length < M) {st : HState} {r : Ctl × HState}
    (hinv : HInv old.length new.length scan0 st) (hg : HGen old new st) (hll : st.llen ≥ 32)
    (h : hf_gotit M old old.length new new.length lo st = .ok r) :
    GStep old new r := by
  obtain ⟨b1, b2, b3, b4, b5⟩ := hinv.best (by omega)
  unfold hf_gotit at h
  simp only at h
  split at h
  · simp only [bind_ok] at h
    obtain ⟨ssx, _, h⟩ := h
    simp only [Except.ok.injEq] at h
    subst h
    simp only [GStep, HGen]
    intro hc
    omega
  · simp only [bind_ok] at h
    obtain ⟨st1, h1, st2, h2, h⟩ := h
    have l1 := hf_leftext_gen hM old new hnl _ _ st1 (by simpa using b3)
      (by simpa using hg (by omega)) h1
    simp only at l1
    have l2 := hf_oldscore_ok h2
    split at h
    · simp only [Except.ok.injEq] at h
      subst h
      simp only [GStep, GPost]
      right
      rw [l2.1, l2.2.1, l2.2.2.1]
      exact ⟨by omega, l1.1⟩
    · simp only [bind_ok] at h
      obtain ⟨ssx, _, h⟩ := h
      simp only [Except.ok.injEq] at h
      subst h
      simp only [GStep, HGen]
      intro hc
      omega

theorem hf_scannext_gen {M : Nat} (hM : IsM M) {old new : List Byte} (lo scan0 : Nat)
    (hnl : 2 * new.length < M) {st : HState} {r : Ctl × HState}
    (hinv : HInv old.length new.length scan0 st) (hg : HGen old new st)
    (h : hf_scannext M old old.length new new.length lo st = .ok r) :
    GStep old new r := by
  unfold hf_scannext at h
  split at h
  · rename_i hc
    exact hf_gotit_gen hM lo scan0 hnl hinv hg hc.1 h
  · simp only [bind_ok] at h
    obtain ⟨st1, h1, h⟩ := h
    simp only [Except.ok.injEq] at h
    subst h
    unfold hf_roll at h1
    simp only [bind_ok] at h1
    obtain ⟨cin, _, cout, _, h1⟩ := h1
    simp only [Except.ok.injEq] at h1
    subst h1
    exact hg

theorem hf_double_gen {M : Nat} {hd : hash_data} {old new : List Byte}
    {scan pos len pos1 len1 : Nat} (hg : Genuine old new scan pos len)
    (h : hf_double M hd old old.length new new.length scan pos len = .ok (pos1, len1)) :
    Genuine old new scan pos1 len1 := by
  unfold hf_double at h
  split at h
  · simp only [bind_ok] at h
    obtain ⟨x, _, p0, _, p1, _, h⟩ := h
    split at h
    · split at h
      · simp only [bind_ok] at h
        obtain ⟨len2, h2, h⟩ := h
        have m := matchlen_ok h2
        split at h
        · simp only [Except.ok.injEq, Prod.mk.injEq] at h
          obtain ⟨rfl, rfl⟩ := h
          exact m.2.2.2
        · simp only [Except.ok.injEq, Prod.mk.injEq] at h
          obtain ⟨rfl, rfl⟩ := h
          exact hg
      · simp only [Except.ok.injEq, Prod.mk.injEq] at h
        obtain ⟨rfl, rfl⟩ := h
        exact hg
    · simp only [Except.ok.injEq, Prod.mk.injEq] at h
      obtain ⟨rfl, rfl⟩ := h
      exact hg
  · simp only [Except.ok.injEq, Prod.mk.injEq] at h
    obtain ⟨rfl, rfl⟩ := h
    exact hg

theorem hf_hit_inv {M : Nat} (hM : IsM M) {hd : hash_data} {old new : List Byte} (scan0 : Nat)
    (hol : 2 * old.length < M) (hnl : 2 * new.length < M) {st : HState} {pos l pos1 len1 : Nat}
    (hinv : HInv old.length new.length scan0 st) (hsc : st.scan + 16 < new.length)
    (hpos : pos + 16 ≤ old.length)
    (hl : matchlen old (pos + HSIZE) (wsub M (wsub M old.length pos) HSIZE)
      new (st.scan + HSIZE) (wsub M (wsub M new.length st.scan) HSIZE) = .ok l)
    (hd1 : hf_double M hd old old.length new new.length st.scan pos (l + 16) = .ok (pos1, len1)) :
    HInv old.length new.length scan0
      (if len1 > st.llen then
        { st with pos := pos1, len := len1, llen := len1, lpos := pos1, lscan := st.scan }
       else { st with pos := pos1, len := len1 }) := by
  have m := matchlen_ok hl
  have hw : wsub M (wsub M new.length st.scan) HSIZE = new.length - st.scan - 16 := by
    rw [wsub_eq (a := new.length) (by omega) (by omega)]
    exact wsub_eq (by simp only [HSIZE]; omega) (by omega)
  rw [hw] at m
  have d := hf_double_ok hM hol hnl hsc (by omega) (by omega) (by omega) hd1
  split
  · refine ⟨hinv.start_ge, hinv.start_le, hinv.scan_le, ?_⟩
    intro _
    have := hinv.start_le
    simp only
    omega
  · refine ⟨hinv.start_ge, hinv.start_le, hinv.scan_le, ?_⟩
    intro hl0
    exact hinv.best hl0

theorem hf_hit_gen {M : Nat} (hM : IsM M) {hd : hash_data} {old new : List Byte} (lo scan0 : Nat)
    (hol : 2 * old.length < M) (hnl : 2 * new.length < M) {st : HState} {pos : Nat}
    {r : Ctl × HState}
    (hinv : HInv old.length new.length scan0 st) (hg : HGen old new st)
    (hsc : st.scan + 16 < new.length)
    (hblk : Genuine old new st.scan pos 16)
    (h : hf_hit M hd old old.length new new.length lo st pos = .ok r) :
    GStep old new r := by
  have hpos : pos + 16 ≤ old.length := by
    have := (hblk 15 (by omega)).2
    omega
  unfold hf_hit at h
  simp only [bind_ok] at h
  obtain ⟨l, hl, ⟨pos1, len1⟩, hd1, h⟩ := h
  have m := matchlen_ok hl
  have hw : wsub M (wsub M new.length st.scan) HSIZE = new.length - st.scan - 16 := by
    rw [wsub_eq (a := new.length) (by omega) (by omega)]
    exact wsub_eq (by simp only [HSIZE]; omega) (by omega)
  rw [hw] at m
  have hw2 : wadd M l HSIZE = l + 16 := wadd_eq (by simp only [HSIZE]; omega)
  rw [hw2] at hd1
  have g1 : Genuine old new st.scan pos (16 + l) := hblk.extend m.2.2.2
  rw [Nat.add_comm] at g1
  have g2 := hf_double_gen g1 hd1
  have hinv2 := hf_hit_inv hM scan0 hol hnl hinv hsc hpos hl hd1
  simp only at h
  refine hf_scannext_gen hM lo scan0 hnl ?_ ?_ h
  · split
    · rename_i hgt
      rw [if_pos hgt] at hinv2
      exact hinv2
    · rename_i hgt
      rw [if_neg hgt] at hinv2
      exact hinv2
  · split
    · intro _
      exact g2
    · exact hg

theorem HGen.keep_pos {old new : List Byte} {st : HState} (hg : HGen old new st) (p : Nat) :
    HGen old new { st with pos := p } := hg

theorem hf_body_gen {M : Nat} (hM : IsM M) {hd : hash_data} {old new : List Byte} (lo scan0 : Nat)
    (hol : 2 * old.length < M) (hnl : 2 * new.length < M) (h16 : 16 ≤ new.length)
    {st : HState} {r : Ctl × HState}
    (hinv : HInv old.length new.length scan0 st) (hg : HGen old new st)
    (h : hf_body M hd old old.length new new.length lo st = .ok r) :
    GStep old new r := by
  have hw : wsub M new.length HSIZE = new.length - 16 := by
    exact wsub_eq (by simp only [HSIZE]; omega) (by omega)
  unfold hf_body at h
  rw [hw] at h
  split at h
  · split at h
    · rename_i hll
      exact hf_gotit_gen hM lo scan0 hnl hinv hg hll h
    · simp only [Except.ok.injEq] at h
      subst h
      simp only [GStep, GPost]
      left
      omega
  · rename_i hsc
    have hsc' : st.scan + 16 < new.length := by omega
    simp only [bind_ok] at h
    obtain ⟨p, _, h⟩ := h
    split at h
    · exact hf_scannext_gen hM lo scan0 hnl (hinv.set_pos p) (hg.keep_pos p) h
    · simp only [bind_ok] at h
      obtain ⟨c, hc, h⟩ := h
      split at h
      · simp only [bind_ok] at h
        obtain ⟨q, _, h⟩ := h
        split at h
        · exact hf_scannext_gen hM lo scan0 hnl (hinv.set_pos q) (hg.keep_pos q) h
        · simp only [bind_ok] at h
          obtain ⟨c2, hc2, h⟩ := h
          split at h
          · exact hf_scannext_gen hM lo scan0 hnl (hinv.set_pos (q - 1)) (hg.keep_pos (q - 1)) h
          · rename_i hz
            exact hf_hit_gen hM lo scan0 hol hnl hinv hg hsc' (memcmp_zero hc2 hz) h
      · rename_i hz
        exact hf_hit_gen hM lo scan0 hol hnl hinv hg hsc' (memcmp_zero hc hz) h

theorem hf_loop_gen {M : Nat} (hM : IsM M) {hd : hash_data} {old new : List Byte} (lo scan0 : Nat)
    (hol : 2 * old.length < M) (hnl : 2 * new.length < M) (h16 : 16 ≤ new.length) :
    ∀ (fuel : Nat) (st st1 : HState), HInv old.length new.length scan0 st → HGen old new st →
      hf_loop M hd old old.length new new.length lo fuel st = .ok st1 →
      GPost old new st1 := by
  intro fuel
  induction fuel with
  | zero => intro st st1 _ _ h; simp [hf_loop] at h
  | succ n ih =>
    intro st st1 hinv hg h
    simp only [hf_loop, bind_ok] at h
    obtain ⟨⟨c, st2⟩, hb, h⟩ := h
    have hs := hf_body_ok hM lo scan0 hol hnl h16 hinv hb
    have gs := hf_body_gen hM lo scan0 hol hnl h16 hinv hg hb
    cases c with
    | brk =>
      simp only [Except.ok.injEq] at h
      subst h
      exact gs
    | next => exact ih _ _ hs gs h

/-- A match returned by hash_findnext before the end of new is genuine and at least 32 bytes
long. -/
theorem hash_findnext_gen {M : Nat} (hM : IsM M) {hd : hash_data} {old new : List Byte}
    (fuel lo scan0 : Nat) (r : Nat × Nat × Nat)
    (hol : 2 * old.length < M) (hnl : 2 * new.length < M) (hs : scan0 ≤ new.length)
    (h : hash_findnext M fuel hd old old.length new new.length lo scan0 = .ok r)
    (hlt : r.1 < new.length) :
    32 ≤ r.2.2 ∧ Genuine old new r.1 r.2.1 r.2.2 := by
  unfold hash_findnext at h
  simp only [bind_ok] at h
  obtain ⟨ssx, hssx, st, hst, h⟩ := h
  have h16 : 16 ≤ new.length := by
    by_contra hlt
    have hw : scan0 ≤ wsub M new.length HSIZE := by
      have hb := hM.big
      unfold wsub
      rw [Nat.mod_eq_of_lt (by simp only [HSIZE]; omega : HSIZE < M),
        Nat.mod_eq_of_lt (by simp only [HSIZE]; omega)]
      simp only [HSIZE]
      omega
    rw [if_pos hw] at hssx
    have := buzhash_ok hssx
    omega
  have hw : wsub M new.length HSIZE = new.length - 16 := by
    exact wsub_eq (by simp only [HSIZE]; omega) (by omega)
  rw [hw] at h
  have hp := hf_loop_gen hM lo scan0 hol hnl h16 fuel _ st
    ⟨le_refl _, le_refl _, hs, fun h => absurd h (by simp)⟩ (fun h => absurd h (by simp)) hst
  split at h
  · simp only [Except.ok.injEq] at h
    subst h
    simp only at hlt
    omega
  · simp only [Except.ok.injEq] at h
    subst h
    rcases hp with hp | hp
    · omega
    · exact hp

theorem hashOk_ok {r : Res (Option hash_data)} (h : hashOk r = true) :
    r = .ok (some (hashOf r)) := by
  unfold hashOk at h
  split at h
  · rfl
  · simp at h

set_option maxRecDepth 1000000 in
theorem old48_hash_ok : hash_create B32 old48 old48.length = .ok (some hd_old48) :=
  hashOk_ok (by decide!)

set_option maxRecDepth 1000000 in
theorem old48_findnext :
    dm_findnext B32 40 (.hash hd_old48) old48 old48.length new49 new49.length 0 0 =
      .ok (1, 0, 48) := by
  decide!

/-- C12: for the index that the create function of either method built for old, a call of
its findnext with scan <= newlen that returns (scan1, pos, len) has scan <= scan1 <= newlen,
and when scan1 < newlen the match is long and genuine: len >= 32, pos + len <= oldlen,
scan1 + len <= newlen and old[pos + i] = new[scan1 + i] for all i < len. -/
theorem findnext_genuine (B : Build) (fuel fuel2 : Nat) (dm : deltamode) (old new : List Byte)
    (data : IndexData) (lo scan0 : Nat) (r : Nat × Nat × Nat)
    (hol : 2 * old.length < B.M) (hnl : 2 * new.length < B.M) (hs : scan0 ≤ new.length)
    (hc : dm_create B fuel dm old old.length = .ok (some data))
    (h : dm_findnext B fuel2 data old old.length new new.length lo scan0 = .ok r) :
    scan0 ≤ r.1 ∧ r.1 ≤ new.length ∧
    (r.1 < new.length → 32 ≤ r.2.2 ∧ r.2.1 + r.2.2 ≤ old.length ∧ r.1 + r.2.2 ≤ new.length ∧
      ∀ i, i < r.2.2 → old[r.2.1 + i]? = new[r.1 + i]?) := by
  have fo := dm_findnext_ok B fuel2 data lo scan0 r hol hnl hs h
  refine ⟨fo.1, fo.2.1, ?_⟩
  intro hlt
  have key : 32 ≤ r.2.2 ∧ Genuine old new r.1 r.2.1 r.2.2 := by
    cases data with
    | hash hd => exact hash_findnext_gen B.M_cases fuel2 lo scan0 r hol hnl hs h hlt
    | suf sd =>
      have hsd : suf_create B fuel old old.length = .ok (some sd) := by
        unfold dm_create at hc
        split at hc
        · simp only [bind_ok] at hc
          obtain ⟨x, hx, hc⟩ := hc
          simp only [Except.ok.injEq] at hc
          cases x with
          | none => simp at hc
          | some y =>
            simp only [Option.map_some', Option.some.injEq, IndexData.suf.injEq] at hc
            rw [hc] at hx
            exact hx
        · simp only [bind_ok] at hc
          obtain ⟨x, _, hc⟩ := hc
          simp only [Except.ok.injEq] at hc
          cases x with
          | none => simp at hc
          | some y => simp at hc
      simp only [dm_findnext] at h
      unfold suf_findnext at h
      simp only [bind_ok] at h
      obtain ⟨stf, hl, h⟩ := h
      simp only [Except.ok.injEq] at h
      subst h
      obtain ⟨_, _, r3, _⟩ := sf_loop_end B fuel old sd hol hsd new hnl lo scan0 _ (sf_init scan0)
        stf (SInv.start B.M old new lo scan0 hs) hl
      have := r3 hlt
      show 32 ≤ stf.len ∧ Genuine old new stf.scan stf.pos stf.len
      exact ⟨by omega, this.2.2⟩
  obtain ⟨k1, k2⟩ := key
  refine ⟨k1, ?_, (fo.2.2 hlt).2, fun i hi => (k2 i hi).1⟩
  have := (k2 (r.2.2 - 1) (by omega)).2
  omega

/-- Witness for C12: the hash method on old = bytes 0..47, new = byte 255 followed by old;
the search from scan = 0 returns the 48 bytes of old at scan = 1. -/
theorem findnext_genuine_witness :
    dm_create B32 0 ⟨B32.DELTAMODE_HASH, .hash⟩ old48 old48.length = .ok (some (.hash hd_old48)) ∧
    dm_findnext B32 40 (.hash hd_old48) old48 old48.length new49 new49.length 0 0 =
      .ok (1, 0, 48) ∧
    (0 ≤ 1 ∧ 1 ≤ new49.length ∧
    (1 < new49.length → 32 ≤ 48 ∧ 0 + 48 ≤ old48.length ∧ 1 + 48 ≤ new49.length ∧
      ∀ i, i < 48 → old48[0 + i]? = new49[1 + i]?)) := by
  have hc : dm_create B32 0 ⟨B32.DELTAMODE_HASH, .hash⟩ old48 old48.length =
      .ok (some (.hash hd_old48)) := by
    unfold dm_create
    simp only [old48_hash_ok]
    rfl
  exact ⟨hc, old48_findnext,
    findnext_genuine B32 0 40 ⟨B32.DELTAMODE_HASH, .hash⟩ old48 new49 (.hash hd_old48) 0 0
      (1, 0, 48) (by decide) (by decide) (by decide) hc old48_findnext⟩

/-! ## the table of hash_create -/

theorem rdN_get {a : Arr Nat} {i : Int} {v : Nat} (h : a.rd i = .ok v) :
    0 ≤ i ∧ i.toNat < a.size ∧ a.cell i.toNat = some v := by
  unfold Arr.rd at h
  split at h
  · rename_i hc
    split at h
    · rename_i w hw
      simp only [Except.ok.injEq] at h
      rw [← h]
      exact ⟨hc.1, hc.2, hw⟩
    · simp at h
  · simp at h

theorem wrN_get {a b : Arr Nat} {i : Int} {v : Nat} (h : a.wr i v = .ok b) :
    0 ≤ i ∧ i.toNat < a.size ∧ b.size = a.size ∧
    (∀ k, b.cell k = if k = i.toNat then some v else a.cell k) := by
  unfold Arr.wr at h
  split at h
  · rename_i hc
    simp only [Except.ok.injEq] at h
    rw [← h]
    exact ⟨hc.1, hc.2, rfl, fun _ => rfl⟩
  · simp at h

theorem hash_next_mod {prime s : Nat} (h : s < prime) : hash_next prime s = (s + 1) % prime := by
  unfold hash_next
  split
  · rename_i e
    have : s + 1 = prime := by omega
    rw [this, Nat.mod_self]
  · rw [Nat.mod_eq_of_lt (by omega)]

/-- What hash_insert does with the block at off: nothing, or off + 1 goes to the home slot of
the block or to the slot after it. -/
theorem hash_insert_ok {M : Nat} {buf : List Byte} {prime off : Nat} {hash hash1 : Arr Nat}
    (hsz : hash.size = prime) (hoff : off + 1 < M)
    (h : hash_insert M buf prime hash off = .ok hash1) :
    hash1.size = prime ∧
    ∃ x, buzhash buf off = .ok x ∧ x % prime < prime ∧
      (hash1 = hash ∨ ∃ j, (j = x % prime ∨ j = (x % prime + 1) % prime) ∧ j < prime ∧
        ∀ k, hash1.cell k = if k = j then some (off + 1) else hash.cell k) := by
  unfold hash_insert at h
  simp only [bind_ok] at h
  obtain ⟨x, hx, hs, hhs, h⟩ := h
  have r1 := rdN_get hhs
  have e1 : ((x % prime : Nat) : Int).toNat = x % prime := by omega
  rw [e1, hsz] at r1
  have hw : wadd M off 1 = off + 1 := wadd_eq hoff
  rw [hw] at h
  refine ⟨?_, x, hx, r1.2.1, ?_⟩
  · split at h
    · simp only [bind_ok] at h
      obtain ⟨hn, _, h⟩ := h
      split at h
      · simp only [Except.ok.injEq] at h
        rw [← h, hsz]
      · simp only [bind_ok] at h
        obtain ⟨c, _, h⟩ := h
        split at h
        · simp only [Except.ok.injEq] at h
          rw [← h, hsz]
        · rw [(wrN_get h).2.2.1, hsz]
    · rw [(wrN_get h).2.2.1, hsz]
  · split at h
    · simp only [bind_ok] at h
      obtain ⟨hn, _, h⟩ := h
      split at h
      · simp only [Except.ok.injEq] at h
        exact Or.inl h.symm
      · simp only [bind_ok] at h
        obtain ⟨c, _, h⟩ := h
        split at h
        · simp only [Except.ok.injEq] at h
          exact Or.inl h.symm
        · right
          have w := wrN_get h
          have e2 : ((hash_next prime (x % prime) : Nat) : Int).toNat =
              hash_next prime (x % prime) := by omega
          rw [e2, hsz] at w
          refine ⟨hash_next prime (x % prime), Or.inr (hash_next_mod r1.2.1), w.2.1, w.2.2.2⟩
    · right
      have w := wrN_get h
      rw [e1, hsz] at w
      exact ⟨x % prime, Or.inl rfl, w.2.1, w.2.2.2⟩

theorem hash_create_go_ok {M : Nat} (buf : List Byte) (prime : Nat) :
    ∀ (cnt off : Nat) (hash hash1 : Arr Nat), hash.size = prime → off % 16 = 0 →
      off + 16 * cnt + 1 < M →
      (∀ i, ∃ v, hash.cell i = some v ∧ slotOk buf prime i v) →
      hash_create_go M buf prime cnt off hash = .ok hash1 →
      hash1.size = prime ∧ ∀ i, ∃ v, hash1.cell i = some v ∧ slotOk buf prime i v := by
  intro cnt
  induction cnt with
  | zero =>
    intro off hash hash1 hsz _ _ hinv h
    simp only [hash_create_go, Except.ok.injEq] at h
    rw [← h]
    exact ⟨hsz, hinv⟩
  | succ n ih =>
    intro off hash hash1 hsz hoff hM hinv h
    simp only [hash_create_go, bind_ok] at h
    obtain ⟨hash2, hi, h⟩ := h
    obtain ⟨s2, x, hx, hxl, hcase⟩ := hash_insert_ok hsz (by omega) hi
    have hb := buzhash_ok hx
    refine ih (off + HSIZE) hash2 hash1 s2 (by simp only [HSIZE]; omega)
      (by simp only [HSIZE]; omega) ?_ h
    rcases hcase with e | ⟨j, hj, _, hc⟩
    · rw [e]
      exact hinv
    · intro i
      rw [hc i]
      by_cases hij : i = j
      · rw [if_pos hij]
        refine ⟨off + 1, rfl, Or.inr ⟨by omega, by simpa using hoff, by simpa using hb, x, ?_, ?_⟩⟩
        · simpa using hx
        · rw [hij]
          exact hj
      · rw [if_neg hij]
        exact hinv i

/-- C20: after hash_create succeeds on a buffer whose length fits the signed offset type,
the table has prime slots and every slot holds 0 or a value v with v - 1 a multiple of 16 and
v - 1 + 16 <= oldlen, whose index is buzhash(old[v-1 .. v-1+16)) mod prime or that value plus
one modulo prime. -/
theorem hash_table_wellformed (B : Build) (old : List Byte) (hd : hash_data)
    (hol : 2 * old.length < B.M) (h : hash_create B old old.length = .ok (some hd)) :
    hd.hash.size = hd.prime ∧
    ∀ i, i < hd.prime → ∃ v, hd.hash.cell i = some v ∧
      (v = 0 ∨ (1 ≤ v ∧ (v - 1) % 16 = 0 ∧ v - 1 + 16 ≤ old.length ∧
        ∃ x, buzhash old (v - 1) = .ok x ∧
          (i = x % hd.prime ∨ i = (x % hd.prime + 1) % hd.prime))) := by
  unfold hash_create at h
  split at h
  · simp at h
  · simp only [bind_ok] at h
    obtain ⟨hash, hgo, h⟩ := h
    simp only [Except.ok.injEq, Option.some.injEq] at h
    subst h
    have hb := IsM.big B.M_cases
    have key := fun hsz hoff hlim hinv =>
      @hash_create_go_ok B.M old _ _ _ _ hash hsz hoff hlim hinv hgo
    have := key rfl rfl (by simp only [HSIZE]; omega) (fun i => ⟨0, rfl, Or.inl rfl⟩)
    exact ⟨this.1, fun i _ => this.2 i⟩

/-- Witness for C20: the table of the bytes 0..47. -/
theorem hash_table_wellformed_witness :
    hash_create B32 old48 old48.length = .ok (some hd_old48) ∧
    (hd_old48.hash.size = hd_old48.prime ∧
    ∀ i, i < hd_old48.prime → ∃ v, hd_old48.hash.cell i = some v ∧
      (v = 0 ∨ (1 ≤ v ∧ (v - 1) % 16 = 0 ∧ v - 1 + 16 ≤ old48.length ∧
        ∃ x, buzhash old48 (v - 1) = .ok x ∧
          (i = x % hd_old48.prime ∨ i = (x % hd_old48.prime + 1) % hd_old48.prime)))) :=
  ⟨old48_hash_ok, hash_table_wellformed B32 old48 hd_old48 (by decide) old48_hash_ok⟩

set_option maxRecDepth 1000000 in
theorem digits32_hash_ok : hash_create B32 digits32 digits32.length = .ok (some hd_digits32) :=
  hashOk_ok (by decide!)

set_option maxRecDepth 1000000 in
theorem digits32_slots :
    hd_digits32.prime = 65537 ∧ hd_digits32.hash.cell 32044 = some 1 ∧
    hd_digits32.hash.cell 32045 = some 17 := by
  decide!

/-- C19 (failing input): old = 0123456789abcdef twice. Both blocks have the hash
3238805047, home slot 32044 of 65537. The first block is stored there as 1; the second block,
byte-identical to it, is stored in the slot after it as 17, because hash_create compares it
with the bytes at old + hash[s] = old + 1 and not with the block at hash[s] - 1 = 0. -/
theorem duplicate_block_stored :
    hash_create B32 digits32 digits32.length = .ok (some hd_digits32) ∧
    buzhash digits32 0 = .ok 3238805047 ∧ buzhash digits32 16 = .ok 3238805047 ∧
    3238805047 % 65537 = 32044 ∧
    (hd_digits32.prime = 65537 ∧ hd_digits32.hash.cell 32044 = some 1 ∧
      hd_digits32.hash.cell 32045 = some 17) ∧
    memcmp digits32 16 digits32 (1 - 1) HSIZE = .ok 0 ∧
    memcmp digits32 16 digits32 1 HSIZE = .ok (-1) :=
  ⟨digits32_hash_ok, by decide, by decide, by decide, digits32_slots, by decide, by decide⟩

/-- The test of hash_create for the slot after the home slot: with the home slot s holding
hs != 0 and the slot after it empty, off + 1 is stored there iff the block at off differs from
the 16 bytes at hs (one byte after the block recorded in slot s). -/
theorem hash_insert_secondary {M : Nat} {buf : List Byte} {prime off x hs : Nat}
    {hash hash1 : Arr Nat} (hx : buzhash buf off = .ok x)
    (h1 : hash.rd (x % prime : Nat) = .ok hs) (h2 : hs ≠ 0)
    (h3 : hash.rd (hash_next prime (x % prime) : Nat) = .ok 0)
    (h : hash_insert M buf prime hash off = .ok hash1) :
    ∃ c, memcmp buf off buf hs HSIZE = .ok c ∧
      (c = 0 → hash1 = hash) ∧
      (c ≠ 0 → hash.wr (hash_next prime (x % prime) : Nat) (wadd M off 1) = .ok hash1) := by
  unfold hash_insert at h
  simp only [hx, h1, h3, bind, Except.bind, h2, ne_eq, not_false_eq_true, if_true,
    not_true_eq_false, if_false] at h
  cases hc : memcmp buf off buf hs HSIZE with
  | error e =>
    rw [hc] at h
    simp at h
  | ok c =>
    rw [hc] at h
    simp only at h
    refine ⟨c, rfl, ?_, ?_⟩
    · intro h0
      rw [if_pos h0] at h
      simp only [Except.ok.injEq] at h
      exact h.symm
    · intro h0
      rw [if_neg h0] at h
      exact h

/-! ## the rolling hash -/

theorem and_bit31 (x : Nat) : (x &&& (1 <<< 31) ≠ 0) ↔ x.testBit 31 = true := by
  have e : (1 <<< 31 : Nat) = 2 ^ 31 := by decide
  rw [e]
  constructor
  · intro h
    by_contra hc
    apply h
    apply Nat.eq_of_testBit_eq
    intro i
    rw [Nat.testBit_and, Nat.testBit_two_pow, Nat.zero_testBit]
    by_cases hi : 31 = i
    · subst hi
      simp only [Bool.not_eq_true] at hc
      rw [hc]
      rfl
    · simp [hi]
  · intro h hz
    have := congrArg (fun y => y.testBit 31) hz
    simp only [Nat.testBit_and, h, Nat.testBit_two_pow_self, Bool.and_self,
      Nat.zero_testBit] at this
    exact absurd this (by decide)

theorem bit_testBit (c : Prop) [Decidable c] (i : Nat) :
    (if c then (1 : Nat) else 0).testBit i = (decide (i = 0) && decide c) := by
  by_cases hc : c
  · simp only [hc, if_true, decide_True, Bool.and_true]
    cases i with
    | zero => rfl
    | succ n =>
      have : Nat.testBit 1 (n + 1) = false := by
        have := @Nat.testBit_one_eq_true_iff_self_eq_zero (n + 1)
        cases h : Nat.testBit 1 (n + 1)
        · rfl
        · exact absurd (this.1 h) (by omega)
      rw [this]
      simp
  · simp [hc]

theorem rotl1_testBit (x i : Nat) :
    (rotl1 x).testBit i = (decide (i < 32) && x.testBit ((i + 31) % 32)) := by
  unfold rotl1
  rw [Nat.testBit_xor, Nat.testBit_mod_two_pow, Nat.testBit_shiftLeft, bit_testBit]
  have hb : decide (x &&& (1 <<< 31) ≠ 0) = x.testBit 31 := by
    cases h : x.testBit 31
    · rw [decide_eq_false_iff_not]
      intro hc
      have := (and_bit31 x).1 hc
      rw [h] at this
      exact absurd this (by decide)
    · rw [decide_eq_true_iff]
      exact (and_bit31 x).2 h
  rw [hb]
  by_cases h0 : i = 0
  · subst h0
    simp
  · by_cases h1 : i < 32
    · have e : (i + 31) % 32 = i - 1 := by omega
      have e2 : decide (i ≥ 1) = true := by
        rw [decide_eq_true_iff]
        omega
      rw [e, e2]
      simp [h0, h1]
    · simp [h0, h1]

theorem rotl1_lt (x : Nat) : rotl1 x < 2 ^ 32 := by
  apply Nat.lt_pow_two_of_testBit
  intro i hi
  rw [rotl1_testBit]
  have : ¬ i < 32 := by omega
  simp [this]

theorem rotl1_xor (x y : Nat) : rotl1 (x ^^^ y) = rotl1 x ^^^ rotl1 y := by
  apply Nat.eq_of_testBit_eq
  intro i
  rw [Nat.testBit_xor, rotl1_testBit, rotl1_testBit, rotl1_testBit, Nat.testBit_xor]
  cases decide (i < 32) <;> simp

theorem iter_xor (k x y : Nat) : rotl1^[k] (x ^^^ y) = rotl1^[k] x ^^^ rotl1^[k] y := by
  induction k generalizing x y with
  | zero => rfl
  | succ n ih =>
    rw [Function.iterate_succ_apply, Function.iterate_succ_apply, Function.iterate_succ_apply,
      rotl1_xor, ih]

theorem iter_testBit (x : Nat) (hx : x < 2 ^ 32) (k i : Nat) :
    (rotl1^[k] x).testBit i = (decide (i < 32) && x.testBit ((i + 31 * k) % 32)) := by
  induction k generalizing i with
  | zero =>
    rw [Function.iterate_zero, id]
    by_cases h1 : i < 32
    · have e : (i + 31 * 0) % 32 = i := by omega
      rw [e]
      simp [h1]
    · rw [Nat.testBit_lt_two_pow (lt_of_lt_of_le hx (Nat.pow_le_pow_right (by decide) (by omega)))]
      simp [h1]
  | succ n ih =>
    rw [Function.iterate_succ_apply', rotl1_testBit, ih]
    have e : ((i + 31) % 32 + 31 * n) % 32 = (i + 31 * (n + 1)) % 32 := by omega
    have e2 : decide ((i + 31) % 32 < 32) = true := by
      rw [decide_eq_true_iff]
      omega
    rw [e, e2]
    simp

theorem rot16_eq (x : Nat) (hx : x < 2 ^ 32) :
    ((x <<< 16) % 2 ^ 32) ^^^ (x >>> 16) = rotl1^[16] x := by
  apply Nat.eq_of_testBit_eq
  intro i
  rw [Nat.testBit_xor, Nat.testBit_mod_two_pow, Nat.testBit_shiftLeft, Nat.testBit_shiftRight,
    iter_testBit x hx]
  by_cases h1 : i < 16
  · have e : (i + 31 * 16) % 32 = 16 + i := by omega
    have e2 : decide (i ≥ 16) = false := by
      rw [decide_eq_false_iff_not]
      omega
    have e3 : decide (i < 32) = true := by
      rw [decide_eq_true_iff]
      omega
    rw [e, e2, e3]
    simp
  · have hz : x.testBit (16 + i) = false :=
      Nat.testBit_lt_two_pow (lt_of_lt_of_le hx (Nat.pow_le_pow_right (by decide) (by omega)))
    rw [hz]
    by_cases h2 : i < 32
    · have e : (i + 31 * 16) % 32 = i - 16 := by omega
      have e2 : decide (i ≥ 16) = true := by
        rw [decide_eq_true_iff]
        omega
      rw [e, e2]
      simp [h2]
    · simp [h2]

theorem xor_cancel (a b n : Nat) : (a ^^^ n) ^^^ (b ^^^ n) = a ^^^ b := by
  apply Nat.eq_of_testBit_eq
  intro i
  simp only [Nat.testBit_xor]
  cases a.testBit i <;> cases b.testBit i <;> cases n.testBit i <;> rfl

theorem xor_swap (a b : Nat) : a = b ^^^ (a ^^^ b) := by
  apply Nat.eq_of_testBit_eq
  intro i
  simp only [Nat.testBit_xor]
  cases a.testBit i <;> cases b.testBit i <;> rfl

theorem iter_zero (k : Nat) : rotl1^[k] 0 = 0 := by
  induction k with
  | zero => rfl
  | succ n ih =>
    rw [Function.iterate_succ_apply', ih]
    rfl

/-- The loop of buzhash is linear in its start value. -/
theorem buzhash_go_lin (buf : List Byte) :
    ∀ (k q a b ra rb : Nat), buzhash_go buf k q a = .ok ra → buzhash_go buf k q b = .ok rb →
      ra ^^^ rb = rotl1^[k] (a ^^^ b) := by
  intro k
  induction k with
  | zero =>
    intro q a b ra rb h1 h2
    simp only [buzhash_go, Except.ok.injEq] at h1 h2
    rw [← h1, ← h2]
    rfl
  | succ n ih =>
    intro q a b ra rb h1 h2
    simp only [buzhash_go, bind_ok] at h1 h2
    obtain ⟨c, hc, h1⟩ := h1
    obtain ⟨c2, hc2, h2⟩ := h2
    rw [hc] at hc2
    simp only [Except.ok.injEq] at hc2
    subst hc2
    rw [ih _ _ _ _ _ h1 h2, xor_cancel, ← rotl1_xor, Function.iterate_succ_apply]

/-- Whether the loop of buzhash succeeds does not depend on its start value. -/
theorem buzhash_go_total (buf : List Byte) :
    ∀ (k q a b ra : Nat), buzhash_go buf k q a = .ok ra → ∃ rb, buzhash_go buf k q b = .ok rb := by
  intro k
  induction k with
  | zero =>
    intro q a b ra _
    exact ⟨b, rfl⟩
  | succ n ih =>
    intro q a b ra h1
    simp only [buzhash_go, bind_ok] at h1 ⊢
    obtain ⟨c, hc, h1⟩ := h1
    obtain ⟨rb, hrb⟩ := ih (q + 1) _ (rotl1 b ^^^ noiseAt c) ra h1
    exact ⟨rb, c, hc, hrb⟩

/-- The last round of the loop of buzhash. -/
theorem buzhash_go_last (buf : List Byte) :
    ∀ (k q a r0 : Nat) (c : Byte), buzhash_go buf k q a = .ok r0 → rdB buf (q + k) = .ok c →
      buzhash_go buf (k + 1) q a = .ok (rotl1 r0 ^^^ noiseAt c) := by
  intro k
  induction k with
  | zero =>
    intro q a r0 c h1 h2
    simp only [buzhash_go, Except.ok.injEq] at h1
    subst h1
    rw [Nat.add_zero] at h2
    simp only [buzhash_go, h2, bind, Except.bind]
  | succ n ih =>
    intro q a r0 c h1 h2
    simp only [buzhash_go, bind_ok] at h1
    obtain ⟨c1, hc1, h1⟩ := h1
    have e : q + (n + 1) = q + 1 + n := by omega
    rw [e] at h2
    have := ih (q + 1) _ r0 c h1 h2
    rw [buzhash_go]
    simp only [hc1, bind, Except.bind]
    exact this

set_option maxRecDepth 100000 in
theorem noiseAt_lt : ∀ c : Byte, noiseAt c < 2 ^ 32 := by
  decide

/-- The rolling update of hf_roll turns the hash of the block at scan into the hash of the
block at scan + 1. -/
theorem hf_roll_ok {M : Nat} {new : List Byte} {st st1 : HState}
    (hs : st.scan + 16 < M) (hx : buzhash new st.scan = .ok st.ssx)
    (h : hf_roll M new st = .ok st1) :
    st1.scan = st.scan + 1 ∧ buzhash new (st.scan + 1) = .ok st1.ssx ∧
    st1 = { st with ssx := st1.ssx, scan := st.scan + 1 } := by
  unfold hf_roll at h
  simp only [bind_ok] at h
  obtain ⟨cin, hcin, cout, hcout, h⟩ := h
  simp only [Except.ok.injEq] at h
  have w1 : wadd M st.scan HSIZE = st.scan + 16 := wadd_eq (by simp only [HSIZE]; omega)
  have w2 : wadd M st.scan 1 = st.scan + 1 := wadd_eq (by omega)
  rw [w1] at hcin
  rw [w2] at h
  subst h
  refine ⟨rfl, ?_, rfl⟩
  simp only
  -- the hash of the block at scan, one round unfolded
  unfold buzhash at hx ⊢
  have hx2 := hx
  simp only [HSIZE] at hx2 ⊢
  rw [buzhash_go] at hx2
  simp only [bind_ok] at hx2
  obtain ⟨c0, hc0, hx2⟩ := hx2
  rw [hcout] at hc0
  simp only [Except.ok.injEq] at hc0
  subst hc0
  obtain ⟨r0, hr0⟩ := buzhash_go_total new 15 (st.scan + 1) _ 0x83d31df4 _ hx2
  have hlast := buzhash_go_last new 15 (st.scan + 1) 0x83d31df4 r0 cin hr0 (by
    have e : st.scan + 1 + 15 = st.scan + 16 := by omega
    rw [e]
    exact hcin)
  rw [hlast]
  congr 1
  have hlin := buzhash_go_lin new 15 (st.scan + 1) _ _ _ _ hx2 hr0
  have hss : st.ssx = r0 ^^^ (st.ssx ^^^ r0) := xor_swap _ _
  have hoc : noiseAt cout ^^^ (0x83d31df4 ^^^ 0x07a63be9) < 2 ^ 32 :=
    Nat.xor_lt_two_pow (noiseAt_lt cout) (by decide)
  have e16 : (32 - 16 : Nat) = 16 := rfl
  symm
  rw [e16, rot16_eq _ hoc]
  rw [hss, rotl1_xor, hlin]
  have e1 : rotl1 (rotl1^[15] (rotl1 0x83d31df4 ^^^ noiseAt cout ^^^ 0x83d31df4)) =
      rotl1^[16] (rotl1 0x83d31df4 ^^^ noiseAt cout ^^^ 0x83d31df4) := by
    rw [← Function.iterate_succ_apply' rotl1 15]
  rw [e1]
  have e2 : rotl1 r0 ^^^ rotl1^[16] (rotl1 0x83d31df4 ^^^ noiseAt cout ^^^ 0x83d31df4) ^^^
      noiseAt cin ^^^ rotl1^[16] (noiseAt cout ^^^ (0x83d31df4 ^^^ 0x07a63be9)) =
      (rotl1 r0 ^^^ noiseAt cin) ^^^
        (rotl1^[16] (rotl1 0x83d31df4 ^^^ noiseAt cout ^^^ 0x83d31df4) ^^^
          rotl1^[16] (noiseAt cout ^^^ (0x83d31df4 ^^^ 0x07a63be9))) := by
    apply Nat.eq_of_testBit_eq
    intro i
    simp only [Nat.testBit_xor]
    cases (rotl1 r0).testBit i <;> cases (noiseAt cin).testBit i <;>
      cases (rotl1^[16] (rotl1 0x83d31df4 ^^^ noiseAt cout ^^^ 0x83d31df4)).testBit i <;>
      cases (rotl1^[16] (noiseAt cout ^^^ (0x83d31df4 ^^^ 0x07a63be9))).testBit i <;> rfl
  rw [e2, ← iter_xor]
  have e3 : (rotl1 0x83d31df4 ^^^ noiseAt cout ^^^ 0x83d31df4) ^^^
      (noiseAt cout ^^^ (0x83d31df4 ^^^ 0x07a63be9)) = 0 := by
    have hr : rotl1 0x83d31df4 = 0x07a63be9 := by decide
    rw [hr]
    apply Nat.eq_of_testBit_eq
    intro i
    simp only [Nat.testBit_xor, Nat.zero_testBit]
    cases (Nat.testBit 0x07a63be9 i) <;> cases (noiseAt cout).testBit i <;>
      cases (Nat.testBit 0x83d31df4 i) <;> rfl
  rw [e3, iter_zero, Nat.xor_zero]

theorem buzhash_go_exists (buf : List Byte) :
    ∀ (k q a : Nat), q + k ≤ buf.length → ∃ r, buzhash_go buf k q a = .ok r := by
  intro k
  induction k with
  | zero =>
    intro q a _
    exact ⟨a, rfl⟩
  | succ n ih =>
    intro q a h
    obtain ⟨r, hr⟩ := ih (q + 1) (rotl1 a ^^^ noiseAt (buf.get ⟨q, by omega⟩)) (by omega)
    refine ⟨r, ?_⟩
    rw [buzhash_go, rdB_of_lt (show q < buf.length by omega)]
    exact hr

theorem buzhash_exists (buf : List Byte) (p : Nat) (h : p + 16 ≤ buf.length) :
    ∃ x, buzhash buf p = .ok x :=
  buzhash_go_exists buf 16 p _ h

theorem wadd16 {M x : Nat} (h : x + 16 < M) : wadd M x HSIZE = x + 16 := wadd_eq h

theorem hf_gotit_roll {M : Nat} (hM : IsM M) {old new : List Byte} (lo scan0 : Nat)
    (hnl : 2 * new.length < M) {st : HState} {r : Ctl × HState}
    (hinv : HInv old.length new.length scan0 st) (hll : st.llen ≥ 32)
    (h : hf_gotit M old old.length new new.length lo st = .ok r) (hn : r.1 = .next) :
    HRoll new r.2 := by
  have hst := hf_gotit_ok hM lo scan0 hnl hinv hll h
  unfold HStep at hst
  rw [hn] at hst
  simp only at hst
  have hle := hst.scan_le
  unfold hf_gotit at h
  simp only at h
  split at h
  · simp only [bind_ok] at h
    obtain ⟨ssx, hssx, h⟩ := h
    simp only [Except.ok.injEq] at h
    subst h
    simp only at hle
    intro hc
    simp only at hc ⊢
    have hw : wadd M (wadd M st.lscan st.llen) HSIZE = wadd M st.lscan st.llen + 16 :=
      wadd_eq (by simp only [HSIZE]; omega)
    rw [hw, if_pos hc] at hssx
    exact hssx
  · simp only [bind_ok] at h
    obtain ⟨st1, h1, st2, h2, h⟩ := h
    split at h
    · simp only [Except.ok.injEq] at h
      subst h
      simp at hn
    · simp only [bind_ok] at h
      obtain ⟨ssx, hssx, h⟩ := h
      simp only [Except.ok.injEq] at h
      subst h
      simp only at hle
      intro hc
      simp only at hc ⊢
      rw [wadd16 (by omega), if_pos hc] at hssx
      exact hssx

theorem hf_scannext_roll {M : Nat} (hM : IsM M) {old new : List Byte} (lo scan0 : Nat)
    (hnl : 2 * new.length < M) {st : HState} {r : Ctl × HState}
    (hinv : HInv old.length new.length scan0 st) (hr : HRoll new st)
    (hsc : st.scan + 16 < new.length)
    (h : hf_scannext M old old.length new new.length lo st = .ok r) (hn : r.1 = .next) :
    HRoll new r.2 := by
  unfold hf_scannext at h
  split at h
  · rename_i hc
    exact hf_gotit_roll hM lo scan0 hnl hinv hc.1 h hn
  · simp only [bind_ok] at h
    obtain ⟨st1, h1, h⟩ := h
    simp only [Except.ok.injEq] at h
    subst h
    have := hf_roll_ok (by omega) (hr hsc) h1
    intro _
    simp only
    rw [this.1]
    exact this.2.1

theorem hf_hit_roll {M : Nat} (hM : IsM M) {hd : hash_data} {old new : List Byte} (lo scan0 : Nat)
    (hol : 2 * old.length < M) (hnl : 2 * new.length < M) {st : HState} {pos : Nat}
    {r : Ctl × HState}
    (hinv : HInv old.length new.length scan0 st) (hr : HRoll new st)
    (hsc : st.scan + 16 < new.length) (hpos : pos + 16 ≤ old.length)
    (h : hf_hit M hd old old.length new new.length lo st pos = .ok r) (hn : r.1 = .next) :
    HRoll new r.2 := by
  unfold hf_hit at h
  simp only [bind_ok] at h
  obtain ⟨l, hl, ⟨pos1, len1⟩, hd1, h⟩ := h
  have m := matchlen_ok hl
  have hw : wsub M (wsub M new.length st.scan) HSIZE = new.length - st.scan - 16 := by
    rw [wsub_eq (a := new.length) (by omega) (by omega)]
    exact wsub_eq (by simp only [HSIZE]; omega) (by omega)
  rw [hw] at m
  have hw2 : wadd M l HSIZE = l + 16 := wadd_eq (by simp only [HSIZE]; omega)
  rw [hw2] at hd1
  have hinv2 := hf_hit_inv hM scan0 hol hnl hinv hsc hpos hl hd1
  simp only at h
  refine hf_scannext_roll hM lo scan0 hnl ?_ ?_ ?_ h hn
  · split
    · rename_i hgt
      rw [if_pos hgt] at hinv2
      exact hinv2
    · rename_i hgt
      rw [if_neg hgt] at hinv2
      exact hinv2
  · split <;> exact hr
  · split <;> exact hsc

theorem HRoll.keep_ssx {new : List Byte} {st : HState} (hr : HRoll new st) (p : Nat) :
    HRoll new { st with pos := p } := hr

theorem hf_body_roll {M : Nat} (hM : IsM M) {hd : hash_data} {old new : List Byte} (lo scan0 : Nat)
    (hol : 2 * old.length < M) (hnl : 2 * new.length < M) (h16 : 16 ≤ new.length)
    {st : HState} {r : Ctl × HState}
    (hinv : HInv old.length new.length scan0 st) (hr : HRoll new st)
    (h : hf_body M hd old old.length new new.length lo st = .ok r) (hn : r.1 = .next) :
    HRoll new r.2 := by
  have hw : wsub M new.length HSIZE = new.length - 16 := by
    exact wsub_eq (by simp only [HSIZE]; omega) (by omega)
  unfold hf_body at h
  rw [hw] at h
  split at h
  · split at h
    · rename_i hll
      exact hf_gotit_roll hM lo scan0 hnl hinv hll h hn
    · simp only [Except.ok.injEq] at h
      subst h
      simp at hn
  · rename_i hsc
    have hsc' : st.scan + 16 < new.length := by omega
    simp only [bind_ok] at h
    obtain ⟨p, _, h⟩ := h
    split at h
    · exact hf_scannext_roll hM lo scan0 hnl (hinv.set_pos p) (hr.keep_ssx p) hsc' h hn
    · simp only [bind_ok] at h
      obtain ⟨c, hc, h⟩ := h
      split at h
      · simp only [bind_ok] at h
        obtain ⟨q, _, h⟩ := h
        split at h
        · exact hf_scannext_roll hM lo scan0 hnl (hinv.set_pos q) (hr.keep_ssx q) hsc' h hn
        · simp only [bind_ok] at h
          obtain ⟨c2, hc2, h⟩ := h
          split at h
          · exact hf_scannext_roll hM lo scan0 hnl (hinv.set_pos (q - 1)) (hr.keep_ssx (q - 1))
              hsc' h hn
          · exact hf_hit_roll hM lo scan0 hol hnl hinv hr hsc' (memcmp_ok hc2).1 h hn
      · exact hf_hit_roll hM lo scan0 hol hnl hinv hr hsc' (memcmp_ok hc).1 h hn

theorem hf_iter_roll {M : Nat} (hM : IsM M) {hd : hash_data} {old new : List Byte} (lo scan0 : Nat)
    (hol : 2 * old.length < M) (hnl : 2 * new.length < M) (h16 : 16 ≤ new.length) :
    ∀ (k : Nat) (st0 st : HState), HInv old.length new.length scan0 st0 → HRoll new st0 →
      hf_iter M hd old old.length new new.length lo k st0 = .ok (some st) →
      HInv old.length new.length scan0 st ∧ HRoll new st := by
  intro k
  induction k with
  | zero =>
    intro st0 st hinv hr h
    simp only [hf_iter, Except.ok.injEq, Option.some.injEq] at h
    rw [← h]
    exact ⟨hinv, hr⟩
  | succ n ih =>
    intro st0 st hinv hr h
    simp only [hf_iter, bind_ok] at h
    obtain ⟨⟨c, st1⟩, hb, h⟩ := h
    cases c with
    | brk => simp at h
    | next =>
      simp only at h
      have hs := hf_body_ok hM lo scan0 hol hnl h16 hinv hb
      have hr1 := hf_body_roll hM lo scan0 hol hnl h16 hinv hr hb rfl
      exact ih st1 st hs hr1 h

/-- C18: the rolling update of hash_findnext (hf_roll: rotate left by 1, XOR noise[b16], XOR
the rotation by 16 of noise[b0] XOR (0x83d31df4 XOR 0x07a63be9)) applied to the hash of the
first 16 of 17 bytes b0..b16 yields the hash of the last 16; hence in every round of
hash_findnext that probes the table (scan < newlen - 16), ssx is the hash of the block of new
at scan. -/
theorem rolling_buzhash (B : Build) (hd : hash_data) (old new : List Byte) (lo scan0 : Nat)
    (hol : 2 * old.length < B.M) (hnl : 2 * new.length < B.M) (hs : scan0 ≤ new.length) :
    (∀ (bs : List Byte), bs.length = 17 → ∃ x y, buzhash bs 0 = .ok x ∧ buzhash bs 1 = .ok y ∧
      ∀ st : HState, st.scan = 0 → st.ssx = x →
        ∃ st1, hf_roll B.M bs st = .ok st1 ∧ st1.ssx = y) ∧
    (∀ (ssx k : Nat) (st : HState),
      (if scan0 ≤ wsub B.M new.length HSIZE then buzhash new scan0 else .ok 0) = .ok ssx →
      hf_iter B.M hd old old.length new new.length lo k (hf_init ssx scan0) = .ok (some st) →
      ¬ st.scan ≥ wsub B.M new.length HSIZE →
      buzhash new st.scan = .ok st.ssx) := by
  have hM := B.M_cases
  have hb := IsM.big hM
  constructor
  · intro bs hbs
    obtain ⟨x, hx⟩ := buzhash_exists bs 0 (by omega)
    obtain ⟨y, hy⟩ := buzhash_exists bs 1 (by omega)
    refine ⟨x, y, hx, hy, ?_⟩
    intro st h0 hsx
    have hroll : ∃ st1, hf_roll B.M bs st = .ok st1 := by
      unfold hf_roll
      rw [h0, wadd_eq (by simp only [HSIZE]; omega), rdB_of_lt (by rw [hbs]; decide),
        rdB_of_lt (by rw [hbs]; decide)]
      exact ⟨_, rfl⟩
    obtain ⟨st1, h1⟩ := hroll
    refine ⟨st1, h1, ?_⟩
    have := hf_roll_ok (M := B.M) (by omega) (by rw [h0, hsx]; exact hx) h1
    rw [h0] at this
    have e := this.2.1
    rw [hy] at e
    simp only [Except.ok.injEq] at e
    exact e.symm
  · intro ssx k st hssx hit hprobe
    have h16 : 16 ≤ new.length := by
      by_contra hlt
      have hw : scan0 ≤ wsub B.M new.length HSIZE := by
        unfold wsub
        rw [Nat.mod_eq_of_lt (by simp only [HSIZE]; omega : HSIZE < B.M),
          Nat.mod_eq_of_lt (by simp only [HSIZE]; omega)]
        simp only [HSIZE]
        omega
      rw [if_pos hw] at hssx
      have := buzhash_ok hssx
      omega
    have hw : wsub B.M new.length HSIZE = new.length - 16 :=
      wsub_eq (by simp only [HSIZE]; omega) (by omega)
    rw [hw] at hssx hprobe
    have hr0 : HRoll new (hf_init ssx scan0) := by
      intro hc
      simp only [hf_init] at hc ⊢
      rw [if_pos (by omega)] at hssx
      exact hssx
    have hi0 : HInv old.length new.length scan0 (hf_init ssx scan0) :=
      ⟨le_refl _, le_refl _, hs, fun h => absurd h (by simp [hf_init])⟩
    have := (hf_iter_roll hM lo scan0 hol hnl h16 k _ st hi0 hr0 hit).2
    exact this (by omega)

/-- Witness for C18: the bounds of the run on old = bytes 0..47, new = 255 followed by
old. -/
theorem rolling_buzhash_witness :
    (2 * old48.length < B32.M ∧ 2 * new49.length < B32.M ∧ 0 ≤ new49.length) ∧
    ((∀ (bs : List Byte), bs.length = 17 → ∃ x y, buzhash bs 0 = .ok x ∧ buzhash bs 1 = .ok y ∧
      ∀ st : HState, st.scan = 0 → st.ssx = x →
        ∃ st1, hf_roll B32.M bs st = .ok st1 ∧ st1.ssx = y) ∧
    (∀ (ssx k : Nat) (st : HState),
      (if 0 ≤ wsub B32.M new49.length HSIZE then buzhash new49 0 else .ok 0) = .ok ssx →
      hf_iter B32.M hd_old48 old48 old48.length new49 new49.length 0 k (hf_init ssx 0) =
        .ok (some st) →
      ¬ st.scan ≥ wsub B32.M new49.length HSIZE →
      buzhash new49 st.scan = .ok st.ssx)) :=
  ⟨⟨by decide, by decide, by decide⟩,
    rolling_buzhash B32 hd_old48 old48 new49 0 0 (by decide) (by decide) (by decide)⟩

/-! ## hash_findnext on inputs shorter than a block -/

theorem rdB_oob {a : List Byte} {i : Nat} (h : a.length ≤ i) : rdB a i = .error .oob := by
  unfold rdB
  rw [List.getElem?_eq_none h]

theorem rdB_of_lt_ok {a : List Byte} {i : Nat} (h : i < a.length) : ∃ b, rdB a i = .ok b := by
  unfold rdB
  rw [List.getElem?_eq_getElem h]
  exact ⟨_, rfl⟩

/-- A call of buzhash on fewer bytes than it reads leaves the buffer. -/
theorem buzhash_go_short (buf : List Byte) :
    ∀ (n p x : Nat), 0 < n → buf.length < p + n → buzhash_go buf n p x = .error .oob := by
  intro n
  induction n with
  | zero => intro p x h; omega
  | succ k ih =>
    intro p x _ h
    unfold buzhash_go
    by_cases hp : buf.length ≤ p
    · rw [rdB_oob hp]; rfl
    · obtain ⟨b, hb⟩ := rdB_of_lt_ok (Nat.lt_of_not_le hp)
      rw [hb]
      exact ih _ _ (by omega) (by omega)

/-- With newlen < HSIZE the test scan <= newlen - HSIZE of hash_findnext holds for scan = 0,
the subtraction being unsigned, and the call buzhash(new + 0) reads behind new. -/
theorem hash_findnext_short (M fuel : Nat) (hd : hash_data) (old : List Byte) (oldlen : Nat)
    (new : List Byte) (lo : Nat) (h : new.length < 16) :
    hash_findnext M fuel hd old oldlen new new.length lo 0 = .error .oob := by
  unfold hash_findnext buzhash
  rw [if_pos (Nat.zero_le _), buzhash_go_short new 16 0 _ (by decide) (by simpa using h)]
  rfl

/-- C22 (failing input): for new = hello (5 bytes, less than one block) and scan = 0, whatever
the table, old and lastoffset, hash_findnext does not return (newlen, 0, 0): the unsigned
newlen - HSIZE is huge, the window-exit test is not taken, and buzhash(new + 0) reads
new[5], behind the buffer. -/
theorem short_new_read_behind_buffer (B : Build) (fuel : Nat) (hd : hash_data) (old : List Byte)
    (oldlen lo : Nat) :
    ¬ (0 ≥ wsub B.M hello.length HSIZE) ∧
    rdB hello 5 = .error .oob ∧
    hash_findnext B.M fuel hd old oldlen hello hello.length lo 0 = .error .oob ∧
    hash_findnext B.M fuel hd old oldlen hello hello.length lo 0 ≠ .ok (hello.length, 0, 0) := by
  have h := hash_findnext_short B.M fuel hd old oldlen hello lo (by decide)
  refine ⟨?_, rfl, h, ?_⟩
  · rcases B.M_cases with e | e <;> rw [e] <;> decide
  · rw [h]; simp

/-! ## the secondary slot of the double check -/

/-- The secondary slot of the double check is s + 1 for every s < prime, the comparison
with prime never being true: for the last slot it is prime, one behind the table. -/
theorem double_check_slot {prime s : Nat} (h : s < prime) :
    (if s = prime then 0 else s + 1) = s + 1 ∧ (s + 1 = prime → hash_next prime s = 0) := by
  constructor
  · rw [if_neg (by omega)]
  · intro e
    unfold hash_next
    rw [if_pos (by omega)]

/-- When the block at new + scan + 3 * HSIZE has its home in the last slot and that slot
holds another block, the double check reads hash[prime]. -/
theorem hf_double_last_slot {M : Nat} (hd : hash_data) (old : List Byte) (oldlen : Nat)
    (new : List Byte) (newlen scan pos len x p0 : Nat) (c : Int)
    (h1 : wadd M scan (HSIZE * 4) ≤ newlen) (hx : buzhash new (scan + HSIZE * 3) = .ok x)
    (hs : x % hd.prime + 1 = hd.prime) (hsz : hd.hash.size = hd.prime)
    (hp : hd.hash.rd ((x % hd.prime : Nat) : Int) = .ok p0) (hp0 : p0 ≠ 0)
    (hc : memcmp new (scan + HSIZE * 3) old (p0 - 1) HSIZE = .ok c) (hcne : c ≠ 0) :
    hd.hash.rd ((x % hd.prime + 1 : Nat) : Int) = .error .oob ∧
    hf_double M hd old oldlen new newlen scan pos len = .error .oob := by
  have hr : hd.hash.rd ((x % hd.prime + 1 : Nat) : Int) = .error .oob := by
    unfold Arr.rd
    rw [if_neg]
    rw [hsz]
    simp only [Int.toNat_ofNat]
    omega
  refine ⟨hr, ?_⟩
  unfold hf_double
  rw [if_pos h1, hx]
  simp only [bind, Except.bind]
  rw [hp]
  simp only [bind, Except.bind, if_pos hp0, hc, if_pos hcne]
  rw [if_neg (by omega)]
  have e : ((x % hd.prime : Nat) : Int) + 1 = ((x % hd.prime + 1 : Nat) : Int) := by push_cast; rfl
  rw [e, hr]

set_option maxRecDepth 1000000 in
/-- C21 (failing input): old = 0123456789abcdef lastslotblk-bltn and new = 0123456789abcdef,
32 dots, lastslotblk-enls in the 32-bit build. The table has prime = 65537 slots and slot
65536 holds the second block of old; the block at new + 48 has its home in slot 65536 too
and differs from the stored one, so the double check at scan = 0 reads hash[65537], behind
the table, whereas the main lookup wraps to slot 0. -/
theorem double_check_reads_behind_table :
    hashOk (hash_create B32 lastslot_old 32) = true ∧
    hd_lastslot.prime = 65537 ∧ hd_lastslot.hash.size = 65537 ∧
    buzhash lastslot_new 48 = .ok 3247554960 ∧ 3247554960 % 65537 = 65536 ∧
    hd_lastslot.hash.rd 65536 = .ok 17 ∧
    hash_next hd_lastslot.prime 65536 = 0 ∧
    hd_lastslot.hash.rd 65537 = .error .oob ∧
    hf_double B32.M hd_lastslot lastslot_old 32 lastslot_new 64 0 0 16 = .error .oob ∧
    hash_findnext B32.M 1 hd_lastslot lastslot_old 32 lastslot_new 64 0 0 = .error .oob := by
  decide!

/-! ## the overlap resolution -/

/-- The unsigned computations of a step whose extensions fit between lastscan and scan do
not wrap. -/
theorem copyin_exact {M : Nat} (hM : IsM M) {lastscan scan lenf lenb : Nat} (hs : 2 * scan < M)
    (hb : lenb ≤ scan) (hfit : lastscan + lenf ≤ scan - lenb) :
    wadd M lastscan lenf = lastscan + lenf ∧ wsub M scan lenb = scan - lenb ∧
    ((wsub M (wsub M scan lenb) (wadd M lastscan lenf) : Nat) : Int) =
      ((scan : Int) - (lenb : Int)) - ((lastscan : Int) + (lenf : Int)) ∧
    (lastscan + lenf = scan - lenb → wsub M (wsub M scan lenb) (wadd M lastscan lenf) = 0) := by
  have e1 : wadd M lastscan lenf = lastscan + lenf := wadd_eq (by omega)
  have e2 : wsub M scan lenb = scan - lenb := wsub_eq (by omega) (by omega)
  have e3 : wsub M (scan - lenb) (lastscan + lenf) = scan - lenb - (lastscan + lenf) :=
    wsub_eq (by omega) (by omega)
  refine ⟨e1, e2, ?_, ?_⟩
  · rw [e1, e2, e3]; omega
  · intro h; rw [e1, e2, e3]; omega

/-- The unsigned computations of the overlap resolution. -/
theorem overlap_exact {M : Nat} (hM : IsM M) {lastscan scan lenf0 lenb0 : Nat} (hs : 2 * scan < M)
    (h1 : lastscan ≤ scan) (h2 : lenf0 ≤ scan - lastscan) (h3 : lenb0 ≤ scan - lastscan)
    (hov : lastscan + lenf0 > scan - lenb0) :
    wsub M (wadd M lastscan lenf0) (wsub M scan lenb0) = overlapOf lastscan scan lenf0 lenb0 ∧
    overlapOf lastscan scan lenf0 lenb0 ≤ min lenf0 lenb0 ∧
    ∀ lens, lens ≤ overlapOf lastscan scan lenf0 lenb0 →
      wsub M lenf0 (wsub M (overlapOf lastscan scan lenf0 lenb0) lens) =
        lenf0 - (overlapOf lastscan scan lenf0 lenb0 - lens) ∧
      wsub M lenb0 lens = lenb0 - lens ∧
      lenb0 - lens ≤ scan ∧
      lenf0 - (overlapOf lastscan scan lenf0 lenb0 - lens) + (lenb0 - lens) = scan - lastscan ∧
      lastscan + (lenf0 - (overlapOf lastscan scan lenf0 lenb0 - lens)) = scan - (lenb0 - lens) := by
  have e1 : wadd M lastscan lenf0 = lastscan + lenf0 := wadd_eq (by omega)
  have e2 : wsub M scan lenb0 = scan - lenb0 := wsub_eq (by omega) (by omega)
  have e3 : wsub M (lastscan + lenf0) (scan - lenb0) = lastscan + lenf0 - (scan - lenb0) :=
    wsub_eq (by omega) (by omega)
  unfold overlapOf
  refine ⟨by rw [e1, e2, e3], le_min (by omega) (by omega), ?_⟩
  intro lens hl
  have e4 : wsub M (lastscan + lenf0 - (scan - lenb0)) lens =
      lastscan + lenf0 - (scan - lenb0) - lens := wsub_eq (by omega) (by omega)
  have e5 : wsub M lenf0 (lastscan + lenf0 - (scan - lenb0) - lens) =
      lenf0 - (lastscan + lenf0 - (scan - lenb0) - lens) := wsub_eq (by omega) (by omega)
  have e6 : wsub M lenb0 lens = lenb0 - lens := wsub_eq (by omega) (by omega)
  rw [e4]
  exact ⟨e5, e6, by omega, by omega, by omega⟩

/-- The two extensions of a shaping step are at most scan - lastscan long, and the backward
one at most pos. -/
theorem shape_parts (B : Build) (fuel : Nat) (data : IndexData) (noaddblk : Bool)
    {old new : List Byte} {scan0 lastscan lastpos : Nat} {r : Nat × Nat × Nat × Nat × Nat}
    (hol : 2 * old.length < B.M) (hnl : 2 * new.length < B.M)
    (h0 : scan0 ≤ new.length) (hls : lastscan ≤ scan0) (hlp : lastpos ≤ old.length)
    (h : shape B fuel data noaddblk old old.length new new.length scan0 lastscan lastpos = .ok r) :
    ∃ scan pos len lenf0 lenb0 : Nat,
      dm_findnext B fuel data old old.length new new.length
        (if noaddblk then old.length else wsub B.M lastpos lastscan) scan0 = .ok (scan, pos, len) ∧
      (if ¬ noaddblk then
          ext_fwd B.M old old.length new lastscan lastpos scan (scan - lastscan) 0 0 0 0
        else ext_fwd_exact B.M old old.length new lastscan lastpos scan (scan - lastscan) 0)
        = .ok lenf0 ∧
      (if ¬ noaddblk ∧ scan < new.length then ext_bwd B.M old new lastscan scan pos pos 1 0 0 0
        else .ok 0) = .ok lenb0 ∧
      scan0 ≤ scan ∧ scan ≤ new.length ∧ lenf0 ≤ scan - lastscan ∧ lenb0 ≤ scan - lastscan ∧
      (if wadd B.M lastscan lenf0 > wsub B.M scan lenb0 then do
          let lens ← ext_split B.M old new lastscan lastpos scan pos lenf0 lenb0
            (wsub B.M (wadd B.M lastscan lenf0) (wsub B.M scan lenb0))
            (wsub B.M (wadd B.M lastscan lenf0) (wsub B.M scan lenb0)) 0 0 0 0 0
          .ok (scan, pos, len,
            wsub B.M lenf0 (wsub B.M (wsub B.M (wadd B.M lastscan lenf0) (wsub B.M scan lenb0)) lens),
            wsub B.M lenb0 lens)
        else .ok (scan, pos, len, lenf0, lenb0)) = .ok r := by
  have hM := B.M_cases
  unfold shape at h
  simp only [bind_ok] at h
  obtain ⟨⟨scan, pos, len⟩, hf, lenf0, hlf, lenb0, hlb, h⟩ := h
  simp only at hlf hlb h
  have fo := dm_findnext_ok B fuel data _ scan0 _ hol hnl h0 hf
  obtain ⟨f1, f2, f3⟩ := fo
  simp only at f1 f2 f3
  have hlf' : lenf0 ≤ scan - lastscan ∧ lastpos + lenf0 ≤ old.length := by
    cases hnb : noaddblk with
    | false =>
      simp only [hnb, Bool.false_eq_true, not_false_eq_true, if_true] at hlf
      exact ext_fwd_ok hM (by omega) hol (by omega) hlp _ _ _ _ _ lenf0 (le_refl _)
        (by omega) (by omega) hlf
    | true =>
      simp only [hnb, not_true_eq_false, if_false] at hlf
      have := ext_fwd_exact_ok hM (by omega) hol (by omega) hlp _ _ lenf0
        (by omega) (by omega) (fun t ht => absurd ht (by omega)) hlf
      exact ⟨this.1, this.2.1⟩
  have hlb' : lenb0 ≤ scan - lastscan ∧ lenb0 ≤ pos := by
    by_cases hc : ¬ (noaddblk = true) ∧ scan < new.length
    · rw [if_pos hc] at hlb
      have hp := (f3 hc.2).1
      exact ext_bwd_ok hM (by omega) (by omega) (by omega) _ _ _ _ _ lenb0
        (by omega) (by omega) (by omega) hlb
    · rw [if_neg hc] at hlb
      simp only [Except.ok.injEq] at hlb
      subst hlb
      exact ⟨by omega, by omega⟩
  exact ⟨scan, pos, len, lenf0, lenb0, hf, hlf, hlb, f1, f2, hlf'.1, hlb'.1, h⟩

/-- C24: in a shaping step entered with lastscan <= scan0 <= newlen and lastpos <= oldlen (as
every iteration of the loop of mkdiff is), the two extensions are at most scan - lastscan
long. If they overlap, the unsigned value overlap is lastscan + lenf - (scan - lenb) and at
most min(lenf, lenb), the split lens is at most overlap, and after the two subtractions
lenf + lenb = scan - lastscan and the emitted copyin is 0. In every step lenb <= scan,
lastscan + lenf <= scan - lenb, and the unsigned copyin equals the integer
(scan - lenb) - (lastscan + lenf). -/
theorem overlap_resolved (B : Build) (fuel : Nat) (data : IndexData) (noaddblk : Bool)
    {old new : List Byte} {scan0 lastscan lastpos : Nat} {r : Nat × Nat × Nat × Nat × Nat}
    (hol : 2 * old.length < B.M) (hnl : 2 * new.length < B.M)
    (h0 : scan0 ≤ new.length) (hls : lastscan ≤ scan0) (hlp : lastpos ≤ old.length)
    (h : shape B fuel data noaddblk old old.length new new.length scan0 lastscan lastpos = .ok r) :
    ∃ scan pos len lenf0 lenb0 : Nat,
      dm_findnext B fuel data old old.length new new.length
        (if noaddblk then old.length else wsub B.M lastpos lastscan) scan0 = .ok (scan, pos, len) ∧
      (if ¬ noaddblk then
          ext_fwd B.M old old.length new lastscan lastpos scan (scan - lastscan) 0 0 0 0
        else ext_fwd_exact B.M old old.length new lastscan lastpos scan (scan - lastscan) 0)
        = .ok lenf0 ∧
      (if ¬ noaddblk ∧ scan < new.length then ext_bwd B.M old new lastscan scan pos pos 1 0 0 0
        else .ok 0) = .ok lenb0 ∧
      lastscan ≤ scan ∧ lenf0 ≤ scan - lastscan ∧ lenb0 ≤ scan - lastscan ∧
      (wadd B.M lastscan lenf0 > wsub B.M scan lenb0 ↔ lastscan + lenf0 > scan - lenb0) ∧
      (lastscan + lenf0 > scan - lenb0 →
        wsub B.M (wadd B.M lastscan lenf0) (wsub B.M scan lenb0) =
          overlapOf lastscan scan lenf0 lenb0 ∧
        overlapOf lastscan scan lenf0 lenb0 ≤ min lenf0 lenb0 ∧
        ∃ lens : Nat,
          ext_split B.M old new lastscan lastpos scan pos lenf0 lenb0
            (overlapOf lastscan scan lenf0 lenb0) (overlapOf lastscan scan lenf0 lenb0)
            0 0 0 0 0 = .ok lens ∧
          lens ≤ overlapOf lastscan scan lenf0 lenb0 ∧
          r = (scan, pos, len, lenf0 - (overlapOf lastscan scan lenf0 lenb0 - lens),
            lenb0 - lens) ∧
          r.2.2.2.1 + r.2.2.2.2 = scan - lastscan ∧
          wsub B.M (wsub B.M scan r.2.2.2.2) (wadd B.M lastscan r.2.2.2.1) = 0) ∧
      (¬ lastscan + lenf0 > scan - lenb0 → r = (scan, pos, len, lenf0, lenb0)) ∧
      r.1 = scan ∧ r.2.2.2.2 ≤ scan ∧ lastscan + r.2.2.2.1 ≤ scan - r.2.2.2.2 ∧
      wadd B.M lastscan r.2.2.2.1 = lastscan + r.2.2.2.1 ∧
      wsub B.M scan r.2.2.2.2 = scan - r.2.2.2.2 ∧
      ((wsub B.M (wsub B.M scan r.2.2.2.2) (wadd B.M lastscan r.2.2.2.1) : Nat) : Int) =
        ((scan : Int) - (r.2.2.2.2 : Int)) - ((lastscan : Int) + (r.2.2.2.1 : Int)) := by
  have hM := B.M_cases
  obtain ⟨scan, pos, len, lenf0, lenb0, hf, hlf, hlb, f1, f2, g1, g2, h⟩ :=
    shape_parts B fuel data noaddblk hol hnl h0 hls hlp h
  have hsl : lastscan ≤ scan := by omega
  have hs2 : 2 * scan < B.M := by omega
  have e1 : wadd B.M lastscan lenf0 = lastscan + lenf0 := wadd_eq (by omega)
  have e2 : wsub B.M scan lenb0 = scan - lenb0 := wsub_eq (by omega) (by omega)
  have hiff : wadd B.M lastscan lenf0 > wsub B.M scan lenb0 ↔ lastscan + lenf0 > scan - lenb0 := by
    rw [e1, e2]
  refine ⟨scan, pos, len, lenf0, lenb0, hf, hlf, hlb, hsl, g1, g2, hiff, ?_⟩
  by_cases hov : lastscan + lenf0 > scan - lenb0
  · rw [if_pos (hiff.2 hov)] at h
    simp only [bind_ok] at h
    obtain ⟨lens, hl, h⟩ := h
    simp only [Except.ok.injEq] at h
    obtain ⟨o1, o2, o3⟩ := overlap_exact hM hs2 hsl g1 g2 hov
    rw [o1] at hl h
    have hl' := ext_split_ok hM (by omega) _ _ _ _ _ _ lens (by omega) (le_refl _) hl
    obtain ⟨p1, p2, p3, p4, p5⟩ := o3 lens hl'
    rw [p1, p2] at h
    obtain ⟨c1, c2, c3, c4⟩ := copyin_exact hM hs2 p3 (le_of_eq p5)
    rw [← h]
    exact ⟨fun _ => ⟨o1, o2, lens, hl, hl', rfl, p4, c4 p5⟩, fun hn => absurd hov hn, rfl, p3,
      le_of_eq p5, c1, c2, c3⟩
  · rw [if_neg (fun hc => hov (hiff.1 hc))] at h
    simp only [Except.ok.injEq] at h
    have hb : lenb0 ≤ scan := by omega
    obtain ⟨c1, c2, c3, _⟩ := copyin_exact hM hs2 hb (Nat.le_of_not_lt hov)
    rw [← h]
    exact ⟨fun hp => absurd hp hov, fun _ => rfl, rfl, hb, Nat.le_of_not_lt hov, c1, c2, c3⟩

set_option maxRecDepth 1000000 in
theorem overlap_hash_ok : hash_create B32 overlap_old overlap_old.length = .ok (some hd_overlap) :=
  hashOk_ok (by decide!)

set_option maxRecDepth 1000000 in
theorem overlap_shape :
    shape B32 40 (.hash hd_overlap) false overlap_old overlap_old.length overlap_new
      overlap_new.length 0 0 0 = .ok (3, 13, 51, 3, 0) := by
  decide!

/-- Witness for C24: the hash method on overlap_old and overlap_new. The match of 51 bytes
is found at scan = 3 and pos = 13; the forward extension from 0 and the backward extension
from 3 are both 3 long and overlap in 3 bytes, the split keeps the forward ones. -/
theorem overlap_resolved_witness :
    dm_create B32 0 ⟨B32.DELTAMODE_HASH, .hash⟩ overlap_old overlap_old.length =
      .ok (some (.hash hd_overlap)) ∧
    shape B32 40 (.hash hd_overlap) false overlap_old overlap_old.length overlap_new
      overlap_new.length 0 0 0 = .ok (3, 13, 51, 3, 0) ∧
    ∃ scan pos len lenf0 lenb0 : Nat,
      dm_findnext B32 40 (.hash hd_overlap) overlap_old overlap_old.length overlap_new
        overlap_new.length
        (if false then overlap_old.length else wsub B32.M 0 0) 0 = .ok (scan, pos, len) ∧
      (if ¬ false then
          ext_fwd B32.M overlap_old overlap_old.length overlap_new 0 0 scan (scan - 0) 0 0 0 0
        else ext_fwd_exact B32.M overlap_old overlap_old.length overlap_new 0 0 scan (scan - 0) 0)
        = .ok lenf0 ∧
      (if ¬ false ∧ scan < overlap_new.length then
          ext_bwd B32.M overlap_old overlap_new 0 scan pos pos 1 0 0 0
        else .ok 0) = .ok lenb0 ∧
      0 ≤ scan ∧ lenf0 ≤ scan - 0 ∧ lenb0 ≤ scan - 0 ∧
      (wadd B32.M 0 lenf0 > wsub B32.M scan lenb0 ↔ 0 + lenf0 > scan - lenb0) ∧
      (0 + lenf0 > scan - lenb0 →
        wsub B32.M (wadd B32.M 0 lenf0) (wsub B32.M scan lenb0) =
          overlapOf 0 scan lenf0 lenb0 ∧
        overlapOf 0 scan lenf0 lenb0 ≤ min lenf0 lenb0 ∧
        ∃ lens : Nat,
          ext_split B32.M overlap_old overlap_new 0 0 scan pos lenf0 lenb0
            (overlapOf 0 scan lenf0 lenb0) (overlapOf 0 scan lenf0 lenb0)
            0 0 0 0 0 = .ok lens ∧
          lens ≤ overlapOf 0 scan lenf0 lenb0 ∧
          ((3, 13, 51, 3, 0) : Nat × Nat × Nat × Nat × Nat) =
            (scan, pos, len, lenf0 - (overlapOf 0 scan lenf0 lenb0 - lens), lenb0 - lens) ∧
          ((3, 13, 51, 3, 0) : Nat × Nat × Nat × Nat × Nat).2.2.2.1 +
            ((3, 13, 51, 3, 0) : Nat × Nat × Nat × Nat × Nat).2.2.2.2 = scan - 0 ∧
          wsub B32.M (wsub B32.M scan ((3, 13, 51, 3, 0) : Nat × Nat × Nat × Nat × Nat).2.2.2.2)
            (wadd B32.M 0 ((3, 13, 51, 3, 0) : Nat × Nat × Nat × Nat × Nat).2.2.2.1) = 0) ∧
      (¬ 0 + lenf0 > scan - lenb0 →
        ((3, 13, 51, 3, 0) : Nat × Nat × Nat × Nat × Nat) = (scan, pos, len, lenf0, lenb0)) ∧
      ((3, 13, 51, 3, 0) : Nat × Nat × Nat × Nat × Nat).1 = scan ∧
      ((3, 13, 51, 3, 0) : Nat × Nat × Nat × Nat × Nat).2.2.2.2 ≤ scan ∧
      0 + ((3, 13, 51, 3, 0) : Nat × Nat × Nat × Nat × Nat).2.2.2.1 ≤
        scan - ((3, 13, 51, 3, 0) : Nat × Nat × Nat × Nat × Nat).2.2.2.2 ∧
      wadd B32.M 0 ((3, 13, 51, 3, 0) : Nat × Nat × Nat × Nat × Nat).2.2.2.1 =
        0 + ((3, 13, 51, 3, 0) : Nat × Nat × Nat × Nat × Nat).2.2.2.1 ∧
      wsub B32.M scan ((3, 13, 51, 3, 0) : Nat × Nat × Nat × Nat × Nat).2.2.2.2 =
        scan - ((3, 13, 51, 3, 0) : Nat × Nat × Nat × Nat × Nat).2.2.2.2 ∧
      ((wsub B32.M (wsub B32.M scan ((3, 13, 51, 3, 0) : Nat × Nat × Nat × Nat × Nat).2.2.2.2)
          (wadd B32.M 0 ((3, 13, 51, 3, 0) : Nat × Nat × Nat × Nat × Nat).2.2.2.1) : Nat) : Int) =
        ((scan : Int) - (((3, 13, 51, 3, 0) : Nat × Nat × Nat × Nat × Nat).2.2.2.2 : Int)) -
          (((0 : Nat) : Int) + (((3, 13, 51, 3, 0) : Nat × Nat × Nat × Nat × Nat).2.2.2.1 : Int)) := by
  have hc : dm_create B32 0 ⟨B32.DELTAMODE_HASH, .hash⟩ overlap_old overlap_old.length =
      .ok (some (.hash hd_overlap)) := by
    unfold dm_create
    simp only [overlap_hash_ok]
    rfl
  exact ⟨hc, overlap_shape,
    overlap_resolved B32 40 (.hash hd_overlap) false (by decide) (by decide) (by decide)
      (by decide) (by decide) overlap_shape⟩

/-! ## the forward extension -/

/-- The loop of ext_fwd is the loop of ext_fwd_full with Sf dropped. -/
theorem ext_fwd_full_fst (M : Nat) (old : List Byte) (oldlen : Nat) (new : List Byte)
    (lastscan lastpos scan : Nat) :
    ∀ (cnt i s Sf lenf : Nat),
      ext_fwd M old oldlen new lastscan lastpos scan cnt i s Sf lenf =
        (ext_fwd_full M old oldlen new lastscan lastpos scan cnt i s Sf lenf).map Prod.fst := by
  intro cnt
  induction cnt with
  | zero => intro i s Sf lenf; rfl
  | succ n ih =>
    intro i s Sf lenf
    unfold ext_fwd ext_fwd_full
    split
    · cases h1 : rdB old (wadd M lastpos i) with
      | error e => rfl
      | ok a =>
        cases h2 : rdB new (wadd M lastscan i) with
        | error e => rfl
        | ok b =>
          simp only [bind, Except.bind]
          split
          · split
            · exact ih _ _ _ _
            · exact ih _ _ _ _
          · exact ih _ _ _ _
    · rfl

theorem fwdMatches_succ (old new : List Byte) (lastpos lastscan i : Nat) :
    fwdMatches old new lastpos lastscan (i + 1) =
      fwdMatches old new lastpos lastscan i +
        (if old[lastpos + i]? = new[lastscan + i]? then 1 else 0) := by
  unfold fwdMatches
  rw [List.range_succ, List.countP_append]
  simp [List.countP_cons]

theorem fwdMatches_le (old new : List Byte) (lastpos lastscan i : Nat) :
    fwdMatches old new lastpos lastscan i ≤ i := by
  unfold fwdMatches
  exact le_trans (List.countP_le_length _) (by simp)

theorem fwdScore_succ (old new : List Byte) (lastpos lastscan i : Nat) :
    fwdScore old new lastpos lastscan (i + 1) =
      fwdScore old new lastpos lastscan i +
        (if old[lastpos + i]? = new[lastscan + i]? then 1 else -1) := by
  unfold fwdScore
  rw [fwdMatches_succ]
  split <;> push_cast <;> ring

theorem fwdScore_le (old new : List Byte) (lastpos lastscan i : Nat) :
    fwdScore old new lastpos lastscan i ≤ (i : Int) := by
  unfold fwdScore
  have := fwdMatches_le old new lastpos lastscan i
  omega

theorem rdB_get {a : List Byte} {i : Nat} (h : i < a.length) :
    ∃ b, rdB a i = .ok b ∧ a[i]? = some b := by
  unfold rdB
  rw [List.getElem?_eq_getElem h]
  exact ⟨_, rfl, rfl⟩

/-- Invariant of the loop of the forward extension: s counts the matches among the first i
positions, Sf is the score of the prefix of length lenf, and that prefix is the longest one
of greatest score among the prefixes of length at most i. -/
theorem ext_fwd_full_max {M : Nat} (hM : IsM M) {old new : List Byte}
    {lastscan lastpos scan : Nat} (hol : 2 * old.length < M) (hsc : 2 * scan < M)
    (hsn : scan ≤ new.length) (hls : lastscan ≤ scan) (hlp : lastpos ≤ old.length) :
    ∀ (cnt i s Sf lenf : Nat), i + cnt = scan - lastscan → i ≤ old.length - lastpos →
      s = fwdMatches old new lastpos lastscan i → lenf ≤ i →
      (Sf : Int) = fwdScore old new lastpos lastscan lenf →
      (∀ j, j ≤ i → fwdScore old new lastpos lastscan j ≤ fwdScore old new lastpos lastscan lenf) →
      (∀ j, j ≤ i → fwdScore old new lastpos lastscan j = fwdScore old new lastpos lastscan lenf →
        j ≤ lenf) →
      ∃ lenf1 Sf1 : Nat,
        ext_fwd_full M old old.length new lastscan lastpos scan cnt i s Sf lenf =
          .ok (lenf1, Sf1) ∧
        lenf1 ≤ min (scan - lastscan) (old.length - lastpos) ∧
        (Sf1 : Int) = fwdScore old new lastpos lastscan lenf1 ∧
        (∀ j, j ≤ min (scan - lastscan) (old.length - lastpos) →
          fwdScore old new lastpos lastscan j ≤ fwdScore old new lastpos lastscan lenf1) ∧
        (∀ j, j ≤ min (scan - lastscan) (old.length - lastpos) →
          fwdScore old new lastpos lastscan j = fwdScore old new lastpos lastscan lenf1 →
          j ≤ lenf1) := by
  intro cnt
  induction cnt with
  | zero =>
    intro i s Sf lenf hc hi _ hl hS h1 h2
    have hn : min (scan - lastscan) (old.length - lastpos) = i := by
      rw [Nat.min_def]; split <;> omega
    rw [hn]
    exact ⟨lenf, Sf, rfl, hl, hS, h1, h2⟩
  | succ n ih =>
    intro i s Sf lenf hc hi hs hl hS h1 h2
    have e1 : wadd M lastscan i = lastscan + i := wadd_eq (by omega)
    have e2 : wadd M lastpos i = lastpos + i := wadd_eq (by omega)
    unfold ext_fwd_full
    rw [e1, e2]
    by_cases hcond : lastscan + i < scan ∧ lastpos + i < old.length
    · rw [if_pos hcond]
      obtain ⟨a, ha, ha'⟩ := rdB_get hcond.2
      obtain ⟨b, hb, hb'⟩ := rdB_get (show lastscan + i < new.length by omega)
      rw [ha, hb]
      simp only [bind, Except.bind]
      have hsc1 := fwdScore_succ old new lastpos lastscan i
      have hm1 := fwdMatches_succ old new lastpos lastscan i
      rw [ha', hb'] at hsc1 hm1
      have hsi := fwdMatches_le old new lastpos lastscan i
      have hSl := fwdScore_le old new lastpos lastscan lenf
      have ei : wadd M i 1 = i + 1 := wadd_eq (by omega)
      have hsci : fwdScore old new lastpos lastscan i ≤ fwdScore old new lastpos lastscan lenf :=
        h1 i (le_refl _)
      by_cases hab : a = b
      · rw [if_pos hab]
        rw [if_pos (by rw [hab])] at hsc1 hm1
        have es : wadd M s 1 = s + 1 := wadd_eq (by omega)
        have eS : wadd M Sf (i + 1) = Sf + (i + 1) := wadd_eq (by omega)
        have eD : wsub M (Sf + (i + 1)) (s + 1) = Sf + (i + 1) - (s + 1) :=
          wsub_eq (by omega) (by omega)
        simp only [ei, es, eS, eD]
        have hscore : fwdScore old new lastpos lastscan (i + 1) = 2 * ((s : Int) + 1) - ((i : Int) + 1) := by
          unfold fwdScore
          rw [hm1, hs]
          push_cast
          ring
        by_cases hge : s + 1 ≥ Sf + (i + 1) - (s + 1)
        · rw [if_pos hge]
          have e2s : 2 * (s + 1) % M = 2 * (s + 1) := Nat.mod_eq_of_lt (by omega)
          have eN : wsub M (2 * (s + 1)) (i + 1) = 2 * (s + 1) - (i + 1) :=
            wsub_eq (by omega) (by omega)
          rw [e2s, eN]
          refine ih (i + 1) (s + 1) _ (i + 1) (by omega) (by omega) (by rw [hm1, hs]) (le_refl _)
            ?_ ?_ ?_
          · rw [hscore]; omega
          · intro j hj
            rcases Nat.lt_or_ge j (i + 1) with hlt | hge2
            · have := h1 j (by omega)
              rw [hscore]; omega
            · have : j = i + 1 := by omega
              rw [this]
          · intro j hj _
            exact hj
        · rw [if_neg hge]
          refine ih (i + 1) (s + 1) Sf lenf (by omega) (by omega) (by rw [hm1, hs]) (by omega)
            hS ?_ ?_
          · intro j hj
            rcases Nat.lt_or_ge j (i + 1) with hlt | hge2
            · exact h1 j (by omega)
            · have : j = i + 1 := by omega
              rw [this, hscore]; omega
          · intro j hj hje
            rcases Nat.lt_or_ge j (i + 1) with hlt | hge2
            · exact h2 j (by omega) hje
            · have : j = i + 1 := by omega
              rw [this, hscore] at hje; omega
      · rw [if_neg hab]
        have hne : ¬ (some a = some b) := by simpa using hab
        rw [if_neg hne] at hsc1 hm1
        rw [ei]
        refine ih (i + 1) s Sf lenf (by omega) (by omega) (by rw [hm1, hs]; rfl) (by omega)
          hS ?_ ?_
        · intro j hj
          rcases Nat.lt_or_ge j (i + 1) with hlt | hge2
          · exact h1 j (by omega)
          · have : j = i + 1 := by omega
            rw [this, hsc1]; omega
        · intro j hj hje
          rcases Nat.lt_or_ge j (i + 1) with hlt | hge2
          · exact h2 j (by omega) hje
          · have : j = i + 1 := by omega
            rw [this, hsc1] at hje; omega
    · rw [if_neg hcond]
      have hn : min (scan - lastscan) (old.length - lastpos) = i := by
        rw [Nat.min_def]; split <;> omega
      rw [hn]
      exact ⟨lenf, Sf, rfl, hl, hS, h1, h2⟩

/-- C23: the forward extension of a shaping step without NOADDBLK, entered with
lastscan <= scan <= newlen and lastpos <= oldlen, returns; with n = min(scan - lastscan,
oldlen - lastpos) and m(i) the number of j < i with old[lastpos + j] = new[lastscan + j], the
computed lenf is at most n, its score 2 * m(lenf) - lenf is the greatest among the prefixes of
length at most n, lenf is the greatest length with that score, and Sf is that score; so
lenf = 0 when every non-empty prefix has more mismatches than matches. -/
theorem fwd_extension_maximal (B : Build) (old new : List Byte) (lastscan lastpos scan : Nat)
    (hol : 2 * old.length < B.M) (hnl : 2 * new.length < B.M)
    (hls : lastscan ≤ scan) (hsn : scan ≤ new.length) (hlp : lastpos ≤ old.length) :
    ∃ lenf Sf : Nat,
      ext_fwd_full B.M old old.length new lastscan lastpos scan (scan - lastscan) 0 0 0 0 =
        .ok (lenf, Sf) ∧
      ext_fwd B.M old old.length new lastscan lastpos scan (scan - lastscan) 0 0 0 0 = .ok lenf ∧
      lenf ≤ min (scan - lastscan) (old.length - lastpos) ∧
      (∀ i, i ≤ min (scan - lastscan) (old.length - lastpos) →
        fwdScore old new lastpos lastscan i ≤ fwdScore old new lastpos lastscan lenf) ∧
      (∀ i, i ≤ min (scan - lastscan) (old.length - lastpos) →
        fwdScore old new lastpos lastscan i = fwdScore old new lastpos lastscan lenf → i ≤ lenf) ∧
      (Sf : Int) = fwdScore old new lastpos lastscan lenf ∧
      ((∀ i, 0 < i → i ≤ min (scan - lastscan) (old.length - lastpos) →
        fwdScore old new lastpos lastscan i < 0) → lenf = 0) := by
  have z : fwdScore old new lastpos lastscan 0 = 0 := by simp [fwdScore, fwdMatches]
  obtain ⟨lenf, Sf, h, hle, hS, hmax, htie⟩ :=
    ext_fwd_full_max B.M_cases hol (by omega) hsn hls hlp (scan - lastscan) 0 0 0 0 (by omega)
      (by omega) (by simp [fwdMatches]) (le_refl _) (by rw [z]; rfl)
      (fun j hj => by have : j = 0 := by omega
                      rw [this])
      (fun j hj _ => hj)
  refine ⟨lenf, Sf, h, ?_, hle, hmax, htie, hS, ?_⟩
  · rw [ext_fwd_full_fst, h]; rfl
  · intro hneg
    by_contra hne
    have h1 := hneg lenf (by omega) hle
    have h2 := hmax 0 (by omega)
    rw [z] at h2
    omega

/-- Witness for C23: old = abcdefghijklmnop, new = abcdXXXXefghijklmnop, lastscan = lastpos
= 0 and scan = 20; the first four bytes match and lenf = Sf = 4. -/
theorem fwd_extension_maximal_witness :
    ext_fwd B32.M abc16 abc16.length abcX20 0 0 20 (20 - 0) 0 0 0 0 = .ok 4 ∧
    ∃ lenf Sf : Nat,
      ext_fwd_full B32.M abc16 abc16.length abcX20 0 0 20 (20 - 0) 0 0 0 0 = .ok (lenf, Sf) ∧
      ext_fwd B32.M abc16 abc16.length abcX20 0 0 20 (20 - 0) 0 0 0 0 = .ok lenf ∧
      lenf ≤ min (20 - 0) (abc16.length - 0) ∧
      (∀ i, i ≤ min (20 - 0) (abc16.length - 0) →
        fwdScore abc16 abcX20 0 0 i ≤ fwdScore abc16 abcX20 0 0 lenf) ∧
      (∀ i, i ≤ min (20 - 0) (abc16.length - 0) →
        fwdScore abc16 abcX20 0 0 i = fwdScore abc16 abcX20 0 0 lenf → i ≤ lenf) ∧
      (Sf : Int) = fwdScore abc16 abcX20 0 0 lenf ∧
      ((∀ i, 0 < i → i ≤ min (20 - 0) (abc16.length - 0) →
        fwdScore abc16 abcX20 0 0 i < 0) → lenf = 0) :=
  ⟨by decide, fwd_extension_maximal B32 abc16 abcX20 0 0 20 (by decide) (by decide) (by decide)
    (by decide) (by decide)⟩

/-! ## reconstruction from plain copies -/

/-- The extra stream written by the loop of mkdiff holds the literal regions of the
instructions it emits. -/
theorem mkdiff_loop_extra (B : Build) (fuel : Nat) (data : IndexData) (noaddblk : Bool)
    (req : Req) {old new : List Byte}
    (hol : 2 * old.length < B.M) (hnl : 2 * new.length < B.M) (hreq : req.instrp = true)
    (hext : req.extrablkp = true) :
    ∀ (cnt scan0 lastscan lastpos : Nat) (out out1 : Out),
      LoopPre old new scan0 lastscan lastpos →
      mkdiff_loop B fuel data noaddblk req old old.length new new.length cnt scan0 lastscan lastpos
        out = .ok out1 →
      ∃ l, out1.instrs = out.instrs ++ l ∧ out1.extrablk = out.extrablk ++ extra_of new l := by
  intro cnt
  induction cnt with
  | zero =>
    intro scan0 lastscan lastpos out out1 hpre h
    unfold mkdiff_loop at h
    split at h
    · simp at h
    · simp only [Except.ok.injEq] at h
      subst h
      exact ⟨[], by simp, by simp [extra_of]⟩
  | succ n ih =>
    intro scan0 lastscan lastpos out out1 hpre h
    unfold mkdiff_loop at h
    split at h
    · rename_i hlt
      obtain ⟨p1, p2, p3⟩ := hpre.2 hlt
      simp only [bind_ok] at h
      obtain ⟨⟨scan, pos, len, lenf, lenb⟩, hsh, ib, _, eb, heb, ab, _, h⟩ := h
      have so := shape_ok B fuel data noaddblk hol hnl p2 p1 p3 hsh
      obtain ⟨hnext, e1⟩ := LoopPre.next B hol hnl so
      simp only at h hnext e1 heb
      obtain ⟨l, hl, hx⟩ := ih _ _ _ _ out1 hnext h
      obtain ⟨s1, s2, s3, s4, s5, s6, s7, s8⟩ := so
      simp only at s1 s2 s3 s4 s5 s6 s7 s8
      have e2 : wadd B.M lastscan lenf = lastscan + lenf := wadd_eq (by omega)
      have e3 : wsub B.M (scan - lenb) (lastscan + lenf) =
          scan - lenb - (lastscan + lenf) := wsub_eq (by omega) (by omega)
      simp only [hreq, if_true, e2, e1, e3] at hl hx
      rw [e1, e2, e3] at heb
      have hw := write_extra_ok new _ _ _ _ _ (by omega) heb
      refine ⟨⟨lenf, scan - lenb - (lastscan + lenf), lastpos, lastscan + lenf⟩ :: l,
        by rw [hl]; simp, ?_⟩
      rw [hx, hw]
      simp [extra_of]
    · simp only [Except.ok.injEq] at h
      subst h
      exact ⟨[], by simp, by simp [extra_of]⟩

theorem take_drop_eq_of_get {a b : List Byte} {pa pb n : Nat} (ha : pa + n ≤ a.length)
    (hb : pb + n ≤ b.length) (h : ∀ t, t < n → a[pa + t]? = b[pb + t]?) :
    (a.drop pa).take n = (b.drop pb).take n := by
  apply List.ext_getElem?
  intro t
  by_cases ht : t < n
  · rw [List.getElem?_take_of_lt ht, List.getElem?_take_of_lt ht, List.getElem?_drop,
      List.getElem?_drop]
    exact h t ht
  · rw [List.getElem?_eq_none, List.getElem?_eq_none]
    · simp; omega
    · simp; omega

/-- Plain copies along instructions that tile new from a on, each an exact copy within
bounds, rebuild new from a on. -/
theorem copy_replay_ok (old new : List Byte) :
    ∀ (l : List instr) (a : Nat) (acc : List Byte), Covers a new.length l →
      (∀ k ∈ l, InstrOk true old new k) →
      copy_replay old l (extra_of new l) acc = some (acc ++ new.drop a) := by
  intro l
  induction l with
  | nil =>
    intro a acc hc _
    unfold Covers at hc
    simp [copy_replay, extra_of, hc]
  | cons k rest ih =>
    intro a acc hc hk
    obtain ⟨c1, c2⟩ := hc
    obtain ⟨o1, o2, o3, o4⟩ := hk k (List.mem_cons_self _ _)
    have hlen : ((new.drop k.copyinoff).take k.copyin).length = k.copyin := by
      rw [List.length_take, List.length_drop]; omega
    unfold copy_replay extra_of
    rw [if_pos ⟨o1, by rw [List.length_append, hlen]; omega⟩]
    have t1 : ((new.drop k.copyinoff).take k.copyin ++ extra_of new rest).take k.copyin =
        (new.drop k.copyinoff).take k.copyin := by
      rw [List.take_append_of_le_length (by omega)]
      rw [List.take_of_length_le (by omega)]
    have d1 : ((new.drop k.copyinoff).take k.copyin ++ extra_of new rest).drop k.copyin =
        extra_of new rest := by
      rw [List.drop_append_of_le_length (by omega)]
      rw [List.drop_of_length_le (by omega)]
      rfl
    rw [t1, d1, ih _ _ c2 (fun k1 h1 => hk k1 (List.mem_cons_of_mem _ h1))]
    have hcopy : (old.drop k.copyoutoff).take k.copyout = (new.drop a).take k.copyout := by
      apply take_drop_eq_of_get o1 (by omega)
      intro t ht
      have := o4 rfl t ht
      rw [this]
      congr 1
      omega
    rw [hcopy, Option.some.injEq, List.append_assoc, List.append_assoc, List.append_cancel_left_eq]
    have e2 : new.drop k.copyinoff = (new.drop a).drop k.copyout := by
      rw [List.drop_drop, c1]
    have e3 : new.drop (k.copyinoff + k.copyin) = (new.drop k.copyinoff).drop k.copyin := by
      rw [List.drop_drop]
    rw [e3, List.take_append_drop, e2, List.take_append_drop]

/-- C25: when mkdiff completes with DELTAMODE_NOADDBLK set and the instructions and the extra
block requested, the add stream is empty, every instruction is an exact copy (old[copyoutoff
+ t] = new[copyinoff - copyout + t] for all t < copyout), and copying copyout bytes of old
and then copyin bytes of the extra stream for each instruction rebuilds new and uses up the
extra stream. In every shaping step with noaddblk the backward extension lenb is 0. -/
theorem noaddblk_plain_copies (B : Build) (fuel : Nat) (mode : Int) (old new : List Byte)
    (req : Req) (out : Out) (hol : 2 * old.length < B.M) (hnl : 2 * new.length < B.M)
    (hmode : Int.land mode B.DELTAMODE_NOADDBLK ≠ 0)
    (r0 : req.instrp = true) (r3 : req.extrablkp = true)
    (h : mkdiff B fuel mode old new req = .ok out) :
    out.addblk = [] ∧
    (∀ k ∈ out.instrs, ∀ t, t < k.copyout →
      old[k.copyoutoff + t]? = new[k.copyinoff - k.copyout + t]?) ∧
    copy_replay old out.instrs out.extrablk [] = some new ∧
    (∀ (fuel2 : Nat) (data : IndexData) (scan0 lastscan lastpos : Nat)
      (r : Nat × Nat × Nat × Nat × Nat), scan0 ≤ new.length → lastscan ≤ scan0 →
      lastpos ≤ old.length →
      shape B fuel2 data true old old.length new new.length scan0 lastscan lastpos = .ok r →
      r.2.2.2.2 = 0) := by
  have hdec : decide (Int.land mode B.DELTAMODE_NOADDBLK ≠ 0) = true := by simpa using hmode
  obtain ⟨dm, data, _, _, hl⟩ := mkdiff_ok h
  rw [hdec] at hl
  obtain ⟨l1, i1, i2, i3⟩ :=
    mkdiff_loop_instrs B fuel data true req hol hnl r0 _ _ _ _ _ out (LoopPre.init old new) hl
  obtain ⟨l2, j1, j2⟩ :=
    mkdiff_loop_extra B fuel data true req hol hnl r0 r3 _ _ _ _ _ out (LoopPre.init old new) hl
  simp only [List.nil_append] at i1 j1 j2
  have e : l2 = l1 := by rw [← j1, i1]
  subst e
  refine ⟨mkdiff_loop_addblk B fuel data req old _ new _ _ _ _ _ _ _ hl, ?_, ?_, ?_⟩
  · intro k hk t ht
    rw [j1] at hk
    exact (i3 k hk).exact rfl t ht
  · rw [j1, j2, copy_replay_ok old new l2 0 [] i2 i3]
    simp
  · intro fuel2 data2 scan0 lastscan lastpos r g0 g1 g2 hs
    exact ((shape_ok B fuel2 data2 true hol hnl g0 g1 g2 hs).exact rfl).1

set_option maxRecDepth 1000000 in
/-- Witness for C25: old = abcdefghijklmnop, new = abcdXXXXefghijklmnop, hash method with
DELTAMODE_NOADDBLK: one instruction copies abcd, the other 16 bytes are in the extra stream. -/
theorem noaddblk_plain_copies_witness :
    Int.land (B32.DELTAMODE_HASH + B32.DELTAMODE_NOADDBLK) B32.DELTAMODE_NOADDBLK ≠ 0 ∧
    mkdiff B32 10 (B32.DELTAMODE_HASH + B32.DELTAMODE_NOADDBLK) abc16 abcX20 Req.all =
      .ok out_abc_exact ∧
    out_abc_exact.addblk = [] ∧
    (∀ k ∈ out_abc_exact.instrs, ∀ t, t < k.copyout →
      abc16[k.copyoutoff + t]? = abcX20[k.copyinoff - k.copyout + t]?) ∧
    copy_replay abc16 out_abc_exact.instrs out_abc_exact.extrablk [] = some abcX20 ∧
    (∀ (fuel2 : Nat) (data : IndexData) (scan0 lastscan lastpos : Nat)
      (r : Nat × Nat × Nat × Nat × Nat), scan0 ≤ abcX20.length → lastscan ≤ scan0 →
      lastpos ≤ abc16.length →
      shape B32 fuel2 data true abc16 abc16.length abcX20 abcX20.length scan0 lastscan lastpos
        = .ok r →
      r.2.2.2.2 = 0) := by
  have h : mkdiff B32 10 (B32.DELTAMODE_HASH + B32.DELTAMODE_NOADDBLK) abc16 abcX20 Req.all =
      .ok out_abc_exact := by decide!
  exact ⟨by decide, h, noaddblk_plain_copies B32 10
    (B32.DELTAMODE_HASH + B32.DELTAMODE_NOADDBLK) abc16 abcX20 Req.all out_abc_exact (by decide)
    (by decide) (by decide) rfl rfl h⟩

/-! ## the number of iterations of the loop of mkdiff -/

/-- The loop of mkdiff is the iteration of mkdiff_body. -/
theorem mkdiff_loop_succ (B : Build) (fuel : Nat) (data : IndexData) (noaddblk : Bool) (req : Req)
    (old : List Byte) (oldlen : Nat) (new : List Byte) (newlen cnt : Nat) (st : LState) :
    mkdiff_loop B fuel data noaddblk req old oldlen new newlen (cnt + 1) st.scan st.lastscan
        st.lastpos st.out =
      if st.lastscan < newlen then
        mkdiff_body B fuel data noaddblk req old oldlen new newlen st >>= fun st1 =>
          mkdiff_loop B fuel data noaddblk req old oldlen new newlen cnt st1.scan st1.lastscan
            st1.lastpos st1.out
      else .ok st.out := by
  conv_lhs => unfold mkdiff_loop
  unfold mkdiff_body
  split
  · simp only [bind_assoc]
    rfl
  · rfl

/-- A match that findnext of either method reports before the end of new is at least 32
bytes long. -/
theorem dm_findnext_long (B : Build) (fuel fuel2 : Nat) (dm : deltamode) (old new : List Byte)
    (data : IndexData) (lo scan0 : Nat) (r : Nat × Nat × Nat)
    (hol : 2 * old.length < B.M) (hnl : 2 * new.length < B.M) (hs : scan0 ≤ new.length)
    (hc : dm_create B fuel dm old old.length = .ok (some data))
    (h : dm_findnext B fuel2 data old old.length new new.length lo scan0 = .ok r)
    (hlt : r.1 < new.length) : 32 ≤ r.2.2 := by
  cases data with
  | hash hd => exact (hash_findnext_gen B.M_cases fuel2 lo scan0 r hol hnl hs h hlt).1
  | suf sd =>
    have hsd : suf_create B fuel old old.length = .ok (some sd) := by
      unfold dm_create at hc
      split at hc
      · simp only [bind_ok] at hc
        obtain ⟨x, hx, hc⟩ := hc
        simp only [Except.ok.injEq] at hc
        cases x with
        | none => simp at hc
        | some y =>
          simp only [Option.map_some', Option.some.injEq, IndexData.suf.injEq] at hc
          rw [hc] at hx
          exact hx
      · simp only [bind_ok] at hc
        obtain ⟨x, _, hc⟩ := hc
        simp only [Except.ok.injEq] at hc
        cases x with
        | none => simp at hc
        | some y => simp at hc
    simp only [dm_findnext] at h
    unfold suf_findnext at h
    simp only [bind_ok] at h
    obtain ⟨stf, hl, h⟩ := h
    simp only [Except.ok.injEq] at h
    subst h
    obtain ⟨_, _, r3, _⟩ := sf_loop_end B fuel old sd hol hsd new hnl lo scan0 _ (sf_init scan0)
      stf (SInv.start B.M old new lo scan0 hs) hl
    have := r3 hlt
    show 32 ≤ stf.len
    omega

/-- A shaping step either reaches the end of new, with lenb = 0 and the next lastscan equal
to newlen, or finds a match of at least 32 bytes that ends within new. -/
theorem shape_advance (B : Build) (fuel fuel2 : Nat) (dm : deltamode) (data : IndexData)
    (noaddblk : Bool) {old new : List Byte} {scan0 lastscan lastpos : Nat}
    {r : Nat × Nat × Nat × Nat × Nat}
    (hol : 2 * old.length < B.M) (hnl : 2 * new.length < B.M)
    (hc : dm_create B fuel dm old old.length = .ok (some data))
    (h0 : scan0 ≤ new.length) (hls : lastscan ≤ scan0) (hlp : lastpos ≤ old.length)
    (h : shape B fuel2 data noaddblk old old.length new new.length scan0 lastscan lastpos = .ok r) :
    scan0 ≤ r.1 ∧
    ((r.1 = new.length ∧ r.2.2.2.2 = 0 ∧ wsub B.M r.1 r.2.2.2.2 = new.length) ∨
     (r.1 < new.length ∧ 32 ≤ r.2.2.1 ∧ wadd B.M r.1 r.2.2.1 = r.1 + r.2.2.1 ∧
       r.1 + r.2.2.1 ≤ new.length)) := by
  have so := shape_ok B fuel2 data noaddblk hol hnl h0 hls hlp h
  refine ⟨so.scan_ge, ?_⟩
  by_cases hlt : r.1 < new.length
  · right
    have hlen : 32 ≤ r.2.2.1 := by
      unfold shape at h
      simp only [bind_ok] at h
      obtain ⟨⟨scan, pos, len⟩, hf, lenf0, _, lenb0, _, h⟩ := h
      simp only at h
      have e : r.1 = scan ∧ r.2.2.1 = len := by
        split at h
        · simp only [bind_ok] at h
          obtain ⟨lens, _, h⟩ := h
          simp only [Except.ok.injEq] at h
          rw [← h]
          exact ⟨rfl, rfl⟩
        · simp only [Except.ok.injEq] at h
          rw [← h]
          exact ⟨rfl, rfl⟩
      rw [e.2]
      rw [e.1] at hlt
      exact dm_findnext_long B fuel fuel2 dm old new data _ scan0 (scan, pos, len) hol hnl h0 hc hf
        hlt
    have hfit := (so.found hlt).2
    exact ⟨hlt, hlen, wadd_eq (by omega), hfit⟩
  · left
    have hb := so.last hlt
    have he : r.1 = new.length := le_antisymm so.scan_le (Nat.le_of_not_lt hlt)
    refine ⟨he, hb, ?_⟩
    rw [hb, he]
    exact wsub_eq (Nat.zero_le _) (by omega)

/-- One iteration of the loop of mkdiff keeps the invariant and adds one instruction. -/
theorem mkdiff_body_inv (B : Build) (fuel fuel2 : Nat) (dm : deltamode) (data : IndexData)
    (noaddblk : Bool) (req : Req) {old new : List Byte}
    (hol : 2 * old.length < B.M) (hnl : 2 * new.length < B.M)
    (hc : dm_create B fuel dm old old.length = .ok (some data))
    {k : Nat} {st st1 : LState} (hinv : LInv old new k st) (hlt : st.lastscan < new.length)
    (h : mkdiff_body B fuel2 data noaddblk req old old.length new new.length st = .ok st1) :
    LInv old new (k + 1) st1 ∧
    (req.instrp = true → st1.out.instrs.length = st.out.instrs.length + 1) := by
  obtain ⟨hpre, hk⟩ := hinv
  obtain ⟨p1, p2, p3⟩ := hpre.2 hlt
  have hk := hk hlt
  unfold mkdiff_body at h
  simp only [bind_ok] at h
  obtain ⟨⟨scan, pos, len, lenf, lenb⟩, hsh, ib, _, eb, _, ab, _, h⟩ := h
  simp only [Except.ok.injEq] at h
  have so := shape_ok B fuel2 data noaddblk hol hnl p2 p1 p3 hsh
  obtain ⟨hnext, e1⟩ := LoopPre.next B hol hnl so
  obtain ⟨a1, a2⟩ := shape_advance B fuel fuel2 dm data noaddblk hol hnl hc p2 p1 p3 hsh
  simp only at hnext e1 a1 a2
  rw [← h]
  refine ⟨⟨hnext, ?_⟩, ?_⟩
  · intro hl
    simp only at hl ⊢
    rcases a2 with ⟨_, _, b3⟩ | ⟨_, b2, b3, _⟩
    · omega
    · rw [b3]; omega
  · intro hr
    simp only [hr, if_true, List.length_append, List.length_singleton]

/-- After k iterations the invariant holds with k more, the iterations but the last each
advanced scan by 32, and k instructions were added. -/
theorem mkdiff_rounds_inv (B : Build) (fuel fuel2 : Nat) (dm : deltamode) (data : IndexData)
    (noaddblk : Bool) (req : Req) {old new : List Byte}
    (hol : 2 * old.length < B.M) (hnl : 2 * new.length < B.M)
    (hc : dm_create B fuel dm old old.length = .ok (some data)) :
    ∀ (k j : Nat) (st st1 : LState), LInv old new j st →
      mkdiff_rounds B fuel2 data noaddblk req old old.length new new.length k st = .ok (some st1) →
      LInv old new (j + k) st1 ∧ (0 < k → 32 * (j + k - 1) ≤ new.length) ∧
      (req.instrp = true → st1.out.instrs.length = st.out.instrs.length + k) := by
  intro k
  induction k with
  | zero =>
    intro j st st1 hinv h
    simp only [mkdiff_rounds, Except.ok.injEq, Option.some.injEq] at h
    subst h
    exact ⟨hinv, fun h => absurd h (by omega), fun _ => rfl⟩
  | succ n ih =>
    intro j st st1 hinv h
    unfold mkdiff_rounds at h
    split at h
    · rename_i hlt
      simp only [bind_ok] at h
      obtain ⟨st2, hb, h⟩ := h
      obtain ⟨i1, i2⟩ := mkdiff_body_inv B fuel fuel2 dm data noaddblk req hol hnl hc hinv hlt hb
      obtain ⟨q1, q2, q3⟩ := ih (j + 1) st2 st1 i1 h
      have e : j + 1 + n = j + (n + 1) := by omega
      rw [e] at q1
      refine ⟨q1, fun _ => ?_, fun hr => ?_⟩
      · rcases Nat.eq_zero_or_pos n with hz | hp
        · subst hz
          have := hinv.2 hlt
          have := (hinv.1.2 hlt).2.1
          omega
        · have := q2 hp
          have e2 : j + 1 + n - 1 = j + (n + 1) - 1 := by omega
          rw [e2] at this
          exact this
      · rw [q3 hr, i2 hr]; omega
    · simp at h

/-- The loop of mkdiff run with budget cnt from state st ends in one of three ways: it
returns after some k <= cnt iterations, an iteration fails, or the budget is used up with
lastscan < newlen after cnt iterations. -/
theorem mkdiff_loop_rounds (B : Build) (fuel : Nat) (data : IndexData) (noaddblk : Bool)
    (req : Req) (old : List Byte) (oldlen : Nat) (new : List Byte) (newlen : Nat) :
    ∀ (cnt : Nat) (st : LState),
      (∃ k st1, k ≤ cnt ∧
        mkdiff_rounds B fuel data noaddblk req old oldlen new newlen k st = .ok (some st1) ∧
        ¬ st1.lastscan < newlen ∧
        mkdiff_loop B fuel data noaddblk req old oldlen new newlen cnt st.scan st.lastscan
          st.lastpos st.out = .ok st1.out) ∨
      (∃ k st1 e, k < cnt ∧
        mkdiff_rounds B fuel data noaddblk req old oldlen new newlen k st = .ok (some st1) ∧
        st1.lastscan < newlen ∧
        mkdiff_body B fuel data noaddblk req old oldlen new newlen st1 = .error e ∧
        mkdiff_loop B fuel data noaddblk req old oldlen new newlen cnt st.scan st.lastscan
          st.lastpos st.out = .error e) ∨
      (∃ st1,
        mkdiff_rounds B fuel data noaddblk req old oldlen new newlen cnt st = .ok (some st1) ∧
        st1.lastscan < newlen ∧
        mkdiff_loop B fuel data noaddblk req old oldlen new newlen cnt st.scan st.lastscan
          st.lastpos st.out = .error .fuel) := by
  intro cnt
  induction cnt with
  | zero =>
    intro st
    by_cases hlt : st.lastscan < newlen
    · right; right
      refine ⟨st, rfl, hlt, ?_⟩
      unfold mkdiff_loop
      rw [if_pos hlt]
    · left
      refine ⟨0, st, le_refl _, rfl, hlt, ?_⟩
      unfold mkdiff_loop
      rw [if_neg hlt]
  | succ n ih =>
    intro st
    rw [mkdiff_loop_succ]
    by_cases hlt : st.lastscan < newlen
    · rw [if_pos hlt]
      cases hb : mkdiff_body B fuel data noaddblk req old oldlen new newlen st with
      | error e =>
        right; left
        exact ⟨0, st, e, by omega, rfl, hlt, hb, rfl⟩
      | ok st2 =>
        have hr : ∀ k, mkdiff_rounds B fuel data noaddblk req old oldlen new newlen (k + 1) st =
            mkdiff_rounds B fuel data noaddblk req old oldlen new newlen k st2 := by
          intro k
          conv_lhs => unfold mkdiff_rounds
          rw [if_pos hlt, hb]
          rfl
        have hbind : (Except.ok st2 >>= fun st1 =>
            mkdiff_loop B fuel data noaddblk req old oldlen new newlen n st1.scan st1.lastscan
              st1.lastpos st1.out) =
            mkdiff_loop B fuel data noaddblk req old oldlen new newlen n st2.scan st2.lastscan
              st2.lastpos st2.out := rfl
        rw [hbind]
        rcases ih st2 with ⟨k, st1, c1, c2, c3, c4⟩ | ⟨k, st1, e, c1, c2, c3, c4, c5⟩ |
          ⟨st1, c2, c3, c4⟩
        · left
          exact ⟨k + 1, st1, by omega, by rw [hr]; exact c2, c3, c4⟩
        · right; left
          exact ⟨k + 1, st1, e, by omega, by rw [hr]; exact c2, c3, c4, c5⟩
        · right; right
          exact ⟨st1, by rw [hr]; exact c2, c3, c4⟩
    · rw [if_neg hlt]
      left
      exact ⟨0, st, by omega, rfl, hlt, rfl⟩

/-! ## runs that do not use up the step budget -/

theorem NoFuel.ok {α : Type} (a : α) : NoFuel (.ok a : Res α) := by
  intro h; cases h

theorem NoFuel.err {α : Type} {e : Err} (h : e ≠ .fuel) : NoFuel (.error e : Res α) := by
  intro h1; cases h1; exact h rfl

theorem NoFuel.bind {α β : Type} {x : Res α} {f : α → Res β} (hx : NoFuel x)
    (hf : ∀ a, x = .ok a → NoFuel (f a)) : NoFuel (x >>= f) := by
  cases x with
  | error e =>
    intro h
    apply hx
    cases e <;> first | rfl | cases h
  | ok a => exact hf a rfl

theorem NoFuel.ite {α : Type} {c : Prop} [Decidable c] {x y : Res α} (hx : c → NoFuel x)
    (hy : ¬ c → NoFuel y) : NoFuel (if c then x else y) := by
  split
  · rename_i h; exact hx h
  · rename_i h; exact hy h

theorem rdB_nofuel (a : List Byte) (i : Nat) : NoFuel (rdB a i) := by
  unfold rdB
  split
  · exact NoFuel.ok _
  · exact NoFuel.err (by decide)

theorem rd_nofuel {α : Type} (a : Arr α) (i : Int) : NoFuel (a.rd i) := by
  unfold Arr.rd
  split
  · split
    · exact NoFuel.ok _
    · exact NoFuel.err (by decide)
  · exact NoFuel.err (by decide)

theorem memcmp_nofuel (a : List Byte) (pa : Nat) (b : List Byte) (pb n : Nat) :
    NoFuel (memcmp a pa b pb n) := by
  unfold memcmp
  split
  · exact NoFuel.ok _
  · exact NoFuel.err (by decide)

theorem matchlen_go_nofuel (old : List Byte) (po : Nat) (new : List Byte) (pn : Nat) :
    ∀ (max k : Nat), NoFuel (matchlen_go old po new pn max k) := by
  intro max
  induction max with
  | zero => intro k; exact NoFuel.ok _
  | succ n ih =>
    intro k
    unfold matchlen_go
    refine NoFuel.bind (rdB_nofuel _ _) (fun a _ => NoFuel.bind (rdB_nofuel _ _) (fun b _ => ?_))
    exact NoFuel.ite (fun _ => NoFuel.ok _) (fun _ => ih _)

theorem matchlen_nofuel (old : List Byte) (po oldlen : Nat) (new : List Byte) (pn newlen : Nat) :
    NoFuel (matchlen old po oldlen new pn newlen) :=
  matchlen_go_nofuel _ _ _ _ _ _

theorem buzhash_go_nofuel (buf : List Byte) :
    ∀ (n p x : Nat), NoFuel (buzhash_go buf n p x) := by
  intro n
  induction n with
  | zero => intro p x; exact NoFuel.ok _
  | succ k ih =>
    intro p x
    unfold buzhash_go
    exact NoFuel.bind (rdB_nofuel _ _) (fun c _ => ih _ _)

theorem buzhash_nofuel (buf : List Byte) (p : Nat) : NoFuel (buzhash buf p) :=
  buzhash_go_nofuel _ _ _ _

theorem score_hit_nofuel (M : Nat) (old : List Byte) (oldlen : Nat) (new : List Byte)
    (lo k : Nat) : NoFuel (score_hit M old oldlen new lo k) := by
  unfold score_hit
  refine NoFuel.ite (fun _ => ?_) (fun _ => NoFuel.ok _)
  exact NoFuel.bind (rdB_nofuel _ _) (fun a _ => NoFuel.bind (rdB_nofuel _ _)
    (fun b _ => NoFuel.ok _))

theorem score_count_nofuel (M : Nat) (old : List Byte) (oldlen : Nat) (new : List Byte)
    (lo : Nat) : ∀ (cnt scsc os : Nat), NoFuel (score_count M old oldlen new lo cnt scsc os) := by
  intro cnt
  induction cnt with
  | zero => intro scsc os; exact NoFuel.ok _
  | succ n ih =>
    intro scsc os
    unfold score_count
    exact NoFuel.bind (score_hit_nofuel _ _ _ _ _ _) (fun hit _ => ih _ _)

theorem hf_roll_nofuel (M : Nat) (new : List Byte) (st : HState) : NoFuel (hf_roll M new st) := by
  unfold hf_roll
  exact NoFuel.bind (rdB_nofuel _ _) (fun a _ => NoFuel.bind (rdB_nofuel _ _)
    (fun b _ => NoFuel.ok _))

theorem hf_leftext_nofuel (M : Nat) (old new : List Byte) :
    ∀ (i : Nat) (st : HState), NoFuel (hf_leftext M old new i st) := by
  intro i
  induction i with
  | zero => intro st; exact NoFuel.ok _
  | succ n ih =>
    intro st
    unfold hf_leftext
    refine NoFuel.ite (fun _ => ?_) (fun _ => NoFuel.ok _)
    refine NoFuel.bind (rdB_nofuel _ _) (fun a _ => NoFuel.bind (rdB_nofuel _ _) (fun b _ => ?_))
    exact NoFuel.ite (fun _ => ih _) (fun _ => NoFuel.ok _)

theorem hf_oldscore_nofuel (M : Nat) (old : List Byte) (oldlen : Nat) (new : List Byte)
    (lo : Nat) (st : HState) : NoFuel (hf_oldscore M old oldlen new lo st) := by
  unfold hf_oldscore
  refine NoFuel.ite (fun _ => ?_) (fun _ => ?_)
  · exact NoFuel.bind (score_count_nofuel _ _ _ _ _ _ _ _) (fun _ _ => NoFuel.ok _)
  · exact NoFuel.bind (score_hit_nofuel _ _ _ _ _ _) (fun _ _ =>
      NoFuel.bind (score_count_nofuel _ _ _ _ _ _ _ _) (fun _ _ => NoFuel.ok _))

theorem hf_gotit_nofuel (M : Nat) (old : List Byte) (oldlen : Nat) (new : List Byte)
    (newlen lo : Nat) (st : HState) : NoFuel (hf_gotit M old oldlen new newlen lo st) := by
  unfold hf_gotit
  simp only
  refine NoFuel.ite (fun _ => ?_) (fun _ => ?_)
  · refine NoFuel.bind (NoFuel.ite (fun _ => buzhash_nofuel _ _) (fun _ => NoFuel.ok _))
      (fun _ _ => NoFuel.ok _)
  · refine NoFuel.bind (hf_leftext_nofuel _ _ _ _ _) (fun st1 _ =>
      NoFuel.bind (hf_oldscore_nofuel _ _ _ _ _ _) (fun st2 _ => ?_))
    refine NoFuel.ite (fun _ => NoFuel.ok _) (fun _ => ?_)
    exact NoFuel.bind (NoFuel.ite (fun _ => buzhash_nofuel _ _) (fun _ => NoFuel.ok _))
      (fun _ _ => NoFuel.ok _)

theorem hf_scannext_nofuel (M : Nat) (old : List Byte) (oldlen : Nat) (new : List Byte)
    (newlen lo : Nat) (st : HState) : NoFuel (hf_scannext M old oldlen new newlen lo st) := by
  unfold hf_scannext
  refine NoFuel.ite (fun _ => hf_gotit_nofuel _ _ _ _ _ _ _) (fun _ => ?_)
  exact NoFuel.bind (hf_roll_nofuel _ _ _) (fun _ _ => NoFuel.ok _)

theorem hf_double_nofuel (M : Nat) (hd : hash_data) (old : List Byte) (oldlen : Nat)
    (new : List Byte) (newlen scan pos len : Nat) :
    NoFuel (hf_double M hd old oldlen new newlen scan pos len) := by
  unfold hf_double
  refine NoFuel.ite (fun _ => ?_) (fun _ => NoFuel.ok _)
  refine NoFuel.bind (buzhash_nofuel _ _) (fun x _ => NoFuel.bind (rd_nofuel _ _) (fun p0 _ => ?_))
  refine NoFuel.bind ?_ (fun p1 _ => ?_)
  · refine NoFuel.ite (fun _ => ?_) (fun _ => NoFuel.ok _)
    exact NoFuel.bind (memcmp_nofuel _ _ _ _ _) (fun c _ =>
      NoFuel.ite (fun _ => rd_nofuel _ _) (fun _ => NoFuel.ok _))
  · refine NoFuel.ite (fun _ => ?_) (fun _ => NoFuel.ok _)
    refine NoFuel.ite (fun _ => ?_) (fun _ => NoFuel.ok _)
    exact NoFuel.bind (matchlen_nofuel _ _ _ _ _ _) (fun _ _ =>
      NoFuel.ite (fun _ => NoFuel.ok _) (fun _ => NoFuel.ok _))

theorem hf_hit_nofuel (M : Nat) (hd : hash_data) (old : List Byte) (oldlen : Nat)
    (new : List Byte) (newlen lo : Nat) (st : HState) (pos : Nat) :
    NoFuel (hf_hit M hd old oldlen new newlen lo st pos) := by
  unfold hf_hit
  refine NoFuel.bind (matchlen_nofuel _ _ _ _ _ _) (fun l _ =>
    NoFuel.bind (hf_double_nofuel _ _ _ _ _ _ _ _ _) (fun r _ => ?_))
  exact hf_scannext_nofuel _ _ _ _ _ _ _

theorem hf_body_nofuel (M : Nat) (hd : hash_data) (old : List Byte) (oldlen : Nat)
    (new : List Byte) (newlen lo : Nat) (st : HState) :
    NoFuel (hf_body M hd old oldlen new newlen lo st) := by
  unfold hf_body
  refine NoFuel.ite (fun _ => ?_) (fun _ => ?_)
  · exact NoFuel.ite (fun _ => hf_gotit_nofuel _ _ _ _ _ _ _) (fun _ => NoFuel.ok _)
  · refine NoFuel.bind (rd_nofuel _ _) (fun p _ => ?_)
    refine NoFuel.ite (fun _ => hf_scannext_nofuel _ _ _ _ _ _ _) (fun _ => ?_)
    refine NoFuel.bind (memcmp_nofuel _ _ _ _ _) (fun c _ => ?_)
    refine NoFuel.ite (fun _ => ?_) (fun _ => hf_hit_nofuel _ _ _ _ _ _ _ _ _)
    refine NoFuel.bind (rd_nofuel _ _) (fun q _ => ?_)
    refine NoFuel.ite (fun _ => hf_scannext_nofuel _ _ _ _ _ _ _) (fun _ => ?_)
    refine NoFuel.bind (memcmp_nofuel _ _ _ _ _) (fun c2 _ => ?_)
    exact NoFuel.ite (fun _ => hf_scannext_nofuel _ _ _ _ _ _ _)
      (fun _ => hf_hit_nofuel _ _ _ _ _ _ _ _ _)

/-! ## the loop of hash_findnext ends -/

/-- When the code at gotit goes on with the loop, the candidate is dropped and the search
restarts behind the start of the candidate. -/
theorem hf_gotit_next {M : Nat} (hM : IsM M) {old new : List Byte} (lo scan0 : Nat)
    (hnl : 2 * new.length < M) {st st1 : HState}
    (hinv : HInv old.length new.length scan0 st) (hll : st.llen ≥ 32)
    (h : hf_gotit M old old.length new new.length lo st = .ok (.next, st1)) :
    st1.llen = 0 ∧ st1.scanstart = st1.scan ∧ st.lscan + 1 ≤ st1.scan ∧
    st1.scan ≤ new.length := by
  obtain ⟨b1, b2, b3, b4, b5⟩ := hinv.best (by omega)
  have i1 := hinv.start_ge
  unfold hf_gotit at h
  simp only at h
  split at h
  · simp only [bind_ok] at h
    obtain ⟨ssx, _, h⟩ := h
    simp only [Except.ok.injEq, Prod.mk.injEq, true_and] at h
    subst h
    have hw : wadd M st.lscan st.llen = st.lscan + st.llen := wadd_eq (by omega)
    simp only [hw]
    exact ⟨trivial, trivial, by omega, b3⟩
  · simp only [bind_ok] at h
    obtain ⟨st2, h1, st3, h2, h⟩ := h
    have hw : wsub M st.lscan st.scanstart = st.lscan - st.scanstart :=
      wsub_eq (by omega) (by omega)
    rw [hw] at h1
    have l1 := hf_leftext_ok hM old new new.length hnl _ _ st2 (by simpa using b3) h1
    simp only at l1
    have l2 := hf_oldscore_ok h2
    split at h
    · simp only [Except.ok.injEq, Prod.mk.injEq] at h
      exact absurd h.1 (by decide)
    · simp only [bind_ok] at h
      obtain ⟨ssx, _, h⟩ := h
      simp only [Except.ok.injEq, Prod.mk.injEq, true_and] at h
      subst h
      have e1 : wadd M st3.lscan 1 = st3.lscan + 1 := wadd_eq (by omega)
      have e2 : st3.len > 16 * 3 + 32 →
          wadd M st3.scan (wsub M st3.len (16 * 3 + 32)) = st3.scan + (st3.len - 80) := by
        intro hgt
        rw [wsub_eq (by omega) (by omega), wadd_eq (by omega)]
      refine ⟨rfl, rfl, ?_, ?_⟩
      · simp only [HSIZE]
        split
        · split
          · rw [e1]; omega
          · rename_i hgt _
            rw [e2 hgt]; omega
        · split
          · rw [e1]; omega
          · omega
      · simp only [HSIZE]
        split
        · split
          · rw [e1]; omega
          · rename_i hgt _
            rw [e2 hgt]; omega
        · split
          · rw [e1]; omega
          · omega

/-- An iteration that ends at gotit and goes on decreases the measure. -/
theorem hf_gotit_dec {M : Nat} (hM : IsM M) {old new : List Byte} (lo scan0 : Nat)
    (hnl : 2 * new.length < M) {st st1 : HState}
    (hinv : HInv old.length new.length scan0 st) (hll : st.llen ≥ 32) (hnear : HNear st)
    (h : hf_gotit M old old.length new new.length lo st = .ok (.next, st1)) :
    HNear st1 ∧ hf_measure new.length st1 < hf_measure new.length st := by
  obtain ⟨g1, g2, g3, g4⟩ := hf_gotit_next hM lo scan0 hnl hinv hll h
  obtain ⟨b1, b2, b3, b4, b5⟩ := hinv.best (by omega)
  have hn := hnear hll
  have hsl := hinv.scan_le
  refine ⟨fun hc => absurd hc (by omega), ?_⟩
  unfold hf_measure
  rw [g2]
  omega

/-- An iteration that ends at scannext and goes on decreases the measure. -/
theorem hf_scannext_dec {M : Nat} (hM : IsM M) {old new : List Byte} (lo scan0 : Nat)
    (hnl : 2 * new.length < M) {st st1 : HState}
    (hinv : HInv old.length new.length scan0 st) (hnear : HNear st)
    (hsc : st.scan + 16 < new.length)
    (h : hf_scannext M old old.length new new.length lo st = .ok (.next, st1)) :
    HNear st1 ∧ hf_measure new.length st1 < hf_measure new.length st := by
  unfold hf_scannext at h
  split at h
  · rename_i hc
    exact hf_gotit_dec hM lo scan0 hnl hinv hc.1 hnear h
  · rename_i hc
    simp only [bind_ok] at h
    obtain ⟨st2, h1, h⟩ := h
    simp only [Except.ok.injEq, Prod.mk.injEq, true_and] at h
    subst h
    unfold hf_roll at h1
    simp only [bind_ok] at h1
    obtain ⟨cin, _, cout, _, h1⟩ := h1
    simp only [Except.ok.injEq] at h1
    subst h1
    have e1 : wadd M st.scan 1 = st.scan + 1 := wadd_eq (by omega)
    have hss := hinv.start_le
    refine ⟨?_, ?_⟩
    · intro hl
      simp only [e1] at hl ⊢
      have hb := hinv.best (by omega)
      have hw : wsub M st.scan st.lscan = st.scan - st.lscan := wsub_eq hb.2.1 (by omega)
      rw [hw] at hc
      simp only [HSIZE] at hc
      have : ¬ (st.scan - st.lscan ≥ 16) := fun hge => hc ⟨hl, hge⟩
      omega
    · unfold hf_measure
      simp only [e1]
      omega

theorem hf_hit_dec {M : Nat} (hM : IsM M) {hd : hash_data} {old new : List Byte} (lo scan0 : Nat)
    (hol : 2 * old.length < M) (hnl : 2 * new.length < M) {st st1 : HState} {pos : Nat}
    (hinv : HInv old.length new.length scan0 st) (hnear : HNear st)
    (hsc : st.scan + 16 < new.length) (hpos : pos + 16 ≤ old.length)
    (h : hf_hit M hd old old.length new new.length lo st pos = .ok (.next, st1)) :
    HNear st1 ∧ hf_measure new.length st1 < hf_measure new.length st := by
  unfold hf_hit at h
  simp only [bind_ok] at h
  obtain ⟨l, hl, ⟨pos1, len1⟩, hd1, h⟩ := h
  have m := matchlen_ok hl
  have hw : wsub M (wsub M new.length st.scan) HSIZE = new.length - st.scan - 16 := by
    rw [wsub_eq (a := new.length) (by omega) (by omega)]
    exact wsub_eq (by simp only [HSIZE]; omega) (by omega)
  rw [hw] at m
  have hw2 : wadd M l HSIZE = l + 16 := wadd_eq (by simp only [HSIZE]; omega)
  rw [hw2] at hd1
  have d := hf_double_ok hM hol hnl hsc (by omega) (by omega) (by omega) hd1
  simp only at h
  have key := fun hi hn hs => hf_scannext_dec hM lo scan0 hnl hi hn hs h
  split at key
  · rename_i hgt
    have := key ⟨hinv.start_ge, hinv.start_le, hinv.scan_le, fun _ => by
        have := hinv.start_le
        simp only
        omega⟩
      (fun _ => by simp only; omega) hsc
    exact this
  · have := key ⟨hinv.start_ge, hinv.start_le, hinv.scan_le, fun hl0 => hinv.best hl0⟩
      (fun hl0 => hnear hl0) hsc
    exact this

theorem HNear.with_pos {st : HState} (h : HNear st) (p : Nat) : HNear { st with pos := p } := h

theorem hf_body_dec {M : Nat} (hM : IsM M) {hd : hash_data} {old new : List Byte} (lo scan0 : Nat)
    (hol : 2 * old.length < M) (hnl : 2 * new.length < M) (h16 : 16 ≤ new.length)
    {st st1 : HState} (hinv : HInv old.length new.length scan0 st) (hnear : HNear st)
    (h : hf_body M hd old old.length new new.length lo st = .ok (.next, st1)) :
    HNear st1 ∧ hf_measure new.length st1 < hf_measure new.length st := by
  have hw : wsub M new.length HSIZE = new.length - 16 :=
    wsub_eq (by simp only [HSIZE]; omega) (by omega)
  unfold hf_body at h
  rw [hw] at h
  split at h
  · split at h
    · rename_i hll
      exact hf_gotit_dec hM lo scan0 hnl hinv hll hnear h
    · simp only [Except.ok.injEq, Prod.mk.injEq] at h
      exact absurd h.1 (by decide)
  · rename_i hsc
    have hsc' : st.scan + 16 < new.length := by omega
    simp only [bind_ok] at h
    obtain ⟨p, _, h⟩ := h
    split at h
    · have := hf_scannext_dec hM lo scan0 hnl (hinv.set_pos p) (hnear.with_pos p) hsc' h
      exact this
    · simp only [bind_ok] at h
      obtain ⟨c, hc, h⟩ := h
      split at h
      · simp only [bind_ok] at h
        obtain ⟨q, _, h⟩ := h
        split at h
        · have := hf_scannext_dec hM lo scan0 hnl (hinv.set_pos q) (hnear.with_pos q) hsc' h
          exact this
        · simp only [bind_ok] at h
          obtain ⟨c2, hc2, h⟩ := h
          split at h
          · have := hf_scannext_dec hM lo scan0 hnl (hinv.set_pos (q - 1))
              (hnear.with_pos (q - 1)) hsc' h
            exact this
          · exact hf_hit_dec hM lo scan0 hol hnl hinv hnear hsc' (memcmp_ok hc2).1 h
      · exact hf_hit_dec hM lo scan0 hol hnl hinv hnear hsc' (memcmp_ok hc).1 h

/-- With a budget above the measure the loop of hash_findnext does not use it up. -/
theorem hf_loop_nofuel {M : Nat} (hM : IsM M) {hd : hash_data} {old new : List Byte}
    (lo scan0 : Nat) (hol : 2 * old.length < M) (hnl : 2 * new.length < M)
    (h16 : 16 ≤ new.length) :
    ∀ (fuel : Nat) (st : HState), HInv old.length new.length scan0 st → HNear st →
      hf_measure new.length st < fuel →
      NoFuel (hf_loop M hd old old.length new new.length lo fuel st) := by
  intro fuel
  induction fuel with
  | zero => intro st _ _ h; omega
  | succ n ih =>
    intro st hinv hnear hm
    unfold hf_loop
    refine NoFuel.bind (hf_body_nofuel _ _ _ _ _ _ _ _) (fun r hr => ?_)
    obtain ⟨c, st1⟩ := r
    cases c with
    | brk => exact NoFuel.ok _
    | next =>
      have hs := hf_body_ok hM lo scan0 hol hnl h16 hinv hr
      obtain ⟨n1, n2⟩ := hf_body_dec hM lo scan0 hol hnl h16 hinv hnear hr
      exact ih st1 hs n1 (by omega)

/-- With a budget above 17 * newlen hash_findnext does not use it up. -/
theorem hash_findnext_nofuel {M : Nat} (hM : IsM M) (hd : hash_data) {old new : List Byte}
    (fuel lo scan0 : Nat) (hol : 2 * old.length < M) (hnl : 2 * new.length < M)
    (hs : scan0 ≤ new.length) (hf : 17 * new.length < fuel) :
    NoFuel (hash_findnext M fuel hd old old.length new new.length lo scan0) := by
  unfold hash_findnext
  refine NoFuel.bind (NoFuel.ite (fun _ => buzhash_nofuel _ _) (fun _ => NoFuel.ok _))
    (fun ssx hssx => ?_)
  have h16 : 16 ≤ new.length := by
    by_contra hlt
    have hw : scan0 ≤ wsub M new.length HSIZE := by
      have hb := hM.big
      unfold wsub
      rw [Nat.mod_eq_of_lt (by simp only [HSIZE]; omega : HSIZE < M),
        Nat.mod_eq_of_lt (by simp only [HSIZE]; omega)]
      simp only [HSIZE]
      omega
    rw [if_pos hw] at hssx
    have := buzhash_ok hssx
    omega
  refine NoFuel.bind ?_ (fun st _ => NoFuel.ite (fun _ => NoFuel.ok _) (fun _ => NoFuel.ok _))
  refine hf_loop_nofuel hM lo scan0 hol hnl h16 fuel _
    ⟨le_refl _, le_refl _, hs, fun h => absurd h (by simp)⟩ (fun h => absurd h (by simp)) ?_
  unfold hf_measure
  simp only
  omega

/-! ## the loops of the suffix method and of the shaping code end -/

theorem ptr_nofuel (i : Int) : NoFuel (ptr i) := by
  unfold ptr
  exact NoFuel.ite (fun _ => NoFuel.err (by decide)) (fun _ => NoFuel.ok _)

/-- The binary search halves the interval, so en - st steps are enough. -/
theorem bsearch_go_nofuel {M : Nat} (I : Arr Int) (old : List Byte) (oldlen : Nat)
    (new : List Byte) (pn newlen : Nat) :
    ∀ (cnt st en : Nat), st ≤ en → en < M → en - st ≤ cnt + 1 →
      NoFuel (bsearch_go M I old oldlen new pn newlen cnt st en) := by
  intro cnt
  induction cnt with
  | zero =>
    intro st en h1 h2 h3
    unfold bsearch_go
    rw [wsub_eq h1 h2]
    exact NoFuel.ite (fun h => absurd h (by omega)) (fun _ => NoFuel.ok _)
  | succ n ih =>
    intro st en h1 h2 h3
    unfold bsearch_go
    rw [wsub_eq h1 h2]
    refine NoFuel.ite (fun hge => ?_) (fun _ => NoFuel.ok _)
    have ex : wadd M st ((en - st) / 2) = st + (en - st) / 2 := wadd_eq (by omega)
    simp only [ex]
    refine NoFuel.bind (rd_nofuel _ _) (fun ix _ => NoFuel.bind (ptr_nofuel _) (fun po _ =>
      NoFuel.bind (memcmp_nofuel _ _ _ _ _) (fun c _ => ?_)))
    refine NoFuel.ite (fun _ => ?_) (fun _ => ?_)
    · exact ih _ _ (by omega) h2 (by omega)
    · exact ih _ _ (by omega) (by omega) (by omega)

theorem suf_bsearch_nofuel {M : Nat} (I : Arr Int) (old : List Byte) (oldlen : Nat)
    (new : List Byte) (pn newlen st en pos : Nat) (hen : en < M) :
    NoFuel (suf_bsearch M I old oldlen new pn newlen st en pos) := by
  unfold suf_bsearch
  refine NoFuel.ite (fun _ => NoFuel.ok _) (fun hle => ?_)
  refine NoFuel.bind (bsearch_go_nofuel I old oldlen new pn newlen _ _ _ (by omega) hen (by omega))
    (fun r _ => ?_)
  exact NoFuel.bind (rd_nofuel _ _) (fun _ _ => NoFuel.bind (ptr_nofuel _) (fun _ _ =>
    NoFuel.bind (matchlen_nofuel _ _ _ _ _ _) (fun _ _ => NoFuel.bind (rd_nofuel _ _) (fun _ _ =>
      NoFuel.bind (ptr_nofuel _) (fun _ _ =>
        NoFuel.bind (matchlen_nofuel _ _ _ _ _ _) (fun _ _ => NoFuel.ok _))))))

/-- Every round of suf_findnext that goes on moves scan forward, so newlen - scan rounds
are enough. -/
theorem sf_loop_nofuel {M : Nat} (hM : IsM M) (sd : suf_data) {old new : List Byte} (lo : Nat)
    (hol : 2 * old.length < M) (hnl : 2 * new.length < M) :
    ∀ (cnt : Nat) (st : SState), st.scan ≤ new.length → st.pos ≤ old.length →
      new.length ≤ st.scan + cnt →
      NoFuel (sf_loop M sd old old.length new new.length lo cnt st) := by
  intro cnt
  induction cnt with
  | zero =>
    intro st _ _ h
    unfold sf_loop
    exact NoFuel.ite (fun hc => absurd hc (by omega)) (fun _ => NoFuel.ok _)
  | succ n ih =>
    intro st h1 h2 h3
    unfold sf_loop
    refine NoFuel.ite (fun hlt => ?_) (fun _ => NoFuel.ok _)
    refine NoFuel.bind (rdB_nofuel _ _) (fun c _ => NoFuel.bind (rd_nofuel _ _) (fun f0 _ =>
      NoFuel.bind (rd_nofuel _ _) (fun f1 _ =>
        NoFuel.bind (suf_bsearch_nofuel _ _ _ _ _ _ _ _ _ (toU_lt hM _)) (fun r hr => ?_))))
    obtain ⟨len, pos⟩ := r
    have hw : wsub M new.length st.scan = new.length - st.scan := wsub_eq h1 (by omega)
    rw [hw] at hr
    obtain ⟨k1, k2⟩ := suf_bsearch_ok hM hol (by omega) h2 hr
    have el : wadd M st.scan len = st.scan + len := wadd_eq (by omega)
    simp only [el]
    refine NoFuel.bind (score_count_nofuel _ _ _ _ _ _ _ _) (fun os _ => ?_)
    refine NoFuel.ite (fun hc => ?_) (fun _ => NoFuel.ite (fun _ => NoFuel.ok _) (fun _ => ?_))
    · exact ih _ (by simp only; omega) k2 (by simp only; omega)
    · refine NoFuel.bind (score_hit_nofuel _ _ _ _ _ _) (fun hit _ => ?_)
      have e1 : wadd M st.scan 1 = st.scan + 1 := wadd_eq (by omega)
      exact ih _ (by simp only [e1]; omega) k2 (by simp only [e1]; omega)

theorem suf_findnext_nofuel {M : Nat} (hM : IsM M) (sd : suf_data) {old new : List Byte}
    (lo scan0 : Nat) (hol : 2 * old.length < M) (hnl : 2 * new.length < M)
    (hs : scan0 ≤ new.length) :
    NoFuel (suf_findnext M sd old old.length new new.length lo scan0) := by
  unfold suf_findnext
  exact NoFuel.bind (sf_loop_nofuel hM sd lo hol hnl _ _ hs (Nat.zero_le _) (by simp only; omega))
    (fun _ _ => NoFuel.ok _)

/-- With a budget above 17 * newlen findnext of either method does not use it up. -/
theorem dm_findnext_nofuel (B : Build) (fuel : Nat) (data : IndexData) {old new : List Byte}
    (lo scan0 : Nat) (hol : 2 * old.length < B.M) (hnl : 2 * new.length < B.M)
    (hs : scan0 ≤ new.length) (hf : 17 * new.length < fuel) :
    NoFuel (dm_findnext B fuel data old old.length new new.length lo scan0) := by
  cases data with
  | suf sd => exact suf_findnext_nofuel B.M_cases sd lo scan0 hol hnl hs
  | hash hd => exact hash_findnext_nofuel B.M_cases hd fuel lo scan0 hol hnl hs hf

theorem ext_fwd_nofuel (M : Nat) (old : List Byte) (oldlen : Nat) (new : List Byte)
    (lastscan lastpos scan : Nat) :
    ∀ (cnt i s Sf lenf : Nat),
      NoFuel (ext_fwd M old oldlen new lastscan lastpos scan cnt i s Sf lenf) := by
  intro cnt
  induction cnt with
  | zero => intro i s Sf lenf; exact NoFuel.ok _
  | succ n ih =>
    intro i s Sf lenf
    unfold ext_fwd
    refine NoFuel.ite (fun _ => ?_) (fun _ => NoFuel.ok _)
    refine NoFuel.bind (rdB_nofuel _ _) (fun a _ => NoFuel.bind (rdB_nofuel _ _) (fun b _ => ?_))
    refine NoFuel.ite (fun _ => ?_) (fun _ => ih _ _ _ _)
    exact NoFuel.ite (fun _ => ih _ _ _ _) (fun _ => ih _ _ _ _)

theorem ext_fwd_exact_nofuel (M : Nat) (old : List Byte) (oldlen : Nat) (new : List Byte)
    (lastscan lastpos scan : Nat) :
    ∀ (cnt i : Nat), NoFuel (ext_fwd_exact M old oldlen new lastscan lastpos scan cnt i) := by
  intro cnt
  induction cnt with
  | zero => intro i; exact NoFuel.ok _
  | succ n ih =>
    intro i
    unfold ext_fwd_exact
    refine NoFuel.ite (fun _ => ?_) (fun _ => NoFuel.ok _)
    refine NoFuel.bind (rdB_nofuel _ _) (fun a _ => NoFuel.bind (rdB_nofuel _ _) (fun b _ => ?_))
    exact NoFuel.ite (fun _ => NoFuel.ok _) (fun _ => ih _)

theorem ext_bwd_nofuel (M : Nat) (old new : List Byte) (lastscan scan pos : Nat) :
    ∀ (cnt i s Sb lenb : Nat), NoFuel (ext_bwd M old new lastscan scan pos cnt i s Sb lenb) := by
  intro cnt
  induction cnt with
  | zero => intro i s Sb lenb; exact NoFuel.ok _
  | succ n ih =>
    intro i s Sb lenb
    unfold ext_bwd
    refine NoFuel.ite (fun _ => ?_) (fun _ => NoFuel.ok _)
    refine NoFuel.bind (rdB_nofuel _ _) (fun a _ => NoFuel.bind (rdB_nofuel _ _) (fun b _ => ?_))
    refine NoFuel.ite (fun _ => ?_) (fun _ => ih _ _ _ _)
    exact NoFuel.ite (fun _ => ih _ _ _ _) (fun _ => ih _ _ _ _)

theorem ext_split_nofuel (M : Nat) (old new : List Byte)
    (lastscan lastpos scan pos lenf lenb overlap : Nat) :
    ∀ (cnt i s Sb Ss lens : Nat),
      NoFuel (ext_split M old new lastscan lastpos scan pos lenf lenb overlap cnt i s Sb Ss lens) := by
  intro cnt
  induction cnt with
  | zero => intro i s Sb Ss lens; exact NoFuel.ok _
  | succ n ih =>
    intro i s Sb Ss lens
    unfold ext_split
    refine NoFuel.bind (rdB_nofuel _ _) (fun a _ => NoFuel.bind (rdB_nofuel _ _) (fun b _ =>
      NoFuel.bind (rdB_nofuel _ _) (fun c _ => NoFuel.bind (rdB_nofuel _ _) (fun d _ => ?_))))
    exact NoFuel.ite (fun _ => ih _ _ _ _ _) (fun _ => ih _ _ _ _ _)

/-- With a budget above 17 * newlen the shaping code does not use it up. -/
theorem shape_nofuel (B : Build) (fuel : Nat) (data : IndexData) (noaddblk : Bool)
    {old new : List Byte} (scan0 lastscan lastpos : Nat)
    (hol : 2 * old.length < B.M) (hnl : 2 * new.length < B.M)
    (h0 : scan0 ≤ new.length) (hf : 17 * new.length < fuel) :
    NoFuel (shape B fuel data noaddblk old old.length new new.length scan0 lastscan lastpos) := by
  unfold shape
  refine NoFuel.bind (dm_findnext_nofuel B fuel data _ scan0 hol hnl h0 hf) (fun r _ => ?_)
  obtain ⟨scan, pos, len⟩ := r
  refine NoFuel.bind (NoFuel.ite (fun _ => ext_fwd_nofuel _ _ _ _ _ _ _ _ _ _ _ _)
    (fun _ => ext_fwd_exact_nofuel _ _ _ _ _ _ _ _ _)) (fun lenf0 _ => ?_)
  refine NoFuel.bind (NoFuel.ite (fun _ => ext_bwd_nofuel _ _ _ _ _ _ _ _ _ _ _)
    (fun _ => NoFuel.ok _)) (fun lenb0 _ => ?_)
  refine NoFuel.ite (fun _ => ?_) (fun _ => NoFuel.ok _)
  exact NoFuel.bind (ext_split_nofuel _ _ _ _ _ _ _ _ _ _ _ _ _ _ _ _) (fun _ _ => NoFuel.ok _)

theorem addoff_nofuel (M : Nat) (off : Int) : NoFuel (addoff M off) := by
  unfold addoff
  exact NoFuel.ite (fun _ => NoFuel.err (by decide)) (fun _ => NoFuel.ok _)

theorem readBytes_nofuel (buf : List Byte) (i n : Nat) : NoFuel (readBytes buf i n) := by
  unfold readBytes
  exact NoFuel.ite (fun _ => NoFuel.ok _) (fun _ => NoFuel.err (by decide))

/-- Every piece written to the extra block is at least one byte, so s steps are enough. -/
theorem write_extra_nofuel {M : Nat} (new : List Byte) :
    ∀ (cnt i s : Nat) (acc : List Byte), s ≤ cnt → s < M →
      NoFuel (write_extra M new cnt i s acc) := by
  intro cnt
  induction cnt with
  | zero =>
    intro i s acc h _
    unfold write_extra
    exact NoFuel.ite (fun hc => absurd hc (by omega)) (fun _ => NoFuel.ok _)
  | succ n ih =>
    intro i s acc h hM
    unfold write_extra
    refine NoFuel.ite (fun hp => ?_) (fun _ => NoFuel.ok _)
    refine NoFuel.bind (readBytes_nofuel _ _ _) (fun bytes _ => ?_)
    have e : wsub M s (if s > 0x40000000 then 0x40000000 else s) =
        s - (if s > 0x40000000 then 0x40000000 else s) :=
      wsub_eq (by split <;> omega) hM
    rw [e]
    exact ih _ _ _ (by split <;> omega) (by omega)

theorem add_fill_nofuel (M : Nat) (old new : List Byte) (lastscan lastpos : Nat) :
    ∀ (cnt i : Nat) (acc : List Byte), NoFuel (add_fill M old new lastscan lastpos cnt i acc) := by
  intro cnt
  induction cnt with
  | zero => intro i acc; exact NoFuel.ok _
  | succ n ih =>
    intro i acc
    unfold add_fill
    exact NoFuel.bind (rdB_nofuel _ _) (fun b _ => NoFuel.bind (rdB_nofuel _ _) (fun a _ => ih _ _))

/-- Every piece written to the add block is at least one byte, so lenf steps are enough. -/
theorem write_add_nofuel {M : Nat} (old new : List Byte) :
    ∀ (cnt lastscan lastpos lenf : Nat) (acc : List Byte), lenf ≤ cnt → lenf < M →
      NoFuel (write_add M old new cnt lastscan lastpos lenf acc) := by
  intro cnt
  induction cnt with
  | zero =>
    intro lastscan lastpos lenf acc h _
    unfold write_add
    exact NoFuel.ite (fun hc => absurd hc (by omega)) (fun _ => NoFuel.ok _)
  | succ n ih =>
    intro lastscan lastpos lenf acc h hM
    unfold write_add
    refine NoFuel.ite (fun hp => ?_) (fun _ => NoFuel.ok _)
    refine NoFuel.bind (add_fill_nofuel _ _ _ _ _ _ _ _) (fun chunk _ => ?_)
    have e : wsub M lenf (if lenf > 4096 then 4096 else lenf) =
        lenf - (if lenf > 4096 then 4096 else lenf) :=
      wsub_eq (by split <;> omega) hM
    rw [e]
    exact ih _ _ _ _ (by split <;> omega) (by omega)

theorem wsub_lt {M : Nat} (hM : IsM M) (a b : Nat) : wsub M a b < M := by
  unfold wsub
  exact Nat.mod_lt _ (by rcases hM with h | h <;> rw [h] <;> decide)

/-- With a budget above 17 * newlen an iteration of the loop of mkdiff does not use it up:
it returns, or it stops at an access outside an object or at an offset addoff cannot
encode. -/
theorem mkdiff_body_nofuel (B : Build) (fuel : Nat) (data : IndexData) (noaddblk : Bool)
    (req : Req) {old new : List Byte} (st : LState)
    (hol : 2 * old.length < B.M) (hnl : 2 * new.length < B.M)
    (h0 : st.scan ≤ new.length) (hls : st.lastscan ≤ st.scan) (hlp : st.lastpos ≤ old.length)
    (hf : 17 * new.length < fuel) :
    NoFuel (mkdiff_body B fuel data noaddblk req old old.length new new.length st) := by
  unfold mkdiff_body
  refine NoFuel.bind (shape_nofuel B fuel data noaddblk _ _ _ hol hnl h0 hf) (fun r hr => ?_)
  obtain ⟨scan, pos, len, lenf, lenb⟩ := r
  have so := shape_ok B fuel data noaddblk hol hnl h0 hls hlp hr
  have hfl := so.fwd_le
  simp only at hfl
  simp only
  refine NoFuel.bind (NoFuel.ite (fun _ => ?_) (fun _ => NoFuel.ok _)) (fun ib _ => ?_)
  · exact NoFuel.bind (addoff_nofuel _ _) (fun _ _ => NoFuel.bind (addoff_nofuel _ _) (fun _ _ =>
      NoFuel.bind (addoff_nofuel _ _) (fun _ _ => NoFuel.ok _)))
  refine NoFuel.bind (NoFuel.ite (fun _ => ?_) (fun _ => NoFuel.ok _)) (fun eb _ => ?_)
  · exact write_extra_nofuel new _ _ _ _ (le_refl _) (wsub_lt B.M_cases _ _)
  refine NoFuel.bind (NoFuel.ite (fun _ => ?_) (fun _ => NoFuel.ok _)) (fun ab _ => NoFuel.ok _)
  exact write_add_nofuel old new _ _ _ _ _ (le_refl _) (by omega)

/-- The bound on the iterations: a run of k iterations from the initial state has
k <= newlen / 32 + 1, and k <= newlen / 32 when the loop goes on after it. -/
theorem mkdiff_rounds_bound (B : Build) (fuel fuel2 : Nat) (dm : deltamode) (data : IndexData)
    (noaddblk : Bool) (req : Req) {old new : List Byte}
    (hol : 2 * old.length < B.M) (hnl : 2 * new.length < B.M)
    (hc : dm_create B fuel dm old old.length = .ok (some data)) (k : Nat) (st : LState)
    (h : mkdiff_rounds B fuel2 data noaddblk req old old.length new new.length k mkdiff_init =
      .ok (some st)) :
    k ≤ new.length / 32 + 1 ∧ (st.lastscan < new.length → k ≤ new.length / 32) ∧
    (req.instrp = true → st.out.instrs.length = k) := by
  have h0 : LInv old new 0 mkdiff_init := ⟨LoopPre.init old new, fun _ => Nat.zero_le _⟩
  obtain ⟨q1, q2, q3⟩ :=
    mkdiff_rounds_inv B fuel fuel2 dm data noaddblk req hol hnl hc k 0 mkdiff_init st h0 h
  rw [Nat.zero_add] at q1 q2
  refine ⟨?_, ?_, ?_⟩
  · rcases Nat.eq_zero_or_pos k with hz | hp
    · omega
    · have := q2 hp
      have : k - 1 ≤ new.length / 32 := (Nat.le_div_iff_mul_le (by decide)).2 (by omega)
      omega
  · intro hlt
    have h1 := q1.2 hlt
    have h2 := (q1.1.2 hlt).2.1
    exact (Nat.le_div_iff_mul_le (by decide)).2 (by omega)
  · intro hr
    have := q3 hr
    simpa [mkdiff_init] using this

/-- C26: let the index be built for old. Each shaping step that returns either has scan =
newlen, with lenb = 0 and the next lastscan equal to newlen, or found a match of at least 32
bytes that ends within new, so that the next call of findnext starts at least 32 bytes
further. No run of the loop of mkdiff has more than newlen / 32 + 1 iterations, each adding
one instruction; and with a budget of at least that many iterations the loop ends: it returns
after at most newlen / 32 + 1 iterations, or one of the iterations stops, which with a budget
above 17 * newlen for the loop of hash_findnext is never for lack of budget but at an access
outside an object or at an offset addoff cannot encode. Whenever mkdiff returns, it returns
at most newlen / 32 + 1 instructions. -/
theorem shaping_loop_terminates (B : Build) (fuel fuel2 : Nat) (dm : deltamode)
    (data : IndexData) (noaddblk : Bool) (req : Req) (old new : List Byte)
    (hol : 2 * old.length < B.M) (hnl : 2 * new.length < B.M)
    (hc : dm_create B fuel dm old old.length = .ok (some data)) :
    (∀ (scan0 lastscan lastpos : Nat) (r : Nat × Nat × Nat × Nat × Nat),
      scan0 ≤ new.length → lastscan ≤ scan0 → lastpos ≤ old.length →
      shape B fuel2 data noaddblk old old.length new new.length scan0 lastscan lastpos = .ok r →
      scan0 ≤ r.1 ∧
      ((r.1 = new.length ∧ r.2.2.2.2 = 0 ∧ wsub B.M r.1 r.2.2.2.2 = new.length) ∨
       (r.1 < new.length ∧ 32 ≤ r.2.2.1 ∧ wadd B.M r.1 r.2.2.1 = r.1 + r.2.2.1 ∧
         r.1 + r.2.2.1 ≤ new.length))) ∧
    (∀ (k : Nat) (st : LState),
      mkdiff_rounds B fuel2 data noaddblk req old old.length new new.length k mkdiff_init =
        .ok (some st) →
      k ≤ new.length / 32 + 1 ∧ (st.lastscan < new.length → k ≤ new.length / 32) ∧
      (req.instrp = true → st.out.instrs.length = k)) ∧
    (∀ cnt : Nat, new.length / 32 + 1 ≤ cnt →
      (∃ k st, k ≤ new.length / 32 + 1 ∧
        mkdiff_rounds B fuel2 data noaddblk req old old.length new new.length k mkdiff_init =
          .ok (some st) ∧
        ¬ st.lastscan < new.length ∧
        mkdiff_loop B fuel2 data noaddblk req old old.length new new.length cnt 0 0 0
          mkdiff_init.out = .ok st.out ∧
        (req.instrp = true → st.out.instrs.length ≤ new.length / 32 + 1)) ∨
      (∃ k st e, k ≤ new.length / 32 ∧
        mkdiff_rounds B fuel2 data noaddblk req old old.length new new.length k mkdiff_init =
          .ok (some st) ∧
        st.lastscan < new.length ∧
        mkdiff_body B fuel2 data noaddblk req old old.length new new.length st = .error e ∧
        (17 * new.length < fuel2 → e ≠ .fuel) ∧
        mkdiff_loop B fuel2 data noaddblk req old old.length new new.length cnt 0 0 0
          mkdiff_init.out = .error e)) ∧
    (∀ (fuel3 : Nat) (mode : Int) (req2 : Req) (out : Out), req2.instrp = true →
      mkdiff B fuel3 mode old new req2 = .ok out → out.instrs.length ≤ new.length / 32 + 1) := by
  refine ⟨?_, ?_, ?_, ?_⟩
  · intro scan0 lastscan lastpos r h0 hls hlp h
    exact shape_advance B fuel fuel2 dm data noaddblk hol hnl hc h0 hls hlp h
  · intro k st h
    exact mkdiff_rounds_bound B fuel fuel2 dm data noaddblk req hol hnl hc k st h
  · intro cnt hcnt
    rcases mkdiff_loop_rounds B fuel2 data noaddblk req old old.length new new.length cnt
      mkdiff_init with ⟨k, st1, _, c2, c3, c4⟩ | ⟨k, st1, e, _, c2, c3, c4, c5⟩ | ⟨st1, c2, c3, _⟩
    · left
      obtain ⟨b1, _, b3⟩ := mkdiff_rounds_bound B fuel fuel2 dm data noaddblk req hol hnl hc k st1 c2
      exact ⟨k, st1, b1, c2, c3, c4, fun hr => by rw [b3 hr]; exact b1⟩
    · right
      obtain ⟨_, b2, _⟩ := mkdiff_rounds_bound B fuel fuel2 dm data noaddblk req hol hnl hc k st1 c2
      refine ⟨k, st1, e, b2 c3, c2, c3, c4, ?_, c5⟩
      intro hf he
      have h0 : LInv old new 0 mkdiff_init := ⟨LoopPre.init old new, fun _ => Nat.zero_le _⟩
      obtain ⟨q1, _, _⟩ :=
        mkdiff_rounds_inv B fuel fuel2 dm data noaddblk req hol hnl hc k 0 mkdiff_init st1 h0 c2
      obtain ⟨p1, p2, p3⟩ := q1.1.2 c3
      have hn := mkdiff_body_nofuel B fuel2 data noaddblk req st1 hol hnl p2 p1 p3 hf
      rw [c4, he] at hn
      exact hn rfl
    · exfalso
      obtain ⟨_, b2, _⟩ :=
        mkdiff_rounds_bound B fuel fuel2 dm data noaddblk req hol hnl hc cnt st1 c2
      have := b2 c3
      omega
  · intro fuel3 mode req2 out hr h
    obtain ⟨dm2, data2, _, hc2, hl⟩ := mkdiff_ok h
    rcases mkdiff_loop_rounds B fuel3 data2 (decide (Int.land mode B.DELTAMODE_NOADDBLK ≠ 0)) req2
      old old.length new new.length fuel3 mkdiff_init with
      ⟨k, st1, _, c2, _, c4⟩ | ⟨k, st1, e, _, _, _, _, c5⟩ | ⟨st1, _, _, c4⟩
    · obtain ⟨b1, _, b3⟩ := mkdiff_rounds_bound B fuel3 fuel3 dm2 data2 _ req2 hol hnl hc2 k st1 c2
      have e : mkdiff_loop B fuel3 data2 (decide (Int.land mode B.DELTAMODE_NOADDBLK ≠ 0)) req2 old
          old.length new new.length fuel3 0 0 0
          { instrs := [], instrblk := [], addblk := [], extrablk := [] } = .ok st1.out := c4
      rw [hl] at e
      simp only [Except.ok.injEq] at e
      rw [e, b3 hr]
      exact b1
    · have e : mkdiff_loop B fuel3 data2 (decide (Int.land mode B.DELTAMODE_NOADDBLK ≠ 0)) req2 old
          old.length new new.length fuel3 0 0 0
          { instrs := [], instrblk := [], addblk := [], extrablk := [] } = .error e := c5
      rw [hl] at e
      simp at e
    · have e : mkdiff_loop B fuel3 data2 (decide (Int.land mode B.DELTAMODE_NOADDBLK ≠ 0)) req2 old
          old.length new new.length fuel3 0 0 0
          { instrs := [], instrblk := [], addblk := [], extrablk := [] } = .error .fuel := c4
      rw [hl] at e
      simp at e

/-- Witness for C26: the hash method on old = bytes 0..47 and new = byte 255 followed by
old, 49 bytes: the bound is 49 / 32 + 1 = 2 iterations. -/
theorem shaping_loop_terminates_witness :
    dm_create B32 0 ⟨B32.DELTAMODE_HASH, .hash⟩ old48 old48.length = .ok (some (.hash hd_old48)) ∧
    (∀ (scan0 lastscan lastpos : Nat) (r : Nat × Nat × Nat × Nat × Nat),
      scan0 ≤ new49.length → lastscan ≤ scan0 → lastpos ≤ old48.length →
      shape B32 1000 (.hash hd_old48) false old48 old48.length new49 new49.length
        scan0 lastscan lastpos = .ok r →
      scan0 ≤ r.1 ∧
      ((r.1 = new49.length ∧ r.2.2.2.2 = 0 ∧ wsub B32.M r.1 r.2.2.2.2 = new49.length) ∨
       (r.1 < new49.length ∧ 32 ≤ r.2.2.1 ∧ wadd B32.M r.1 r.2.2.1 = r.1 + r.2.2.1 ∧
         r.1 + r.2.2.1 ≤ new49.length))) ∧
    (∀ (k : Nat) (st : LState),
      mkdiff_rounds B32 1000 (.hash hd_old48) false Req.all old48 old48.length new49
          new49.length k mkdiff_init =
        .ok (some st) →
      k ≤ new49.length / 32 + 1 ∧ (st.lastscan < new49.length → k ≤ new49.length / 32) ∧
      (Req.all.instrp = true → st.out.instrs.length = k)) ∧
    (∀ cnt : Nat, new49.length / 32 + 1 ≤ cnt →
      (∃ k st, k ≤ new49.length / 32 + 1 ∧
        mkdiff_rounds B32 1000 (.hash hd_old48) false Req.all old48 old48.length new49
          new49.length k mkdiff_init =
          .ok (some st) ∧
        ¬ st.lastscan < new49.length ∧
        mkdiff_loop B32 1000 (.hash hd_old48) false Req.all old48 old48.length new49
          new49.length cnt 0 0 0
          mkdiff_init.out = .ok st.out ∧
        (Req.all.instrp = true → st.out.instrs.length ≤ new49.length / 32 + 1)) ∨
      (∃ k st e, k ≤ new49.length / 32 ∧
        mkdiff_rounds B32 1000 (.hash hd_old48) false Req.all old48 old48.length new49
          new49.length k mkdiff_init =
          .ok (some st) ∧
        st.lastscan < new49.length ∧
        mkdiff_body B32 1000 (.hash hd_old48) false Req.all old48 old48.length new49
          new49.length st = .error e ∧
        (17 * new49.length < 1000 → e ≠ .fuel) ∧
        mkdiff_loop B32 1000 (.hash hd_old48) false Req.all old48 old48.length new49
          new49.length cnt 0 0 0
          mkdiff_init.out = .error e)) ∧
    (∀ (fuel3 : Nat) (mode : Int) (req2 : Req) (out : Out), req2.instrp = true →
      mkdiff B32 fuel3 mode old48 new49 req2 = .ok out →
      out.instrs.length ≤ new49.length / 32 + 1) := by
  have hc : dm_create B32 0 ⟨B32.DELTAMODE_HASH, .hash⟩ old48 old48.length =
      .ok (some (.hash hd_old48)) := by
    unfold dm_create
    simp only [old48_hash_ok]
    rfl
  exact ⟨hc, shaping_loop_terminates B32 0 1000 ⟨B32.DELTAMODE_HASH, .hash⟩ (.hash hd_old48) false
    Req.all old48 new49 (by decide) (by decide) hc⟩

/-! ## a new buffer too long for the signed offsets -/

theorem bind_eq_of_ok {α β : Type} {x : Res α} {a : α} (h : x = .ok a) (f : α → Res β) :
    (x >>= f) = f a := by
  rw [h]; rfl

/-- On a table without entries the loop of hash_findnext slides to newlen - HSIZE and
breaks. -/
theorem hf_loop_empty {M : Nat} (hd : hash_data) (old : List Byte) (oldlen : Nat)
    (new : List Byte) (lo : Nat) (h16 : 16 ≤ new.length) (hM : new.length + 16 < M)
    (hp : 0 < hd.prime) (hz : ∀ i : Nat, i < hd.prime → hd.hash.rd (i : Int) = .ok 0) :
    ∀ (fuel : Nat) (st : HState), st.llen = 0 → st.scan ≤ new.length - 16 →
      new.length - 16 - st.scan < fuel →
      ∃ st1, hf_loop M hd old oldlen new new.length lo fuel st = .ok st1 ∧
        st1.scan = new.length - 16 := by
  have hw : wsub M new.length HSIZE = new.length - 16 :=
    wsub_eq (by simp only [HSIZE]; omega) (by omega)
  intro fuel
  induction fuel with
  | zero => intro st _ _ h; omega
  | succ n ih =>
    intro st hl hs hf
    unfold hf_loop hf_body
    rw [hw]
    by_cases hge : st.scan ≥ new.length - 16
    · rw [if_pos hge, if_neg (by omega)]
      exact ⟨st, rfl, by omega⟩
    · rw [if_neg hge]
      rw [bind_eq_of_ok (hz (st.ssx % hd.prime) (Nat.mod_lt _ hp))]
      simp only [if_true]
      unfold hf_scannext
      rw [if_neg (by simp only; omega)]
      unfold hf_roll
      have e16 : wadd M st.scan HSIZE = st.scan + 16 := wadd_eq (by simp only [HSIZE]; omega)
      have e1 : wadd M st.scan 1 = st.scan + 1 := wadd_eq (by omega)
      simp only [e16, e1]
      obtain ⟨a, ha, _⟩ := rdB_get (show st.scan + 16 < new.length by omega)
      obtain ⟨b, hb, _⟩ := rdB_get (show st.scan < new.length by omega)
      simp only [ha, hb, bind, Except.bind]
      exact ih _ hl (by simp only; omega) (by simp only; omega)

/-- On a table without entries hash_findnext finds nothing. -/
theorem hash_findnext_empty {M : Nat} (hd : hash_data) (old : List Byte) (oldlen : Nat)
    (new : List Byte) (lo fuel : Nat) (h16 : 16 ≤ new.length) (hM : new.length + 16 < M)
    (hp : 0 < hd.prime) (hz : ∀ i : Nat, i < hd.prime → hd.hash.rd (i : Int) = .ok 0)
    (hf : new.length < fuel) :
    hash_findnext M fuel hd old oldlen new new.length lo 0 = .ok (new.length, 0, 0) := by
  have hw : wsub M new.length HSIZE = new.length - 16 :=
    wsub_eq (by simp only [HSIZE]; omega) (by omega)
  unfold hash_findnext
  rw [hw, if_pos (Nat.zero_le _)]
  obtain ⟨x, hx⟩ := buzhash_exists new 0 (by omega)
  rw [bind_eq_of_ok hx]
  obtain ⟨st1, h1, h2⟩ := hf_loop_empty (M := M) hd old oldlen new lo h16 hM hp hz fuel
    { scan := 0, scanstart := 0, oldscore := 0, oldscorenum := 0, oldscorestart := 0,
      pos := 0, len := 0, lscan := 0, lpos := 0, llen := 0, ssx := x } rfl (Nat.zero_le _)
    (by simp only; omega)
  rw [bind_eq_of_ok h1, if_pos (by omega)]

/-- The forward extension stops at once when the first bytes differ and old has one byte. -/
theorem ext_fwd_first_differs {M : Nat} (hM : 1 < M) (old new : List Byte) (scan : Nat)
    (ho : old.length = 1) (hn : 0 < new.length) (hne : old[0]? ≠ new[0]?) :
    ∀ cnt : Nat, ext_fwd M old 1 new 0 0 scan cnt 0 0 0 0 = .ok 0 := by
  have z0 : wadd M 0 0 = 0 := wadd_eq (by omega)
  have z1 : wadd M 0 1 = 1 := wadd_eq (by omega)
  intro cnt
  cases cnt with
  | zero => rfl
  | succ k =>
    unfold ext_fwd
    rw [z0]
    by_cases hc : 0 < scan ∧ 0 < 1
    · rw [if_pos hc]
      obtain ⟨a, ha, ha1⟩ := rdB_get (show 0 < old.length by omega)
      obtain ⟨b, hb, hb1⟩ := rdB_get hn
      rw [bind_eq_of_ok ha, bind_eq_of_ok hb]
      have hab : a ≠ b := by
        intro e
        apply hne
        rw [ha1, hb1, e]
      rw [if_neg hab, z1]
      cases k with
      | zero => rfl
      | succ j =>
        unfold ext_fwd
        rw [z1, if_neg (by omega)]
    · rw [if_neg hc]

/-- The loop feeding the extra block returns the s bytes from position i on. -/
theorem write_extra_total {M : Nat} (new : List Byte) :
    ∀ (cnt i s : Nat) (acc : List Byte), i + s ≤ new.length → s ≤ cnt → i + s < M →
      write_extra M new cnt i s acc = .ok (acc ++ (new.drop i).take s) := by
  intro cnt
  induction cnt with
  | zero =>
    intro i s acc _ hs _
    have : s = 0 := by omega
    subst this
    unfold write_extra
    rw [if_neg (by omega)]
    simp
  | succ n ih =>
    intro i s acc h1 h2 h3
    unfold write_extra
    by_cases hp : s > 0
    · rw [if_pos hp]
      have hl : (if s > 0x40000000 then 0x40000000 else s) ≤ s := by split <;> omega
      have hl0 : 0 < (if s > 0x40000000 then 0x40000000 else s) := by split <;> omega
      generalize (if s > 0x40000000 then 0x40000000 else s) = len2 at hl hl0
      have hr : readBytes new i len2 = .ok ((new.drop i).take len2) := by
        unfold readBytes
        rw [if_pos (by omega)]
      rw [bind_eq_of_ok hr, wadd_eq (by omega), wsub_eq hl (by omega),
        ih _ _ _ (by omega) (by omega) (by omega)]
      have e : s = len2 + (s - len2) := by omega
      conv_rhs => rw [e, List.take_add]
      rw [List.append_assoc, List.drop_drop]
    · rw [if_neg hp]
      have : s = 0 := by omega
      subst this
      simp

/-- The hash table of a buffer of one byte has 65537 slots and no entry. -/
theorem hash_create_one_byte (c : Byte) :
    hash_create B32 [c] 1 = .ok (some ⟨Arr.calloc 65537 0, 65537⟩) := by
  rfl

theorem calloc_rd (p i : Nat) (h : i < p) : (Arr.calloc p (0 : Nat)).rd (i : Int) = .ok 0 := by
  unfold Arr.rd Arr.calloc
  simp only [Int.toNat_ofNat]
  rw [if_pos ⟨Int.ofNat_nonneg _, h⟩]

/-- The shaping code of a 32-bit build on an old of one byte, a table without entries and a
long new that starts with another byte: nothing is found, both extensions are empty. -/
theorem shape_large_new (B : Build) (hM : B.M = 4294967296) (hd : hash_data)
    (old new : List Byte) (fuel : Nat)
    (hp : 0 < hd.prime) (hz : ∀ i : Nat, i < hd.prime → hd.hash.rd (i : Int) = .ok 0)
    (ho : old.length = 1) (hne : old[0]? ≠ new[0]?)
    (h1 : 16 ≤ new.length) (h2 : new.length + 16 < 4294967296) (hf : new.length < fuel) :
    shape B fuel (.hash hd) false old old.length new new.length 0 0 0 =
      .ok (new.length, 0, 0, 0, 0) := by
  rw [ho]
  have hfn : dm_findnext B fuel (.hash hd) old 1 new new.length
      (wsub B.M 0 0) 0 = .ok (new.length, 0, 0) := by
    unfold dm_findnext
    exact hash_findnext_empty (M := B.M) _ _ _ _ _ _ h1 (by rw [hM]; omega) hp hz hf
  have hfw := ext_fwd_first_differs (M := B.M) (by rw [hM]; omega) old new new.length ho
    (by omega) hne (new.length - 0)
  have e1 : wadd B.M 0 0 = 0 := wadd_eq (by rw [hM]; omega)
  have e2 : wsub B.M new.length 0 = new.length :=
    wsub_eq (Nat.zero_le _) (by rw [hM]; omega)
  unfold shape
  simp only [Bool.false_eq_true, if_false, not_false_eq_true, if_true, true_and]
  rw [bind_eq_of_ok hfn]
  simp only []
  rw [bind_eq_of_ok hfw, if_neg (by omega)]
  simp only [bind, Except.bind]
  rw [e1, e2, if_neg (by omega)]

theorem addoff_zero (M : Nat) : addoff M 0 = .ok [0, 0, 0, 0, 0, 0, 0, 0] := by
  unfold addoff
  rw [if_neg (by omega)]
  rfl

/-- A length above half the range of bsuint is a negative bsint, which addoff encodes with
the sign bit set. -/
theorem addoff_large {M n : Nat} (hM : M = 4294967296) (h1 : 2147483648 < n) (h2 : n < M) :
    toS M n = (n : Int) - 4294967296 ∧
    ∃ b, addoff M (toS M n) = .ok b ∧ b.length = 8 ∧ decode_off b = (n : Int) - 4294967296 := by
  have e : toS M n = (n : Int) - 4294967296 := by
    unfold toS
    rw [if_neg (by omega), hM]
    rfl
  refine ⟨e, ?_⟩
  rw [e]
  obtain ⟨b, hb⟩ := @addoff_succeeds M ((n : Int) - 4294967296) (by omega)
  exact ⟨b, hb, addoff_length hb, decode_addoff hb (by omega)⟩

/-- The loop of mkdiff in a 32-bit build on an old of one byte, a table without entries and
a new of more than 2^31 bytes that starts with another byte: one iteration, one instruction
with copyin = newlen, and the second offset written by addoff is newlen - 2^32. -/
theorem mkdiff_loop_large (B : Build) (hM : B.M = 4294967296) (hd : hash_data)
    (old new : List Byte) (fuel cnt : Nat) (req : Req)
    (r0 : req.instrp = true) (r1 : req.instrblkp = true) (r2 : req.addblkp = true)
    (r3 : req.extrablkp = true)
    (hp : 0 < hd.prime) (hz : ∀ i : Nat, i < hd.prime → hd.hash.rd (i : Int) = .ok 0)
    (ho : old.length = 1) (hne : old[0]? ≠ new[0]?)
    (h1 : 2147483648 < new.length) (h2 : new.length + 16 < 4294967296)
    (hf : new.length < fuel) :
    ∃ b, addoff B.M (toS B.M new.length) = .ok b ∧ b.length = 8 ∧
      decode_off b = (new.length : Int) - 4294967296 ∧
      mkdiff_loop B fuel (.hash hd) false req old old.length new new.length (cnt + 1) 0 0 0
        { instrs := [], instrblk := [], addblk := [], extrablk := [] } =
        .ok { instrs := [⟨0, new.length, 0, 0⟩],
              instrblk := [0, 0, 0, 0, 0, 0, 0, 0] ++ b ++ [0, 0, 0, 0, 0, 0, 0, 0],
              addblk := [], extrablk := new } := by
  obtain ⟨_, b, hb, hbl, hbd⟩ := addoff_large (M := B.M) (n := new.length) hM h1 (by omega)
  refine ⟨b, hb, hbl, hbd, ?_⟩
  have hsh := shape_large_new B hM hd old new fuel hp hz ho hne (by omega) h2 hf
  have e0 : wadd B.M 0 0 = 0 := wadd_eq (by rw [hM]; omega)
  have e2 : wsub B.M new.length 0 = new.length :=
    wsub_eq (Nat.zero_le _) (by rw [hM]; omega)
  have e3 : wsub B.M 0 0 = 0 := wsub_eq (le_refl _) (by rw [hM]; omega)
  have e4 : wadd B.M new.length 0 = new.length := wadd_eq (by rw [hM]; omega)
  have t0 : toS B.M 0 = 0 := by
    rw [toS_small (by rw [hM]; omega)]
    rfl
  have hwe : write_extra B.M new new.length 0 new.length [] = .ok new := by
    rw [write_extra_total new _ _ _ _ (by omega) (le_refl _) (by rw [hM]; omega)]
    simp
  have hwa : write_add B.M old new 0 0 0 0 [] = .ok [] := rfl
  unfold mkdiff_loop
  rw [if_pos (by omega), bind_eq_of_ok hsh]
  simp only [r0, r1, r2, r3, if_true, Bool.false_eq_true, not_false_eq_true, true_and,
    e0, e2, e3, t0, addoff_zero, hb, hwe, hwa, bind, Except.bind, e4, List.nil_append]
  exact mkdiff_loop_done B fuel (.hash hd) false req old new cnt _ _ _ _ (by omega)

/-- A triple whose second offset decodes to a negative number cannot be replayed. -/
theorem replay_negative (old b add extra : List Byte) (hl : b.length = 8)
    (hy : decode_off b < 0) :
    replay old ([0, 0, 0, 0, 0, 0, 0, 0] ++ b ++ [0, 0, 0, 0, 0, 0, 0, 0]) add extra = none := by
  have len : ([0, 0, 0, 0, 0, 0, 0, 0] ++ b ++ [0, 0, 0, 0, 0, 0, 0, 0] : List Byte).length / 24
      = 1 := by
    rw [List.length_append, List.length_append, hl]
    rfl
  have hd : (([0, 0, 0, 0, 0, 0, 0, 0] ++ b ++ [0, 0, 0, 0, 0, 0, 0, 0] : List Byte).drop 8).take 8
      = b := by
    rw [List.append_assoc, List.drop_left' (by rfl), List.take_left' hl]
  unfold replay
  rw [len]
  unfold replay_go
  show (if _ ∨ _ ∨ decode_off (List.take 8 (List.drop 8 _)) < 0 ∨ _ ∨ _ then none else _) = none
  rw [if_pos (Or.inr (Or.inr (Or.inl (by rw [hd]; exact hy))))]

theorem replicate_head (n : Nat) (c : Byte) (h : 0 < n) : (List.replicate n c)[0]? = some c := by
  cases n with
  | zero => omega
  | succ k => rw [List.replicate_succ, List.getElem?_cons_zero]

theorem mkdiff_of_loop {B : Build} {fuel : Nat} {mode : Int} {old new : List Byte} {req : Req}
    {dm : deltamode} {nb : Bool} {d : IndexData} {r : Res Out}
    (hs : select_mode B mode = .ok (dm, nb))
    (hc : dm_create B fuel dm old old.length = .ok (some d))
    (hl : mkdiff_loop B fuel d nb req old old.length new new.length fuel 0 0 0
      { instrs := [], instrblk := [], addblk := [], extrablk := [] } = r) :
    mkdiff B fuel mode old new req = r := by
  unfold mkdiff
  rw [bind_eq_of_ok hs]
  show mkdiff_run B fuel dm nb old new req = r
  unfold mkdiff_run
  rw [bind_eq_of_ok hc]
  exact hl

/-- In the 32-bit build mkdiff with the hash method completes on old = one byte and a new
of n > 2^31 equal bytes different from it, and what it writes cannot be replayed. -/
theorem mkdiff_large (n fuel : Nat) (h1 : 2147483648 < n) (h2 : n + 16 < 4294967296)
    (hf : n < fuel) :
    ∃ b, addoff B32.M (toS B32.M n) = .ok b ∧ decode_off b = (n : Int) - 4294967296 ∧
      mkdiff B32 fuel B32.DELTAMODE_HASH [97] (List.replicate n 98) Req.all =
        .ok { instrs := [⟨0, n, 0, 0⟩],
              instrblk := [0, 0, 0, 0, 0, 0, 0, 0] ++ b ++ [0, 0, 0, 0, 0, 0, 0, 0],
              addblk := [], extrablk := List.replicate n 98 } ∧
      replay [97] ([0, 0, 0, 0, 0, 0, 0, 0] ++ b ++ [0, 0, 0, 0, 0, 0, 0, 0]) []
        (List.replicate n 98) = none := by
  have hlen : (List.replicate n (98 : Byte)).length = n := List.length_replicate _ _
  have hne : ([97] : List Byte)[0]? ≠ (List.replicate n (98 : Byte))[0]? := by
    rw [replicate_head n 98 (by omega)]
    decide
  have hfuel : fuel = (fuel - 1) + 1 := by omega
  obtain ⟨b, hb, hbl, hbd, hloop⟩ := mkdiff_loop_large B32 rfl ⟨Arr.calloc 65537 0, 65537⟩ [97]
    (List.replicate n 98) fuel (fuel - 1) Req.all rfl rfl rfl rfl (by decide)
    (fun i hi => calloc_rd 65537 i hi) rfl hne (by rw [hlen]; exact h1) (by rw [hlen]; exact h2)
    (by rw [hlen]; exact hf)
  rw [hlen] at hb hbd hloop
  rw [← hfuel] at hloop
  refine ⟨b, hb, hbd, ?_, replay_negative _ _ _ _ hbl (by rw [hbd]; omega)⟩
  have hsel : select_mode B32 B32.DELTAMODE_HASH = .ok (⟨B32.DELTAMODE_HASH, .hash⟩, false) := by
    rfl
  have hcr : dm_create B32 fuel ⟨B32.DELTAMODE_HASH, .hash⟩ [97] ([97] : List Byte).length =
      .ok (some (.hash ⟨Arr.calloc 65537 0, 65537⟩)) := by
    rfl
  refine mkdiff_of_loop hsel hcr ?_
  rw [hlen]
  exact hloop

/-- C1 (counterexample): 32-bit build, hash method without DELTAMODE_NOADDBLK, all blocks
requested, old = the byte a, new = 3000000000 bytes b. The table of old has no entry, so the
first call of findnext returns (newlen, 0, 0) and mkdiff completes with the one instruction
(copyout 0, copyin 3000000000); the extra stream is new. addoff takes a bsint: the unsigned
3000000000 is the signed -1294967296 and is written as 0, 162, 47, 77, 0, 0, 0, 128, with the
sign bit set, so the replay reads a negative count and yields nothing. Here 2 * newlen is not
below 2^32. -/
theorem round_trip_as_stated_fails :
    (List.replicate 3000000000 (98 : Byte)).length = 3000000000 ∧
    ¬ 2 * 3000000000 < B32.M ∧
    Int.land B32.DELTAMODE_HASH B32.DELTAMODE_NOADDBLK = 0 ∧
    toS B32.M 3000000000 = -1294967296 ∧
    addoff B32.M (-1294967296) = .ok [0, 162, 47, 77, 0, 0, 0, 128] ∧
    decode_off [0, 162, 47, 77, 0, 0, 0, 128] = -1294967296 ∧
    ∃ out : Out,
      mkdiff B32 3000000001 B32.DELTAMODE_HASH [97] (List.replicate 3000000000 98) Req.all =
        .ok out ∧
      out.instrs = [⟨0, 3000000000, 0, 0⟩] ∧
      out.instrblk = [0, 0, 0, 0, 0, 0, 0, 0, 0, 162, 47, 77, 0, 0, 0, 128,
        0, 0, 0, 0, 0, 0, 0, 0] ∧
      out.addblk = [] ∧ out.extrablk = List.replicate 3000000000 98 ∧
      replay [97] out.instrblk out.addblk out.extrablk = none := by
  have ht : toS B32.M 3000000000 = -1294967296 := by decide
  have ha : addoff B32.M (-1294967296) = .ok [0, 162, 47, 77, 0, 0, 0, 128] := by decide
  obtain ⟨b, hb, _, hm, hr⟩ := mkdiff_large 3000000000 3000000001 (by omega) (by omega) (by omega)
  rw [ht, ha] at hb
  simp only [Except.ok.injEq] at hb
  subst hb
  exact ⟨List.length_replicate _ _, by decide, by decide, ht, ha, by decide,
    _, hm, rfl, rfl, rfl, rfl, hr⟩

end Delta
